import Mathlib

/-!
# Web Page Replay: archive, matcher, proxies and transformers

A shallow embedding of `webpagereplay/archive.go`, of the record and replay handlers of
`webpagereplay/proxy.go`, of the replay TLS configuration and the certificate minting of
`webpagereplay/certs.go` and of the body transformation, the script injector and the
rule-based transformer of `webpagereplay/transformers.go`; further of the variable-length
integers of `openscreen/src/osp/go/binary.go` and of the response override of
`tools/chrome_proxy/testserver/server.go`.

* Go maps with string keys are association lists (`GoMap`); a well-formed map has
  pairwise distinct keys.  A `range` statement over a map enumerates it in an order chosen
  by a `RangeOrder`, which may be any permutation.
* The Go standard library (`net/http` wire codec, `net/url`, `encoding/json`,
  `compress/gzip`, `compress/flate`, `crypto/x509`, `regexp`, `strings.ToLower`, `time`) is
  not part of the repository: its functions are fields of the parameter structures
  `HttpLib`, `DocCodec`, `CryptoLib`, `BodyLib`, `RegexpLib`, `TimeLib`, `RuleLib`,
  `OverrideLib`, `BytesLib` and `JsonLib`.  The five patterns of transformers.go are also
  given as values of `Re`, matched by a backtracking search over bytes (`goRegexp`), and
  the codec of the archive as `encoding/json` makes it up from the text of a document,
  base64 and gzip (`goCodec`).
* A byte slice is a list of octets and a header is an association list: a nil slice is the
  empty list, except for the archived certificates, where `none` is the nil slice.  A
  header is not the nil map, except where a function is told so (`nilHeader` of the
  rule-based transformer).  A time is its number of nanoseconds since the Unix epoch; a
  `time.Duration` is an integer between `minDuration` and `maxDuration`.
* The `float64` similarity ratios `2*m/t` are kept as exact fractions (`Ratio`), compared by
  cross multiplication; a zero denominator is `+Inf`.  Correctly rounded division is
  monotone and keeps distinct fractions with numerator and denominator below `2^26`
  distinct, so the comparisons agree with the ones on `float64` for such counts.
-/

namespace WebPageReplay

/-! ## Data model -/

/-- Octets of a wire message or of a body (each entry below 256). -/
abbrev Bytes := List Nat

/-- Go `map[string]V`: association list, keys pairwise distinct when well formed. -/
abbrev GoMap (V : Type) := List (String × V)

/-- Keys of a map are pairwise distinct. -/
def NodupKeys {V : Type} (m : GoMap V) : Prop := (m.map Prod.fst).Nodup

instance decidableNodupKeys {V : Type} (m : GoMap V) : Decidable (NodupKeys m) :=
  inferInstanceAs (Decidable (m.map Prod.fst).Nodup)

/-- Go `v, ok := m[k]`. -/
def GoMap.get {V : Type} (m : GoMap V) (k : String) : Option V :=
  match m with
  | [] => none
  | (k', v) :: rest => if k' = k then some v else GoMap.get rest k

/-- Go `m[k] = v`: overwrite the entry of `k` or add one. -/
def GoMap.set {V : Type} (m : GoMap V) (k : String) (v : V) : GoMap V :=
  match m with
  | [] => [(k, v)]
  | (k', v') :: rest => if k' = k then (k', v) :: rest else (k', v') :: GoMap.set rest k v

/-- Go `m[k]` for a map of slices: the nil (empty) slice when `k` is absent. -/
def GoMap.getList {V : Type} (m : GoMap (List V)) (k : String) : List V :=
  (GoMap.get m k).getD []

/-- Go `m[k]` for a map of maps: the nil (empty) map when `k` is absent. -/
def GoMap.getMap {V : Type} (m : GoMap (GoMap V)) (k : String) : GoMap V :=
  (GoMap.get m k).getD []

/-- Order in which `range` enumerates a map: an arbitrary permutation of its entries. -/
structure RangeOrder where
  range : {V : Type} → GoMap V → GoMap V
  perm : ∀ {V : Type} (m : GoMap V), (range m).Perm m

/-- Enumeration in the order the entries are listed. -/
def RangeOrder.listed : RangeOrder where
  range := fun m => m
  perm := fun m => List.Perm.refl m

/-- Enumeration in the reverse of the order the entries are listed. -/
def RangeOrder.reversed : RangeOrder where
  range := fun m => m.reverse
  perm := fun m => List.reverse_perm m

/-- Go `http.Header` and `url.Values`: name to value list. -/
abbrev Header := GoMap (List String)

/-- Go `url.URL`. -/
structure URL where
  Scheme : String := ""
  Opaque : String := ""
  User : Option String := none
  Host : String := ""
  Path : String := ""
  RawPath : String := ""
  ForceQuery : Bool := false
  RawQuery : String := ""
  Fragment : String := ""
deriving DecidableEq

/-- Go `http.Request`, body buffered (`none` is a nil body). -/
structure Request where
  Method : String := "GET"
  URL : URL := {}
  Proto : String := "HTTP/1.1"
  ProtoMajor : Int := 1
  ProtoMinor : Int := 1
  Header : Header := []
  Body : Option Bytes := none
  ContentLength : Int := 0
  Host : String := ""
deriving DecidableEq

/-- Go `http.Response`: `Body` holds the octets that reading the body yields and `BodyErr`
the error that ends the reading, if any; `Request` is nil (`none`) unless the response was
obtained for a request. -/
structure Response where
  Status : String := ""
  StatusCode : Int := 0
  Proto : String := ""
  ProtoMajor : Int := 0
  ProtoMinor : Int := 0
  Header : Header := []
  Body : Bytes := []
  BodyErr : Option String := none
  ContentLength : Int := 0
  Request : Option Request := none
deriving DecidableEq

/-- ArchivedRequest contains a single request and its response, both in wire form. -/
structure ArchivedRequest where
  SerializedRequest : Bytes
  SerializedResponse : Bytes
deriving DecidableEq

/-- Archive of requests: host to URL to exchanges, plus the TLS material per host. A
certificate is a byte slice that may be nil: `none` is the nil slice, `some []` the empty
one. -/
structure Archive where
  Requests : GoMap (GoMap (List ArchivedRequest)) := []
  Certs : GoMap (Option Bytes) := []
  NegotiatedProtocol : GoMap String := []
  DeterministicTimeSeedMs : Int := 0
deriving DecidableEq

/-- Functions of `net/http` and `net/url` the archive code calls. -/
structure HttpLib where
  /-- Go `req.Write(&buf)` -/
  writeRequest : Request → Option Bytes
  /-- Go `resp.Write(&buf)` -/
  writeResponse : Response → Option Bytes
  /-- Go `http.ReadRequest` -/
  readRequest : Bytes → Option Request
  /-- Go `http.ReadResponse(_, req)` -/
  readResponse : Bytes → Request → Option Response
  /-- Go `u.String()` -/
  urlString : URL → String
  /-- Go `url.Parse` -/
  urlParse : String → Option URL
  /-- Go `u.Query()` -/
  urlQuery : URL → Header

/-- Functions of `encoding/json` and `compress/gzip` the archive code calls. -/
structure DocCodec where
  /-- Go `json.NewEncoder(_).Encode(a)`: the JSON text of the archive document -/
  jsonEncode : Archive → Option Bytes
  /-- Go `json.Unmarshal(buf, &a)`: decode `buf` into the archive `a` -/
  jsonUnmarshal : Bytes → Archive → Option Archive
  /-- Go `gzip.NewWriter(w)`: what it has written to `w` after `Close` -/
  gzip : Bytes → Bytes
  /-- Go `gzip.NewReader` followed by `ioutil.ReadAll` -/
  gunzip : Bytes → Option Bytes

/-- Errors returned by the archive. -/
inductive Err where
  | ErrNotFound
  | unmarshalFailed (k : Nat) (ustr : String)
  | serializeFailed
  | callback (msg : String)
  | openFailed
  | gunzipFailed
  | jsonFailed
  | alreadyClosed
  | createCertFailed
deriving DecidableEq

/-- Outcome of a call: a value, a returned error, or a run-time crash. -/
inductive Outcome (α : Type) where
  | ok (v : α)
  | err (e : Err)
  | crash (msg : String)
deriving DecidableEq

/-- Similarity ratio `2*m/t` as the fraction `num/den`; `den = 0` is `+Inf`. -/
structure Ratio where
  num : Nat
  den : Nat
deriving DecidableEq

/-- Zero value of a `float64` variable. -/
def Ratio.zero : Ratio := ⟨0, 1⟩

/-- Comparison `a > b` of two ratios. -/
def Ratio.gt (a b : Ratio) : Bool := decide (b.num * a.den < a.num * b.den)

/-- Comparison `a == b` of two ratios. -/
def Ratio.eq (a b : Ratio) : Bool := decide (a.num * b.den = b.num * a.den)

/-- Value of a ratio in the rationals extended by `+Inf`. -/
def Ratio.val (a : Ratio) : WithTop ℚ :=
  if a.den = 0 then ⊤ else (((a.num : ℚ) / (a.den : ℚ) : ℚ) : WithTop ℚ)

/-- Lexicographic comparison of two sequences of character codes. -/
def lessCodes : List Nat → List Nat → Bool
  | _, [] => false
  | [], _ :: _ => true
  | x :: xs, y :: ys => decide (x < y) || (decide (x = y) && lessCodes xs ys)

/-- Go `a < b` on strings: lexicographic comparison, character by character. -/
def stringLess (a b : String) : Bool :=
  lessCodes (a.data.map Char.toNat) (b.data.map Char.toNat)

/-! ## archive.go -/

section archive

variable (L : HttpLib) (ord : RangeOrder)

def newArchive : Archive := { Requests := [] }

def serializeRequest (req : Request) (resp : Response) : Option ArchivedRequest :=
  match L.writeRequest req with
  | none => none
  | some reqBytes =>
    match L.writeResponse resp with
    | none => none
    | some respBytes => some { SerializedRequest := reqBytes, SerializedResponse := respBytes }

def ArchivedRequest.unmarshal (ar : ArchivedRequest) : Option (Request × Response) :=
  match L.readRequest ar.SerializedRequest with
  | none => none
  | some req =>
    match L.readResponse ar.SerializedResponse req with
    | none => none
    | some resp => some (req, resp)

/-- Go `reflect.DeepEqual(v, m[k])` for a value list `v` taken from a parsed message, which
is never nil: the lists are equal and `k` is present. -/
def deepEqualAt (v : List String) (m : Header) (k : String) : Bool :=
  decide (GoMap.get m k = some v)

/-- The loop `m := 1; for k, v := range a { if reflect.DeepEqual(v, b[k]) { m++ } }`. -/
def countMatches (a b : Header) : Nat :=
  (ord.range a).foldl (fun m kv => if deepEqualAt kv.2 b kv.1 then m + 1 else m) 1

/-- The value `2 * float64(m) / float64(t)` with `t := len(a) + len(b)`. -/
def similarity (a b : Header) : Ratio :=
  ⟨2 * countMatches ord a b, a.length + b.length⟩

/-- The copy `u := *req.URL` made absolute: host and scheme are filled in when the host
is empty. -/
def absoluteURL (req : Request) (scheme : String) : URL :=
  if req.URL.Host = "" then { req.URL with Host := req.Host, Scheme := scheme } else req.URL

/-- One iteration of the exact-URL loop of `FindRequest`. -/
def exactStep (req : Request) (st : Option (Request × Response) × Ratio)
    (r : ArchivedRequest) : Option (Request × Response) × Ratio :=
  match ArchivedRequest.unmarshal L r with
  | none => st
  | some (curReq, curResp) =>
    if curReq.Method ≠ req.Method then st
    else
      let ratio := similarity ord curReq.Header req.Header
      if Ratio.gt ratio st.2 then (some (curReq, curResp), ratio) else st

/-- The exact-URL loop of `FindRequest`: best exchange so far and `bestRatio`. -/
def exactPass (req : Request) (rs : List ArchivedRequest) :
    Option (Request × Response) × Ratio :=
  rs.foldl (exactStep L ord req) (none, Ratio.zero)

/-- One iteration of the fuzzy-path loop of `FindRequest` over the key `ustr`. -/
def fuzzyStep (req : Request) (st : String × Ratio) (ustr : String) : String × Ratio :=
  match L.urlParse ustr with
  | none => st
  | some u =>
    if u.Path ≠ req.URL.Path then st
    else
      let ratio := similarity ord (L.urlQuery req.URL) (L.urlQuery u)
      if Ratio.gt ratio st.2 || (Ratio.eq ratio st.2 && stringLess ustr st.1) then (ustr, ratio)
      else st

/-- The fuzzy-path loop of `FindRequest`: `bestURL` and `bestRatio` after the loop. -/
def fuzzyPass (req : Request) (hostMap : GoMap (List ArchivedRequest)) (bestRatio : Ratio) :
    String × Ratio :=
  ((ord.range hostMap).map Prod.fst).foldl (fuzzyStep L ord req) ("", bestRatio)

/-- findExactMatch returns the first request that exactly matches the given request
method. -/
def findExactMatch (requests : List ArchivedRequest) (method : String) :
    Outcome (Request × Response) :=
  match requests with
  | [] => .err .ErrNotFound
  | ar :: rest =>
    match ArchivedRequest.unmarshal L ar with
    | none => findExactMatch rest method
    | some (req, resp) =>
      if req.Method = method then .ok (req, resp) else findExactMatch rest method

/-- FindRequest searches for the given request in the archive. -/
def FindRequest (a : Archive) (req : Request) (scheme : String) :
    Outcome (Request × Response) :=
  let hostMap := GoMap.getMap a.Requests req.Host
  if hostMap.length = 0 then .err .ErrNotFound
  else
    let ustr := L.urlString (absoluteURL req scheme)
    let exact :=
      if 0 < (GoMap.getList hostMap ustr).length then
        exactPass L ord req (GoMap.getList hostMap ustr)
      else (none, Ratio.zero)
    match exact.1 with
    | some found => .ok found
    | none =>
      let bestURL := (fuzzyPass L ord req hostMap exact.2).1
      if bestURL ≠ "" then findExactMatch L (GoMap.getList hostMap bestURL) req.Method
      else .err .ErrNotFound

/-- The method `addArchivedRequest`; the archive is updated in place in Go and returned
here. -/
def Archive.addArchivedRequest (a : Archive) (scheme : String) (req : Request)
    (resp : Response) : Outcome Archive :=
  match serializeRequest L req resp with
  | none => .err .serializeFailed
  | some ar =>
    let hostMap := GoMap.getMap a.Requests req.Host
    let ustr := L.urlString (absoluteURL req scheme)
    .ok { a with
      Requests := GoMap.set a.Requests req.Host
        (GoMap.set hostMap ustr (GoMap.getList hostMap ustr ++ [ar])) }

/-- ForEach applies f to all requests in the archive: the calls of `f`, in order. -/
def Archive.ForEach (a : Archive) : List (Request × Response) :=
  (ord.range a.Requests).flatMap fun hostEntry =>
    (ord.range hostEntry.2).flatMap fun urlEntry =>
      urlEntry.2.filterMap (ArchivedRequest.unmarshal L)

/-- Callback of `Edit`: the triple `(newReq, newResp, err)` it returns. -/
abbrev EditFn := Request → Response → Option Request × Option Response × Option String

/-- Body of the innermost loop of `Edit` for the exchange `ar` with index `k` under the key
`ustr`, where `u` is the result of `url.Parse(ustr)` (nil when parsing failed). -/
def editExchange (f : EditFn) (ustr : String) (u : Option URL) (clone : Archive) (k : Nat)
    (ar : ArchivedRequest) : Outcome Archive :=
  match ArchivedRequest.unmarshal L ar with
  | none => .err (.unmarshalFailed k ustr)
  | some (oldReq, oldResp) =>
    match f oldReq oldResp with
    | (_, _, some e) => .err (.callback e)
    | (some newReq, some newResp, none) =>
      match u with
      | none => .crash "nil pointer dereference"
      | some u => Archive.addArchivedRequest L clone u.Scheme newReq newResp
    | (none, none, none) => .ok clone
    | (_, _, none) => .crash "programming error: newReq/newResp must both be nil or non-nil"

/-- The loop `for k, ar := range requests` of `Edit`. -/
def editList (f : EditFn) (ustr : String) (u : Option URL) :
    Nat → List ArchivedRequest → Archive → Outcome Archive
  | _, [], clone => .ok clone
  | k, ar :: rest, clone =>
    match editExchange L f ustr u clone k ar with
    | .ok clone' => editList f ustr u (k + 1) rest clone'
    | .err e => .err e
    | .crash msg => .crash msg

/-- The loop `for ustr, requests := range urlmap` of `Edit`. -/
def editURLs (f : EditFn) :
    List (String × List ArchivedRequest) → Archive → Outcome Archive
  | [], clone => .ok clone
  | (ustr, requests) :: rest, clone =>
    match editList L f ustr (L.urlParse ustr) 0 requests clone with
    | .ok clone' => editURLs f rest clone'
    | .err e => .err e
    | .crash msg => .crash msg

/-- The loop `for _, urlmap := range a.Requests` of `Edit`. -/
def editHosts (f : EditFn) :
    List (String × GoMap (List ArchivedRequest)) → Archive → Outcome Archive
  | [], clone => .ok clone
  | (_, urlmap) :: rest, clone =>
    match editURLs L f (ord.range urlmap) clone with
    | .ok clone' => editHosts f rest clone'
    | .err e => .err e
    | .crash msg => .crash msg

/-- Edit iterates over all requests in the archive. For each request, it calls f to edit the
request. If f returns a nil pair, the request is deleted. The edited archive is returned. -/
def Archive.Edit (a : Archive) (f : EditFn) : Outcome Archive :=
  editHosts L ord f (ord.range a.Requests) newArchive

end archive

section persistence

variable (C : DocCodec)

/-- Serialize serializes this archive to the given writer: the bytes written. -/
def Archive.Serialize (a : Archive) : Outcome Bytes :=
  match C.jsonEncode a with
  | none => .err .jsonFailed
  | some doc => .ok (C.gzip doc)

/-- OpenArchive opens an archive file previously written by OpenWritableArchive; `disk`
maps a path to the content of the file. -/
def OpenArchive (disk : GoMap Bytes) (path : String) : Outcome Archive :=
  match GoMap.get disk path with
  | none => .err .openFailed
  | some content =>
    match C.gunzip content with
    | none => .err .gunzipFailed
    | some buf =>
      match C.jsonUnmarshal buf newArchive with
      | none => .err .jsonFailed
      | some a => .ok a

/-- WriteableArchive wraps an Archive with writable methods for recording; `f` is the path
of the open output file, `none` once it is nil. -/
structure WritableArchive where
  Archive : Archive
  f : Option String
deriving DecidableEq

/-- OpenWritableArchive opens an archive file for writing. -/
def OpenWritableArchive (disk : GoMap Bytes) (path : String) : WritableArchive × GoMap Bytes :=
  ({ Archive := newArchive, f := some path }, GoMap.set disk path [])

/-- RecordRequest records a request/response pair in the archive. -/
def WritableArchive.RecordRequest (L : HttpLib) (a : WritableArchive) (scheme : String)
    (req : Request) (resp : Response) : Outcome WritableArchive :=
  match Archive.addArchivedRequest L a.Archive scheme req resp with
  | .ok archive => .ok { a with Archive := archive }
  | .err e => .err e
  | .crash msg => .crash msg

/-- Close flushes the the archive and closes the output file. -/
def WritableArchive.Close (a : WritableArchive) (disk : GoMap Bytes) :
    WritableArchive × GoMap Bytes × Option Err :=
  match a.f with
  | none => ({ a with f := none }, disk, some .alreadyClosed)
  | some path =>
    match Archive.Serialize C a.Archive with
    | .ok content => ({ a with f := none }, GoMap.set disk path content, none)
    | .err e => ({ a with f := none }, disk, some e)
    | .crash _ => ({ a with f := none }, disk, some .jsonFailed)

end persistence

/-! ## encoding/json for the archive

`Serialize` encodes the archive with `json.NewEncoder(gz).Encode(a)` and `OpenArchive`
decodes it with `json.Unmarshal(buf, &a)`. `encoding/json` writes a map as an object, its
entries one after the other (sorted by key; here in the order of a `RangeOrder`), and a
byte slice as its base64 text, the nil slice as `null`. It reads an object into a map by
storing the members in the order of the text, each value decoded into a new element. The
text of a document, base64 and gzip are functions of the library. -/

section document

/-- JSON object of an exchange: the two wire messages as base64 texts. -/
structure ExchangeDoc where
  SerializedRequest : String
  SerializedResponse : String
deriving DecidableEq

/-- JSON document of an archive: the members of every object in the order of the text, a
byte slice as its base64 text and `none` for `null`. -/
structure ArchiveDoc where
  Requests : List (String × List (String × List ExchangeDoc)) := []
  Certs : List (String × Option String) := []
  NegotiatedProtocol : List (String × String) := []
  DeterministicTimeSeedMs : Int := 0
deriving DecidableEq

/-- Functions of `encoding/json`, `encoding/base64` and `compress/gzip` under the codec of
the archive. -/
structure JsonLib where
  /-- The JSON text that `Encode` writes for a document -/
  print : ArchiveDoc → Bytes
  /-- The document of a JSON text, `none` when the text is not the document of an archive -/
  parse : Bytes → Option ArchiveDoc
  /-- Go `base64.StdEncoding.EncodeToString` -/
  base64 : Bytes → String
  /-- Go `base64.StdEncoding.DecodeString` -/
  unbase64 : String → Option Bytes
  /-- Go `gzip.NewWriter(w)`: what it has written to `w` after `Close` -/
  gzip : Bytes → Bytes
  /-- Go `gzip.NewReader` followed by `ioutil.ReadAll` -/
  gunzip : Bytes → Option Bytes

variable (J : JsonLib) (ord : RangeOrder)

/-- The object that is written for an exchange. -/
def exchangeDoc (ar : ArchivedRequest) : ExchangeDoc :=
  { SerializedRequest := J.base64 ar.SerializedRequest,
    SerializedResponse := J.base64 ar.SerializedResponse }

/-- The document that is written for an archive. -/
def archiveDoc (a : Archive) : ArchiveDoc :=
  { Requests := (ord.range a.Requests).map fun he =>
      (he.1, (ord.range he.2).map fun ue => (ue.1, ue.2.map (exchangeDoc J))),
    Certs := (ord.range a.Certs).map fun e => (e.1, e.2.map J.base64),
    NegotiatedProtocol := ord.range a.NegotiatedProtocol,
    DeterministicTimeSeedMs := a.DeterministicTimeSeedMs }

/-- The exchange that is read from an object. -/
def decodeExchange (d : ExchangeDoc) : Option ArchivedRequest :=
  match J.unbase64 d.SerializedRequest, J.unbase64 d.SerializedResponse with
  | some req, some resp => some { SerializedRequest := req, SerializedResponse := resp }
  | _, _ => none

/-- The list of exchanges that is read from an array. -/
def decodeList : List ExchangeDoc → Option (List ArchivedRequest)
  | [] => some []
  | d :: rest =>
    match decodeExchange J d, decodeList rest with
    | some ar, some ars => some (ar :: ars)
    | _, _ => none

/-- Reading the object of a host into the map `m`. -/
def decodeURLs : List (String × List ExchangeDoc) → GoMap (List ArchivedRequest) →
    Option (GoMap (List ArchivedRequest))
  | [], m => some m
  | (ustr, ds) :: rest, m =>
    match decodeList J ds with
    | none => none
    | some rs => decodeURLs rest (GoMap.set m ustr rs)

/-- Reading the object `Requests` into the map `m`; the map of a host is a new one. -/
def decodeHosts : List (String × List (String × List ExchangeDoc)) →
    GoMap (GoMap (List ArchivedRequest)) → Option (GoMap (GoMap (List ArchivedRequest)))
  | [], m => some m
  | (host, urls) :: rest, m =>
    match decodeURLs J urls [] with
    | none => none
    | some urlmap => decodeHosts rest (GoMap.set m host urlmap)

/-- Reading the object `Certs` into the map `m`. -/
def decodeCerts : List (String × Option String) → GoMap (Option Bytes) →
    Option (GoMap (Option Bytes))
  | [], m => some m
  | (host, none) :: rest, m => decodeCerts rest (GoMap.set m host none)
  | (host, some text) :: rest, m =>
    match J.unbase64 text with
    | none => none
    | some der => decodeCerts rest (GoMap.set m host (some der))

/-- Reading a document into the archive `a`, whose maps keep the entries they have. -/
def decodeDoc (d : ArchiveDoc) (a : Archive) : Option Archive :=
  match decodeHosts J d.Requests a.Requests, decodeCerts J d.Certs a.Certs with
  | some requests, some certs =>
    some { Requests := requests, Certs := certs,
           NegotiatedProtocol :=
             d.NegotiatedProtocol.foldl (fun m e => GoMap.set m e.1 e.2) a.NegotiatedProtocol,
           DeterministicTimeSeedMs := d.DeterministicTimeSeedMs }
  | _, _ => none

/-- The codec of the archive as `encoding/json` and `compress/gzip` make it up. -/
def goCodec : DocCodec where
  jsonEncode := fun a => some (J.print (archiveDoc J ord a))
  jsonUnmarshal := fun buf a =>
    match J.parse buf with
    | none => none
    | some d => decodeDoc J d a
  gzip := J.gzip
  gunzip := J.gunzip

end document

/-! ## proxy.go -/

section proxy

/-- Go `h.Get(key)` for a canonical `key`: the first value, or the empty string. -/
def Header.Get (h : Header) (key : String) : String :=
  match GoMap.get h key with
  | some (v :: _) => v
  | _ => ""

/-- Go `h.Set(key, value)` for a canonical `key`. -/
def Header.Set (h : Header) (key : String) (value : String) : Header :=
  GoMap.set h key [value]

/-- Go `strings.TrimSuffix`. -/
def trimSuffix (s suffix : String) : String :=
  if suffix.data.isSuffixOf s.data then
    String.mk (s.data.take (s.data.length - suffix.data.length))
  else s

/-- fixupRequestURL adds a scheme and host to req.URL. -/
def fixupRequestURL (req : Request) (scheme : String) : Request :=
  let u := { req.URL with Scheme := scheme }
  { req with URL := if u.Host = "" then { u with Host := req.Host } else u }

/-- A response transformer: `Transform(req, resp)` may update both in place. -/
abbrev ResponseTransformer := Request → Response → Request × Response

/-- The loop `for _, t := range transformers { t.Transform(req, resp) }`. -/
def applyTransformers (transformers : List ResponseTransformer) (req : Request)
    (resp : Response) : Request × Response :=
  transformers.foldl (fun st t => t st.1 st.2) (req, resp)

/-- What a handler did with its `http.ResponseWriter`, or that it ended the process. -/
inductive Served where
  | response (status : Int) (header : Header) (body : Bytes)
  | exit (code : Int)
deriving DecidableEq

/-- The record proxy: its transport (`none` when `RoundTrip` fails), scheme and
transformers. -/
structure recordingProxy where
  tr : Request → Option Response
  scheme : String
  transformers : List ResponseTransformer

/-- The response after `ioutil.ReadAll(resp.Body)` and the wrapping of the octets read in a
new reader: a read error is logged and dropped. -/
def buffered (resp : Response) : Response := { resp with BodyErr := none }

/-- The response the record proxy substitutes when `RoundTrip` fails. -/
def errResponse (req : Request) : Response :=
  { Status := "Internal Server Error", StatusCode := 500, Proto := req.Proto,
    ProtoMajor := req.ProtoMajor, ProtoMinor := req.ProtoMinor, Body := [] }

/-- The request as the record proxy forwards it: URL fixed up, empty body dropped, `, br`
trimmed from the end of `Accept-Encoding`. -/
def recordingProxy.prepare (proxy : recordingProxy) (req : Request) : Request :=
  let req := fixupRequestURL req proxy.scheme
  let req := if req.ContentLength = 0 then { req with Body := none } else req
  let ce := Header.Get req.Header "Accept-Encoding"
  { req with Header := Header.Set req.Header "Accept-Encoding" (trimSuffix ce ", br") }

/-- The method `ServeHTTP` of the record proxy: the archive and the disk after the call and
what was served. -/
def recordingProxy.ServeHTTP (L : HttpLib) (C : DocCodec) (proxy : recordingProxy)
    (a : WritableArchive) (disk : GoMap Bytes) (req : Request) :
    WritableArchive × GoMap Bytes × Served :=
  if req.URL.Path = "/web-page-replay-generate-200" then (a, disk, .response 200 [] [])
  else if req.URL.Path = "/web-page-replay-command-exit" then
    let closed := WritableArchive.Close C a disk
    (closed.1, closed.2.1, .exit 0)
  else
    let req := recordingProxy.prepare proxy req
    let resp := match proxy.tr req with
      | some resp => buffered resp
      | none => errResponse req
    let a' := match WritableArchive.RecordRequest L a proxy.scheme req resp with
      | .ok a' => a'
      | _ => a
    let out := applyTransformers proxy.transformers req resp
    (a', disk, .response out.2.StatusCode out.2.Header out.2.Body)

end proxy

/-! ## archive.go: TLS configuration of a host -/

section tls

def Archive.findHostNegotiatedProtocol (a : Archive) (host : String) : String :=
  match GoMap.get a.NegotiatedProtocol host with
  | some negotiatedProtocol => negotiatedProtocol
  | none => "http/1.1"

/-- Returns the der encoded cert and negotiated protocol. -/
def Archive.FindHostTlsConfig (a : Archive) (host : String) :
    Outcome (Option Bytes × String) :=
  match GoMap.get a.Certs host with
  | some cert => .ok (cert, Archive.findHostNegotiatedProtocol a host)
  | none => .err .ErrNotFound

/-- RecordTlsConfig records the cert used and protocol negotiated for a host. -/
def WritableArchive.RecordTlsConfig (a : WritableArchive) (host : String)
    (der_bytes : Option Bytes) (negotiatedProtocol : String) : WritableArchive :=
  let certs :=
    match GoMap.get a.Archive.Certs host with
    | some _ => a.Archive.Certs
    | none => GoMap.set a.Archive.Certs host der_bytes
  { a with
    Archive := { a.Archive with
      Certs := certs
      NegotiatedProtocol := GoMap.set a.Archive.NegotiatedProtocol host negotiatedProtocol } }

end tls

/-! ## certs.go -/

section certs

/-- Go `x509.Certificate`: the fields the proxy reads or writes. -/
structure X509Certificate where
  Subject : String := ""
  Issuer : String := ""
  SerialNumber : Bytes := []
  DNSNames : List String := []
  IPAddresses : List Bytes := []
  IsCA : Bool := false
  BasicConstraintsValid : Bool := false
  PublicKey : Bytes := []
deriving DecidableEq

/-- Go `tls.Certificate`: the chain of DER certificates and the private key. -/
structure TLSCertificate where
  Certificate : List Bytes := []
  PrivateKey : Bytes := []
deriving DecidableEq

/-- Go `tls.Config`: the fields the proxy sets. -/
structure TLSConfig where
  Certificates : List TLSCertificate := []
  NextProtos : List String := []
deriving DecidableEq

/-- Functions of `net` and `crypto/x509` the proxy calls. -/
structure CryptoLib where
  /-- Go `net.ParseIP` -/
  parseIP : String → Option Bytes
  /-- Go `x509.CreateCertificate(rand.Reader, template, parent, pub, priv)` -/
  createCertificate : X509Certificate → X509Certificate → Bytes → Bytes → Option Bytes

/-- Mints a dummy server cert when the real one is not recorded. The template is the root
certificate itself, so the root certificate after the call is returned as well; `serial` is
what reading 20 octets from `rand.Reader` gives (`none` when it fails). -/
def MintDummyCertificate (K : CryptoLib) (serverName : String) (rootCert : X509Certificate)
    (rootKey : Bytes) (serial : Option Bytes) : X509Certificate × Outcome (Bytes × String) :=
  let template :=
    match K.parseIP serverName with
    | some ip => { rootCert with IPAddresses := [ip] }
    | none => { rootCert with DNSNames := [serverName] }
  match serial with
  | none => (template, .err .createCertFailed)
  | some buf =>
    let template := { template with SerialNumber := buf }
    let template := { template with Issuer := template.Subject }
    match K.createCertificate template template template.PublicKey rootKey with
    | none => (template, .err .createCertFailed)
    | some derBytes => (template, .ok (derBytes, ""))

/-- The TLS proxy in replay mode: the root certificate and its key, the parsed root
certificate, the archive and the dummy certificates minted so far. -/
structure tlsProxy where
  root : TLSCertificate
  root_cert : X509Certificate
  archive : Archive
  dummy_certs_map : GoMap Bytes := []

def buildNextProtos (negotiatedProtocol : String) : List String :=
  if negotiatedProtocol = "h2" then ["h2", "http/1.1"] else ["http/1.1"]

/-- The method `getReplayConfigForClient` for a client hello with the server name `h`: the
proxy after the call and the configuration returned. `found` holds what
`FindHostTlsConfig` returned, with `true` for an error; the archived certificate is used
unless there was an error or `derBytes == nil`. -/
def tlsProxy.getReplayConfigForClient (K : CryptoLib) (tp : tlsProxy) (h : String)
    (serial : Option Bytes) : tlsProxy × Outcome TLSConfig :=
  if h = "" then (tp, .ok { Certificates := [tp.root] })
  else
    let found : Option Bytes × String × Bool :=
      match Archive.FindHostTlsConfig tp.archive h with
      | .ok (derBytes, negotiatedProtocol) => (derBytes, negotiatedProtocol, false)
      | _ => (none, "", true)
    match found with
    | (some derBytes, negotiatedProtocol, false) =>
      (tp, .ok { Certificates :=
                   [{ Certificate := [derBytes], PrivateKey := tp.root.PrivateKey }]
                 NextProtos := buildNextProtos negotiatedProtocol })
    | (_, recordedProtocol, _) =>
      match GoMap.get tp.dummy_certs_map h with
      | some derBytes =>
        (tp, .ok { Certificates := [{ Certificate := [derBytes], PrivateKey := tp.root.PrivateKey }]
                   NextProtos := buildNextProtos recordedProtocol })
      | none =>
        let minted := MintDummyCertificate K h tp.root_cert tp.root.PrivateKey serial
        match minted.2 with
        | .ok (derBytes, negotiatedProtocol) =>
          ({ tp with root_cert := minted.1,
                     dummy_certs_map := GoMap.set tp.dummy_certs_map h derBytes },
            .ok { Certificates :=
                    [{ Certificate := [derBytes], PrivateKey := tp.root.PrivateKey }]
                  NextProtos := buildNextProtos negotiatedProtocol })
        | .err e => ({ tp with root_cert := minted.1 }, .err e)
        | .crash msg => ({ tp with root_cert := minted.1 }, .crash msg)

end certs

/-! ## transformers.go -/

section transformers

/-- Whether `sub` occurs in `l` as a run of consecutive entries. -/
def listContains {α : Type} [BEq α] : List α → List α → Bool
  | [], sub => sub.isEmpty
  | x :: xs, sub => sub.isPrefixOf (x :: xs) || listContains xs sub

/-- Go `strings.Contains`. -/
def stringContains (s substr : String) : Bool := listContains s.data substr.data

/-- Go `bytes.Contains`. -/
def bytesContains (b subslice : Bytes) : Bool := listContains b subslice

/-- Go `strings.HasPrefix`. -/
def stringStartsWith (s start : String) : Bool := start.data.isPrefixOf s.data

/-- Functions of `strings`, `compress/gzip` and `compress/flate` the transformers call. A
reader or writer is given by the octets it yields and the error it ends with, if any. -/
structure BodyLib where
  /-- Go `strings.ToLower` -/
  toLower : String → String
  /-- Go `gzip.NewReader` followed by `ioutil.ReadAll` (no octets when the header is bad) -/
  gzipReader : Bytes → Bytes × Option String
  /-- Go `flate.NewReader` followed by `ioutil.ReadAll` -/
  flateReader : Bytes → Bytes × Option String
  /-- Go `gzip.NewWriter`: the buffer after `io.Copy` and `Close` -/
  gzipWriter : Bytes → Bytes × Option String
  /-- Go `flate.NewWriter`: the buffer after `io.Copy` and `Close` -/
  flateWriter : Bytes → Bytes × Option String

variable (Z : BodyLib)

/-- decompressBody reads a response body and decompresses according to the given
Content-Encoding. -/
def decompressBody (ce : String) (compressed : Bytes) : Bytes × Option String :=
  if Z.toLower ce = "gzip" then Z.gzipReader compressed
  else if Z.toLower ce = "deflate" then Z.flateReader compressed
  else (compressed, some ("unknown compression: " ++ ce))

/-- CompressBody reads a response body and compresses according to the given
Accept-Encoding. The chosen compressed encoding is returned along with the compressed
body. -/
def CompressBody (ae : String) (uncompressed : Bytes) : Bytes × String × Option String :=
  let ae := Z.toLower ae
  if stringContains ae "gzip" then
    ((Z.gzipWriter uncompressed).1, "gzip", (Z.gzipWriter uncompressed).2)
  else if stringContains ae "deflate" then
    ((Z.flateWriter uncompressed).1, "deflate", (Z.flateWriter uncompressed).2)
  else (uncompressed, "identity", some ("unknown compression: " ++ ae))

/-- The closure `failEarly` of `transformResponseBody`: the body becomes a reader that
yields `body` and then fails with `err`. -/
def failEarly (resp : Response) (body : Bytes) (err : String) : Response × Option String :=
  ({ resp with Body := body, BodyErr := some err }, some err)

/-- The last `Content-Encoding` of a response in lower case, empty when there is none. -/
def lastContentEncoding (resp : Response) : String :=
  match GoMap.get resp.Header "Content-Encoding" with
  | some encodings => if 0 < encodings.length then Z.toLower (encodings.getLastD "") else ""
  | none => ""

/-- transformResponseBody applies a transformation function to the response body: the
response after the call and the error returned; a crash of `f` ends the call. -/
def transformResponseBody (resp : Response) (f : Bytes → Outcome Bytes) :
    Outcome (Response × Option String) :=
  match resp.BodyErr with
  | some err => .ok (failEarly resp resp.Body err)
  | none =>
    let ce := lastContentEncoding Z resp
    let isCompressed : Bool := decide (ce ≠ "") && decide (ce ≠ "identity")
    let decoded := if isCompressed then decompressBody Z ce resp.Body else (resp.Body, none)
    match decoded.2 with
    | some err => .ok (failEarly resp decoded.1 err)
    | none =>
      match f decoded.1 with
      | .crash msg => .crash msg
      | .err e => .err e
      | .ok body =>
        let encoded : Bytes × Option String :=
          if isCompressed then ((CompressBody Z ce body).1, (CompressBody Z ce body).2.2)
          else (body, none)
        match encoded.2 with
        | some err => .ok (failEarly resp encoded.1 err)
        | none =>
          if 0 ≤ resp.ContentLength then
            .ok ({ resp with
                   Body := encoded.1
                   ContentLength := encoded.1.length
                   Header := Header.Set resp.Header "Content-Length"
                     (Nat.repr encoded.1.length) }, none)
          else .ok ({ resp with Body := encoded.1 }, none)

/-- The patterns `headRE`, `htmlRE` and `doctypeRE`: what `FindIndex` returns for them. -/
structure RegexpLib where
  headRE : Bytes → Option (Nat × Nat)
  htmlRE : Bytes → Option (Nat × Nat)
  doctypeRE : Bytes → Option (Nat × Nat)

/-- The script injector: the script with its tags. -/
structure scriptInjector where
  script : Bytes
deriving DecidableEq

variable (R : RegexpLib)

/-- The function that `scriptInjector.Transform` applies to the body of `resp`. When no
start tag is found it logs `resp.Request.URL`, which crashes for a nil `resp.Request`. -/
def scriptInjector.inject (si : scriptInjector) (resp : Response) (body : Bytes) :
    Outcome Bytes :=
  if bytesContains body si.script then .ok body
  else
    let idx :=
      match R.headRE body with
      | some idx => some idx
      | none =>
        match R.htmlRE body with
        | some idx => some idx
        | none => R.doctypeRE body
    match idx with
    | none =>
      match resp.Request with
      | none => .crash "nil pointer dereference"
      | some _ => .ok body
    | some idx => .ok (body.take idx.2 ++ si.script ++ body.drop idx.2)

/-- The method `Transform` of the script injector: the response after the call. -/
def scriptInjector.Transform (si : scriptInjector) (resp : Response) : Outcome Response :=
  if ¬ stringStartsWith (Z.toLower (Header.Get resp.Header "Content-Type")) "text/html" then
    .ok resp
  else if resp.StatusCode ≠ 200 then .ok resp
  else
    match transformResponseBody Z resp (scriptInjector.inject R si resp) with
    | .ok out => .ok out.1
    | .err e => .err e
    | .crash msg => .crash msg

end transformers

/-! ## proxy.go: replay -/

section replay

/-- Functions of `net/http` and `time` for dates; a time is its number of nanoseconds since
the Unix epoch. -/
structure TimeLib where
  /-- Go `http.ParseTime` -/
  parseTime : String → Option Int
  /-- Go `t.UTC().Format(http.TimeFormat)` -/
  format : Int → String

/-- Largest `time.Duration`, in nanoseconds. -/
def maxDuration : Int := 2 ^ 63 - 1

/-- Smallest `time.Duration`, in nanoseconds. -/
def minDuration : Int := -(2 ^ 63)

/-- Go `t.Sub(u)`: the duration `t - u`, or the largest or smallest duration when `t - u`
is out of the range of a duration. -/
def timeSub (t u : Int) : Int :=
  if maxDuration < t - u then maxDuration
  else if t - u < minDuration then minDuration
  else t - u

/-- Go `t.Add(d)`. -/
def timeAdd (t d : Int) : Int := t + d

variable (T : TimeLib)

/-- updateDate is the basic function for date adjustment. -/
def updateDate (h : Header) (name : String) (now oldNow : Int) : Header :=
  let val := Header.Get h name
  if val = "" then h
  else
    match T.parseTime val with
    | none => h
    | some oldTime => Header.Set h name (T.format (timeAdd now (timeSub oldTime oldNow)))

/-- updateDates updates "Date" header as current time and adjusts "Last-Modified"/"Expires"
against it. -/
def updateDates (h : Header) (now : Int) : Header :=
  let oldNow := T.parseTime (Header.Get h "Date")
  let h := Header.Set h "Date" (T.format now)
  match oldNow with
  | none => h
  | some oldNow => updateDate T (updateDate T h "Last-Modified" now oldNow) "Expires" now oldNow

/-- The replay proxy: the archive, the scheme and the transformers. -/
structure replayingProxy where
  a : Archive
  scheme : String
  transformers : List ResponseTransformer

/-- The translation of the stored body to an encoding the client accepts, in
`replayingProxy.ServeHTTP`; `none` when the handler answers 404 instead. -/
def translateEncoding (Z : BodyLib) (req : Request) (storedResp : Response) :
    Option Response :=
  let clientAE := Z.toLower (Header.Get req.Header "Accept-Encoding")
  let originCE := Z.toLower (Header.Get storedResp.Header "Content-Encoding")
  if ¬ stringContains clientAE originCE then
    match storedResp.BodyErr with
    | some _ => none
    | none =>
      match (decompressBody Z originCE storedResp.Body).2 with
      | some _ => none
      | none =>
        let out := CompressBody Z clientAE (decompressBody Z originCE storedResp.Body).1
        match out.2.2 with
        | some _ => none
        | none =>
          let storedResp := { storedResp with
            Header := Header.Set storedResp.Header "Content-Encoding" out.2.1
            Body := out.1 }
          if 0 ≤ storedResp.ContentLength then
            some { storedResp with
              ContentLength := out.1.length
              Header := Header.Set storedResp.Header "Content-Length" (Nat.repr out.1.length) }
          else some storedResp
  else some storedResp

/-- The method `ServeHTTP` of the replay proxy at the time `now`: what was served. -/
def replayingProxy.ServeHTTP (L : HttpLib) (ord : RangeOrder) (Z : BodyLib)
    (proxy : replayingProxy) (req : Request) (now : Int) : Served :=
  if req.URL.Path = "/web-page-replay-generate-200" then .response 200 [] []
  else if req.URL.Path = "/web-page-replay-command-exit" then .exit 0
  else
    let req := fixupRequestURL req proxy.scheme
    match FindRequest L ord proxy.a req proxy.scheme with
    | .ok found =>
      match translateEncoding Z req found.2 with
      | none => .response 404 [] []
      | some storedResp =>
        let storedResp := { storedResp with Header := updateDates T storedResp.Header now }
        let out := applyTransformers proxy.transformers req storedResp
        .response out.2.StatusCode out.2.Header out.2.Body
    | _ => .response 404 [] []

end replay

/-! ## openscreen: osp/go/binary.go

A `uint64` is a natural number below `2 ^ 64` and a byte a natural number below `256`. An
`io.Reader` is the list of the bytes it yields before it ends with an error; the writer is a
buffer that takes every byte. -/

section binary

def maxInt6 : Nat := 2 ^ 5 - 1

def maxInt14 : Nat := 2 ^ 13 - 1

def maxInt30 : Nat := 2 ^ 29 - 1

def maxInt62 : Nat := 2 ^ 63 - 1

/-- Go `binary.BigEndian.PutUint16`, `PutUint32` and `PutUint64` after the conversion of the
value to `n` bytes: the `n` low bytes of `v`, the highest first. -/
def bePut : Nat → Nat → Bytes
  | 0, _ => []
  | n + 1, v => bePut n (v / 256) ++ [v % 256]

/-- Go `binary.BigEndian.Uint16`, `Uint32` and `Uint64`: the number with these bytes, the
highest first. -/
def beUint (b : Bytes) : Nat := b.foldl (fun acc x => acc * 256 + x) 0

def first2Bits (b : Nat) : Nat := b >>> 6

def last6Bits (b : Nat) : Nat := b &&& 0x3f

/-- The function `setFirst2Bits` on a slice that starts with the byte `b[0]`. -/
def setFirst2Bits (first : Nat) (b : Bytes) : Bytes :=
  match b with
  | [] => []
  | b0 :: rest => (((first <<< 6) % 256) ||| b0) :: rest

/-- Read len(b) bytes from r into b: the buffer of `n` bytes (zero where nothing was read),
whether the reader ended before, and the rest of the reader. -/
def readBytes (r : Bytes) (n : Nat) : Bytes × Bool × Bytes :=
  if n ≤ r.length then (r.take n, false, r.drop n)
  else (r ++ List.replicate (n - r.length) 0, true, [])

/-- The function `ReadVaruint`: the value, whether an error is returned, and the rest of the
reader. -/
def ReadVaruint (r : Bytes) : Nat × Bool × Bytes :=
  let first := readBytes r 1
  if first.2.1 then (0, true, first.2.2)
  else
    let b0 := first.1.headD 0
    let r := first.2.2
    if first2Bits b0 = 0 then (last6Bits b0, false, r)
    else if first2Bits b0 = 1 then
      ((beUint (last6Bits b0 :: (readBytes r 1).1)) % 2 ^ 16, (readBytes r 1).2.1,
        (readBytes r 1).2.2)
    else if first2Bits b0 = 2 then
      ((beUint (last6Bits b0 :: (readBytes r 3).1)) % 2 ^ 32, (readBytes r 3).2.1,
        (readBytes r 3).2.2)
    else if first2Bits b0 = 3 then
      ((beUint (last6Bits b0 :: (readBytes r 7).1)) % 2 ^ 64, (readBytes r 7).2.1,
        (readBytes r 7).2.2)
    else (0, false, r)

/-- The function `WriteVaruint`: the buffer after the call and whether the error `Too big`
is returned. -/
def WriteVaruint (v : Nat) (w : Bytes) : Bytes × Bool :=
  if v ≤ maxInt6 then (w ++ setFirst2Bits 0 [v % 256], false)
  else if v ≤ maxInt14 then (w ++ setFirst2Bits 1 (bePut 2 (v % 2 ^ 16)), false)
  else if v ≤ maxInt30 then (w ++ setFirst2Bits 2 (bePut 4 (v % 2 ^ 32)), false)
  else if v ≤ maxInt62 then (w ++ setFirst2Bits 3 (bePut 8 v), false)
  else (w, true)

end binary

/-! ## transformers.go: the rule-based transformer -/

section rules

/-- PushPromiseRule is a rule that adds pushes into the response stream. -/
structure PushPromiseRule where
  URL : String := ""
  Headers : Header := []

/-- TransformerRule is a single JSON-encoded rule. Each rule matches either a specific URL
(via URL) or a regexp pattern (via URLPattern). The hidden state `urlRE` is what
`MatchString` of the compiled pattern returns, and `none` for the nil pointer. -/
structure TransformerRule where
  URL : String := ""
  URLPattern : String := ""
  ExtraHeaders : Header := []
  Push : List PushPromiseRule := []
  urlRE : Option (String → Bool) := none

/-- Errors of loading a rules file. -/
inductive RuleError where
  | readFailed
  | jsonFailed
  | missingURL
  | bothURL
  | badPattern
  | noEffect
  | emptyPushURL
  | badPushURL
deriving DecidableEq

/-- Outcome of loading rules: a value, a returned error, or a run-time crash. -/
inductive RuleResult (α : Type) where
  | ok (v : α)
  | error (e : RuleError)
  | crash (msg : String)

/-- Functions of `regexp` and `encoding/json` for the rules. -/
structure RuleLib where
  /-- Go `regexp.Compile`: the function `MatchString` of the compiled pattern -/
  regexpCompile : String → Option (String → Bool)
  /-- Go `json.Unmarshal(raw, &rules)` for a slice of rule pointers (`none` is `null`) -/
  jsonRules : Bytes → Option (List (Option TransformerRule))

variable (L : HttpLib) (K : RuleLib)

/-- The loop over `r.Push` of `compile`: the error it returns, if any. -/
def checkPushes : List PushPromiseRule → Option RuleError
  | [] => none
  | p :: rest =>
    if p.URL = "" then some .emptyPushURL
    else
      match L.urlParse p.URL with
      | none => some .badPushURL
      | some u =>
        if u.Scheme = "" ∨ (u.Scheme ≠ "http" ∧ u.Scheme ≠ "https") then some .badPushURL
        else checkPushes rest

/-- The method `compile`: the rule after the call, or the error. -/
def TransformerRule.compile (r : TransformerRule) : Except RuleError TransformerRule :=
  if r.URL = "" ∧ r.URLPattern = "" then .error .missingURL
  else if r.URL ≠ "" ∧ r.URLPattern ≠ "" then .error .bothURL
  else
    let compiled : Option TransformerRule :=
      if r.URLPattern ≠ "" then
        match K.regexpCompile r.URLPattern with
        | none => none
        | some re => some { r with urlRE := some re }
      else some r
    match compiled with
    | none => .error .badPattern
    | some r =>
      if r.ExtraHeaders.length = 0 ∧ r.Push.length = 0 then .error .noEffect
      else
        match checkPushes L r.Push with
        | some e => .error e
        | none => .ok r

/-- The loop `for _, r := range rules` of `NewRuleBasedTransformer`; compiling through a
nil pointer crashes. -/
def compileRules : List (Option TransformerRule) → RuleResult (List TransformerRule)
  | [] => .ok []
  | none :: _ => .crash "nil pointer dereference"
  | some r :: rest =>
    match TransformerRule.compile L K r with
    | .error e => .error e
    | .ok r' =>
      match compileRules rest with
      | .ok rules => .ok (r' :: rules)
      | .error e => .error e
      | .crash msg => .crash msg

/-- NewRuleBasedTransformer creates a transformer that is controlled by a rules file: the
rules of the transformer. -/
def NewRuleBasedTransformer (disk : GoMap Bytes) (filename : String) :
    RuleResult (List TransformerRule) :=
  match GoMap.get disk filename with
  | none => .error .readFailed
  | some raw =>
    match K.jsonRules raw with
    | none => .error .jsonFailed
    | some rules => compileRules L K rules

/-- The method `matches`; `none` when the rule has no URL and the pattern was not compiled,
which dereferences nil. -/
def TransformerRule.matchesRequest (r : TransformerRule) (req : Request) : Option Bool :=
  if r.URL ≠ "" then some (decide (r.URL = L.urlString req.URL))
  else
    match r.urlRE with
    | none => none
    | some re => some (re (L.urlString req.URL))

/-- The statement `resp.Header[k] = append(resp.Header[k], v...)`. -/
def appendHeader (h : Header) (e : String × List String) : Header :=
  GoMap.set h e.1 (GoMap.getList h e.1 ++ e.2)

/-- The method `Transform` of the rule-based transformer: the response after the call.
`nilHeader` tells that `resp.Header` is the nil map, as it is in the response that the
record proxy makes up when the round trip fails (`errResponse`); the first assignment to
an entry of the nil map panics. -/
def ruleBasedTransformer.Transform (ord : RangeOrder) (nilHeader : Bool) :
    List TransformerRule → Request → Response → Outcome Response
  | [], _, resp => .ok resp
  | r :: rest, req, resp =>
    match TransformerRule.matchesRequest L r req with
    | none => .crash "nil pointer dereference"
    | some false => ruleBasedTransformer.Transform ord nilHeader rest req resp
    | some true =>
      if nilHeader = true ∧ r.ExtraHeaders ≠ [] then .crash "assignment to entry in nil map"
      else
        ruleBasedTransformer.Transform ord nilHeader rest req
          { resp with Header := (ord.range r.ExtraHeaders).foldl appendHeader resp.Header }

end rules

/-! ## chrome_proxy: testserver/server.go -/

section testserver

/-- Functions of `strconv`, `encoding/base64`, `encoding/json` and `net/http` the test
server calls; a failing function returns the text of its error. -/
structure OverrideLib where
  /-- Go `strconv.ParseInt(s, 10, 0)` -/
  parseInt : String → Except String Int
  /-- Go `base64.URLEncoding.DecodeString` -/
  base64Decode : String → Except String Bytes
  /-- Go `json.Unmarshal(headerValue, &header)` for an `http.Header` -/
  jsonHeader : Bytes → Except String Header
  /-- Go `string(b)` -/
  showBytes : Bytes → String
  /-- Go `[]byte(s)` -/
  textBytes : String → Bytes
  /-- Whether `WriteHeader` takes the code as the status of the response -/
  acceptsCode : Int → Bool

/-- Go `http.ResponseWriter`: the header map, the status and the headers that were written,
if any, and the body written so far. -/
structure ResponseWriter where
  header : Header := []
  wrote : Option (Int × Header) := none
  body : Bytes := []
deriving DecidableEq

/-- Go `w.WriteHeader(code)`: the first call fixes the status and the headers; `none` when
the code is not accepted. -/
def ResponseWriter.WriteHeader (K : OverrideLib) (w : ResponseWriter) (code : Int) :
    Option ResponseWriter :=
  if K.acceptsCode code then
    match w.wrote with
    | some _ => some w
    | none => some { w with wrote := some (code, w.header) }
  else none

/-- Go `w.Write(b)`: writes the status `200` first when no status was written. -/
def ResponseWriter.Write (w : ResponseWriter) (b : Bytes) : ResponseWriter :=
  match w.wrote with
  | some _ => { w with body := w.body ++ b }
  | none => { w with wrote := some (200, w.header), body := w.body ++ b }

/-- Go `io.Copy(w, bytes.NewBuffer(b))`: no call of `Write` for an empty buffer. -/
def ResponseWriter.Copy (w : ResponseWriter) (b : Bytes) : ResponseWriter :=
  if b = [] then w else ResponseWriter.Write w b

/-- The status of the response when the handler has returned. -/
def ResponseWriter.Code (w : ResponseWriter) : Int :=
  match w.wrote with
  | some sent => sent.1
  | none => 200

/-- The headers of the response when the handler has returned. -/
def ResponseWriter.HeaderMap (w : ResponseWriter) : Header :=
  match w.wrote with
  | some sent => sent.2
  | none => w.header

/-- The type `override`; a nil header is the empty map, a nil body is `none`. -/
structure override where
  status : Int := 0
  header : Header := []
  body : Option Bytes := none
deriving DecidableEq

/-- The test `v, ok := q[k]; ok && len(v) == 1 && len(v[0]) > 0`: the value `v[0]`. -/
def singleValue (q : Header) (k : String) : Option String :=
  match GoMap.get q k with
  | some [v] => if v ≠ "" then some v else none
  | _ => none

variable (L : HttpLib) (K : OverrideLib)

/-- parseOverrideQuery parses the queries in r and returns an override. -/
def parseOverrideQuery (r : Request) : Except String override :=
  let q := L.urlQuery r.URL
  let status : Except String Int :=
    match singleValue q "respStatus" with
    | some v =>
      match K.parseInt v with
      | .error e => .error ("respStatus: " ++ e)
      | .ok status => .ok status
    | none => .ok 0
  match status with
  | .error e => .error e
  | .ok status =>
    let header : Except String Header :=
      match singleValue q "respHeader" with
      | some v =>
        match K.base64Decode v with
        | .error e => .error ("Decoding respHeader: " ++ e)
        | .ok headerValue =>
          match K.jsonHeader headerValue with
          | .error e => .error ("Unmarlshal (" ++ K.showBytes headerValue ++ ") error: " ++ e)
          | .ok header => .ok header
      | none => .ok []
    match header with
    | .error e => .error e
    | .ok header =>
      match singleValue q "respBody" with
      | some v =>
        match K.base64Decode v with
        | .error e => .error ("Decoding respBody error: " ++ e)
        | .ok body => .ok { status := status, header := header, body := some body }
      | none => .ok { status := status, header := header, body := none }

/-- applyOverride applies the override queries in r to w and returns whether the response
body is overridden: the writer after the call, `wroteBody` and whether an error is
returned; `none` when `WriteHeader` does not accept the status. -/
def applyOverride (ord : RangeOrder) (w : ResponseWriter) (r : Request) :
    Option (ResponseWriter × Bool × Bool) :=
  match parseOverrideQuery L K r with
  | .error e =>
    match ResponseWriter.WriteHeader K w 400 with
    | none => none
    | some w => some (ResponseWriter.Write w (K.textBytes e), false, true)
  | .ok resp =>
    let w := { w with
      header := (ord.range resp.header).foldl (fun h e => GoMap.set h e.1 e.2) w.header }
    let w := if 0 < resp.status then ResponseWriter.WriteHeader K w resp.status else some w
    match w with
    | none => none
    | some w =>
      match resp.body with
      | some body => some (ResponseWriter.Copy w body, true, false)
      | none => some (w, false, false)

/-- defaultResponse returns "ok" as response body, if the body is not overridden. -/
def defaultResponse (ord : RangeOrder) (w : ResponseWriter) (r : Request) :
    Option ResponseWriter :=
  match applyOverride L K ord w r with
  | none => none
  | some (w, wroteBody, err) =>
    if err then some w
    else if ¬ wroteBody then some (ResponseWriter.Write w [111, 107])
    else some w

end testserver

/-! ## transformers.go: the patterns

The patterns of transformers.go are matched by Go `regexp`, which returns the match that a
backtracking search finds first. `Re` is the part of the pattern syntax that these patterns
use, over bytes: the patterns look for ASCII text only, and a byte of ASCII text always
begins a character. -/

section patterns

/-- Patterns: the empty pattern, a character under `(?i)`, `.*?` and `.*` under `(?s)`, `.*`
without `(?s)`, a sequence, and an optional group `(a)?`. -/
inductive Re where
  | eps
  | char (c : Nat)
  | anyLazy
  | anyGreedy
  | lineGreedy
  | seq (a b : Re)
  | opt (a : Re)

/-- Whether the byte `x` is the character `c` of a pattern under `(?i)`: the same byte, or
the same letter in the other case. -/
def foldEq (c x : Nat) : Bool :=
  decide (x = c) || (decide (97 ≤ c) && decide (c ≤ 122) && decide (x + 32 = c)) ||
    (decide (65 ≤ c) && decide (c ≤ 90) && decide (x = c + 32))

/-- The pattern `.*?` before the rest `k` of a pattern: the shortest run first. -/
def lazyAny {α : Type} (k : Bytes → Option α) : Bytes → Option α
  | [] => k []
  | x :: xs =>
    match k (x :: xs) with
    | some v => some v
    | none => lazyAny k xs

/-- The pattern `.*` before the rest `k` of a pattern: the longest run first. -/
def greedyAny {α : Type} (k : Bytes → Option α) : Bytes → Option α
  | [] => k []
  | x :: xs =>
    match greedyAny k xs with
    | some v => some v
    | none => k (x :: xs)

/-- The pattern `.*` that does not pass a line feed, before the rest `k` of a pattern. -/
def greedyLine {α : Type} (k : Bytes → Option α) : Bytes → Option α
  | [] => k []
  | x :: xs =>
    if x = 10 then k (x :: xs)
    else
      match greedyLine k xs with
      | some v => some v
      | none => k (x :: xs)

/-- The backtracking search for a match of the pattern at the start of `s`, with the rest
`k` of the search: the first success. -/
def Re.run {α : Type} : Re → Bytes → (Bytes → Option α) → Option α
  | .eps, s, k => k s
  | .char c, s, k =>
    match s with
    | [] => none
    | x :: xs => if foldEq c x then k xs else none
  | .anyLazy, s, k => lazyAny k s
  | .anyGreedy, s, k => greedyAny k s
  | .lineGreedy, s, k => greedyLine k s
  | .seq a b, s, k => a.run s fun rest => b.run rest k
  | .opt a, s, k =>
    match a.run s k with
    | some v => some v
    | none => k s

/-- The pattern of a text under `(?i)`. -/
def Re.text : List Char → Re
  | [] => .eps
  | c :: cs => .seq (.char c.toNat) (Re.text cs)

/-- A sequence of patterns. -/
def Re.cat : List Re → Re
  | [] => .eps
  | a :: rest => .seq a (Re.cat rest)

/-- Go `re.FindIndex(b)` for a pattern that begins with `^`: the match begins at 0. -/
def Re.FindIndex (re : Re) (b : Bytes) : Option (Nat × Nat) :=
  (re.run b some).map fun rest => (0, b.length - rest.length)

/-- Go `re.ReplaceAllLiteral(src, repl)` for a pattern that matches no empty text: the
matches are replaced from the left; `skip` bytes of a match are still to be passed. -/
def Re.replaceFrom (re : Re) (repl : Bytes) : Nat → Bytes → Bytes
  | _, [] => []
  | skip + 1, _ :: xs => Re.replaceFrom re repl skip xs
  | 0, x :: xs =>
    match re.run (x :: xs) some with
    | some rest => repl ++ Re.replaceFrom re repl (xs.length - rest.length) xs
    | none => x :: Re.replaceFrom re repl 0 xs

/-- Go `re.ReplaceAllLiteral(src, repl)`. -/
def Re.ReplaceAllLiteral (re : Re) (src repl : Bytes) : Bytes := Re.replaceFrom re repl 0 src

/-- The pattern `(<!--.*-->)?` of a comment. -/
def commentGroup : Re :=
  .opt (Re.cat [Re.text "<!--".data, .anyGreedy, Re.text "-->".data])

/-- The pattern `(?is)^.*?(<!--.*-->)?.*?<!doctype html>`. -/
def doctypeRE : Re :=
  Re.cat [.anyLazy, commentGroup, .anyLazy, Re.text "<!doctype html>".data]

/-- The pattern `(?is)^.*?(<!--.*-->)?.*?<html.*?>`. -/
def htmlRE : Re :=
  Re.cat [.anyLazy, commentGroup, .anyLazy, Re.text "<html".data, .anyLazy, Re.text ">".data]

/-- The pattern `(?is)^.*?(<!--.*-->)?.*?<head.*?>`. -/
def headRE : Re :=
  Re.cat [.anyLazy, commentGroup, .anyLazy, Re.text "<head".data, .anyLazy, Re.text ">".data]

/-- The pattern `(?is)/\*.*?\*/`. -/
def jsMultilineCommentRE : Re := Re.cat [Re.text "/*".data, .anyLazy, Re.text "*/".data]

/-- The pattern `(?i)//.*`. -/
def jsSinglelineCommentRE : Re := Re.cat [Re.text "//".data, .lineGreedy]

/-- The patterns of the script injector, matched as Go `regexp` matches them. -/
def goRegexp : RegexpLib where
  headRE := Re.FindIndex headRE
  htmlRE := Re.FindIndex htmlRE
  doctypeRE := Re.FindIndex doctypeRE

end patterns

/-! ## transformers.go: NewScriptInjector

Go strings and byte slices are both sequences of bytes; `replacements` lists the entries of
the map in the order `range` yields them. -/

section newScriptInjector

/-- Go `bytes.Replace(s, old, new, -1)` for a non-empty `old`: the occurrences of `old` are
replaced from the left; `skip` bytes of an occurrence are still to be passed. -/
def replaceFrom (old new : Bytes) : Nat → Bytes → Bytes
  | _, [] => []
  | skip + 1, _ :: xs => replaceFrom old new skip xs
  | 0, x :: xs =>
    if old.isPrefixOf (x :: xs) then new ++ replaceFrom old new (old.length - 1) xs
    else x :: replaceFrom old new 0 xs

/-- Functions of `bytes` whose result depends on the characters that the bytes encode. -/
structure BytesLib where
  /-- Go `bytes.Replace(s, []byte(""), new, -1)`: `new` before every character of `s` and
  at its end -/
  insertAtRunes : Bytes → Bytes → Bytes

/-- Go `bytes.Replace(s, old, new, -1)`. -/
def bytesReplace (B : BytesLib) (s old new : Bytes) : Bytes :=
  if old = [] then B.insertAtRunes s new else replaceFrom old new 0 s

/-- The function `NewScriptInjector`: the injector of the script after comments are removed,
the replacements are made, line breaks are removed and the tags are added. -/
def NewScriptInjector (B : BytesLib) (script : Bytes) (replacements : List (Bytes × Bytes)) :
    scriptInjector :=
  let script := Re.ReplaceAllLiteral jsMultilineCommentRE script []
  let script := Re.ReplaceAllLiteral jsSinglelineCommentRE script []
  let script := replacements.foldl (fun s e => bytesReplace B s e.1 e.2) script
  let script := bytesReplace B script [13, 10] []
  { script := "<script>".data.map Char.toNat ++ script ++ "</script>".data.map Char.toNat }

/-- The decimal digits of `n` before `acc`, at most `fuel` of them. -/
def decimalFrom : Nat → Nat → Bytes → Bytes
  | 0, _, acc => acc
  | fuel + 1, n, acc =>
    if n / 10 = 0 then (48 + n % 10) :: acc
    else decimalFrom fuel (n / 10) ((48 + n % 10) :: acc)

/-- Go `strconv.FormatInt(v, 10)`, which wpr.go calls on the time seed: a minus sign for a
negative number and the decimal digits. -/
def FormatInt (v : Int) : Bytes :=
  (if v < 0 then [45] else []) ++ decimalFrom (v.natAbs + 1) v.natAbs []

end newScriptInjector

/-! ## Specification-side definitions -/

/-- A ratio that is a value: `+Inf` only arises from a positive numerator. -/
def Ratio.Proper (a : Ratio) : Prop := a.den = 0 → 0 < a.num

/-- Number of entries of `a` whose value list is the value list of `b` for the same name. -/
def matching (a b : Header) : Nat :=
  a.countP (fun kv => decide (GoMap.get b kv.1 = some kv.2))

/-- Similarity ratio in the words of the specification: `2 * (m + 1) / (|a| + |b|)` with
`m` the number of entries of `a` matched in `b`, and `+Inf` when both maps are empty. -/
def specRatio (a b : Header) : WithTop ℚ :=
  if a.length + b.length = 0 then ⊤
  else (((2 * ((matching a b : ℚ) + 1)) / ((a.length : ℚ) + (b.length : ℚ)) : ℚ) : WithTop ℚ)

/-- The exchange `ar` decodes to `found` and has the method of `req`. -/
def IsCandidate (L : HttpLib) (req : Request) (ar : ArchivedRequest)
    (found : Request × Response) : Prop :=
  ArchivedRequest.unmarshal L ar = some found ∧ found.1.Method = req.Method

/-- Header similarity of a decoded exchange with the live request, in the words of the
specification: `2 * (m + 1) / (|HDR_e| + |HDR_live|)`. -/
def headerRatio (req : Request) (found : Request × Response) : WithTop ℚ :=
  specRatio found.1.Header req.Header

/-- State of the exact-URL loop after the exchanges `rs`: either nothing was a candidate,
or the state holds the first candidate of maximal header similarity. -/
def ExactInv (L : HttpLib) (ord : RangeOrder) (req : Request) (rs : List ArchivedRequest)
    (st : Option (Request × Response) × Ratio) : Prop :=
  (st.1 = none ∧ st.2 = Ratio.zero ∧ ∀ ar ∈ rs, ∀ c, ¬ IsCandidate L req ar c) ∨
  (∃ (i : Nat) (c : Request × Response), st.1 = some c ∧
    (∃ ar, rs[i]? = some ar ∧ IsCandidate L req ar c) ∧
    st.2 = similarity ord c.1.Header req.Header ∧
    (∀ (j : Nat) ar c', rs[j]? = some ar → IsCandidate L req ar c' →
      headerRatio req c' ≤ headerRatio req c) ∧
    (∀ (j : Nat) ar c', j < i → rs[j]? = some ar → IsCandidate L req ar c' →
      headerRatio req c' < headerRatio req c))

/-- The list `hostMap[u.String()]` that the exact-URL pass of `FindRequest` reads: the
exchanges filed under the host of `req` and the absolute URL of `req`. -/
abbrev exactList (L : HttpLib) (a : Archive) (req : Request) (scheme : String) :
    List ArchivedRequest :=
  GoMap.getList (GoMap.getMap a.Requests req.Host) (L.urlString (absoluteURL req scheme))

/-- The key `ustr` parses as a URL that has the path of the live request. -/
def IsPathMatch (L : HttpLib) (req : Request) (ustr : String) : Prop :=
  ∃ u, L.urlParse ustr = some u ∧ u.Path = req.URL.Path

/-- Query similarity of the URL key `ustr` with the live request, in the words of the
specification: `2 * (m + 1) / (|Q_e| + |Q_live|)`, with `m` counted over the live keys. -/
def queryRatio (L : HttpLib) (req : Request) (ustr : String) : WithTop ℚ :=
  match L.urlParse ustr with
  | some u => specRatio (L.urlQuery req.URL) (L.urlQuery u)
  | none => 0

/-- The key `u` is the best fuzzy match among `keys`: it has the path of the live request,
no key with that path has a larger query similarity, and no key with that path and the same
similarity is a smaller string. When no key has the path, `u` is the empty string. -/
def IsFuzzyBest (L : HttpLib) (req : Request) (keys : List String) (u : String) : Prop :=
  (u = "" ∧ ∀ k ∈ keys, ¬ IsPathMatch L req k) ∨
  (u ∈ keys ∧ IsPathMatch L req u ∧
    ∀ k ∈ keys, IsPathMatch L req k →
      queryRatio L req k < queryRatio L req u ∨
      (queryRatio L req k = queryRatio L req u ∧ stringLess k u = false))

/-- State of the fuzzy-path loop after the keys `keys`. -/
def FuzzyInv (L : HttpLib) (req : Request) (keys : List String) (st : String × Ratio) : Prop :=
  (st.1 = "" ∧ st.2 = Ratio.zero ∧ ∀ k ∈ keys, ¬ IsPathMatch L req k) ∨
  (st.2.Proper ∧ st.2.val = queryRatio L req st.1 ∧ st.1 ∈ keys ∧ IsPathMatch L req st.1 ∧
    ∀ k ∈ keys, IsPathMatch L req k →
      queryRatio L req k < queryRatio L req st.1 ∨
      (queryRatio L req k = queryRatio L req st.1 ∧ stringLess k st.1 = false))

/-- The archive after appending the exchange `e.2.2` under the host `e.1` and the URL
`e.2.1`. -/
def fileEntry (a : Archive) (e : String × String × ArchivedRequest) : Archive :=
  { a with
    Requests := GoMap.set a.Requests e.1
      (GoMap.set (GoMap.getMap a.Requests e.1) e.2.1
        (GoMap.getList (GoMap.getMap a.Requests e.1) e.2.1 ++ [e.2.2])) }

/-- What editing with `f` makes of the exchange `ar` stored under the key `ustr`: nothing
when `f` returns the nil pair, and otherwise the wire form of the pair `f` returns, with the
host and the absolute URL of the edited request under which it is filed. -/
def editedEntry (L : HttpLib) (f : EditFn) (ustr : String) (ar : ArchivedRequest) :
    Option (String × String × ArchivedRequest) :=
  match ArchivedRequest.unmarshal L ar with
  | none => none
  | some (oldReq, oldResp) =>
    match f oldReq oldResp with
    | (some newReq, some newResp, none) =>
      match L.urlParse ustr, serializeRequest L newReq newResp with
      | some u, some ar' => some (newReq.Host, L.urlString (absoluteURL newReq u.Scheme), ar')
      | _, _ => none
    | _ => none

/-- The exchange `ar` under the key `ustr` can be edited with `f`: it decodes, and `f`
returns no error and either the nil pair or a pair that serializes, in which case the key
parses as a URL. -/
def EditOK (L : HttpLib) (f : EditFn) (ustr : String) (ar : ArchivedRequest) : Prop :=
  ∃ oldReq oldResp, ArchivedRequest.unmarshal L ar = some (oldReq, oldResp) ∧
    (f oldReq oldResp = (none, none, none) ∨
      ∃ newReq newResp u ar', f oldReq oldResp = (some newReq, some newResp, none) ∧
        L.urlParse ustr = some u ∧ serializeRequest L newReq newResp = some ar')

/-- The edited exchanges of an archive with their destinations, in the order in which
`Edit` visits the exchanges. -/
def editedEntries (L : HttpLib) (ord : RangeOrder) (f : EditFn) (a : Archive) :
    List (String × String × ArchivedRequest) :=
  (ord.range a.Requests).flatMap fun hostEntry =>
    (ord.range hostEntry.2).flatMap fun urlEntry =>
      urlEntry.2.filterMap (editedEntry L f urlEntry.1)

/-- The exchanges among `es` whose destination is the host `h` and the URL `u`, in order. -/
def filedUnder (h u : String) (es : List (String × String × ArchivedRequest)) :
    List ArchivedRequest :=
  es.filterMap fun e => if e.1 = h ∧ e.2.1 = u then some e.2.2 else none

/-- The callback of `Edit` that returns its arguments. -/
def identityEdit : EditFn := fun req resp => (some req, some resp, none)

/-- The callback `f` returns for the exchange `ar`, which decodes, a pair of which exactly
one is nil, and no error. -/
def HalfNilPair (L : HttpLib) (f : EditFn) (ar : ArchivedRequest) : Prop :=
  ∃ oldReq oldResp, ArchivedRequest.unmarshal L ar = some (oldReq, oldResp) ∧
    ((∃ newReq, f oldReq oldResp = (some newReq, none, none)) ∨
      ∃ newResp, f oldReq oldResp = (none, some newResp, none))

/-- The callback `f` returns for the exchange `ar`, which decodes and is stored under a key
`ustr` that parses, a non-nil pair that does not serialize, and no error. -/
def UnserializablePair (L : HttpLib) (f : EditFn) (ustr : String) (ar : ArchivedRequest) :
    Prop :=
  ∃ oldReq oldResp newReq newResp u,
    ArchivedRequest.unmarshal L ar = some (oldReq, oldResp) ∧
    f oldReq oldResp = (some newReq, some newResp, none) ∧ L.urlParse ustr = some u ∧
    serializeRequest L newReq newResp = none

/-- The writable archive and the disk after `n` calls of `Close`. -/
def closeTimes (C : DocCodec) : Nat → WritableArchive → GoMap Bytes → WritableArchive × GoMap Bytes
  | 0, a, disk => (a, disk)
  | n + 1, a, disk =>
    closeTimes C n (WritableArchive.Close C a disk).1 (WritableArchive.Close C a disk).2.1

/-- The octets a response body stands for under the last `Content-Encoding` of the
response, and the error of decoding them, if any. -/
def decodedBody (Z : BodyLib) (resp : Response) : Bytes × Option String :=
  if lastContentEncoding Z resp = "gzip" then Z.gzipReader resp.Body
  else if lastContentEncoding Z resp = "deflate" then Z.flateReader resp.Body
  else if lastContentEncoding Z resp = "" ∨ lastContentEncoding Z resp = "identity" then
    (resp.Body, none)
  else (resp.Body, some "unknown compression")

/-- The response that `transformResponseBody` leaves when nothing fails. -/
def withBody (resp : Response) (enc : Bytes) : Response :=
  if 0 ≤ resp.ContentLength then
    { resp with
      Body := enc
      ContentLength := enc.length
      Header := Header.Set resp.Header "Content-Length" (Nat.repr enc.length) }
  else { resp with Body := enc }

/-- Two calls of `Transform` of the script injector on a response, one after the other. -/
def scriptInjector.TransformTwice (Z : BodyLib) (R : RegexpLib) (si : scriptInjector)
    (resp : Response) : Outcome Response :=
  match scriptInjector.Transform Z R si resp with
  | .ok once => scriptInjector.Transform Z R si once
  | .err e => .err e
  | .crash msg => .crash msg

/-- The key `ustr` is an absolute URL: it parses as a URL with a non-empty scheme and a
non-empty host. -/
def IsAbsoluteKey (L : HttpLib) (ustr : String) : Prop :=
  ∃ u, L.urlParse ustr = some u ∧ u.Scheme ≠ "" ∧ u.Host ≠ ""

/-- All keys of the second-level map of the archive are absolute URLs. -/
def KeysAbsolute (L : HttpLib) (a : Archive) : Prop :=
  ∀ he ∈ a.Requests, ∀ ue ∈ he.2, IsAbsoluteKey L ue.1

/-- The request `req` is filed under an absolute URL when the scheme argument is `scheme`:
its URL has no host, and then the request has a host and `scheme` is not empty, or its URL
has a host and a scheme; and the string of the URL it is filed under parses back to a URL
with the same scheme and host. -/
def AbsoluteFiling (L : HttpLib) (req : Request) (scheme : String) : Prop :=
  ((req.URL.Host = "" ∧ req.Host ≠ "" ∧ scheme ≠ "") ∨
    (req.URL.Host ≠ "" ∧ req.URL.Scheme ≠ "")) ∧
  ∃ u, L.urlParse (L.urlString (absoluteURL req scheme)) = some u ∧
    u.Scheme = (absoluteURL req scheme).Scheme ∧ u.Host = (absoluteURL req scheme).Host

/-- Every pair of requests that the callback `f` returns for the exchange `ar` under the key
`ustr` is filed under an absolute URL, with the scheme of the key. -/
def EditAbsolute (L : HttpLib) (f : EditFn) (ustr : String) (ar : ArchivedRequest) : Prop :=
  ∀ oldReq oldResp newReq newResp u, ArchivedRequest.unmarshal L ar = some (oldReq, oldResp) →
    f oldReq oldResp = (some newReq, some newResp, none) → L.urlParse ustr = some u →
    AbsoluteFiling L newReq u.Scheme

/-- The rule is one that rule validation is to accept: exactly one of `URL` and `URLPattern`
is given, a given pattern compiles, the rule has an extra header or a push, and every push
URL is not empty and parses as a URL with the scheme `http` or `https`. -/
def ValidRule (L : HttpLib) (K : RuleLib) (r : TransformerRule) : Prop :=
  ((r.URL ≠ "" ∧ r.URLPattern = "") ∨
    (r.URL = "" ∧ r.URLPattern ≠ "" ∧ K.regexpCompile r.URLPattern ≠ none)) ∧
  (r.ExtraHeaders.length ≠ 0 ∨ r.Push.length ≠ 0) ∧
  ∀ p ∈ r.Push, p.URL ≠ "" ∧
    ∃ u, L.urlParse p.URL = some u ∧ u.Scheme ≠ "" ∧ (u.Scheme = "http" ∨ u.Scheme = "https")

/-- The rule matches the request. -/
def RuleMatches (L : HttpLib) (r : TransformerRule) (req : Request) : Prop :=
  TransformerRule.matchesRequest L r req = some true

instance decidableRuleMatches (L : HttpLib) (r : TransformerRule) (req : Request) :
    Decidable (RuleMatches L r req) := by
  unfold RuleMatches
  infer_instance

/-- The values that the rules which match the request list for the header `k`, in the order
of the rules. -/
def listedValues (L : HttpLib) (rules : List TransformerRule) (req : Request) (k : String) :
    List String :=
  (rules.filter fun r => decide (RuleMatches L r req)).flatMap
    fun r => GoMap.getList r.ExtraHeaders k

/-- Whether `s` begins with the text `name`, letters compared without regard to case. -/
def startsWithFold : Bytes → Bytes → Bool
  | [], _ => true
  | _ :: _, [] => false
  | c :: cs, x :: xs => foldEq c x && startsWithFold cs xs

/-- The bytes after the first byte `c` of `s`. -/
def afterFirst (c : Nat) : Bytes → Option Bytes
  | [] => none
  | x :: xs => if x = c then some xs else afterFirst c xs

/-- The bytes after the first tag `name...>` of `s`: after the first `>` that follows the
first occurrence of `name`, compared without regard to case. -/
def afterTag (name : Bytes) : Bytes → Option Bytes
  | [] => none
  | x :: xs =>
    if startsWithFold name (x :: xs) then afterFirst 62 ((x :: xs).drop name.length)
    else afterTag name xs

/-- The bytes after the first occurrence of the text `name` in `s`, compared without
regard to case. -/
def afterText (name : Bytes) : Bytes → Option Bytes
  | [] => if startsWithFold name [] then some [] else none
  | x :: xs =>
    if startsWithFold name (x :: xs) then some ((x :: xs).drop name.length)
    else afterText name xs

/-- The bytes of a body after the place where the script is to go: after the first
`<head...>` tag when the body has one, otherwise after the first `<html...>` tag,
otherwise after the first `<!doctype html>`. -/
def afterStartTag (body : Bytes) : Option Bytes :=
  match afterTag ("<head".data.map Char.toNat) body with
  | some rest => some rest
  | none =>
    match afterTag ("<html".data.map Char.toNat) body with
    | some rest => some rest
    | none => afterText ("<!doctype html>".data.map Char.toNat) body


/-- The text without its `/* */` comments, read from the left: a comment runs from `/*`
through the first `*/` after it, and a `/*` that no `*/` follows stays; `skip` bytes of a
comment are still to be passed. -/
def withoutBlockCommentsFrom : Nat → Bytes → Bytes
  | _, [] => []
  | skip + 1, _ :: xs => withoutBlockCommentsFrom skip xs
  | 0, x :: xs =>
    match (if x = 47 ∧ xs.head? = some 42 then afterText [42, 47] (xs.drop 1) else none) with
    | some rest => withoutBlockCommentsFrom (xs.length - rest.length) xs
    | none => x :: withoutBlockCommentsFrom 0 xs

/-- The text without its `/* */` comments. -/
def withoutBlockComments (s : Bytes) : Bytes := withoutBlockCommentsFrom 0 s

/-- The text without its `//` comments: a comment runs from `//` to the end of its line, and
the line feed stays; `inside` tells whether the text begins in a comment. -/
def withoutLineCommentsFrom : Bool → Bytes → Bytes
  | _, [] => []
  | true, x :: xs =>
    if x = 10 then x :: withoutLineCommentsFrom false xs else withoutLineCommentsFrom true xs
  | false, x :: xs =>
    if x = 47 ∧ xs.head? = some 47 then withoutLineCommentsFrom true xs
    else x :: withoutLineCommentsFrom false xs

/-- The text without its `//` comments. -/
def withoutLineComments (s : Bytes) : Bytes := withoutLineCommentsFrom false s

/-- The text without its CRLF pairs. -/
def withoutCRLF : Bytes → Bytes
  | [] => []
  | [x] => [x]
  | x :: y :: rest =>
    if x = 13 ∧ y = 10 then withoutCRLF rest else x :: withoutCRLF (y :: rest)

/-- The pieces of a text with `sep` between them. -/
def joinWith (sep : Bytes) : List Bytes → Bytes
  | [] => []
  | [p] => p
  | p :: q :: ps => p ++ sep ++ joinWith sep (q :: ps)

/-- The two maps have the same keys and the same value under every key. -/
def SameMap {V : Type} (m m' : GoMap V) : Prop := ∀ k, GoMap.get m' k = GoMap.get m k

/-- The two archives are the same as Go values: the same hosts with the same URLs and the
same list of exchanges under each, the same certificates, the same protocols and the same
time seed. -/
def SameArchive (a a' : Archive) : Prop :=
  (∀ h, (GoMap.get a'.Requests h).isSome = (GoMap.get a.Requests h).isSome) ∧
  (∀ h, SameMap (GoMap.getMap a.Requests h) (GoMap.getMap a'.Requests h)) ∧
  SameMap a.Certs a'.Certs ∧ SameMap a.NegotiatedProtocol a'.NegotiatedProtocol ∧
  a'.DeterministicTimeSeedMs = a.DeterministicTimeSeedMs

/-! ## Decidable forms of the hypotheses -/

/-- No exchange of `rs` decodes to a request with the method of `req`. -/
def noCandidate (L : HttpLib) (req : Request) (rs : List ArchivedRequest) : Bool :=
  rs.all fun ar =>
    match ArchivedRequest.unmarshal L ar with
    | some c => decide (c.1.Method ≠ req.Method)
    | none => true

/-- Decidable form of `EditOK`. -/
def editCheck (L : HttpLib) (f : EditFn) (ustr : String) (ar : ArchivedRequest) : Bool :=
  match ArchivedRequest.unmarshal L ar with
  | none => false
  | some (oldReq, oldResp) =>
    match f oldReq oldResp with
    | (none, none, none) => true
    | (some newReq, some newResp, none) =>
      (L.urlParse ustr).isSome && (serializeRequest L newReq newResp).isSome
    | _ => false

/-- The exchange `ar` filed under `host` and `ustr` decodes, serializes back to itself and
has this host and this absolute URL. -/
def roundTripCheck (L : HttpLib) (host ustr : String) (ar : ArchivedRequest) : Bool :=
  match ArchivedRequest.unmarshal L ar, L.urlParse ustr with
  | some (req, resp), some u =>
    decide (serializeRequest L req resp = some ar) && decide (req.Host = host) &&
      decide (L.urlString (absoluteURL req u.Scheme) = ustr)
  | _, _ => false

/-- Decidable form of `HalfNilPair`. -/
def halfNilCheck (L : HttpLib) (f : EditFn) (ar : ArchivedRequest) : Bool :=
  match ArchivedRequest.unmarshal L ar with
  | none => false
  | some (oldReq, oldResp) =>
    match f oldReq oldResp with
    | (some _, none, none) => true
    | (none, some _, none) => true
    | _ => false

/-! ## Test double of the library

`testLib` returns what `net/http` and `net/url` return on the messages and URLs of the
examples, and an error on every other input. -/

/-- Octets of an ASCII text. -/
def octets (s : String) : Bytes := s.data.map Char.toNat

/-- Go `u.String()` for a URL without opaque part, user information, fragment or characters
to escape. -/
def testURLString (u : URL) : String :=
  (if u.Scheme ≠ "" then u.Scheme ++ ":" else "") ++
  (if u.Scheme ≠ "" ∨ u.Host ≠ "" then
    (if u.Host ≠ "" ∨ u.Path ≠ "" then "//" else "") ++ u.Host else "") ++
  u.Path ++ (if u.RawQuery ≠ "" then "?" ++ u.RawQuery else "")

/-- Go `url.ParseQuery` on the queries of the examples. -/
def testQuery (raw : String) : Header :=
  if raw = "a=f&c=e" then [("a", ["f"]), ("c", ["e"])]
  else if raw = "a=g&c=e" then [("a", ["g"]), ("c", ["e"])]
  else if raw = "a=b&c=d" then [("a", ["b"]), ("c", ["d"])]
  else if raw = "c=e" then [("c", ["e"])]
  else if raw = "respBody=bmV3IGJvZHk=&respHeader=" ++
      "eyJWaWEiOlsiVmlhMSIsIlZpYTIiXX0%3D&respStatus=204" then
    [("respBody", ["bmV3IGJvZHk="]), ("respHeader", ["eyJWaWEiOlsiVmlhMSIsIlZpYTIiXX0="]),
     ("respStatus", ["204"])]
  else if raw = "respStatus=abc" then [("respStatus", ["abc"])]
  else if raw = "respStatus=42" then [("respStatus", ["42"])]
  else []

/-- The URL `https://example.com<path>?<raw>`. -/
def exampleURL (path raw : String) : URL :=
  { Scheme := "https", Host := "example.com", Path := path, RawQuery := raw }

/-- Go `url.Parse` on the URL keys of the examples; `":"` has no scheme and does not
parse. -/
def testParse (s : String) : Option URL :=
  if s = "https://example.com/index.html?a=f&c=e" then some (exampleURL "/index.html" "a=f&c=e")
  else if s = "https://example.com/index.html?a=g&c=e" then
    some (exampleURL "/index.html" "a=g&c=e")
  else if s = "https://example.com/index.html?a=b&c=d" then
    some (exampleURL "/index.html" "a=b&c=d")
  else if s = "https://example.com/mail/" then some (exampleURL "/mail/" "")
  else if s = "//example.com/mail/" then some { Host := "example.com", Path := "/mail/" }
  else if s = "https:///mail/" then some { Scheme := "https", Path := "/mail/" }
  else none

/-- Wire form of a request without body to `example.com`, as `req.Write` writes it. -/
def requestWire (method target extra : String) : Bytes :=
  octets (method ++ " " ++ target ++
    " HTTP/1.1\r\nHost: example.com\r\nUser-Agent: Go-http-client/1.1\r\n" ++ extra ++ "\r\n")

/-- The request `http.ReadRequest` returns for `requestWire`. -/
def storedRequest (method path raw : String) (extra : Header) : Request :=
  { Method := method, URL := { Path := path, RawQuery := raw }, Host := "example.com",
    Header := ("User-Agent", ["Go-http-client/1.1"]) :: extra, Body := some [] }

/-- A live request for `https://example.com<path>?<raw>`. -/
def liveRequest (method path raw : String) (header : Header) : Request :=
  { Method := method, URL := exampleURL path raw, Host := "example.com", Header := header }

/-- Wire form of a request that carries no `User-Agent` line. -/
def bareWire : Bytes := octets "GET /mail/ HTTP/1.1\r\nHost: example.com\r\n\r\n"

/-- The request `http.ReadRequest` returns for `bareWire`. -/
def bareRequest : Request :=
  { Method := "GET", URL := { Path := "/mail/" }, Host := "example.com", Body := some [] }

/-- Wire form of an empty `200 OK` response. -/
def okWire : Bytes := octets "HTTP/1.1 200 OK\r\nContent-Length: 0\r\n\r\n"

/-- The response `http.ReadResponse` returns for `okWire`. -/
def okResponse : Response :=
  { Status := "200 OK", StatusCode := 200, Proto := "HTTP/1.1", ProtoMajor := 1,
    ProtoMinor := 1, Header := [("Content-Length", ["0"])], Body := [], ContentLength := 0 }

/-- The pair `unmarshal` returns for the exchange of `requestWire` and `okWire`: the response
refers to the request it was read for. -/
def storedPair (method path raw : String) (extra : Header) : Request × Response :=
  (storedRequest method path raw extra,
    { okResponse with Request := some (storedRequest method path raw extra) })

/-- Wire form of a `200 OK` response with an HTML body. -/
def htmlWire : Bytes :=
  octets "HTTP/1.1 200 OK\r\nContent-Length: 13\r\nContent-Type: text/html\r\n\r\n<html></html>"

/-- The response `http.ReadResponse` returns for `htmlWire`. -/
def htmlResponse : Response :=
  { Status := "200 OK", StatusCode := 200, Proto := "HTTP/1.1", ProtoMajor := 1,
    ProtoMinor := 1, Header := [("Content-Length", ["13"]), ("Content-Type", ["text/html"])],
    Body := octets "<html></html>", ContentLength := 13 }

/-- Wire form of a `200 OK` response with a Brotli body. -/
def brWire : Bytes :=
  octets "HTTP/1.1 200 OK\r\nContent-Encoding: br\r\nContent-Length: 3\r\n\r\nabc"

/-- The response `http.ReadResponse` returns for `brWire`. -/
def brResponse : Response :=
  { Status := "200 OK", StatusCode := 200, Proto := "HTTP/1.1", ProtoMajor := 1,
    ProtoMinor := 1, Header := [("Content-Encoding", ["br"]), ("Content-Length", ["3"])],
    Body := octets "abc", ContentLength := 3 }

/-- Requests of the examples that `req.Write` and `http.ReadRequest` map to each other. -/
def requestTable : List (Bytes × Request) :=
  [(requestWire "GET" "/index.html?a=f&c=e" "", storedRequest "GET" "/index.html" "a=f&c=e" []),
   (requestWire "GET" "/index.html?a=g&c=e" "", storedRequest "GET" "/index.html" "a=g&c=e" []),
   (requestWire "GET" "/index.html?a=b&c=d" "", storedRequest "GET" "/index.html" "a=b&c=d" []),
   (requestWire "HEAD" "/index.html?a=f&c=e" "",
     storedRequest "HEAD" "/index.html" "a=f&c=e" []),
   (requestWire "GET" "/mail/" "", storedRequest "GET" "/mail/" "" []),
   (requestWire "GET" "/mail/" "Accept: text/html\r\nCookie: FOO=FOO\r\n",
     storedRequest "GET" "/mail/" "" [("Accept", ["text/html"]), ("Cookie", ["FOO=FOO"])]),
   (requestWire "GET" "/mail/" "Accept: text/html\r\nCookie: FOO=BAR\r\n",
     storedRequest "GET" "/mail/" "" [("Accept", ["text/html"]), ("Cookie", ["FOO=BAR"])]),
   (requestWire "GET" "/mail/" "Accept-Encoding: gzip, deflate\r\n",
     storedRequest "GET" "/mail/" "" [("Accept-Encoding", ["gzip, deflate"])])]

/-- Further requests with the wire form `req.Write` gives them: the request line carries
the path and the query only, and a default `User-Agent` line is added. -/
def writeTable : List (Request × Bytes) :=
  [(liveRequest "GET" "/index.html" "a=f&c=e" [], requestWire "GET" "/index.html?a=f&c=e" ""),
   (liveRequest "GET" "/mail/" "" [("Accept-Encoding", ["gzip, deflate"])],
     requestWire "GET" "/mail/" "Accept-Encoding: gzip, deflate\r\n"),
   (liveRequest "GET" "/mail/" "" [("Accept-Encoding", ["br, gzip"])],
     requestWire "GET" "/mail/" "Accept-Encoding: br, gzip\r\n"),
   (bareRequest, requestWire "GET" "/mail/" "")]

/-- Responses of the examples with their wire forms. -/
def responseTable : List (Bytes × Response) :=
  [(okWire, okResponse), (htmlWire, htmlResponse), (brWire, brResponse)]

/-- Go `req.Write` on the requests of the examples; a request with a content length and a
nil body is rejected. -/
def testWriteRequest (r : Request) : Option Bytes :=
  if r.ContentLength ≠ 0 ∧ r.Body = none then none
  else
    match requestTable.find? (fun row => decide (row.2 = r)) with
    | some row => some row.1
    | none => (writeTable.find? (fun row => decide (row.1 = r))).map Prod.snd

/-- Go `http.ReadRequest` on the wire forms of the examples. -/
def testReadRequest (b : Bytes) : Option Request :=
  if b = bareWire then some bareRequest
  else (requestTable.find? (fun row => decide (row.1 = b))).map Prod.snd

/-- The test double of `net/http` and `net/url`. -/
def testLib : HttpLib where
  writeRequest := testWriteRequest
  writeResponse := fun resp =>
    if resp.BodyErr ≠ none then none
    else (responseTable.find? (fun row => decide (row.2 = { resp with Request := none }))).map
      Prod.fst
  readRequest := testReadRequest
  readResponse := fun b req =>
    (responseTable.find? (fun row => decide (row.1 = b))).map
      fun row => { row.2 with Request := some req }
  urlString := testURLString
  urlParse := testParse
  urlQuery := fun u => testQuery u.RawQuery

/-- The exchange of a request of `requestTable` with the empty `200 OK` response. -/
def exchange (method target extra : String) : ArchivedRequest :=
  { SerializedRequest := requestWire method target extra, SerializedResponse := okWire }

/-- Archive of the test `TestFindClosest`: three URLs with the same path. -/
def closestArchive : Archive :=
  { Requests := [("example.com",
      [("https://example.com/index.html?a=g&c=e", [exchange "GET" "/index.html?a=g&c=e" ""]),
       ("https://example.com/index.html?a=f&c=e", [exchange "GET" "/index.html?a=f&c=e" ""]),
       ("https://example.com/index.html?a=b&c=d", [exchange "GET" "/index.html?a=b&c=d" ""])])] }

/-- Archive in which the best fuzzy URL holds a `HEAD` exchange only. -/
def headArchive : Archive :=
  { Requests := [("example.com",
      [("https://example.com/index.html?a=g&c=e", [exchange "GET" "/index.html?a=g&c=e" ""]),
       ("https://example.com/index.html?a=f&c=e",
         [exchange "HEAD" "/index.html?a=f&c=e" ""])])] }

/-- Archive of the test `TestMatchHeaders`, with an exchange that does not decode in front:
two exchanges under one URL that differ in their cookie. -/
def mailArchive : Archive :=
  { Requests := [("example.com",
      [("https://example.com/mail/",
        [{ SerializedRequest := octets "garbage", SerializedResponse := okWire },
         exchange "GET" "/mail/" "Accept: text/html\r\nCookie: FOO=FOO\r\n",
         exchange "GET" "/mail/" "Accept: text/html\r\nCookie: FOO=BAR\r\n"])])] }

/-- Archive with one exchange and the TLS material of its host. -/
def tlsArchive : Archive :=
  { Requests := [("example.com", [("https://example.com/mail/", [exchange "GET" "/mail/" ""])])],
    Certs := [("example.com", some [48, 130, 1, 10])],
    NegotiatedProtocol := [("example.com", "h2")],
    DeterministicTimeSeedMs := 1502971200000 }

/-- Archive whose exchange was written without a `User-Agent` line. -/
def bareArchive : Archive :=
  { Requests := [("example.com", [("https://example.com/mail/",
      [{ SerializedRequest := bareWire, SerializedResponse := okWire }])])] }

/-- Archive whose URL key does not parse. -/
def colonArchive : Archive :=
  { Requests := [("example.com", [(":", [exchange "GET" "/mail/" ""])])] }

/-- Callback that returns a request without a response. -/
def dropResponse : EditFn := fun req _ => (some req, none, none)

/-- Callback that announces a body of five octets and attaches none. -/
def lengthWithoutBody : EditFn :=
  fun req resp => (some { req with ContentLength := 5, Body := none }, some resp, none)

/-- Callback that deletes the exchanges of `/index.html?a=b&c=d` and keeps the others. -/
def deleteOne : EditFn :=
  fun req resp => if req.URL.RawQuery = "a=b&c=d" then (none, none, none)
    else (some req, some resp, none)

/-- Transformer that replaces the body by an HTML page with an injected script. -/
def injectFoo : ResponseTransformer :=
  fun req resp => (req, { resp with Body := octets "<html><script>var foo = 1;</script></html>" })

/-- Record proxy whose origin answers `htmlResponse`. -/
def testRecorder : recordingProxy :=
  { tr := fun _ => some htmlResponse, scheme := "https", transformers := [injectFoo] }

/-- Request as the record proxy receives it from a client. -/
def clientRequest : Request :=
  { Method := "GET", URL := { Path := "/mail/" }, Host := "example.com",
    Header := [("Accept-Encoding", ["gzip, deflate, br"])], Body := some [] }

/-- Archive document without requests. -/
def seedArchive : Archive :=
  { Requests := [], NegotiatedProtocol := [("example.com", "h2")],
    DeterministicTimeSeedMs := 1502971200000 }

/-- JSON text of `seedArchive`. -/
def seedDocument : Bytes :=
  octets ("\x7b\"Requests\":\x7b\x7d,\"Certs\":null,\"NegotiatedProtocol\":" ++
    "\x7b\"example.com\":\"h2\"\x7d,\"DeterministicTimeSeedMs\":1502971200000\x7d\n")

/-- Test double of `encoding/json` and `compress/gzip`: the JSON codec knows the document of
`seedArchive`, and the compressor stores its input behind the gzip magic number. -/
def testCodec : DocCodec where
  jsonEncode := fun a => if a = seedArchive then some seedDocument else none
  jsonUnmarshal := fun doc _ => if doc = seedDocument then some seedArchive else none
  gzip := fun b => 31 :: 139 :: b
  gunzip := fun c =>
    match c with
    | 31 :: 139 :: b => some b
    | _ => none

/-- Go `strings.ToLower` on ASCII text. -/
def asciiLower (s : String) : String := String.mk (s.data.map Char.toLower)

/-- A test double of the compression library: a gzip stream is the body after the two magic
octets, a deflate stream is the body after one marker octet; other input is rejected. -/
def testBody : BodyLib where
  toLower := asciiLower
  gzipReader := fun b =>
    match b with
    | 31 :: 139 :: rest => (rest, none)
    | _ => ([], some "gzip: invalid header")
  flateReader := fun b =>
    match b with
    | 120 :: rest => (rest, none)
    | _ => ([], some "flate: corrupt input before offset 1")
  gzipWriter := fun b => (31 :: 139 :: b, none)
  flateWriter := fun b => (120 :: b, none)

/-- A writable archive without TLS entries, open on `a.wprgo`. -/
def emptyWritable : WritableArchive := { Archive := newArchive, f := some "a.wprgo" }

/-- A replay TLS proxy over `tlsArchive`. -/
def testTlsProxy : tlsProxy :=
  { root := { Certificate := [[48, 130, 2, 1]], PrivateKey := [1, 2, 3] },
    root_cert := { Subject := "wpr root", Issuer := "wpr root", SerialNumber := [1],
                   DNSNames := [], IPAddresses := [], IsCA := true,
                   BasicConstraintsValid := true, PublicKey := [4, 5, 6] },
    archive := tlsArchive }

/-- A replay TLS proxy over an archive that holds an empty certificate for `example.org`. -/
def emptyCertProxy : tlsProxy :=
  { testTlsProxy with archive := { Certs := [("example.org", some [])] } }

/-- A certificate library that never signs. -/
def testCrypto : CryptoLib where
  parseIP := fun _ => none
  createCertificate := fun _ _ _ _ => none

/-- A response with a gzip body in the test double of the compression library. -/
def gzipResponse : Response :=
  { Status := "200 OK", StatusCode := 200, Proto := "HTTP/1.1", ProtoMajor := 1,
    ProtoMinor := 1,
    Header := [("Content-Encoding", ["gzip"]), ("Content-Length", ["5"])],
    Body := [31, 139, 60, 97, 62], ContentLength := 5 }

/-- Archive with a Brotli response for `https://example.com/mail/`. -/
def brArchive : Archive :=
  { Requests := [("example.com", [("https://example.com/mail/",
      [{ SerializedRequest := requestWire "GET" "/mail/" "Accept-Encoding: gzip, deflate\r\n",
         SerializedResponse := brWire }])])] }

/-- Replay proxy over `brArchive`. -/
def testReplay : replayingProxy := { a := brArchive, scheme := "https", transformers := [] }

/-- Request as the replay proxy receives it from a client that accepts gzip and deflate. -/
def replayRequest : Request :=
  { Method := "GET", URL := { Path := "/mail/" }, Host := "example.com",
    Header := [("Accept-Encoding", ["gzip, deflate"])] }

/-- A clock that knows no date. -/
def stoppedClock : TimeLib where
  parseTime := fun _ => none
  format := fun _ => ""

/-- HTTP dates of the examples with their number of seconds since the Unix epoch. -/
def dateTable : List (String × Int) :=
  [("Thu, 17 Aug 2017 09:00:00 GMT", 1502960400),
   ("Thu, 17 Aug 2017 12:00:00 GMT", 1502971200),
   ("Thu, 17 Aug 2017 17:00:00 GMT", 1502989200),
   ("Fri, 17 Aug 2018 09:00:00 GMT", 1534496400),
   ("Fri, 17 Aug 2018 12:00:00 GMT", 1534507200),
   ("Fri, 17 Aug 2018 17:00:00 GMT", 1534525200),
   ("Sun, 27 Nov 2310 11:47:16 GMT", 10757879236),
   ("Fri, 31 Dec 9999 23:59:59 GMT", 253402300799)]

/-- The test double of the clock library: `http.ParseTime` and the HTTP-date format on the
dates of the examples; the format drops the fraction of a second. -/
def testTime : TimeLib where
  parseTime := fun s =>
    (dateTable.find? (fun row => decide (row.1 = s))).map fun row => row.2 * 1000000000
  format := fun t =>
    match dateTable.find? (fun row => decide (row.2 = t / 1000000000)) with
    | some row => row.1
    | none => ""

/-- Header of the test `TestUpdateDates`, with a cookie. -/
def datedHeader : Header :=
  [("Date", ["Thu, 17 Aug 2017 12:00:00 GMT"]),
   ("Last-Modified", ["Thu, 17 Aug 2017 09:00:00 GMT"]),
   ("Expires", ["Thu, 17 Aug 2017 17:00:00 GMT"]),
   ("Set-Cookie", ["a=b"])]

/-- Header of a response that is to be cached for as long as an HTTP date can say. -/
def foreverHeader : Header :=
  [("Date", ["Thu, 17 Aug 2017 12:00:00 GMT"]),
   ("Expires", ["Fri, 31 Dec 9999 23:59:59 GMT"])]

/-- The time `Fri, 17 Aug 2018 12:00:00 GMT` in nanoseconds. -/
def replayTime : Int := 1534507200 * 1000000000

/-- A test double of the patterns: `htmlRE` finds the start tag of the page of the
examples, the other patterns find nothing. -/
def testRegexp : RegexpLib where
  headRE := fun _ => none
  htmlRE := fun body => if body = octets "<html></html>" then some (0, 6) else none
  doctypeRE := fun _ => none

/-- The injector of the script `var foo = 1;`. -/
def fooInjector : scriptInjector := { script := octets "<script>var foo = 1;</script>" }

/-- The HTML response of the examples as the proxy hands it to a transformer. -/
def htmlPage : Response := { htmlResponse with Request := some clientRequest }

/-- A request of an HTTP/1.0 client that names no host. -/
def hostlessRequest : Request :=
  { Method := "GET", URL := { Path := "/mail/" }, Proto := "HTTP/1.0", ProtoMinor := 0,
    Host := "", Body := some [] }

/-- Archive with the exchange of `bareRequest` and the empty response under its URL. -/
def mailOnlyArchive : Archive :=
  { Requests := [("example.com", [("https://example.com/mail/", [exchange "GET" "/mail/" ""])])] }

/-- The HTML page of the examples with the status `404`. -/
def notFoundPage : Response :=
  { htmlPage with Status := "404 Not Found", StatusCode := 404 }

/-- A live request for a URL of `closestArchive` with three headers the stored request does
not have. -/
def busyRequest : Request :=
  liveRequest "GET" "/index.html" "a=f&c=e"
    [("Accept", ["text/html"]), ("Cookie", ["FOO=FOO"]), ("X-Test", ["1"])]

/-- Request of a client that names Brotli first. -/
def brFirstRequest : Request :=
  { clientRequest with Header := [("Accept-Encoding", ["br, gzip"])] }

/-- A certificate library that knows the address `127.0.0.1` and signs every template with
a certificate that lists its serial number and the number of its names of both kinds. -/
def signingCrypto : CryptoLib where
  parseIP := fun s => if s = "127.0.0.1" then some [127, 0, 0, 1] else none
  createCertificate := fun template _ _ _ =>
    some (template.SerialNumber ++ [template.DNSNames.length, template.IPAddresses.length])

/-- A test double of `regexp` and `encoding/json` for the rules: one pattern compiles, and
no rules file decodes. -/
def testRules : RuleLib where
  regexpCompile := fun pattern =>
    if pattern = "^https://example\\.com/" then
      some fun s => stringStartsWith s "https://example.com/"
    else none
  jsonRules := fun _ => none

/-- A rule for one URL that adds a cookie and a test header. -/
def mailRule : TransformerRule :=
  { URL := "https://example.com/mail/",
    ExtraHeaders := [("Set-Cookie", ["a=b"]), ("X-Test", ["1"])] }

/-- A rule for the URLs of a host that adds a cookie, as `compile` leaves it. -/
def hostRule : TransformerRule :=
  { URLPattern := "^https://example\\.com/",
    ExtraHeaders := [("Set-Cookie", ["c=d"])],
    urlRE := some fun s => stringStartsWith s "https://example.com/" }

/-- A rule for another URL. -/
def otherRule : TransformerRule :=
  { URL := "https://example.com/index.html", ExtraHeaders := [("X-Other", ["2"])] }

/-- A response that sets a cookie. -/
def cookieResponse : Response :=
  { okResponse with Header := [("Content-Length", ["0"]), ("Set-Cookie", ["x=y"])] }

/-- The header document of the example in the package comment of the test server. -/
def viaDocument : Bytes := octets "\x7b\"Via\":[\"Via1\",\"Via2\"]\x7d"

/-- A test double of the libraries of the test server on the texts of the example in its
package comment; status codes of three digits are accepted. -/
def testOverride : OverrideLib where
  parseInt := fun s =>
    if s = "204" then .ok 204 else if s = "42" then .ok 42 else .error "invalid syntax"
  base64Decode := fun s =>
    if s = "bmV3IGJvZHk=" then .ok (octets "new body")
    else if s = "eyJWaWEiOlsiVmlhMSIsIlZpYTIiXX0=" then .ok viaDocument
    else .error "illegal base64 data"
  jsonHeader := fun b =>
    if b = viaDocument then .ok [("Via", ["Via1", "Via2"])] else .error "invalid character"
  showBytes := fun b => String.mk (b.map Char.ofNat)
  textBytes := octets
  acceptsCode := fun code => decide (100 ≤ code ∧ code ≤ 999)

/-- The request of the example in the package comment of the test server. -/
def overrideRequest : Request :=
  { Method := "GET",
    URL := { Path := "/default",
             RawQuery := "respBody=bmV3IGJvZHk=&respHeader=" ++
               "eyJWaWEiOlsiVmlhMSIsIlZpYTIiXX0%3D&respStatus=204" },
    Host := "chromeproxy-test.appspot.com" }

/-- A request with a status that is no number. -/
def badStatusRequest : Request :=
  { Method := "GET", URL := { Path := "/default", RawQuery := "respStatus=abc" },
    Host := "chromeproxy-test.appspot.com" }

/-- A request with a status of two digits. -/
def lowStatusRequest : Request :=
  { Method := "GET", URL := { Path := "/default", RawQuery := "respStatus=42" },
    Host := "chromeproxy-test.appspot.com" }


/-- A page that begins with a comment in which a `<head>` tag is written. -/
def commentedPage : Bytes := octets "<!-- <head> --><html><head></head></html>"

/-- A page whose inline script writes a second `<head>` tag. -/
def scriptedPage : Bytes :=
  octets "<html><head><script>document.write('<head></head>');</script></head></html>"


/-- Go `bytes.Replace` with an empty `old` for a text of ASCII characters: `new` before every
byte and at the end. -/
def testBytes : BytesLib where
  insertAtRunes := fun s new => s.foldr (fun b acc => new ++ b :: acc) new

/-- The token that wpr.go has replaced by the time seed. -/
def timeSeedToken : Bytes := octets "\x7b\x7bWPR_TIME_SEED_TIMESTAMP\x7d\x7d"

/-- The script of the test `TestReplaceTimeStamp`. -/
def timeSeedScript : Bytes := octets "var time_seed = \x7b\x7bWPR_TIME_SEED_TIMESTAMP\x7d\x7d;"

/-- Archive with an exchange and the TLS material of two hosts, listed in descending order
of the host names. -/
def twoHostArchive : Archive :=
  { Requests := [("example.com", [("https://example.com/mail/", [exchange "GET" "/mail/" ""])])],
    Certs := [("example.org", some [48, 1]), ("example.com", some [48, 130, 1, 10])],
    NegotiatedProtocol := [("example.org", "http/1.1"), ("example.com", "h2")],
    DeterministicTimeSeedMs := 1502971200000 }

/-- The JSON document of `twoHostArchive`, hosts in ascending order. -/
def twoHostDocument : ArchiveDoc :=
  { Requests := [("example.com", [("https://example.com/mail/",
      [{ SerializedRequest := "R0VUIC9tYWlsLyBIVFRQLzEuMQ0KSG9zdDogZXhhbXBsZS5jb20NClVzZXIt" ++
           "QWdlbnQ6IEdvLWh0dHAtY2xpZW50LzEuMQ0KDQo=",
         SerializedResponse := "SFRUUC8xLjEgMjAwIE9LDQpDb250ZW50LUxlbmd0aDogMA0KDQo=" }])])],
    Certs := [("example.com", some "MIIBCg=="), ("example.org", some "MAE=")],
    NegotiatedProtocol := [("example.com", "h2"), ("example.org", "http/1.1")],
    DeterministicTimeSeedMs := 1502971200000 }

/-- The JSON text of `twoHostDocument`. -/
def twoHostText : Bytes :=
  octets ("\x7b\"Requests\":\x7b\"example.com\":\x7b\"https://example.com/mail/\":[\x7b" ++
    "\"SerializedRequest\":\"R0VUIC9tYWlsLyBIVFRQLzEuMQ0KSG9zdDogZXhhbXBsZS5jb20NClVzZXIt" ++
    "QWdlbnQ6IEdvLWh0dHAtY2xpZW50LzEuMQ0KDQo=\",\"SerializedResponse\":" ++
    "\"SFRUUC8xLjEgMjAwIE9LDQpDb250ZW50LUxlbmd0aDogMA0KDQo=\"\x7d]\x7d\x7d,\"Certs\":\x7b" ++
    "\"example.com\":\"MIIBCg==\",\"example.org\":\"MAE=\"\x7d,\"NegotiatedProtocol\":\x7b" ++
    "\"example.com\":\"h2\",\"example.org\":\"http/1.1\"\x7d," ++
    "\"DeterministicTimeSeedMs\":1502971200000\x7d\n")

/-- Test double of `encoding/json`, `encoding/base64` and `compress/gzip` on the document of
`twoHostArchive`; the compressor stores its input behind the gzip magic number. -/
def testJson : JsonLib where
  print := fun d => if d = twoHostDocument then twoHostText else []
  parse := fun text => if text = twoHostText then some twoHostDocument else none
  base64 := fun b =>
    if b = requestWire "GET" "/mail/" "" then
      "R0VUIC9tYWlsLyBIVFRQLzEuMQ0KSG9zdDogZXhhbXBsZS5jb20NClVzZXIt" ++
        "QWdlbnQ6IEdvLWh0dHAtY2xpZW50LzEuMQ0KDQo="
    else if b = okWire then "SFRUUC8xLjEgMjAwIE9LDQpDb250ZW50LUxlbmd0aDogMA0KDQo="
    else if b = [48, 130, 1, 10] then "MIIBCg=="
    else if b = [48, 1] then "MAE="
    else ""
  unbase64 := fun text =>
    if text = "R0VUIC9tYWlsLyBIVFRQLzEuMQ0KSG9zdDogZXhhbXBsZS5jb20NClVzZXIt" ++
        "QWdlbnQ6IEdvLWh0dHAtY2xpZW50LzEuMQ0KDQo=" then some (requestWire "GET" "/mail/" "")
    else if text = "SFRUUC8xLjEgMjAwIE9LDQpDb250ZW50LUxlbmd0aDogMA0KDQo=" then some okWire
    else if text = "MIIBCg==" then some [48, 130, 1, 10]
    else if text = "MAE=" then some [48, 1]
    else none
  gzip := fun b => 31 :: 139 :: b
  gunzip := fun c =>
    match c with
    | 31 :: 139 :: b => some b
    | _ => none

/-! # Theorems -/

/-! ## String comparison -/

theorem lessCodes_irrefl (a : List Nat) : lessCodes a a = false := by
  induction a with
  | nil => rfl
  | cons x xs ih => simp [lessCodes, ih]

theorem lessCodes_trans (a b c : List Nat) (h1 : lessCodes a b = true)
    (h2 : lessCodes b c = true) : lessCodes a c = true := by
  induction a generalizing b c with
  | nil =>
    cases b with
    | nil => simp [lessCodes] at h1
    | cons y ys =>
      cases c with
      | nil => simp [lessCodes] at h2
      | cons z zs => simp [lessCodes]
  | cons x xs ih =>
    cases b with
    | nil => simp [lessCodes] at h1
    | cons y ys =>
      cases c with
      | nil => simp [lessCodes] at h2
      | cons z zs =>
        simp only [lessCodes, Bool.or_eq_true, Bool.and_eq_true, decide_eq_true_eq] at h1 h2 ⊢
        rcases h1 with h1 | ⟨h1, h1'⟩ <;> rcases h2 with h2 | ⟨h2, h2'⟩
        · left; omega
        · left; omega
        · left; omega
        · right; exact ⟨by omega, ih ys zs h1' h2'⟩

theorem lessCodes_total (a b : List Nat) (h1 : lessCodes a b = false)
    (h2 : lessCodes b a = false) : a = b := by
  induction a generalizing b with
  | nil =>
    cases b with
    | nil => rfl
    | cons y ys => simp [lessCodes] at h1
  | cons x xs ih =>
    cases b with
    | nil => simp [lessCodes] at h2
    | cons y ys =>
      simp only [lessCodes, Bool.or_eq_false_iff, Bool.and_eq_false_imp, decide_eq_false_iff_not,
        decide_eq_true_eq] at h1 h2
      have hxy : x = y := by omega
      subst hxy
      rw [ih ys (h1.2 rfl) (h2.2 rfl)]

theorem stringLess_irrefl (a : String) : stringLess a a = false :=
  lessCodes_irrefl _

theorem stringLess_trans (a b c : String) (h1 : stringLess a b = true)
    (h2 : stringLess b c = true) : stringLess a c = true :=
  lessCodes_trans _ _ _ h1 h2

theorem stringLess_total (a b : String) (h1 : stringLess a b = false)
    (h2 : stringLess b a = false) : a = b := by
  have h := lessCodes_total _ _ h1 h2
  have hinj : Function.Injective Char.toNat := by
    intro x y hxy
    exact Char.ext (UInt32.ext (by simpa [Char.toNat] using hxy))
  have hdata := List.map_injective_iff.2 hinj h
  exact String.ext hdata

/-! ## Ratios -/

theorem Ratio.gt_iff {a b : Ratio} (ha : a.Proper) :
    Ratio.gt a b = true ↔ b.val < a.val := by
  unfold Ratio.gt Ratio.val
  by_cases had : a.den = 0 <;> by_cases hbd : b.den = 0
  · simp [had, hbd]
  · have := ha had
    simp [had, hbd]
    exact ⟨this, Nat.pos_of_ne_zero hbd⟩
  · simp [had, hbd]
  · have h1 : (0 : ℚ) < a.den := by exact_mod_cast Nat.pos_of_ne_zero had
    have h2 : (0 : ℚ) < b.den := by exact_mod_cast Nat.pos_of_ne_zero hbd
    simp only [had, hbd, if_false, decide_eq_true_eq, WithTop.coe_lt_coe]
    rw [div_lt_div_iff₀ h2 h1]
    exact_mod_cast Iff.rfl

theorem Ratio.eq_iff {a b : Ratio} (ha : a.Proper) (hb : b.Proper) :
    Ratio.eq a b = true ↔ a.val = b.val := by
  unfold Ratio.eq Ratio.val
  by_cases had : a.den = 0 <;> by_cases hbd : b.den = 0
  · simp [had, hbd]
  · have := ha had
    simp [had, hbd]
    omega
  · have := hb hbd
    simp [had, hbd]
    omega
  · have h1 : (a.den : ℚ) ≠ 0 := by exact_mod_cast had
    have h2 : (b.den : ℚ) ≠ 0 := by exact_mod_cast hbd
    simp only [had, hbd, if_false, decide_eq_true_eq, WithTop.coe_inj]
    rw [div_eq_div_iff h1 h2]
    exact_mod_cast Iff.rfl

theorem Ratio.zero_proper : Ratio.zero.Proper := by
  intro h; simp [Ratio.zero] at h

theorem Ratio.zero_val : Ratio.zero.val = 0 := by
  simp [Ratio.zero, Ratio.val]

/-! ## Counting matches -/

theorem foldl_count {α : Type} (p : α → Bool) (l : List α) (n : Nat) :
    l.foldl (fun m x => if p x then m + 1 else m) n = n + l.countP p := by
  induction l generalizing n with
  | nil => simp
  | cons x xs ih =>
    simp only [List.foldl_cons, List.countP_cons]
    rw [ih]
    by_cases hx : p x = true <;> simp [hx]; omega

theorem countMatches_eq (ord : RangeOrder) (a b : Header) :
    countMatches ord a b = 1 + a.countP (fun kv => deepEqualAt kv.2 b kv.1) := by
  unfold countMatches
  have h := foldl_count (fun kv : String × List String => deepEqualAt kv.2 b kv.1)
    (ord.range a) 1
  rw [(ord.perm a).countP_eq] at h
  exact h

theorem similarity_order (ord ord' : RangeOrder) (a b : Header) :
    similarity ord a b = similarity ord' a b := by
  unfold similarity
  rw [countMatches_eq, countMatches_eq]

theorem similarity_proper (ord : RangeOrder) (a b : Header) : (similarity ord a b).Proper := by
  intro _
  simp only [similarity, countMatches_eq]
  omega

theorem similarity_val (ord : RangeOrder) (a b : Header) :
    (similarity ord a b).val = specRatio a b := by
  unfold Ratio.val specRatio similarity
  simp only [countMatches_eq]
  by_cases h : a.length + b.length = 0
  · simp [h]
  · simp only [h, if_false, WithTop.coe_inj]
    have : List.countP (fun kv => deepEqualAt kv.2 b kv.1) a = matching a b := rfl
    rw [this]
    push_cast
    ring

theorem similarity_pos (ord : RangeOrder) (a b : Header) :
    Ratio.zero.val < (similarity ord a b).val := by
  rw [← Ratio.gt_iff (similarity_proper ord a b)]
  simp only [Ratio.gt, Ratio.zero, similarity, countMatches_eq, decide_eq_true_eq]
  omega

/-! ## The exact-URL pass -/

theorem headerRatio_eq (ord : RangeOrder) (req : Request) (found : Request × Response) :
    (similarity ord found.1.Header req.Header).val = headerRatio req found :=
  similarity_val ord _ _

theorem exactStep_candidate (L : HttpLib) (ord : RangeOrder) (req : Request)
    (st : Option (Request × Response) × Ratio) (r : ArchivedRequest)
    (c : Request × Response) (h : IsCandidate L req r c) :
    exactStep L ord req st r =
      if Ratio.gt (similarity ord c.1.Header req.Header) st.2
      then (some c, similarity ord c.1.Header req.Header) else st := by
  obtain ⟨h1, h2⟩ := h
  obtain ⟨q, s⟩ := c
  simp only [exactStep, h1]
  simp only at h2
  simp [h2]

theorem exactStep_skip (L : HttpLib) (ord : RangeOrder) (req : Request)
    (st : Option (Request × Response) × Ratio) (r : ArchivedRequest)
    (h : ∀ c, ¬ IsCandidate L req r c) :
    exactStep L ord req st r = st := by
  unfold exactStep
  cases hu : ArchivedRequest.unmarshal L r with
  | none => rfl
  | some c =>
    obtain ⟨q, s⟩ := c
    have hne : q.Method ≠ req.Method := fun hm => h (q, s) ⟨hu, hm⟩
    simp [hne]

theorem exactPass_inv (L : HttpLib) (ord : RangeOrder) (req : Request)
    (rs : List ArchivedRequest) : ExactInv L ord req rs (exactPass L ord req rs) := by
  induction rs using List.reverseRecOn with
  | nil => exact Or.inl ⟨rfl, rfl, by simp⟩
  | append_singleton l x ih =>
    have hfold : exactPass L ord req (l ++ [x]) = exactStep L ord req (exactPass L ord req l) x := by
      simp [exactPass, List.foldl_append]
    rw [hfold]
    generalize exactPass L ord req l = st at ih
    by_cases hx : ∃ c, IsCandidate L req x c
    · obtain ⟨c, hc⟩ := hx
      rw [exactStep_candidate L ord req st x c hc]
      have hval : (similarity ord c.1.Header req.Header).val = headerRatio req c :=
        headerRatio_eq ord req c
      have hcand_x : ∀ c', IsCandidate L req x c' → c' = c := by
        intro c' hc'
        have := hc'.1.symm.trans hc.1
        exact Option.some.inj this
      rcases ih with ⟨h1, h2, h3⟩ | ⟨i, b, h1, ⟨ar, har, hb⟩, h2, h3, h4⟩
      · -- first candidate
        have hgt : Ratio.gt (similarity ord c.1.Header req.Header) st.2 = true := by
          rw [Ratio.gt_iff (similarity_proper ord _ _), h2]
          exact similarity_pos ord _ _
        rw [if_pos hgt]
        refine Or.inr ⟨l.length, c, rfl, ⟨x, by simp, hc⟩, rfl, ?_, ?_⟩
        · intro j ar c' hj hc'
          rcases Nat.lt_or_ge j l.length with hlt | hge
          · rw [List.getElem?_append_left hlt] at hj
            exact absurd hc' (h3 ar (List.getElem?_mem hj) c')
          · rw [List.getElem?_append_right hge] at hj
            have hjx : ar = x := by
              cases hk : j - l.length with
              | zero => rw [hk] at hj; simpa using hj.symm
              | succ n => rw [hk] at hj; simp at hj
            subst hjx
            rw [hcand_x c' hc']
        · intro j ar c' hlt hj hc'
          rw [List.getElem?_append_left hlt] at hj
          exact absurd hc' (h3 ar (List.getElem?_mem hj) c')
      · have hbval : st.2.val = headerRatio req b := by
          rw [h2, headerRatio_eq]
        have hil : i < l.length := by
          by_contra hcon
          rw [List.getElem?_eq_none (Nat.le_of_not_lt hcon)] at har
          cases har
        by_cases hgt : Ratio.gt (similarity ord c.1.Header req.Header) st.2 = true
        · rw [if_pos hgt]
          rw [Ratio.gt_iff (similarity_proper ord _ _), hval, hbval] at hgt
          refine Or.inr ⟨l.length, c, rfl, ⟨x, by simp, hc⟩, rfl, ?_, ?_⟩
          · intro j ar' c' hj hc'
            rcases Nat.lt_or_ge j l.length with hlt | hge
            · rw [List.getElem?_append_left hlt] at hj
              exact le_of_lt (lt_of_le_of_lt (h3 j ar' c' hj hc') hgt)
            · rw [List.getElem?_append_right hge] at hj
              have hjx : ar' = x := by
                cases hk : j - l.length with
                | zero => rw [hk] at hj; simpa using hj.symm
                | succ n => rw [hk] at hj; simp at hj
              subst hjx
              rw [hcand_x c' hc']
          · intro j ar' c' hlt hj hc'
            rw [List.getElem?_append_left hlt] at hj
            exact lt_of_le_of_lt (h3 j ar' c' hj hc') hgt
        · rw [if_neg hgt]
          rw [Ratio.gt_iff (similarity_proper ord _ _), hval, hbval, not_lt] at hgt
          refine Or.inr ⟨i, b, h1, ⟨ar, ?_, hb⟩, h2, ?_, ?_⟩
          · rw [List.getElem?_append_left hil]; exact har
          · intro j ar' c' hj hc'
            rcases Nat.lt_or_ge j l.length with hlt | hge
            · rw [List.getElem?_append_left hlt] at hj
              exact h3 j ar' c' hj hc'
            · rw [List.getElem?_append_right hge] at hj
              have hjx : ar' = x := by
                cases hk : j - l.length with
                | zero => rw [hk] at hj; simpa using hj.symm
                | succ n => rw [hk] at hj; simp at hj
              subst hjx
              rw [hcand_x c' hc']
              exact hgt
          · intro j ar' c' hlt hj hc'
            rw [List.getElem?_append_left (lt_trans hlt hil)] at hj
            exact h4 j ar' c' hlt hj hc'
    · have hx' : ∀ c, ¬ IsCandidate L req x c := fun c hc => hx ⟨c, hc⟩
      rw [exactStep_skip L ord req st x hx']
      rcases ih with ⟨h1, h2, h3⟩ | ⟨i, b, h1, ⟨ar, har, hb⟩, h2, h3, h4⟩
      · refine Or.inl ⟨h1, h2, ?_⟩
        intro ar har c
        rcases List.mem_append.1 har with hm | hm
        · exact h3 ar hm c
        · rw [List.mem_singleton.1 hm]; exact hx' c
      · have hil : i < l.length := by
          by_contra hcon
          rw [List.getElem?_eq_none (Nat.le_of_not_lt hcon)] at har
          cases har
        refine Or.inr ⟨i, b, h1, ⟨ar, ?_, hb⟩, h2, ?_, ?_⟩
        · rw [List.getElem?_append_left hil]; exact har
        · intro j ar' c' hj hc'
          rcases Nat.lt_or_ge j l.length with hlt | hge
          · rw [List.getElem?_append_left hlt] at hj
            exact h3 j ar' c' hj hc'
          · rw [List.getElem?_append_right hge] at hj
            have hjx : ar' = x := by
              cases hk : j - l.length with
              | zero => rw [hk] at hj; simpa using hj.symm
              | succ n => rw [hk] at hj; simp at hj
            subst hjx
            exact absurd hc' (hx' c')
        · intro j ar' c' hlt hj hc'
          rw [List.getElem?_append_left (lt_trans hlt hil)] at hj
          exact h4 j ar' c' hlt hj hc'

theorem exactPass_none (L : HttpLib) (ord : RangeOrder) (req : Request)
    (rs : List ArchivedRequest) (h : (exactPass L ord req rs).1 = none) :
    (exactPass L ord req rs).2 = Ratio.zero ∧ ∀ ar ∈ rs, ∀ c, ¬ IsCandidate L req ar c := by
  rcases exactPass_inv L ord req rs with ⟨_, h2, h3⟩ | ⟨i, b, h1, _⟩
  · exact ⟨h2, h3⟩
  · rw [h] at h1; cases h1

theorem getList_length_pos {V : Type} (m : GoMap (List V)) (k : String) (x : V)
    (h : x ∈ GoMap.getList m k) : m.length ≠ 0 := by
  cases m with
  | nil => simp [GoMap.getList, GoMap.get] at h
  | cons e rest => simp

/-- The exact-URL pass decides `FindRequest` as soon as the exact list holds a candidate. -/
theorem findRequest_exact (L : HttpLib) (ord : RangeOrder) (a : Archive) (req : Request)
    (scheme : String) (ar : ArchivedRequest) (c : Request × Response)
    (hmem : ar ∈ exactList L a req scheme)
    (hc : IsCandidate L req ar c) :
    ∃ found, (exactPass L ord req (exactList L a req scheme)).1 = some found ∧
      FindRequest L ord a req scheme = .ok found := by
  have hlen := getList_length_pos _ _ _ hmem
  have hpos : 0 < (exactList L a req scheme).length := List.length_pos_of_mem hmem
  cases hex : (exactPass L ord req (exactList L a req scheme)).1 with
  | none => exact absurd hc ((exactPass_none L ord req _ hex).2 ar hmem c)
  | some found =>
    refine ⟨found, rfl, ?_⟩
    simp only [FindRequest, hlen, if_false, hpos, if_true, hex]

/-- C1: when the list stored under the live request's host and absolute URL holds an exchange
that decodes and has the live method, `FindRequest` returns, without error, the decoding of
an exchange of that same list that has the live method; it does not return `ErrNotFound`,
whatever the headers are and whether or not other exchanges of the list decode. -/
theorem findRequest_exact_url_hit (L : HttpLib) (ord : RangeOrder) (a : Archive)
    (req : Request) (scheme : String) (ar : ArchivedRequest) (c : Request × Response)
    (hmem : ar ∈ exactList L a req scheme)
    (hdec : ArchivedRequest.unmarshal L ar = some c) (hmethod : c.1.Method = req.Method) :
    ∃ ar' ∈ exactList L a req scheme,
      ∃ found, ArchivedRequest.unmarshal L ar' = some found ∧
        found.1.Method = req.Method ∧ FindRequest L ord a req scheme = .ok found := by
  obtain ⟨found, hex, hfind⟩ := findRequest_exact L ord a req scheme ar c hmem ⟨hdec, hmethod⟩
  rcases exactPass_inv L ord req (exactList L a req scheme) with
    ⟨h1, _⟩ | ⟨i, b, h1, ⟨ar', har', hb⟩, _⟩
  · rw [hex] at h1; cases h1
  · rw [hex] at h1
    cases h1
    exact ⟨ar', List.getElem?_mem har', found, hb.1, hb.2, hfind⟩

/-- C4: in the exact-URL pass `FindRequest` returns the decoding of an exchange of the exact
list that decodes and has the live method, whose header similarity
`2 * (m + 1) / (|HDR_e| + |HDR_live|)` is maximal among such exchanges, and which is the
first of the list that reaches this maximum. -/
theorem findRequest_exact_first_best (L : HttpLib) (ord : RangeOrder) (a : Archive)
    (req : Request) (scheme : String) (ar : ArchivedRequest) (c : Request × Response)
    (hmem : ar ∈ exactList L a req scheme)
    (hdec : ArchivedRequest.unmarshal L ar = some c) (hmethod : c.1.Method = req.Method) :
    ∃ (i : Nat) (best : ArchivedRequest) (found : Request × Response),
      (exactList L a req scheme)[i]? = some best ∧
      ArchivedRequest.unmarshal L best = some found ∧ found.1.Method = req.Method ∧
      FindRequest L ord a req scheme = .ok found ∧
      (∀ (j : Nat) other c', (exactList L a req scheme)[j]? = some other →
        ArchivedRequest.unmarshal L other = some c' → c'.1.Method = req.Method →
        specRatio c'.1.Header req.Header ≤ specRatio found.1.Header req.Header) ∧
      (∀ (j : Nat) other c', j < i → (exactList L a req scheme)[j]? = some other →
        ArchivedRequest.unmarshal L other = some c' → c'.1.Method = req.Method →
        specRatio c'.1.Header req.Header < specRatio found.1.Header req.Header) := by
  obtain ⟨found, hex, hfind⟩ := findRequest_exact L ord a req scheme ar c hmem ⟨hdec, hmethod⟩
  rcases exactPass_inv L ord req (exactList L a req scheme) with
    ⟨h1, _⟩ | ⟨i, b, h1, ⟨ar', har', hb⟩, _, h3, h4⟩
  · rw [hex] at h1; cases h1
  · rw [hex] at h1
    cases h1
    refine ⟨i, ar', found, har', hb.1, hb.2, hfind, ?_, ?_⟩
    · intro j other c' hj hd hm
      exact h3 j other c' hj ⟨hd, hm⟩
    · intro j other c' hlt hj hd hm
      exact h4 j other c' hlt hj ⟨hd, hm⟩

/-! ## The fuzzy-path pass -/

theorem queryRatio_eq (L : HttpLib) (ord : RangeOrder) (req : Request) (ustr : String)
    (u : URL) (h : L.urlParse ustr = some u) :
    (similarity ord (L.urlQuery req.URL) (L.urlQuery u)).val = queryRatio L req ustr := by
  rw [similarity_val, queryRatio, h]

theorem fuzzyStep_skip (L : HttpLib) (ord : RangeOrder) (req : Request) (st : String × Ratio)
    (ustr : String) (h : ¬ IsPathMatch L req ustr) : fuzzyStep L ord req st ustr = st := by
  unfold fuzzyStep
  cases hp : L.urlParse ustr with
  | none => rfl
  | some u =>
    have hne : u.Path ≠ req.URL.Path := fun hm => h ⟨u, hp, hm⟩
    simp [hne]

theorem fuzzyStep_match (L : HttpLib) (ord : RangeOrder) (req : Request) (st : String × Ratio)
    (ustr : String) (u : URL) (hp : L.urlParse ustr = some u) (hm : u.Path = req.URL.Path) :
    fuzzyStep L ord req st ustr =
      if (Ratio.gt (similarity ord (L.urlQuery req.URL) (L.urlQuery u)) st.2 ||
          (Ratio.eq (similarity ord (L.urlQuery req.URL) (L.urlQuery u)) st.2 &&
            stringLess ustr st.1)) = true
      then (ustr, similarity ord (L.urlQuery req.URL) (L.urlQuery u)) else st := by
  simp [fuzzyStep, hp, hm]

theorem fuzzyStep_order (L : HttpLib) (ord ord' : RangeOrder) (req : Request) :
    fuzzyStep L ord req = fuzzyStep L ord' req := by
  funext st ustr
  unfold fuzzyStep
  cases L.urlParse ustr with
  | none => rfl
  | some u => simp only [similarity_order ord ord']

theorem fuzzyFold_inv (L : HttpLib) (ord : RangeOrder) (req : Request) (keys : List String) :
    FuzzyInv L req keys (keys.foldl (fuzzyStep L ord req) ("", Ratio.zero)) := by
  induction keys using List.reverseRecOn with
  | nil => exact Or.inl ⟨rfl, rfl, by simp⟩
  | append_singleton l x ih =>
    rw [List.foldl_append, List.foldl_cons, List.foldl_nil]
    generalize l.foldl (fuzzyStep L ord req) ("", Ratio.zero) = st at ih
    by_cases hx : IsPathMatch L req x
    · obtain ⟨u, hp, hm⟩ := hx
      rw [fuzzyStep_match L ord req st x u hp hm]
      have hprop := similarity_proper ord (L.urlQuery req.URL) (L.urlQuery u)
      have hval := queryRatio_eq L ord req x u hp
      rcases ih with ⟨h1, h2, h3⟩ | ⟨h1, h2, h3, h4, h5⟩
      · have hgt : Ratio.gt (similarity ord (L.urlQuery req.URL) (L.urlQuery u)) st.2 = true := by
          rw [Ratio.gt_iff hprop, h2]
          exact similarity_pos ord _ _
        rw [hgt, Bool.true_or, if_pos rfl]
        refine Or.inr ⟨hprop, hval, by simp, ⟨u, hp, hm⟩, ?_⟩
        intro k hk hkm
        rcases List.mem_append.1 hk with hk | hk
        · exact absurd hkm (h3 k hk)
        · rw [List.mem_singleton.1 hk]
          exact Or.inr ⟨rfl, stringLess_irrefl x⟩
      · by_cases hcond : (Ratio.gt (similarity ord (L.urlQuery req.URL) (L.urlQuery u)) st.2 ||
            (Ratio.eq (similarity ord (L.urlQuery req.URL) (L.urlQuery u)) st.2 &&
              stringLess x st.1)) = true
        · rw [if_pos hcond]
          refine Or.inr ⟨hprop, hval, by simp, ⟨u, hp, hm⟩, ?_⟩
          simp only [Bool.or_eq_true, Bool.and_eq_true] at hcond
          rw [Ratio.gt_iff hprop, Ratio.eq_iff hprop h1, hval, h2] at hcond
          intro k hk hkm
          rcases List.mem_append.1 hk with hk | hk
          · rcases hcond with hc | ⟨hc, hless⟩
            · rcases h5 k hk hkm with h | ⟨h, _⟩
              · exact Or.inl (lt_trans h hc)
              · exact Or.inl (h ▸ hc)
            · rcases h5 k hk hkm with h | ⟨h, hnl⟩
              · exact Or.inl (hc ▸ h)
              · refine Or.inr ⟨h.trans hc.symm, ?_⟩
                by_contra hcon
                have hkx : stringLess k x = true := by simpa using hcon
                have := stringLess_trans k x st.1 hkx hless
                rw [hnl] at this
                cases this
          · rw [List.mem_singleton.1 hk]
            exact Or.inr ⟨rfl, stringLess_irrefl x⟩
        · rw [if_neg hcond]
          refine Or.inr ⟨h1, h2, List.mem_append_left _ h3, h4, ?_⟩
          simp only [Bool.or_eq_true, Bool.and_eq_true, not_or, not_and] at hcond
          rw [Ratio.gt_iff hprop, Ratio.eq_iff hprop h1, hval, h2] at hcond
          intro k hk hkm
          rcases List.mem_append.1 hk with hk | hk
          · exact h5 k hk hkm
          · rw [List.mem_singleton.1 hk]
            rcases lt_or_eq_of_le (not_lt.1 hcond.1) with h | h
            · exact Or.inl h
            · exact Or.inr ⟨h, by simpa using hcond.2 h⟩
    · rw [fuzzyStep_skip L ord req st x hx]
      rcases ih with ⟨h1, h2, h3⟩ | ⟨h1, h2, h3, h4, h5⟩
      · refine Or.inl ⟨h1, h2, ?_⟩
        intro k hk
        rcases List.mem_append.1 hk with hk | hk
        · exact h3 k hk
        · rw [List.mem_singleton.1 hk]; exact hx
      · refine Or.inr ⟨h1, h2, List.mem_append_left _ h3, h4, ?_⟩
        intro k hk hkm
        rcases List.mem_append.1 hk with hk | hk
        · exact h5 k hk hkm
        · rw [List.mem_singleton.1 hk] at hkm; exact absurd hkm hx

theorem fuzzyPass_best (L : HttpLib) (ord : RangeOrder) (req : Request)
    (hostMap : GoMap (List ArchivedRequest)) :
    IsFuzzyBest L req (hostMap.map Prod.fst) (fuzzyPass L ord req hostMap Ratio.zero).1 := by
  have hperm : ((ord.range hostMap).map Prod.fst).Perm (hostMap.map Prod.fst) :=
    (ord.perm hostMap).map _
  have hmem : ∀ k, k ∈ (ord.range hostMap).map Prod.fst ↔ k ∈ hostMap.map Prod.fst :=
    fun k => hperm.mem_iff
  rcases fuzzyFold_inv L ord req ((ord.range hostMap).map Prod.fst) with
    ⟨h1, _, h3⟩ | ⟨_, _, h3, h4, h5⟩
  · exact Or.inl ⟨h1, fun k hk => h3 k ((hmem k).2 hk)⟩
  · exact Or.inr ⟨(hmem _).1 h3, h4, fun k hk => h5 k ((hmem k).2 hk)⟩

theorem isFuzzyBest_unique (L : HttpLib) (req : Request) (keys : List String) (u u' : String)
    (h : IsFuzzyBest L req keys u) (h' : IsFuzzyBest L req keys u') : u = u' := by
  rcases h with ⟨h1, h2⟩ | ⟨h1, h2, h3⟩ <;> rcases h' with ⟨h1', h2'⟩ | ⟨h1', h2', h3'⟩
  · rw [h1, h1']
  · exact absurd h2' (h2 u' h1')
  · exact absurd h2 (h2' u h1)
  · rcases h3 u' h1' h2' with hlt | ⟨heq, hnl⟩ <;> rcases h3' u h1 h2 with hlt' | ⟨heq', hnl'⟩
    · exact absurd hlt (lt_asymm hlt')
    · rw [heq'] at hlt; exact absurd hlt (lt_irrefl _)
    · rw [heq] at hlt'; exact absurd hlt' (lt_irrefl _)
    · exact stringLess_total u u' hnl' hnl

/-! ## FindRequest -/

theorem exactStep_order (L : HttpLib) (ord ord' : RangeOrder) (req : Request) :
    exactStep L ord req = exactStep L ord' req := by
  funext st r
  unfold exactStep
  cases ArchivedRequest.unmarshal L r with
  | none => rfl
  | some c => simp only [similarity_order ord ord']

theorem findExactMatch_none (L : HttpLib) (req : Request) (rs : List ArchivedRequest)
    (h : ∀ ar ∈ rs, ∀ c, ¬ IsCandidate L req ar c) :
    findExactMatch L rs req.Method = .err .ErrNotFound := by
  induction rs with
  | nil => rfl
  | cons ar rest ih =>
    have ih' := ih (fun ar' har' => h ar' (List.mem_cons_of_mem _ har'))
    unfold findExactMatch
    cases hu : ArchivedRequest.unmarshal L ar with
    | none => simpa using ih'
    | some c =>
      obtain ⟨q, s⟩ := c
      have hne : q.Method ≠ req.Method := fun hm => h ar (List.mem_cons_self _ _) (q, s) ⟨hu, hm⟩
      simpa [hne] using ih'

theorem findExactMatch_first (L : HttpLib) (req : Request) (rs : List ArchivedRequest)
    (i : Nat) (ar : ArchivedRequest) (c : Request × Response) (hi : rs[i]? = some ar)
    (hc : IsCandidate L req ar c)
    (hfirst : ∀ (j : Nat) ar' c', j < i → rs[j]? = some ar' → ¬ IsCandidate L req ar' c') :
    findExactMatch L rs req.Method = .ok c := by
  induction rs generalizing i with
  | nil => simp at hi
  | cons x rest ih =>
    cases i with
    | zero =>
      simp only [List.getElem?_cons_zero, Option.some.injEq] at hi
      subst hi
      obtain ⟨q, s⟩ := c
      have h1 := hc.1
      have h2 : q.Method = req.Method := hc.2
      simp [findExactMatch, h1, h2]
    | succ n =>
      simp only [List.getElem?_cons_succ] at hi
      have ih' := ih n hi (fun j ar' c' hj hget =>
        hfirst (j + 1) ar' c' (Nat.succ_lt_succ hj) (by simpa using hget))
      have hx : ∀ c', ¬ IsCandidate L req x c' :=
        fun c' => hfirst 0 x c' (Nat.succ_pos n) (by simp)
      unfold findExactMatch
      cases hu : ArchivedRequest.unmarshal L x with
      | none => simpa using ih'
      | some c' =>
        obtain ⟨q, s⟩ := c'
        have hne : q.Method ≠ req.Method := fun hm => hx (q, s) ⟨hu, hm⟩
        simpa [hne] using ih'

/-- The function `FindRequest` with the fuzzy-path pass started from the zero ratio: the
fuzzy pass is only reached when the exact-URL pass kept no exchange, and then `bestRatio` is
still zero. -/
theorem findRequest_eq (L : HttpLib) (ord : RangeOrder) (a : Archive) (req : Request)
    (scheme : String) :
    FindRequest L ord a req scheme =
      if (GoMap.getMap a.Requests req.Host).length = 0 then .err .ErrNotFound
      else
        match (exactPass L ord req (exactList L a req scheme)).1 with
        | some found => .ok found
        | none =>
          if (fuzzyPass L ord req (GoMap.getMap a.Requests req.Host) Ratio.zero).1 ≠ "" then
            findExactMatch L (GoMap.getList (GoMap.getMap a.Requests req.Host)
              (fuzzyPass L ord req (GoMap.getMap a.Requests req.Host) Ratio.zero).1) req.Method
          else .err .ErrNotFound := by
  unfold FindRequest
  by_cases hlen : (GoMap.getMap a.Requests req.Host).length = 0
  · simp [hlen]
  · simp only [hlen, if_false]
    by_cases hpos : 0 < (exactList L a req scheme).length
    · simp only [hpos, if_true]
      cases hex : (exactPass L ord req (exactList L a req scheme)).1 with
      | some found => rfl
      | none =>
        simp only []
        rw [(exactPass_none L ord req _ hex).1]
    · have hnil : exactList L a req scheme = [] :=
        List.length_eq_zero.1 (Nat.eq_zero_of_not_pos hpos)
      simp [hnil, exactPass]

/-- The function `FindRequest` when the exact list holds no exchange with the live method. -/
theorem findRequest_fuzzy (L : HttpLib) (ord : RangeOrder) (a : Archive) (req : Request)
    (scheme : String)
    (hno : ∀ ar ∈ exactList L a req scheme, ∀ c, ¬ IsCandidate L req ar c) :
    FindRequest L ord a req scheme =
      if (GoMap.getMap a.Requests req.Host).length = 0 then .err .ErrNotFound
      else if (fuzzyPass L ord req (GoMap.getMap a.Requests req.Host) Ratio.zero).1 ≠ "" then
        findExactMatch L (GoMap.getList (GoMap.getMap a.Requests req.Host)
          (fuzzyPass L ord req (GoMap.getMap a.Requests req.Host) Ratio.zero).1) req.Method
      else .err .ErrNotFound := by
  rw [findRequest_eq]
  cases hex : (exactPass L ord req (exactList L a req scheme)).1 with
  | none => rfl
  | some found =>
    rcases exactPass_inv L ord req (exactList L a req scheme) with ⟨h1, _⟩ | ⟨i, b, _, ⟨ar, har, hb⟩, _⟩
    · rw [hex] at h1; cases h1
    · exact absurd hb (hno ar (List.getElem?_mem har) b)

/-- C2: when the exact list holds no exchange with the live method and some URL key of the
host has the live request's path, the URL chosen by the fuzzy pass of `FindRequest` is a key
of the host with that path whose query similarity `2 * (m + 1) / (|Q_e| + |Q_live|)` is
maximal among the keys with that path, and no key with that path and the same similarity is
a lexicographically smaller string; `FindRequest` then searches the list of that URL. -/
theorem findRequest_fuzzy_best_url (L : HttpLib) (ord : RangeOrder) (a : Archive)
    (req : Request) (scheme : String)
    (hno : ∀ ar ∈ exactList L a req scheme,
      ∀ c, ArchivedRequest.unmarshal L ar = some c → c.1.Method ≠ req.Method)
    (hpath : ∃ k ∈ (GoMap.getMap a.Requests req.Host).map Prod.fst, IsPathMatch L req k) :
    ∃ u, u = (fuzzyPass L ord req (GoMap.getMap a.Requests req.Host) Ratio.zero).1 ∧
      u ∈ (GoMap.getMap a.Requests req.Host).map Prod.fst ∧ IsPathMatch L req u ∧
      (∀ k ∈ (GoMap.getMap a.Requests req.Host).map Prod.fst, IsPathMatch L req k →
        queryRatio L req k ≤ queryRatio L req u) ∧
      (∀ k ∈ (GoMap.getMap a.Requests req.Host).map Prod.fst, IsPathMatch L req k →
        queryRatio L req k = queryRatio L req u → stringLess k u = false) ∧
      FindRequest L ord a req scheme =
        if u ≠ "" then
          findExactMatch L (GoMap.getList (GoMap.getMap a.Requests req.Host) u) req.Method
        else .err .ErrNotFound := by
  refine ⟨_, rfl, ?_⟩
  have hfind := findRequest_fuzzy L ord a req scheme (fun ar har c hc => hno ar har c hc.1 hc.2)
  obtain ⟨k0, hk0, hm0⟩ := hpath
  have hlen : (GoMap.getMap a.Requests req.Host).length ≠ 0 := by
    intro h
    rw [List.length_eq_zero.1 h] at hk0
    simp at hk0
  rw [if_neg hlen] at hfind
  rcases fuzzyPass_best L ord req (GoMap.getMap a.Requests req.Host) with
    ⟨_, h2⟩ | ⟨h1, h2, h3⟩
  · exact absurd hm0 (h2 k0 hk0)
  · refine ⟨h1, h2, ?_, ?_, hfind⟩
    · intro k hk hkm
      rcases h3 k hk hkm with h | ⟨h, _⟩
      · exact le_of_lt h
      · exact le_of_eq h
    · intro k hk hkm heq
      rcases h3 k hk hkm with h | ⟨_, h⟩
      · rw [heq] at h; exact absurd h (lt_irrefl _)
      · exact h

/-- C3: the result of `FindRequest` does not depend on the order in which maps are
enumerated: for any two enumeration orders of the host's URL keys, of the header names and
of the query keys, it returns the same exchange or `ErrNotFound` in both runs. -/
theorem findRequest_order_independent (L : HttpLib) (ord ord' : RangeOrder) (a : Archive)
    (req : Request) (scheme : String) :
    FindRequest L ord a req scheme = FindRequest L ord' a req scheme := by
  rw [findRequest_eq L ord, findRequest_eq L ord']
  have hexact : exactPass L ord req = exactPass L ord' req := by
    funext rs
    simp only [exactPass, exactStep_order L ord ord']
  have hfuzzy : (fuzzyPass L ord req (GoMap.getMap a.Requests req.Host) Ratio.zero).1 =
      (fuzzyPass L ord' req (GoMap.getMap a.Requests req.Host) Ratio.zero).1 :=
    isFuzzyBest_unique L req _ _ _ (fuzzyPass_best L ord req _) (fuzzyPass_best L ord' req _)
  rw [hexact, hfuzzy]

/-- C5: when the exact list holds no exchange with the live method, `FindRequest` returns
`ErrNotFound` if the host has no entries or no URL key of the host has the live request's
path; otherwise, with `u` the URL selected by the fuzzy pass (the best fuzzy match, which is
unique), it returns the first exchange under `u` that decodes and has the live method, and
`ErrNotFound` if no exchange under `u` has that method, whatever the other URL keys of the
host hold. -/
theorem findRequest_fuzzy_first_method (L : HttpLib) (ord : RangeOrder) (a : Archive)
    (req : Request) (scheme : String)
    (hno : ∀ ar ∈ exactList L a req scheme,
      ∀ c, ArchivedRequest.unmarshal L ar = some c → c.1.Method ≠ req.Method) :
    (GoMap.getMap a.Requests req.Host = [] →
      FindRequest L ord a req scheme = .err .ErrNotFound) ∧
    ((∀ k ∈ (GoMap.getMap a.Requests req.Host).map Prod.fst, ¬ IsPathMatch L req k) →
      FindRequest L ord a req scheme = .err .ErrNotFound) ∧
    IsFuzzyBest L req ((GoMap.getMap a.Requests req.Host).map Prod.fst)
      (fuzzyPass L ord req (GoMap.getMap a.Requests req.Host) Ratio.zero).1 ∧
    (∀ u, IsFuzzyBest L req ((GoMap.getMap a.Requests req.Host).map Prod.fst) u → u ≠ "" →
      (∀ (i : Nat) ar c, (GoMap.getList (GoMap.getMap a.Requests req.Host) u)[i]? = some ar →
        ArchivedRequest.unmarshal L ar = some c → c.1.Method = req.Method →
        (∀ (j : Nat) ar' c', j < i →
          (GoMap.getList (GoMap.getMap a.Requests req.Host) u)[j]? = some ar' →
          ArchivedRequest.unmarshal L ar' = some c' → c'.1.Method ≠ req.Method) →
        FindRequest L ord a req scheme = .ok c) ∧
      ((∀ ar ∈ GoMap.getList (GoMap.getMap a.Requests req.Host) u,
          ∀ c, ArchivedRequest.unmarshal L ar = some c → c.1.Method ≠ req.Method) →
        FindRequest L ord a req scheme = .err .ErrNotFound)) := by
  have hfind := findRequest_fuzzy L ord a req scheme (fun ar har c hc => hno ar har c hc.1 hc.2)
  have hbest := fuzzyPass_best L ord req (GoMap.getMap a.Requests req.Host)
  refine ⟨?_, ?_, hbest, ?_⟩
  · intro hnil
    rw [hfind, hnil]
    rfl
  · intro hnone
    rw [hfind]
    have hu : (fuzzyPass L ord req (GoMap.getMap a.Requests req.Host) Ratio.zero).1 = "" :=
      isFuzzyBest_unique L req _ _ _ hbest (Or.inl ⟨rfl, hnone⟩)
    rw [hu]
    split <;> simp
  · intro u hu hne
    have hsel : (fuzzyPass L ord req (GoMap.getMap a.Requests req.Host) Ratio.zero).1 = u :=
      isFuzzyBest_unique L req _ _ _ hbest hu
    have hlen : (GoMap.getMap a.Requests req.Host).length ≠ 0 := by
      intro h
      rcases hu with ⟨h1, _⟩ | ⟨h1, _⟩
      · exact hne h1
      · rw [List.length_eq_zero.1 h] at h1
        simp at h1
    rw [hsel, if_neg hlen, if_pos hne] at hfind
    refine ⟨?_, ?_⟩
    · intro i ar c hi hdec hm hfirst
      rw [hfind]
      exact findExactMatch_first L req _ i ar c hi ⟨hdec, hm⟩
        (fun j ar' c' hj hget hc' => hfirst j ar' c' hj hget hc'.1 hc'.2)
    · intro hnone
      rw [hfind]
      exact findExactMatch_none L req _ (fun ar har c hc => hnone ar har c hc.1 hc.2)

/-! ## Maps -/

theorem GoMap.get_set_self {V : Type} (m : GoMap V) (k : String) (v : V) :
    GoMap.get (GoMap.set m k v) k = some v := by
  induction m with
  | nil => simp [GoMap.set, GoMap.get]
  | cons e rest ih =>
    obtain ⟨k', v'⟩ := e
    by_cases h : k' = k
    · simp [GoMap.set, GoMap.get, h]
    · simp [GoMap.set, GoMap.get, h, ih]

theorem GoMap.get_set_other {V : Type} (m : GoMap V) (k k' : String) (v : V) (h : k' ≠ k) :
    GoMap.get (GoMap.set m k v) k' = GoMap.get m k' := by
  induction m with
  | nil => simp [GoMap.set, GoMap.get, h.symm]
  | cons e rest ih =>
    obtain ⟨k0, v0⟩ := e
    by_cases h0 : k0 = k
    · subst h0
      simp [GoMap.set, GoMap.get, h.symm]
    · by_cases h1 : k0 = k'
      · subst h1
        simp [GoMap.set, GoMap.get, h0]
      · simp [GoMap.set, GoMap.get, h0, h1, ih]

/-! ## Recording -/

theorem addArchivedRequest_ok (L : HttpLib) (a : Archive) (scheme : String) (req : Request)
    (resp : Response) (ar : ArchivedRequest) (hser : serializeRequest L req resp = some ar) :
    Archive.addArchivedRequest L a scheme req resp = .ok { a with
      Requests := GoMap.set a.Requests req.Host
        (GoMap.set (GoMap.getMap a.Requests req.Host) (L.urlString (absoluteURL req scheme))
          (exactList L a req scheme ++ [ar])) } := by
  simp [Archive.addArchivedRequest, hser]

theorem addArchivedRequest_list (L : HttpLib) (a a' : Archive) (scheme : String)
    (req : Request) (resp : Response) (ar : ArchivedRequest)
    (hser : serializeRequest L req resp = some ar)
    (hadd : Archive.addArchivedRequest L a scheme req resp = .ok a') :
    GoMap.getList (GoMap.getMap a'.Requests req.Host) (L.urlString (absoluteURL req scheme)) =
      exactList L a req scheme ++ [ar] := by
  rw [addArchivedRequest_ok L a scheme req resp ar hser] at hadd
  cases hadd
  simp [GoMap.getList, GoMap.getMap, GoMap.get_set_self]

theorem addArchivedRequest_find (L : HttpLib) (ord : RangeOrder) (a a' : Archive)
    (scheme : String) (r : Request) (resp : Response) (ar : ArchivedRequest)
    (c : Request × Response) (hser : serializeRequest L r resp = some ar)
    (hdec : ArchivedRequest.unmarshal L ar = some c) (hmethod : c.1.Method = r.Method)
    (hadd : Archive.addArchivedRequest L a scheme r resp = .ok a') :
    (∃ ar' ∈ GoMap.getList (GoMap.getMap a'.Requests r.Host)
          (L.urlString (absoluteURL r scheme)),
        ∃ found, ArchivedRequest.unmarshal L ar' = some found ∧ found.1.Method = r.Method ∧
          FindRequest L ord a' r scheme = .ok found) ∧
      (exactList L a r scheme = [] →
        FindRequest L ord a' r scheme = .ok c) := by
  have hlist := addArchivedRequest_list L a a' scheme r resp ar hser hadd
  have hmem : ar ∈ GoMap.getList (GoMap.getMap a'.Requests r.Host)
      (L.urlString (absoluteURL r scheme)) := by
    rw [hlist]; simp
  obtain ⟨found, hex, hfind⟩ := findRequest_exact L ord a' r scheme ar c hmem ⟨hdec, hmethod⟩
  rcases exactPass_inv L ord r (GoMap.getList (GoMap.getMap a'.Requests r.Host)
      (L.urlString (absoluteURL r scheme))) with ⟨h1, _⟩ | ⟨i, b, h1, ⟨ar', har', hb⟩, _⟩
  · rw [hex] at h1; cases h1
  · rw [hex] at h1
    cases h1
    refine ⟨⟨ar', List.getElem?_mem har', found, hb.1, hb.2, hfind⟩, ?_⟩
    intro hempty
    rw [hlist, hempty] at har'
    have har'' : ar' = ar := by
      cases i with
      | zero => simpa using har'.symm
      | succ n => simp at har'
    rw [har''] at hb
    have := hb.1.symm.trans hdec
    rw [hfind, Option.some.inj this]

/-- C6: after `RecordRequest(scheme, r, resp)` of an exchange whose wire form parses back to
the method of `r`, the exchange is the last one of the list filed under the host of `r` and
the absolute URL of `r`, which is the list `FindRequest(r, scheme)` reads first;
`FindRequest(r, scheme)` returns without error an exchange of that list with the method of
`r`, and the recorded exchange itself when nothing was filed under that URL before, in
particular when the archive was empty. -/
theorem record_then_find (L : HttpLib) (ord : RangeOrder) (w : WritableArchive)
    (scheme : String) (r : Request) (resp : Response) (ar : ArchivedRequest)
    (c : Request × Response) (hser : serializeRequest L r resp = some ar)
    (hdec : ArchivedRequest.unmarshal L ar = some c) (hmethod : c.1.Method = r.Method) :
    ∃ w', WritableArchive.RecordRequest L w scheme r resp = .ok w' ∧
      GoMap.getList (GoMap.getMap w'.Archive.Requests r.Host) (L.urlString (absoluteURL r scheme)) =
        exactList L w.Archive r scheme ++ [ar] ∧
      (∃ ar' ∈ GoMap.getList (GoMap.getMap w'.Archive.Requests r.Host)
          (L.urlString (absoluteURL r scheme)),
        ∃ found, ArchivedRequest.unmarshal L ar' = some found ∧ found.1.Method = r.Method ∧
          FindRequest L ord w'.Archive r scheme = .ok found) ∧
      (exactList L w.Archive r scheme = [] →
        FindRequest L ord w'.Archive r scheme = .ok c) ∧
      (w.Archive.Requests = [] → FindRequest L ord w'.Archive r scheme = .ok c) := by
  have hok := addArchivedRequest_ok L w.Archive scheme r resp ar hser
  have hfind := addArchivedRequest_find L ord w.Archive _ scheme r resp ar c hser hdec hmethod hok
  refine ⟨{ Archive := _, f := w.f }, ?_, ?_, hfind.1, hfind.2, ?_⟩
  · simp only [WritableArchive.RecordRequest, hok]
  · exact addArchivedRequest_list L w.Archive _ scheme r resp ar hser hok
  · intro hempty
    apply hfind.2
    simp [hempty, GoMap.getMap, GoMap.getList, GoMap.get]

theorem serializeRequest_response (L : HttpLib) (req : Request) (resp : Response)
    (ar : ArchivedRequest) (h : serializeRequest L req resp = some ar) :
    L.writeResponse resp = some ar.SerializedResponse := by
  unfold serializeRequest at h
  cases hq : L.writeRequest req with
  | none => simp [hq] at h
  | some qb =>
    cases hs : L.writeResponse resp with
    | none => simp [hq, hs] at h
    | some sb =>
      simp only [hq, hs, Option.some.injEq] at h
      rw [← h]

/-- C7: the record proxy persists the exchange before it applies the transformers. The
archive and the disk after serving a request are the same for any two transformer lists; when
the origin answers `resp`, the exchange appended under the request's host and absolute URL
holds the wire form of `resp` itself (with the body as far as it could be read), and what is
served to the client is the status, the headers and the body of `resp` after the transformers
have been applied in order. -/
theorem recordingProxy_persists_before_transform (L : HttpLib) (C : DocCodec)
    (proxy : recordingProxy) (transformers' : List ResponseTransformer) (a : WritableArchive)
    (disk : GoMap Bytes) (req : Request) :
    (recordingProxy.ServeHTTP L C { proxy with transformers := transformers' } a disk req).1 =
      (recordingProxy.ServeHTTP L C proxy a disk req).1 ∧
    (recordingProxy.ServeHTTP L C { proxy with transformers := transformers' } a disk req).2.1 =
      (recordingProxy.ServeHTTP L C proxy a disk req).2.1 ∧
    (req.URL.Path ≠ "/web-page-replay-generate-200" →
      req.URL.Path ≠ "/web-page-replay-command-exit" →
      ∀ resp, proxy.tr (recordingProxy.prepare proxy req) = some resp →
        (∀ ar, serializeRequest L (recordingProxy.prepare proxy req) (buffered resp) = some ar →
          L.writeResponse (buffered resp) = some ar.SerializedResponse ∧
          GoMap.getList
            (GoMap.getMap (recordingProxy.ServeHTTP L C proxy a disk req).1.Archive.Requests
              (recordingProxy.prepare proxy req).Host)
            (L.urlString (absoluteURL (recordingProxy.prepare proxy req) proxy.scheme)) =
          GoMap.getList
            (GoMap.getMap a.Archive.Requests (recordingProxy.prepare proxy req).Host)
            (L.urlString (absoluteURL (recordingProxy.prepare proxy req) proxy.scheme)) ++
            [ar]) ∧
        (recordingProxy.ServeHTTP L C proxy a disk req).2.2 =
          .response
            (applyTransformers proxy.transformers (recordingProxy.prepare proxy req)
              (buffered resp)).2.StatusCode
            (applyTransformers proxy.transformers (recordingProxy.prepare proxy req)
              (buffered resp)).2.Header
            (applyTransformers proxy.transformers (recordingProxy.prepare proxy req)
              (buffered resp)).2.Body) := by
  refine ⟨?_, ?_, ?_⟩
  · unfold recordingProxy.ServeHTTP
    split
    · rfl
    · split <;> rfl
  · unfold recordingProxy.ServeHTTP
    split
    · rfl
    · split <;> rfl
  · intro h1 h2 resp hresp
    refine ⟨?_, ?_⟩
    · intro ar har
      refine ⟨serializeRequest_response L _ (buffered resp) ar har, ?_⟩
      have hok := addArchivedRequest_ok L a.Archive proxy.scheme
        (recordingProxy.prepare proxy req) (buffered resp) ar har
      have hlist := addArchivedRequest_list L a.Archive _ proxy.scheme
        (recordingProxy.prepare proxy req) (buffered resp) ar har hok
      simp only [recordingProxy.ServeHTTP, h1, h2, if_false, hresp,
        WritableArchive.RecordRequest, hok]
      exact hlist
    · simp only [recordingProxy.ServeHTTP, h1, h2, if_false, hresp]

/-! ## Edit -/

theorem fileEntry_list (a : Archive) (e : String × String × ArchivedRequest) (h u : String) :
    GoMap.getList (GoMap.getMap (fileEntry a e).Requests h) u =
      GoMap.getList (GoMap.getMap a.Requests h) u ++
        (if e.1 = h ∧ e.2.1 = u then [e.2.2] else []) := by
  obtain ⟨eh, eu, ar⟩ := e
  simp only [fileEntry]
  by_cases hh : h = eh
  · subst hh
    by_cases hu : u = eu
    · subst hu
      simp [GoMap.getList, GoMap.getMap, GoMap.get_set_self]
    · have hu' : ¬ eu = u := fun x => hu x.symm
      simp [GoMap.getList, GoMap.getMap, GoMap.get_set_self, GoMap.get_set_other _ _ _ _ hu, hu']
  · have hh' : ¬ eh = h := fun x => hh x.symm
    simp [GoMap.getList, GoMap.getMap, GoMap.get_set_other _ _ _ _ hh, hh']

theorem fileEntries_list (es : List (String × String × ArchivedRequest)) (a : Archive)
    (h u : String) :
    GoMap.getList (GoMap.getMap (es.foldl fileEntry a).Requests h) u =
      GoMap.getList (GoMap.getMap a.Requests h) u ++ filedUnder h u es := by
  induction es generalizing a with
  | nil => simp [filedUnder]
  | cons e rest ih =>
    rw [List.foldl_cons, ih, fileEntry_list]
    unfold filedUnder
    by_cases hc : e.1 = h ∧ e.2.1 = u
    · simp [List.filterMap_cons, hc]
    · simp [List.filterMap_cons, hc]

theorem fileEntries_tls (es : List (String × String × ArchivedRequest)) (a : Archive) :
    (es.foldl fileEntry a).Certs = a.Certs ∧
      (es.foldl fileEntry a).NegotiatedProtocol = a.NegotiatedProtocol ∧
      (es.foldl fileEntry a).DeterministicTimeSeedMs = a.DeterministicTimeSeedMs := by
  induction es generalizing a with
  | nil => exact ⟨rfl, rfl, rfl⟩
  | cons e rest ih =>
    rw [List.foldl_cons]
    exact ih (fileEntry a e)

theorem editExchange_ok (L : HttpLib) (f : EditFn) (ustr : String) (clone : Archive) (k : Nat)
    (ar : ArchivedRequest) (h : EditOK L f ustr ar) :
    editExchange L f ustr (L.urlParse ustr) clone k ar =
      .ok ((editedEntry L f ustr ar).toList.foldl fileEntry clone) := by
  obtain ⟨q, s, hdec, hf | ⟨q', s', u, ar', hf, hp, hser⟩⟩ := h
  · simp [editExchange, editedEntry, hdec, hf]
  · simp [editExchange, editedEntry, hdec, hf, hp, hser,
      addArchivedRequest_ok L clone u.Scheme q' s' ar' hser, fileEntry]

theorem editList_ok (L : HttpLib) (f : EditFn) (ustr : String) (rs : List ArchivedRequest)
    (k : Nat) (clone : Archive) (h : ∀ ar ∈ rs, EditOK L f ustr ar) :
    editList L f ustr (L.urlParse ustr) k rs clone =
      .ok ((rs.filterMap (editedEntry L f ustr)).foldl fileEntry clone) := by
  induction rs generalizing k clone with
  | nil => rfl
  | cons ar rest ih =>
    have hrest := fun c k => ih k c (fun ar' har' => h ar' (List.mem_cons_of_mem _ har'))
    simp only [editList, editExchange_ok L f ustr clone k ar (h ar (List.mem_cons_self _ _))]
    rw [hrest]
    cases he : editedEntry L f ustr ar with
    | none => simp [List.filterMap_cons, he]
    | some e => simp [List.filterMap_cons, he]

theorem editURLs_ok (L : HttpLib) (f : EditFn) (urls : List (String × List ArchivedRequest))
    (clone : Archive) (h : ∀ ue ∈ urls, ∀ ar ∈ ue.2, EditOK L f ue.1 ar) :
    editURLs L f urls clone =
      .ok ((urls.flatMap fun ue => ue.2.filterMap (editedEntry L f ue.1)).foldl
        fileEntry clone) := by
  induction urls generalizing clone with
  | nil => rfl
  | cons ue rest ih =>
    obtain ⟨ustr, rs⟩ := ue
    have hrest := fun c => ih c (fun ue' hue' => h ue' (List.mem_cons_of_mem _ hue'))
    simp only [editURLs, editList_ok L f ustr rs 0 clone (h (ustr, rs) (List.mem_cons_self _ _))]
    rw [hrest]
    simp [List.flatMap_cons, List.foldl_append]

theorem editHosts_ok (L : HttpLib) (ord : RangeOrder) (f : EditFn)
    (hosts : List (String × GoMap (List ArchivedRequest))) (clone : Archive)
    (h : ∀ he ∈ hosts, ∀ ue ∈ he.2, ∀ ar ∈ ue.2, EditOK L f ue.1 ar) :
    editHosts L ord f hosts clone =
      .ok ((hosts.flatMap fun he => (ord.range he.2).flatMap fun ue =>
        ue.2.filterMap (editedEntry L f ue.1)).foldl fileEntry clone) := by
  induction hosts generalizing clone with
  | nil => rfl
  | cons he rest ih =>
    obtain ⟨host, urlmap⟩ := he
    have hrest := fun c => ih c (fun he' hhe' => h he' (List.mem_cons_of_mem _ hhe'))
    have hhead : ∀ ue ∈ ord.range urlmap, ∀ ar ∈ ue.2, EditOK L f ue.1 ar :=
      fun ue hue => h (host, urlmap) (List.mem_cons_self _ _) ue ((ord.perm urlmap).mem_iff.1 hue)
    simp only [editHosts, editURLs_ok L f (ord.range urlmap) clone hhead]
    rw [hrest]
    simp [List.flatMap_cons, List.foldl_append]

theorem edit_ok (L : HttpLib) (ord : RangeOrder) (a : Archive) (f : EditFn)
    (hok : ∀ he ∈ a.Requests, ∀ ue ∈ he.2, ∀ ar ∈ ue.2, EditOK L f ue.1 ar) :
    Archive.Edit L ord a f = .ok ((editedEntries L ord f a).foldl fileEntry newArchive) := by
  unfold Archive.Edit editedEntries
  exact editHosts_ok L ord f (ord.range a.Requests) newArchive
    (fun he hhe => hok he ((ord.perm a.Requests).mem_iff.1 hhe))

theorem GoMap.get_eq_none {V : Type} (m : GoMap V) (k : String)
    (h : k ∉ m.map Prod.fst) : GoMap.get m k = none := by
  induction m with
  | nil => rfl
  | cons e rest ih =>
    obtain ⟨k0, v0⟩ := e
    simp only [List.map_cons, List.mem_cons, not_or] at h
    have h0 : ¬ k0 = k := fun x => h.1 x.symm
    simp [GoMap.get, h0, ih h.2]

theorem GoMap.get_eq_some_iff {V : Type} (m : GoMap V) (hnd : NodupKeys m) (k : String)
    (v : V) : GoMap.get m k = some v ↔ (k, v) ∈ m := by
  induction m with
  | nil => simp [GoMap.get]
  | cons e rest ih =>
    obtain ⟨k0, v0⟩ := e
    simp only [NodupKeys, List.map_cons, List.nodup_cons] at hnd
    by_cases h0 : k0 = k
    · subst h0
      simp only [GoMap.get, if_true, Option.some.injEq, List.mem_cons, Prod.mk.injEq, true_and]
      constructor
      · intro h; exact Or.inl h.symm
      · rintro (h | h)
        · exact h.symm
        · exact absurd (List.mem_map_of_mem Prod.fst h) hnd.1
    · have h0' : ¬ k = k0 := fun x => h0 x.symm
      simp [GoMap.get, h0, h0', ih hnd.2]

theorem GoMap.get_perm {V : Type} (m m' : GoMap V) (hp : m'.Perm m) (hnd : NodupKeys m)
    (k : String) : GoMap.get m' k = GoMap.get m k := by
  have hnd' : NodupKeys m' := (hp.map Prod.fst).nodup_iff.2 hnd
  cases h : GoMap.get m k with
  | some v =>
    exact (GoMap.get_eq_some_iff m' hnd' k v).2
      (hp.mem_iff.2 ((GoMap.get_eq_some_iff m hnd k v).1 h))
  | none =>
    cases h' : GoMap.get m' k with
    | none => rfl
    | some v =>
      have := (GoMap.get_eq_some_iff m hnd k v).2
        (hp.mem_iff.1 ((GoMap.get_eq_some_iff m' hnd' k v).1 h'))
      rw [h] at this
      cases this

theorem flatMap_key {V W : Type} (m : GoMap V) (k : String) (F : V → List W)
    (hnd : NodupKeys m) :
    m.flatMap (fun e => if e.1 = k then F e.2 else []) = ((GoMap.get m k).map F).getD [] := by
  induction m with
  | nil => rfl
  | cons e rest ih =>
    obtain ⟨k0, v0⟩ := e
    have hnd' := hnd
    simp only [NodupKeys, List.map_cons, List.nodup_cons] at hnd'
    rw [List.flatMap_cons, ih hnd'.2]
    by_cases h0 : k0 = k
    · subst h0
      simp [GoMap.get, GoMap.get_eq_none rest k0 hnd'.1]
    · simp [GoMap.get, h0]

theorem filedUnder_append (h u : String) (xs ys : List (String × String × ArchivedRequest)) :
    filedUnder h u (xs ++ ys) = filedUnder h u xs ++ filedUnder h u ys := by
  simp [filedUnder, List.filterMap_append]

theorem filedUnder_same (L : HttpLib) (f : EditFn) (host ustr h u : String)
    (rs : List ArchivedRequest)
    (hall : ∀ ar ∈ rs, editedEntry L f ustr ar = some (host, ustr, ar)) :
    filedUnder h u (rs.filterMap (editedEntry L f ustr)) =
      if host = h then (if ustr = u then rs else []) else [] := by
  induction rs with
  | nil => simp [filedUnder]
  | cons ar rest ih =>
    have ih' := ih (fun ar' har' => hall ar' (List.mem_cons_of_mem _ har'))
    have hhead := hall ar (List.mem_cons_self _ _)
    rw [List.filterMap_cons, hhead]
    have hcons : filedUnder h u ((host, ustr, ar) :: rest.filterMap (editedEntry L f ustr)) =
        (if host = h ∧ ustr = u then [ar] else []) ++
          filedUnder h u (rest.filterMap (editedEntry L f ustr)) := by
      unfold filedUnder
      by_cases hc : host = h ∧ ustr = u
      · simp [List.filterMap_cons, hc]
      · simp only [List.filterMap_cons, hc, if_false, List.nil_append]
    simp only [] at hcons ⊢
    rw [hcons, ih']
    by_cases h1 : host = h <;> by_cases h2 : ustr = u <;> simp [h1, h2]

theorem filedUnder_urls (L : HttpLib) (f : EditFn) (host h u : String)
    (urls : List (String × List ArchivedRequest))
    (hall : ∀ ue ∈ urls, ∀ ar ∈ ue.2, editedEntry L f ue.1 ar = some (host, ue.1, ar)) :
    filedUnder h u (urls.flatMap fun ue => ue.2.filterMap (editedEntry L f ue.1)) =
      if host = h then urls.flatMap (fun ue => if ue.1 = u then ue.2 else []) else [] := by
  induction urls with
  | nil => simp [filedUnder]
  | cons ue rest ih =>
    have ih' := ih (fun ue' hue' => hall ue' (List.mem_cons_of_mem _ hue'))
    rw [List.flatMap_cons, filedUnder_append, ih',
      filedUnder_same L f host ue.1 h u ue.2 (hall ue (List.mem_cons_self _ _))]
    by_cases h1 : host = h <;> simp [h1, List.flatMap_cons]

theorem filedUnder_hosts (L : HttpLib) (ord : RangeOrder) (f : EditFn) (h u : String)
    (hosts : List (String × GoMap (List ArchivedRequest)))
    (hall : ∀ he ∈ hosts, ∀ ue ∈ he.2, ∀ ar ∈ ue.2,
      editedEntry L f ue.1 ar = some (he.1, ue.1, ar)) :
    filedUnder h u (hosts.flatMap fun he => (ord.range he.2).flatMap fun ue =>
        ue.2.filterMap (editedEntry L f ue.1)) =
      hosts.flatMap (fun he => if he.1 = h then
        (ord.range he.2).flatMap (fun ue => if ue.1 = u then ue.2 else []) else []) := by
  induction hosts with
  | nil => simp [filedUnder]
  | cons he rest ih =>
    have ih' := ih (fun he' hhe' => hall he' (List.mem_cons_of_mem _ hhe'))
    have hhead : ∀ ue ∈ ord.range he.2, ∀ ar ∈ ue.2,
        editedEntry L f ue.1 ar = some (he.1, ue.1, ar) :=
      fun ue hue => hall he (List.mem_cons_self _ _) ue ((ord.perm he.2).mem_iff.1 hue)
    rw [List.flatMap_cons, filedUnder_append, ih',
      filedUnder_urls L f he.1 h u (ord.range he.2) hhead, List.flatMap_cons]

theorem editExchange_ok_inv (L : HttpLib) (f : EditFn) (ustr : String) (clone clone' : Archive)
    (k : Nat) (ar : ArchivedRequest)
    (h : editExchange L f ustr (L.urlParse ustr) clone k ar = .ok clone') :
    EditOK L f ustr ar := by
  unfold editExchange at h
  cases hdec : ArchivedRequest.unmarshal L ar with
  | none => rw [hdec] at h; cases h
  | some pair =>
    obtain ⟨oldReq, oldResp⟩ := pair
    rw [hdec] at h
    simp only at h
    refine ⟨oldReq, oldResp, hdec, ?_⟩
    rcases hf : f oldReq oldResp with ⟨newReq, newResp, err⟩
    rw [hf] at h
    cases err with
    | some e => simp at h
    | none =>
      cases newReq with
      | none =>
        cases newResp with
        | none => exact Or.inl rfl
        | some s => simp at h
      | some q =>
        cases newResp with
        | none => simp at h
        | some s =>
          simp only at h
          cases hp : L.urlParse ustr with
          | none => rw [hp] at h; simp at h
          | some u =>
            rw [hp] at h
            simp only at h
            cases hser : serializeRequest L q s with
            | none => simp [Archive.addArchivedRequest, hser] at h
            | some ar' => exact Or.inr ⟨q, s, u, ar', rfl, rfl, hser⟩

theorem editList_ok_inv (L : HttpLib) (f : EditFn) (ustr : String) (rs : List ArchivedRequest) :
    ∀ (k : Nat) (clone clone' : Archive),
      editList L f ustr (L.urlParse ustr) k rs clone = .ok clone' →
      ∀ ar ∈ rs, EditOK L f ustr ar := by
  induction rs with
  | nil =>
    intro k clone clone' _ ar har
    cases har
  | cons a0 rest ih =>
    intro k clone clone' h ar har
    simp only [editList] at h
    cases hstep : editExchange L f ustr (L.urlParse ustr) clone k a0 with
    | ok c1 =>
      rw [hstep] at h
      rcases List.mem_cons.mp har with har | har
      · rw [har]
        exact editExchange_ok_inv L f ustr clone c1 k a0 hstep
      · exact ih (k + 1) c1 clone' h ar har
    | err e => rw [hstep] at h; cases h
    | crash msg => rw [hstep] at h; cases h

theorem editURLs_ok_inv (L : HttpLib) (f : EditFn) (urls : List (String × List ArchivedRequest)) :
    ∀ (clone clone' : Archive), editURLs L f urls clone = .ok clone' →
      ∀ ue ∈ urls, ∀ ar ∈ ue.2, EditOK L f ue.1 ar := by
  induction urls with
  | nil =>
    intro clone clone' _ ue hue
    cases hue
  | cons u0 rest ih =>
    obtain ⟨ustr, requests⟩ := u0
    intro clone clone' h ue hue
    simp only [editURLs] at h
    cases hstep : editList L f ustr (L.urlParse ustr) 0 requests clone with
    | ok c1 =>
      rw [hstep] at h
      rcases List.mem_cons.mp hue with hue | hue
      · rw [hue]
        exact editList_ok_inv L f ustr requests 0 clone c1 hstep
      · exact ih c1 clone' h ue hue
    | err e => rw [hstep] at h; cases h
    | crash msg => rw [hstep] at h; cases h

theorem editHosts_ok_inv (L : HttpLib) (ord : RangeOrder) (f : EditFn)
    (hosts : List (String × GoMap (List ArchivedRequest))) :
    ∀ (clone clone' : Archive), editHosts L ord f hosts clone = .ok clone' →
      ∀ he ∈ hosts, ∀ ue ∈ he.2, ∀ ar ∈ ue.2, EditOK L f ue.1 ar := by
  induction hosts with
  | nil =>
    intro clone clone' _ he hhe
    cases hhe
  | cons h0 rest ih =>
    obtain ⟨host, urlmap⟩ := h0
    intro clone clone' h he hhe
    simp only [editHosts] at h
    cases hstep : editURLs L f (ord.range urlmap) clone with
    | ok c1 =>
      rw [hstep] at h
      rcases List.mem_cons.mp hhe with hhe | hhe
      · rw [hhe]
        intro ue hue
        exact editURLs_ok_inv L f (ord.range urlmap) clone c1 hstep ue
          ((ord.perm urlmap).mem_iff.2 hue)
      · exact ih c1 clone' h he hhe
    | err e => rw [hstep] at h; cases h
    | crash msg => rw [hstep] at h; cases h

theorem editExchange_halfNil (L : HttpLib) (f : EditFn) (ustr : String) (u : Option URL)
    (clone : Archive) (k : Nat) (ar : ArchivedRequest) (h : HalfNilPair L f ar) :
    editExchange L f ustr u clone k ar =
      .crash "programming error: newReq/newResp must both be nil or non-nil" := by
  obtain ⟨q, s, hdec, ⟨x, hf⟩ | ⟨y, hf⟩⟩ := h
  · simp [editExchange, hdec, hf]
  · simp [editExchange, hdec, hf]

theorem editExchange_unserializable (L : HttpLib) (f : EditFn) (ustr : String)
    (clone : Archive) (k : Nat) (ar : ArchivedRequest) (h : UnserializablePair L f ustr ar) :
    editExchange L f ustr (L.urlParse ustr) clone k ar = .err .serializeFailed := by
  obtain ⟨q, s, q', s', u, hdec, hf, hp, hser⟩ := h
  simp [editExchange, hdec, hf, hp, Archive.addArchivedRequest, hser]

theorem editList_stops (L : HttpLib) (f : EditFn) (ustr : String)
    (Bad : ArchivedRequest → Prop) (F : Outcome Archive) (hF : ∀ c, F ≠ .ok c)
    (hbad : ∀ clone k ar, Bad ar → editExchange L f ustr (L.urlParse ustr) clone k ar = F)
    (rs : List ArchivedRequest) :
    (∀ ar ∈ rs, EditOK L f ustr ar ∨ Bad ar) → (∃ ar ∈ rs, Bad ar) →
      ∀ (k : Nat) (clone : Archive), editList L f ustr (L.urlParse ustr) k rs clone = F := by
  induction rs with
  | nil =>
    intro _ hex
    obtain ⟨ar, har, _⟩ := hex
    cases har
  | cons a0 rest ih =>
    intro hall hex k clone
    simp only [editList]
    by_cases hb : Bad a0
    · rw [hbad clone k a0 hb]
      cases F with
      | ok c => exact absurd rfl (hF c)
      | err e => rfl
      | crash msg => rfl
    · have hok : EditOK L f ustr a0 := by
        rcases hall a0 (List.mem_cons_self _ _) with h | h
        · exact h
        · exact absurd h hb
      rw [editExchange_ok L f ustr clone k a0 hok]
      simp only
      apply ih (fun ar har => hall ar (List.mem_cons_of_mem _ har))
      obtain ⟨ar, har, hbar⟩ := hex
      rcases List.mem_cons.mp har with har | har
      · rw [har] at hbar
        exact absurd hbar hb
      · exact ⟨ar, har, hbar⟩

theorem editURLs_stops (L : HttpLib) (f : EditFn) (Bad : String → ArchivedRequest → Prop)
    (F : Outcome Archive) (hF : ∀ c, F ≠ .ok c)
    (hbad : ∀ ustr clone k ar, Bad ustr ar →
      editExchange L f ustr (L.urlParse ustr) clone k ar = F)
    (urls : List (String × List ArchivedRequest)) :
    (∀ ue ∈ urls, ∀ ar ∈ ue.2, EditOK L f ue.1 ar ∨ Bad ue.1 ar) →
      (∃ ue ∈ urls, ∃ ar ∈ ue.2, Bad ue.1 ar) →
      ∀ clone : Archive, editURLs L f urls clone = F := by
  induction urls with
  | nil =>
    intro _ hex
    obtain ⟨ue, hue, _⟩ := hex
    cases hue
  | cons u0 rest ih =>
    obtain ⟨ustr, requests⟩ := u0
    intro hall hex clone
    simp only [editURLs]
    by_cases hb : ∃ ar ∈ requests, Bad ustr ar
    · rw [editList_stops L f ustr (Bad ustr) F hF (hbad ustr) requests
        (hall (ustr, requests) (List.mem_cons_self _ _)) hb 0 clone]
      cases F with
      | ok c => exact absurd rfl (hF c)
      | err e => rfl
      | crash msg => rfl
    · have hok : ∀ ar ∈ requests, EditOK L f ustr ar := by
        intro ar har
        rcases hall (ustr, requests) (List.mem_cons_self _ _) ar har with h | h
        · exact h
        · exact absurd ⟨ar, har, h⟩ hb
      rw [editList_ok L f ustr requests 0 clone hok]
      simp only
      apply ih (fun ue hue => hall ue (List.mem_cons_of_mem _ hue))
      obtain ⟨ue, hue, ar, har, hbar⟩ := hex
      rcases List.mem_cons.mp hue with hue | hue
      · rw [hue] at har hbar
        exact absurd ⟨ar, har, hbar⟩ hb
      · exact ⟨ue, hue, ar, har, hbar⟩

theorem editHosts_stops (L : HttpLib) (ord : RangeOrder) (f : EditFn)
    (Bad : String → ArchivedRequest → Prop) (F : Outcome Archive) (hF : ∀ c, F ≠ .ok c)
    (hbad : ∀ ustr clone k ar, Bad ustr ar →
      editExchange L f ustr (L.urlParse ustr) clone k ar = F)
    (hosts : List (String × GoMap (List ArchivedRequest))) :
    (∀ he ∈ hosts, ∀ ue ∈ he.2, ∀ ar ∈ ue.2, EditOK L f ue.1 ar ∨ Bad ue.1 ar) →
      (∃ he ∈ hosts, ∃ ue ∈ he.2, ∃ ar ∈ ue.2, Bad ue.1 ar) →
      ∀ clone : Archive, editHosts L ord f hosts clone = F := by
  induction hosts with
  | nil =>
    intro _ hex
    obtain ⟨he, hhe, _⟩ := hex
    cases hhe
  | cons h0 rest ih =>
    obtain ⟨host, urlmap⟩ := h0
    intro hall hex clone
    simp only [editHosts]
    have hall0 : ∀ ue ∈ ord.range urlmap, ∀ ar ∈ ue.2, EditOK L f ue.1 ar ∨ Bad ue.1 ar :=
      fun ue hue => hall (host, urlmap) (List.mem_cons_self _ _) ue
        ((ord.perm urlmap).mem_iff.1 hue)
    by_cases hb : ∃ ue ∈ ord.range urlmap, ∃ ar ∈ ue.2, Bad ue.1 ar
    · rw [editURLs_stops L f Bad F hF hbad (ord.range urlmap) hall0 hb clone]
      cases F with
      | ok c => exact absurd rfl (hF c)
      | err e => rfl
      | crash msg => rfl
    · have hok : ∀ ue ∈ ord.range urlmap, ∀ ar ∈ ue.2, EditOK L f ue.1 ar := by
        intro ue hue ar har
        rcases hall0 ue hue ar har with h | h
        · exact h
        · exact absurd ⟨ue, hue, ar, har, h⟩ hb
      rw [editURLs_ok L f (ord.range urlmap) clone hok]
      simp only
      apply ih (fun he hhe => hall he (List.mem_cons_of_mem _ hhe))
      obtain ⟨he, hhe, ue, hue, ar, har, hbar⟩ := hex
      rcases List.mem_cons.mp hhe with hhe | hhe
      · rw [hhe] at hue
        exact absurd ⟨ue, (ord.perm urlmap).mem_iff.2 hue, ar, har, hbar⟩ hb
      · exact ⟨he, hhe, ue, hue, ar, har, hbar⟩

theorem edit_stops (L : HttpLib) (ord : RangeOrder) (a : Archive) (f : EditFn)
    (Bad : String → ArchivedRequest → Prop) (F : Outcome Archive) (hF : ∀ c, F ≠ .ok c)
    (hbad : ∀ ustr clone k ar, Bad ustr ar →
      editExchange L f ustr (L.urlParse ustr) clone k ar = F)
    (hall : ∀ he ∈ a.Requests, ∀ ue ∈ he.2, ∀ ar ∈ ue.2, EditOK L f ue.1 ar ∨ Bad ue.1 ar)
    (hex : ∃ he ∈ a.Requests, ∃ ue ∈ he.2, ∃ ar ∈ ue.2, Bad ue.1 ar) :
    Archive.Edit L ord a f = F := by
  unfold Archive.Edit
  apply editHosts_stops L ord f Bad F hF hbad (ord.range a.Requests)
    (fun he hhe => hall he ((ord.perm a.Requests).mem_iff.1 hhe))
  obtain ⟨he, hhe, rest⟩ := hex
  exact ⟨he, (ord.perm a.Requests).mem_iff.2 hhe, rest⟩

/-- C9 (amended): the outcome of `Edit(f)`. When every exchange of the archive decodes and
`f` returns for it no error and either the nil pair or a pair that serializes (the URL key
then parsing as a URL), `Edit(f)` returns a new archive in which the list under each host
and URL consists of the wire forms of the pairs `f` returned that have this host and
absolute URL, in the order in which `Edit` visited the exchanges; exchanges on which `f`
returns the nil pair are absent. In no other case does `Edit(f)` return an archive: it
panics when the other exchanges are those for which `f` returns a pair with exactly one
nil, and it returns the error of the serialization when the other exchanges are those
for which `f` returns a pair that does not serialize. -/
theorem edit_files_edited_exchanges (L : HttpLib) (ord : RangeOrder) (a : Archive)
    (f : EditFn) :
    ((∀ he ∈ a.Requests, ∀ ue ∈ he.2, ∀ ar ∈ ue.2, EditOK L f ue.1 ar) →
      ∃ clone, Archive.Edit L ord a f = .ok clone ∧
        ∀ h u, GoMap.getList (GoMap.getMap clone.Requests h) u =
          filedUnder h u (editedEntries L ord f a)) ∧
    (∀ clone, Archive.Edit L ord a f = .ok clone →
      ∀ he ∈ a.Requests, ∀ ue ∈ he.2, ∀ ar ∈ ue.2, EditOK L f ue.1 ar) ∧
    ((∀ he ∈ a.Requests, ∀ ue ∈ he.2, ∀ ar ∈ ue.2,
        EditOK L f ue.1 ar ∨ HalfNilPair L f ar) →
      (∃ he ∈ a.Requests, ∃ ue ∈ he.2, ∃ ar ∈ ue.2, HalfNilPair L f ar) →
      Archive.Edit L ord a f =
        .crash "programming error: newReq/newResp must both be nil or non-nil") ∧
    ((∀ he ∈ a.Requests, ∀ ue ∈ he.2, ∀ ar ∈ ue.2,
        EditOK L f ue.1 ar ∨ UnserializablePair L f ue.1 ar) →
      (∃ he ∈ a.Requests, ∃ ue ∈ he.2, ∃ ar ∈ ue.2, UnserializablePair L f ue.1 ar) →
      Archive.Edit L ord a f = .err .serializeFailed) := by
  refine ⟨?_, ?_, ?_, ?_⟩
  · intro hok
    refine ⟨_, edit_ok L ord a f hok, ?_⟩
    intro h u
    rw [fileEntries_list]
    simp [newArchive, GoMap.getMap, GoMap.getList, GoMap.get]
  · intro clone hedit he hhe
    exact editHosts_ok_inv L ord f (ord.range a.Requests) newArchive clone hedit he
      ((ord.perm a.Requests).mem_iff.2 hhe)
  · intro hall hex
    exact edit_stops L ord a f (fun _ ar => HalfNilPair L f ar) _ (fun c h => by cases h)
      (fun ustr clone k ar h => editExchange_halfNil L f ustr _ clone k ar h) hall hex
  · intro hall hex
    exact edit_stops L ord a f (fun ustr ar => UnserializablePair L f ustr ar) _
      (fun c h => by cases h)
      (fun ustr clone k ar h => editExchange_unserializable L f ustr clone k ar h) hall hex

theorem addArchivedRequest_tls (L : HttpLib) (a a' : Archive) (scheme : String) (req : Request)
    (resp : Response) (h : Archive.addArchivedRequest L a scheme req resp = .ok a') :
    a'.Certs = a.Certs ∧ a'.NegotiatedProtocol = a.NegotiatedProtocol ∧
      a'.DeterministicTimeSeedMs = a.DeterministicTimeSeedMs := by
  unfold Archive.addArchivedRequest at h
  cases hser : serializeRequest L req resp with
  | none => rw [hser] at h; cases h
  | some ar =>
    rw [hser] at h
    simp only [Outcome.ok.injEq] at h
    rw [← h]
    exact ⟨rfl, rfl, rfl⟩

theorem editExchange_tls (L : HttpLib) (f : EditFn) (ustr : String) (u : Option URL)
    (clone clone' : Archive) (k : Nat) (ar : ArchivedRequest)
    (h : editExchange L f ustr u clone k ar = .ok clone') :
    clone'.Certs = clone.Certs ∧ clone'.NegotiatedProtocol = clone.NegotiatedProtocol ∧
      clone'.DeterministicTimeSeedMs = clone.DeterministicTimeSeedMs := by
  unfold editExchange at h
  cases hdec : ArchivedRequest.unmarshal L ar with
  | none => rw [hdec] at h; cases h
  | some pair =>
    obtain ⟨oldReq, oldResp⟩ := pair
    rw [hdec] at h
    simp only at h
    rcases hf : f oldReq oldResp with ⟨newReq, newResp, err⟩
    rw [hf] at h
    cases err with
    | some e => simp at h
    | none =>
      cases newReq with
      | none =>
        cases newResp with
        | none => simp only at h; cases h; exact ⟨rfl, rfl, rfl⟩
        | some s => simp at h
      | some q =>
        cases newResp with
        | none => simp at h
        | some s =>
          simp only at h
          cases u with
          | none => simp at h
          | some u =>
            simp only at h
            exact addArchivedRequest_tls L clone clone' u.Scheme q s h

theorem editList_tls (L : HttpLib) (f : EditFn) (ustr : String) (u : Option URL)
    (rs : List ArchivedRequest) :
    ∀ (k : Nat) (clone clone' : Archive), editList L f ustr u k rs clone = .ok clone' →
      clone'.Certs = clone.Certs ∧ clone'.NegotiatedProtocol = clone.NegotiatedProtocol ∧
        clone'.DeterministicTimeSeedMs = clone.DeterministicTimeSeedMs := by
  induction rs with
  | nil =>
    intro k clone clone' h
    simp only [editList] at h
    cases h
    exact ⟨rfl, rfl, rfl⟩
  | cons ar rest ih =>
    intro k clone clone' h
    simp only [editList] at h
    cases hstep : editExchange L f ustr u clone k ar with
    | ok c1 =>
      rw [hstep] at h
      obtain ⟨h1, h2, h3⟩ := editExchange_tls L f ustr u clone c1 k ar hstep
      obtain ⟨g1, g2, g3⟩ := ih (k + 1) c1 clone' h
      exact ⟨g1.trans h1, g2.trans h2, g3.trans h3⟩
    | err e => rw [hstep] at h; cases h
    | crash msg => rw [hstep] at h; cases h

theorem editURLs_tls (L : HttpLib) (f : EditFn) (urls : List (String × List ArchivedRequest)) :
    ∀ (clone clone' : Archive), editURLs L f urls clone = .ok clone' →
      clone'.Certs = clone.Certs ∧ clone'.NegotiatedProtocol = clone.NegotiatedProtocol ∧
        clone'.DeterministicTimeSeedMs = clone.DeterministicTimeSeedMs := by
  induction urls with
  | nil =>
    intro clone clone' h
    simp only [editURLs] at h
    cases h
    exact ⟨rfl, rfl, rfl⟩
  | cons ue rest ih =>
    obtain ⟨ustr, requests⟩ := ue
    intro clone clone' h
    simp only [editURLs] at h
    cases hstep : editList L f ustr (L.urlParse ustr) 0 requests clone with
    | ok c1 =>
      rw [hstep] at h
      obtain ⟨h1, h2, h3⟩ := editList_tls L f ustr _ requests 0 clone c1 hstep
      obtain ⟨g1, g2, g3⟩ := ih c1 clone' h
      exact ⟨g1.trans h1, g2.trans h2, g3.trans h3⟩
    | err e => rw [hstep] at h; cases h
    | crash msg => rw [hstep] at h; cases h

theorem editHosts_tls (L : HttpLib) (ord : RangeOrder) (f : EditFn)
    (hosts : List (String × GoMap (List ArchivedRequest))) :
    ∀ (clone clone' : Archive), editHosts L ord f hosts clone = .ok clone' →
      clone'.Certs = clone.Certs ∧ clone'.NegotiatedProtocol = clone.NegotiatedProtocol ∧
        clone'.DeterministicTimeSeedMs = clone.DeterministicTimeSeedMs := by
  induction hosts with
  | nil =>
    intro clone clone' h
    simp only [editHosts] at h
    cases h
    exact ⟨rfl, rfl, rfl⟩
  | cons he rest ih =>
    obtain ⟨host, urlmap⟩ := he
    intro clone clone' h
    simp only [editHosts] at h
    cases hstep : editURLs L f (ord.range urlmap) clone with
    | ok c1 =>
      rw [hstep] at h
      obtain ⟨h1, h2, h3⟩ := editURLs_tls L f (ord.range urlmap) clone c1 hstep
      obtain ⟨g1, g2, g3⟩ := ih c1 clone' h
      exact ⟨g1.trans h1, g2.trans h2, g3.trans h3⟩
    | err e => rw [hstep] at h; cases h
    | crash msg => rw [hstep] at h; cases h

/-- Whatever the callback, the archive that `Edit` returns has no certificate, no negotiated
protocol and the time seed zero. -/
theorem edit_drops_tls (L : HttpLib) (ord : RangeOrder) (a : Archive) (f : EditFn)
    (clone : Archive) (h : Archive.Edit L ord a f = .ok clone) :
    clone.Certs = [] ∧ clone.NegotiatedProtocol = [] ∧ clone.DeterministicTimeSeedMs = 0 :=
  editHosts_tls L ord f (ord.range a.Requests) newArchive clone h

theorem edit_identity_lists (L : HttpLib) (ord : RangeOrder) (a : Archive)
    (hhosts : NodupKeys a.Requests) (hurls : ∀ he ∈ a.Requests, NodupKeys he.2)
    (hround : ∀ he ∈ a.Requests, ∀ ue ∈ he.2, ∀ ar ∈ ue.2,
      ∃ req resp u, ArchivedRequest.unmarshal L ar = some (req, resp) ∧
        serializeRequest L req resp = some ar ∧ L.urlParse ue.1 = some u ∧
        req.Host = he.1 ∧ L.urlString (absoluteURL req u.Scheme) = ue.1) :
    ∃ clone, Archive.Edit L ord a identityEdit = .ok clone ∧
      ∀ h u, GoMap.getList (GoMap.getMap clone.Requests h) u =
        GoMap.getList (GoMap.getMap a.Requests h) u := by
  have hok : ∀ he ∈ a.Requests, ∀ ue ∈ he.2, ∀ ar ∈ ue.2, EditOK L identityEdit ue.1 ar := by
    intro he hhe ue hue ar har
    obtain ⟨q, s, u, hdec, hser, hp, _, _⟩ := hround he hhe ue hue ar har
    exact ⟨q, s, hdec, Or.inr ⟨q, s, u, ar, rfl, hp, hser⟩⟩
  have hentry : ∀ he ∈ ord.range a.Requests, ∀ ue ∈ he.2, ∀ ar ∈ ue.2,
      editedEntry L identityEdit ue.1 ar = some (he.1, ue.1, ar) := by
    intro he hhe ue hue ar har
    obtain ⟨q, s, u, hdec, hser, hp, hhost, hkey⟩ :=
      hround he ((ord.perm a.Requests).mem_iff.1 hhe) ue hue ar har
    simp [editedEntry, hdec, identityEdit, hp, hser, hhost, hkey]
  refine ⟨_, edit_ok L ord a identityEdit hok, ?_⟩
  intro h u
  rw [fileEntries_list]
  have hnil : GoMap.getList (GoMap.getMap newArchive.Requests h) u = [] := by
    simp [newArchive, GoMap.getMap, GoMap.getList, GoMap.get]
  rw [hnil, List.nil_append]
  unfold editedEntries
  rw [filedUnder_hosts L ord identityEdit h u (ord.range a.Requests) hentry]
  have hnd' : NodupKeys (ord.range a.Requests) :=
    ((ord.perm a.Requests).map Prod.fst).nodup_iff.2 hhosts
  rw [flatMap_key (ord.range a.Requests) h
    (fun urlmap => (ord.range urlmap).flatMap (fun ue => if ue.1 = u then ue.2 else [])) hnd',
    GoMap.get_perm a.Requests (ord.range a.Requests) (ord.perm a.Requests) hhosts]
  cases hget : GoMap.get a.Requests h with
  | none => simp [GoMap.getMap, GoMap.getList, hget, GoMap.get]
  | some urlmap =>
    have hmem := (GoMap.get_eq_some_iff a.Requests hhosts h urlmap).1 hget
    have hndu : NodupKeys urlmap := hurls (h, urlmap) hmem
    have hndu' : NodupKeys (ord.range urlmap) :=
      ((ord.perm urlmap).map Prod.fst).nodup_iff.2 hndu
    simp only [Option.map_some', Option.getD_some, GoMap.getMap, hget]
    rw [flatMap_key (ord.range urlmap) u (fun rs => rs) hndu',
      GoMap.get_perm urlmap (ord.range urlmap) (ord.perm urlmap) hndu]
    simp [GoMap.getList]

/-- C10: what `Edit` with the identity function returns, which is not the archive of the
claim. For an archive with distinct keys whose exchanges decode, serialize back to
themselves and are filed under their own host and absolute URL, the result has the same
list of exchanges under every host and URL; but it has no certificate, no negotiated
protocol and the time seed zero, whatever the archive held (and this for every callback),
so it differs from an archive that holds any of the three. -/
theorem edit_identity_keeps_requests (L : HttpLib) (ord : RangeOrder) (a : Archive)
    (hhosts : NodupKeys a.Requests) (hurls : ∀ he ∈ a.Requests, NodupKeys he.2)
    (hround : ∀ he ∈ a.Requests, ∀ ue ∈ he.2, ∀ ar ∈ ue.2,
      ∃ req resp u, ArchivedRequest.unmarshal L ar = some (req, resp) ∧
        serializeRequest L req resp = some ar ∧ L.urlParse ue.1 = some u ∧
        req.Host = he.1 ∧ L.urlString (absoluteURL req u.Scheme) = ue.1) :
    (∃ clone, Archive.Edit L ord a identityEdit = .ok clone ∧
      (∀ h u, GoMap.getList (GoMap.getMap clone.Requests h) u =
        GoMap.getList (GoMap.getMap a.Requests h) u) ∧
      clone.Certs = [] ∧ clone.NegotiatedProtocol = [] ∧ clone.DeterministicTimeSeedMs = 0 ∧
      (a.Certs ≠ [] ∨ a.NegotiatedProtocol ≠ [] ∨ a.DeterministicTimeSeedMs ≠ 0 →
        clone ≠ a)) ∧
    (∀ (f : EditFn) (clone : Archive), Archive.Edit L ord a f = .ok clone →
      clone.Certs = [] ∧ clone.NegotiatedProtocol = [] ∧
        clone.DeterministicTimeSeedMs = 0) := by
  obtain ⟨clone, hedit, hlists⟩ := edit_identity_lists L ord a hhosts hurls hround
  obtain ⟨h1, h2, h3⟩ := edit_drops_tls L ord a identityEdit clone hedit
  refine ⟨⟨clone, hedit, hlists, h1, h2, h3, ?_⟩, fun f c hc => edit_drops_tls L ord a f c hc⟩
  intro hne heq
  rw [heq] at h1 h2 h3
  rcases hne with hne | hne | hne
  · exact hne h1
  · exact hne h2
  · exact hne h3

/-! ## Persistence -/

theorem GoMap.set_append_new {V : Type} (m : GoMap V) (k : String) (v : V)
    (h : k ∉ m.map Prod.fst) : GoMap.set m k v = m ++ [(k, v)] := by
  induction m with
  | nil => rfl
  | cons e rest ih =>
    obtain ⟨k0, v0⟩ := e
    simp only [List.map_cons, List.mem_cons, not_or] at h
    have h0 : ¬ k0 = k := fun x => h.1 x.symm
    simp [GoMap.set, h0, ih h.2]

theorem foldSet_append {V : Type} (l : GoMap V) :
    ∀ m : GoMap V, NodupKeys l → (∀ e ∈ l, e.1 ∉ m.map Prod.fst) →
      l.foldl (fun m e => GoMap.set m e.1 e.2) m = m ++ l := by
  induction l with
  | nil =>
    intro m _ _
    simp
  | cons e rest ih =>
    intro m hnd hnew
    have hnd' := hnd
    simp only [NodupKeys, List.map_cons, List.nodup_cons] at hnd'
    rw [List.foldl_cons, GoMap.set_append_new m e.1 e.2 (hnew e (List.mem_cons_self _ _)),
      ih _ hnd'.2]
    · simp
    · intro e' he'
      simp only [List.map_append, List.map_cons, List.map_nil, List.mem_append,
        List.mem_singleton, not_or]
      refine ⟨hnew e' (List.mem_cons_of_mem _ he'), ?_⟩
      intro heq
      exact hnd'.1 (heq ▸ List.mem_map_of_mem Prod.fst he')

theorem decodeList_encoded (J : JsonLib) (rs : List ArchivedRequest)
    (h : ∀ ar ∈ rs, J.unbase64 (J.base64 ar.SerializedRequest) = some ar.SerializedRequest ∧
      J.unbase64 (J.base64 ar.SerializedResponse) = some ar.SerializedResponse) :
    decodeList J (rs.map (exchangeDoc J)) = some rs := by
  induction rs with
  | nil => rfl
  | cons ar rest ih =>
    obtain ⟨h1, h2⟩ := h ar (List.mem_cons_self _ _)
    simp [decodeList, decodeExchange, exchangeDoc, h1, h2,
      ih fun ar' har' => h ar' (List.mem_cons_of_mem _ har')]

theorem decodeURLs_encoded (J : JsonLib) (urls : GoMap (List ArchivedRequest)) :
    ∀ m : GoMap (List ArchivedRequest), NodupKeys urls →
      (∀ ue ∈ urls, ue.1 ∉ m.map Prod.fst) →
      (∀ ue ∈ urls, ∀ ar ∈ ue.2,
        J.unbase64 (J.base64 ar.SerializedRequest) = some ar.SerializedRequest ∧
        J.unbase64 (J.base64 ar.SerializedResponse) = some ar.SerializedResponse) →
      decodeURLs J (urls.map fun ue => (ue.1, ue.2.map (exchangeDoc J))) m =
        some (m ++ urls) := by
  induction urls with
  | nil =>
    intro m _ _ _
    simp [decodeURLs]
  | cons ue rest ih =>
    intro m hnd hnew h64
    have hnd' := hnd
    simp only [NodupKeys, List.map_cons, List.nodup_cons] at hnd'
    simp only [List.map_cons, decodeURLs,
      decodeList_encoded J ue.2 (h64 ue (List.mem_cons_self _ _))]
    rw [GoMap.set_append_new m ue.1 ue.2 (hnew ue (List.mem_cons_self _ _)), ih _ hnd'.2]
    · simp
    · intro e' he'
      simp only [List.map_append, List.map_cons, List.map_nil, List.mem_append,
        List.mem_singleton, not_or]
      refine ⟨hnew e' (List.mem_cons_of_mem _ he'), ?_⟩
      intro heq
      exact hnd'.1 (heq ▸ List.mem_map_of_mem Prod.fst he')
    · exact fun ue' hue' => h64 ue' (List.mem_cons_of_mem _ hue')

theorem decodeHosts_encoded (J : JsonLib) (ord : RangeOrder)
    (hosts : GoMap (GoMap (List ArchivedRequest))) :
    ∀ m : GoMap (GoMap (List ArchivedRequest)), NodupKeys hosts →
      (∀ he ∈ hosts, he.1 ∉ m.map Prod.fst) →
      (∀ he ∈ hosts, NodupKeys he.2) →
      (∀ he ∈ hosts, ∀ ue ∈ he.2, ∀ ar ∈ ue.2,
        J.unbase64 (J.base64 ar.SerializedRequest) = some ar.SerializedRequest ∧
        J.unbase64 (J.base64 ar.SerializedResponse) = some ar.SerializedResponse) →
      decodeHosts J (hosts.map fun he =>
          (he.1, (ord.range he.2).map fun ue => (ue.1, ue.2.map (exchangeDoc J)))) m =
        some (m ++ hosts.map fun he => (he.1, ord.range he.2)) := by
  induction hosts with
  | nil =>
    intro m _ _ _ _
    simp [decodeHosts]
  | cons he rest ih =>
    intro m hnd hnew hurls h64
    have hnd' := hnd
    simp only [NodupKeys, List.map_cons, List.nodup_cons] at hnd'
    have hinner : decodeURLs J ((ord.range he.2).map fun ue =>
        (ue.1, ue.2.map (exchangeDoc J))) [] = some ([] ++ ord.range he.2) :=
      decodeURLs_encoded J (ord.range he.2) []
        (((ord.perm he.2).map Prod.fst).nodup_iff.2 (hurls he (List.mem_cons_self _ _)))
        (fun _ _ => by simp)
        (fun ue hue => h64 he (List.mem_cons_self _ _) ue ((ord.perm he.2).mem_iff.1 hue))
    simp only [List.map_cons, decodeHosts, hinner, List.nil_append]
    rw [GoMap.set_append_new m he.1 _ (hnew he (List.mem_cons_self _ _)), ih _ hnd'.2]
    · simp
    · intro e' he'
      simp only [List.map_append, List.map_cons, List.map_nil, List.mem_append,
        List.mem_singleton, not_or]
      refine ⟨hnew e' (List.mem_cons_of_mem _ he'), ?_⟩
      intro heq
      exact hnd'.1 (heq ▸ List.mem_map_of_mem Prod.fst he')
    · exact fun he' hhe' => hurls he' (List.mem_cons_of_mem _ hhe')
    · exact fun he' hhe' => h64 he' (List.mem_cons_of_mem _ hhe')

theorem decodeCerts_encoded (J : JsonLib) (certs : GoMap (Option Bytes)) :
    ∀ m : GoMap (Option Bytes), NodupKeys certs →
      (∀ e ∈ certs, e.1 ∉ m.map Prod.fst) →
      (∀ e ∈ certs, ∀ der, e.2 = some der → J.unbase64 (J.base64 der) = some der) →
      decodeCerts J (certs.map fun e => (e.1, e.2.map J.base64)) m = some (m ++ certs) := by
  induction certs with
  | nil =>
    intro m _ _ _
    simp [decodeCerts]
  | cons e rest ih =>
    intro m hnd hnew h64
    have hnd' := hnd
    simp only [NodupKeys, List.map_cons, List.nodup_cons] at hnd'
    have hrest : ∀ e' ∈ rest, e'.1 ∉ (m ++ [e]).map Prod.fst := by
      intro e' he'
      simp only [List.map_append, List.map_cons, List.map_nil, List.mem_append,
        List.mem_singleton, not_or]
      refine ⟨hnew e' (List.mem_cons_of_mem _ he'), ?_⟩
      intro heq
      exact hnd'.1 (heq ▸ List.mem_map_of_mem Prod.fst he')
    have hih := ih (m ++ [e]) hnd'.2 hrest (fun e' he' => h64 e' (List.mem_cons_of_mem _ he'))
    obtain ⟨host, der⟩ := e
    cases der with
    | none =>
      simp only [List.map_cons, Option.map_none', decodeCerts]
      rw [GoMap.set_append_new m host none (hnew _ (List.mem_cons_self _ _)), hih]
      simp
    | some der =>
      simp only [List.map_cons, Option.map_some', decodeCerts,
        h64 _ (List.mem_cons_self _ _) der rfl]
      rw [GoMap.set_append_new m host (some der) (hnew _ (List.mem_cons_self _ _)), hih]
      simp

theorem GoMap.get_map_value {V W : Type} (m : GoMap V) (g : V → W) (k : String) :
    GoMap.get (m.map fun e => (e.1, g e.2)) k = (GoMap.get m k).map g := by
  induction m with
  | nil => rfl
  | cons e rest ih =>
    obtain ⟨k0, v0⟩ := e
    by_cases h0 : k0 = k
    · simp [GoMap.get, h0]
    · simp [GoMap.get, h0, ih]

/-- What `OpenArchive` reads from the file that holds what `Serialize` wrote. -/
theorem open_serialized (J : JsonLib) (ord : RangeOrder) (a : Archive) (disk : GoMap Bytes)
    (path : String)
    (hgz : J.gunzip (J.gzip (J.print (archiveDoc J ord a))) =
      some (J.print (archiveDoc J ord a)))
    (hparse : J.parse (J.print (archiveDoc J ord a)) = some (archiveDoc J ord a))
    (hwire : ∀ he ∈ a.Requests, ∀ ue ∈ he.2, ∀ ar ∈ ue.2,
      J.unbase64 (J.base64 ar.SerializedRequest) = some ar.SerializedRequest ∧
      J.unbase64 (J.base64 ar.SerializedResponse) = some ar.SerializedResponse)
    (hder : ∀ e ∈ a.Certs, ∀ der, e.2 = some der → J.unbase64 (J.base64 der) = some der)
    (hhosts : NodupKeys a.Requests) (hurls : ∀ he ∈ a.Requests, NodupKeys he.2)
    (hcerts : NodupKeys a.Certs) (hprotos : NodupKeys a.NegotiatedProtocol) :
    Archive.Serialize (goCodec J ord) a = .ok (J.gzip (J.print (archiveDoc J ord a))) ∧
    OpenArchive (goCodec J ord)
        (GoMap.set disk path (J.gzip (J.print (archiveDoc J ord a)))) path =
      .ok { Requests := (ord.range a.Requests).map fun he => (he.1, ord.range he.2),
            Certs := ord.range a.Certs,
            NegotiatedProtocol := ord.range a.NegotiatedProtocol,
            DeterministicTimeSeedMs := a.DeterministicTimeSeedMs } := by
  refine ⟨rfl, ?_⟩
  have hreq : decodeHosts J (archiveDoc J ord a).Requests [] =
      some ([] ++ (ord.range a.Requests).map fun he => (he.1, ord.range he.2)) :=
    decodeHosts_encoded J ord (ord.range a.Requests) []
      (((ord.perm a.Requests).map Prod.fst).nodup_iff.2 hhosts) (fun _ _ => by simp)
      (fun he hhe => hurls he ((ord.perm a.Requests).mem_iff.1 hhe))
      (fun he hhe => hwire he ((ord.perm a.Requests).mem_iff.1 hhe))
  have hcert : decodeCerts J (archiveDoc J ord a).Certs [] = some ([] ++ ord.range a.Certs) :=
    decodeCerts_encoded J (ord.range a.Certs) []
      (((ord.perm a.Certs).map Prod.fst).nodup_iff.2 hcerts) (fun _ _ => by simp)
      (fun e he => hder e ((ord.perm a.Certs).mem_iff.1 he))
  have hproto : (archiveDoc J ord a).NegotiatedProtocol.foldl
      (fun m e => GoMap.set m e.1 e.2) [] = [] ++ ord.range a.NegotiatedProtocol :=
    foldSet_append (ord.range a.NegotiatedProtocol) []
      (((ord.perm a.NegotiatedProtocol).map Prod.fst).nodup_iff.2 hprotos) (fun _ _ => by simp)
  simp only [List.nil_append] at hreq hcert hproto
  have hdoc : decodeDoc J (archiveDoc J ord a) newArchive =
      some { Requests := (ord.range a.Requests).map fun he => (he.1, ord.range he.2),
             Certs := ord.range a.Certs,
             NegotiatedProtocol := ord.range a.NegotiatedProtocol,
             DeterministicTimeSeedMs := a.DeterministicTimeSeedMs } := by
    unfold decodeDoc
    have h1 : newArchive.Requests = [] := rfl
    have h2 : newArchive.Certs = [] := rfl
    have h3 : newArchive.NegotiatedProtocol = [] := rfl
    rw [h1, h2, h3, hreq, hcert, hproto]
    rfl
  simp only [OpenArchive, GoMap.get_set_self, goCodec, hgz, hparse, hdoc]

theorem sameArchive_reordered (ord : RangeOrder) (a : Archive)
    (hhosts : NodupKeys a.Requests) (hurls : ∀ he ∈ a.Requests, NodupKeys he.2)
    (hcerts : NodupKeys a.Certs) (hprotos : NodupKeys a.NegotiatedProtocol) :
    SameArchive a
      { Requests := (ord.range a.Requests).map fun he => (he.1, ord.range he.2),
        Certs := ord.range a.Certs,
        NegotiatedProtocol := ord.range a.NegotiatedProtocol,
        DeterministicTimeSeedMs := a.DeterministicTimeSeedMs } := by
  have hget : ∀ h, GoMap.get ((ord.range a.Requests).map fun he => (he.1, ord.range he.2)) h =
      (GoMap.get a.Requests h).map ord.range := by
    intro h
    rw [GoMap.get_map_value (ord.range a.Requests) (fun m => ord.range m) h,
      GoMap.get_perm a.Requests _ (ord.perm a.Requests) hhosts]
  refine ⟨?_, ?_, ?_, ?_, rfl⟩
  · intro h
    simp only [hget]
    cases GoMap.get a.Requests h <;> rfl
  · intro h k
    simp only [GoMap.getMap, hget]
    cases hm : GoMap.get a.Requests h with
    | none => rfl
    | some m =>
      simp only [Option.map_some', Option.getD_some]
      exact GoMap.get_perm m _ (ord.perm m)
        (hurls (h, m) ((GoMap.get_eq_some_iff a.Requests hhosts h m).1 hm)) k
  · intro k
    exact GoMap.get_perm a.Certs _ (ord.perm a.Certs) hcerts k
  · intro k
    exact GoMap.get_perm a.NegotiatedProtocol _ (ord.perm a.NegotiatedProtocol) hprotos k

theorem forEach_reordered (L : HttpLib) (ord ord' : RangeOrder) (a : Archive) :
    (Archive.ForEach L ord'
      { Requests := (ord.range a.Requests).map fun he => (he.1, ord.range he.2),
        Certs := ord.range a.Certs,
        NegotiatedProtocol := ord.range a.NegotiatedProtocol,
        DeterministicTimeSeedMs := a.DeterministicTimeSeedMs }).Perm
      (Archive.ForEach L ord' a) := by
  unfold Archive.ForEach
  simp only
  have h1 : (ord'.range ((ord.range a.Requests).map fun he => (he.1, ord.range he.2))).Perm
      ((ord'.range a.Requests).map fun he => (he.1, ord.range he.2)) :=
    (ord'.perm _).trans ((((ord.perm a.Requests).trans (ord'.perm a.Requests).symm)).map _)
  refine (List.Perm.flatMap_right _ h1).trans ?_
  rw [List.flatMap_map]
  apply List.Perm.flatMap_left
  intro he _
  exact List.Perm.flatMap_right _ ((ord'.perm _).trans ((ord.perm he.2).trans (ord'.perm he.2).symm))

/-- C8: opening what `Serialize` wrote for an archive yields the same archive as a Go
value: the same hosts and URLs with the same lists of exchanges (so `ForEach` makes the
same calls, up to their order), the same certificates, protocols and time seed; the maps
come back with their entries in the order in which the encoder wrote them. This holds for
the codec that `encoding/json` makes up, for an archive with maps of distinct keys, given
that the library reads back this document from its text, each stored byte slice from its
base64 text, and the text from its gzip stream. In particular `OpenArchive` reads back
what `Close` flushed to the file of a writable archive. -/
theorem open_after_serialize (J : JsonLib) (ord : RangeOrder) (a : Archive)
    (disk : GoMap Bytes) (path : String)
    (hgz : J.gunzip (J.gzip (J.print (archiveDoc J ord a))) =
      some (J.print (archiveDoc J ord a)))
    (hparse : J.parse (J.print (archiveDoc J ord a)) = some (archiveDoc J ord a))
    (hwire : ∀ he ∈ a.Requests, ∀ ue ∈ he.2, ∀ ar ∈ ue.2,
      J.unbase64 (J.base64 ar.SerializedRequest) = some ar.SerializedRequest ∧
      J.unbase64 (J.base64 ar.SerializedResponse) = some ar.SerializedResponse)
    (hder : ∀ e ∈ a.Certs, ∀ der, e.2 = some der → J.unbase64 (J.base64 der) = some der)
    (hhosts : NodupKeys a.Requests) (hurls : ∀ he ∈ a.Requests, NodupKeys he.2)
    (hcerts : NodupKeys a.Certs) (hprotos : NodupKeys a.NegotiatedProtocol) :
    ∃ content a', Archive.Serialize (goCodec J ord) a = .ok content ∧
      OpenArchive (goCodec J ord) (GoMap.set disk path content) path = .ok a' ∧
      SameArchive a a' ∧
      (∀ (L : HttpLib) (ord' : RangeOrder),
        (Archive.ForEach L ord' a').Perm (Archive.ForEach L ord' a)) ∧
      (WritableArchive.Close (goCodec J ord) { Archive := a, f := some path } disk).2.2 =
        none ∧
      OpenArchive (goCodec J ord)
        (WritableArchive.Close (goCodec J ord) { Archive := a, f := some path } disk).2.1
        path = .ok a' := by
  obtain ⟨hser, hopen⟩ :=
    open_serialized J ord a disk path hgz hparse hwire hder hhosts hurls hcerts hprotos
  refine ⟨_, _, hser, hopen, sameArchive_reordered ord a hhosts hurls hcerts hprotos,
    fun L ord' => forEach_reordered L ord ord' a, ?_, ?_⟩
  · simp only [WritableArchive.Close, hser]
  · simp only [WritableArchive.Close, hser]
    exact hopen

/-! ## TLS configuration -/

/-- C12: after `RecordTlsConfig(h, d1, p1)` and `RecordTlsConfig(h, d2, p2)` on an archive
without a certificate entry for `h`, `FindHostTlsConfig(h)` returns the first certificate and
the last protocol, `(d1, p2)`; the entries of every other host, the recorded requests, the
time seed and the output file are unchanged. -/
theorem recordTlsConfig_first_cert_last_protocol (w : WritableArchive) (h : String)
    (d1 d2 : Option Bytes) (p1 p2 : String) (hnew : GoMap.get w.Archive.Certs h = none) :
    Archive.FindHostTlsConfig
      (WritableArchive.RecordTlsConfig (WritableArchive.RecordTlsConfig w h d1 p1) h d2
        p2).Archive h = .ok (d1, p2) ∧
    (∀ h', h' ≠ h →
      GoMap.get (WritableArchive.RecordTlsConfig (WritableArchive.RecordTlsConfig w h d1 p1) h
        d2 p2).Archive.Certs h' = GoMap.get w.Archive.Certs h' ∧
      GoMap.get (WritableArchive.RecordTlsConfig (WritableArchive.RecordTlsConfig w h d1 p1) h
        d2 p2).Archive.NegotiatedProtocol h' = GoMap.get w.Archive.NegotiatedProtocol h' ∧
      Archive.FindHostTlsConfig (WritableArchive.RecordTlsConfig
        (WritableArchive.RecordTlsConfig w h d1 p1) h d2 p2).Archive h' =
        Archive.FindHostTlsConfig w.Archive h') ∧
    (WritableArchive.RecordTlsConfig (WritableArchive.RecordTlsConfig w h d1 p1) h d2
      p2).Archive.Requests = w.Archive.Requests ∧
    (WritableArchive.RecordTlsConfig (WritableArchive.RecordTlsConfig w h d1 p1) h d2
      p2).Archive.DeterministicTimeSeedMs = w.Archive.DeterministicTimeSeedMs ∧
    (WritableArchive.RecordTlsConfig (WritableArchive.RecordTlsConfig w h d1 p1) h d2 p2).f =
      w.f := by
  have hcerts : (WritableArchive.RecordTlsConfig (WritableArchive.RecordTlsConfig w h d1 p1) h
      d2 p2).Archive.Certs = GoMap.set w.Archive.Certs h d1 := by
    simp [WritableArchive.RecordTlsConfig, hnew, GoMap.get_set_self]
  have hprotos : (WritableArchive.RecordTlsConfig (WritableArchive.RecordTlsConfig w h d1 p1) h
      d2 p2).Archive.NegotiatedProtocol =
      GoMap.set (GoMap.set w.Archive.NegotiatedProtocol h p1) h p2 := by
    simp [WritableArchive.RecordTlsConfig]
  refine ⟨?_, ?_, rfl, rfl, rfl⟩
  · simp [Archive.FindHostTlsConfig, Archive.findHostNegotiatedProtocol, hcerts, hprotos,
      GoMap.get_set_self]
  · intro h' hne
    have h1 : GoMap.get (GoMap.set w.Archive.Certs h d1) h' = GoMap.get w.Archive.Certs h' :=
      GoMap.get_set_other _ _ _ _ hne
    have h2 : GoMap.get (GoMap.set (GoMap.set w.Archive.NegotiatedProtocol h p1) h p2) h' =
        GoMap.get w.Archive.NegotiatedProtocol h' := by
      rw [GoMap.get_set_other _ _ _ _ hne, GoMap.get_set_other _ _ _ _ hne]
    refine ⟨by rw [hcerts, h1], by rw [hprotos, h2], ?_⟩
    simp only [Archive.FindHostTlsConfig, Archive.findHostNegotiatedProtocol, hcerts, hprotos,
      h1, h2]

/-- C13: for a non-empty server name `h` for which the archive holds a certificate `der`
(any byte slice but the nil slice, for which the archive holds no certificate), the replay
configuration presents the chain `[der]` with the root's private key and leaves the proxy
as it is; it advertises `["h2", "http/1.1"]` exactly when the protocol recorded for `h` is
`"h2"` and `["http/1.1"]` in every other case, also when no protocol is recorded, which
reads as `"http/1.1"`. `FindHostTlsConfig` returns `ErrNotFound` exactly when the host has
no certificate entry. -/
theorem replayConfig_for_recorded_host (K : CryptoLib) (tp : tlsProxy) (h : String)
    (der : Bytes) (serial : Option Bytes) (hname : h ≠ "")
    (hcert : GoMap.get tp.archive.Certs h = some (some der)) :
    tlsProxy.getReplayConfigForClient K tp h serial =
      (tp, .ok { Certificates := [{ Certificate := [der], PrivateKey := tp.root.PrivateKey }]
                 NextProtos := buildNextProtos (Archive.findHostNegotiatedProtocol tp.archive h) }) ∧
    (buildNextProtos (Archive.findHostNegotiatedProtocol tp.archive h) = ["h2", "http/1.1"] ↔
      GoMap.get tp.archive.NegotiatedProtocol h = some "h2") ∧
    (GoMap.get tp.archive.NegotiatedProtocol h ≠ some "h2" →
      buildNextProtos (Archive.findHostNegotiatedProtocol tp.archive h) = ["http/1.1"]) ∧
    (GoMap.get tp.archive.NegotiatedProtocol h = none →
      Archive.findHostNegotiatedProtocol tp.archive h = "http/1.1") ∧
    (∀ (a : Archive) (host : String),
      Archive.FindHostTlsConfig a host = .err .ErrNotFound ↔ GoMap.get a.Certs host = none) := by
  refine ⟨?_, ?_, ?_, ?_, ?_⟩
  · simp [tlsProxy.getReplayConfigForClient, hname, Archive.FindHostTlsConfig, hcert]
  · unfold Archive.findHostNegotiatedProtocol buildNextProtos
    cases hp : GoMap.get tp.archive.NegotiatedProtocol h with
    | none => simp
    | some p =>
      by_cases hp2 : p = "h2"
      · simp [hp2]
      · simp [hp2]
  · intro hne
    unfold Archive.findHostNegotiatedProtocol buildNextProtos
    cases hp : GoMap.get tp.archive.NegotiatedProtocol h with
    | none => simp
    | some p =>
      have hp2 : p ≠ "h2" := fun hh => hne (by rw [hp, hh])
      simp [hp2]
  · intro hnone
    simp [Archive.findHostNegotiatedProtocol, hnone]
  · intro a host
    unfold Archive.FindHostTlsConfig
    cases GoMap.get a.Certs host with
    | none => simp
    | some cert => simp

/-! ## Close -/

theorem close_closed (C : DocCodec) (w : WritableArchive) (disk : GoMap Bytes)
    (h : w.f = none) : WritableArchive.Close C w disk = (w, disk, some .alreadyClosed) := by
  obtain ⟨a, f⟩ := w
  simp only at h
  subst h
  rfl

theorem close_leaves_closed (C : DocCodec) (w : WritableArchive) (disk : GoMap Bytes) :
    (WritableArchive.Close C w disk).1.f = none := by
  unfold WritableArchive.Close
  cases w.f with
  | none => rfl
  | some path =>
    simp only
    cases Archive.Serialize C w.Archive <;> rfl

theorem closeTimes_closed (C : DocCodec) (n : Nat) (w : WritableArchive) (disk : GoMap Bytes)
    (h : w.f = none) : closeTimes C n w disk = (w, disk) := by
  induction n with
  | zero => rfl
  | succ n ih => rw [closeTimes, close_closed C w disk h]; exact ih

/-- C14: `Close` serializes the archive to the file at most once. A call on an open archive
writes what `Serialize` gives to the file, or nothing when `Serialize` fails, and leaves the
archive closed in both cases; every later call, after any number of calls, returns the error
`already closed` and changes neither the archive nor the disk. -/
theorem close_at_most_once (C : DocCodec) (w : WritableArchive) (disk : GoMap Bytes) :
    (∀ path, w.f = some path →
      (∀ content, Archive.Serialize C w.Archive = .ok content →
        WritableArchive.Close C w disk =
          ({ w with f := none }, GoMap.set disk path content, none)) ∧
      (∀ e, Archive.Serialize C w.Archive = .err e →
        WritableArchive.Close C w disk = ({ w with f := none }, disk, some e))) ∧
    (∀ n, WritableArchive.Close C (closeTimes C (n + 1) w disk).1
        (closeTimes C (n + 1) w disk).2 =
      ((WritableArchive.Close C w disk).1, (WritableArchive.Close C w disk).2.1,
        some .alreadyClosed)) := by
  refine ⟨?_, ?_⟩
  · intro path hpath
    refine ⟨?_, ?_⟩
    · intro content hser
      simp [WritableArchive.Close, hpath, hser]
    · intro e hser
      simp [WritableArchive.Close, hpath, hser]
  · intro n
    have hclosed := close_leaves_closed C w disk
    rw [closeTimes, closeTimes_closed C n _ _ hclosed]
    exact close_closed C _ _ hclosed

/-! ## Compression -/

/-- C15 (amended): `decompressBody(ce, b)` is the gzip decoding of `b` when `ce` is `gzip`
and the deflate decoding of `b` when `ce` is `deflate`, compared without regard to case; for
every other `ce`, the empty one and `identity` included, it returns `b` unchanged together
with the error `unknown compression` followed by `ce`. -/
theorem decompressBody_cases (Z : BodyLib) (ce : String) (b : Bytes) :
    (Z.toLower ce = "gzip" → decompressBody Z ce b = Z.gzipReader b) ∧
    (Z.toLower ce = "deflate" → decompressBody Z ce b = Z.flateReader b) ∧
    (Z.toLower ce ≠ "gzip" → Z.toLower ce ≠ "deflate" →
      decompressBody Z ce b = (b, some ("unknown compression: " ++ ce))) := by
  refine ⟨?_, ?_, ?_⟩
  · intro h
    simp [decompressBody, h]
  · intro h
    simp [decompressBody, h]
  · intro h1 h2
    simp [decompressBody, h1, h2]

/-- C16: `CompressBody(ae, b)` compresses with gzip when the lower-cased `ae` contains
`gzip`, whatever else it contains and in whatever order; with deflate when it contains
`deflate` and not `gzip`; in both cases it returns the name of the chosen encoding. When
`ae` contains neither it returns `b` unchanged, the name `identity` and an error. -/
theorem compressBody_prefers_gzip (Z : BodyLib) (ae : String) (b : Bytes) :
    (stringContains (Z.toLower ae) "gzip" = true →
      CompressBody Z ae b = ((Z.gzipWriter b).1, "gzip", (Z.gzipWriter b).2)) ∧
    (stringContains (Z.toLower ae) "gzip" = false →
      stringContains (Z.toLower ae) "deflate" = true →
      CompressBody Z ae b = ((Z.flateWriter b).1, "deflate", (Z.flateWriter b).2)) ∧
    (stringContains (Z.toLower ae) "gzip" = false →
      stringContains (Z.toLower ae) "deflate" = false →
      (CompressBody Z ae b).1 = b ∧ (CompressBody Z ae b).2.1 = "identity" ∧
      (CompressBody Z ae b).2.2 ≠ none) := by
  refine ⟨?_, ?_, ?_⟩
  · intro h
    simp [CompressBody, h]
  · intro h1 h2
    simp [CompressBody, h1, h2]
  · intro h1 h2
    simp [CompressBody, h1, h2]

/-! ## transformResponseBody -/

theorem lastContentEncoding_congr (Z : BodyLib) (a b : Response)
    (h : GoMap.get a.Header "Content-Encoding" = GoMap.get b.Header "Content-Encoding") :
    lastContentEncoding Z a = lastContentEncoding Z b := by
  unfold lastContentEncoding
  rw [h]

theorem withBody_encoding (resp : Response) (enc : Bytes) :
    GoMap.get (withBody resp enc).Header "Content-Encoding" =
      GoMap.get resp.Header "Content-Encoding" := by
  unfold withBody
  split
  · exact GoMap.get_set_other _ _ _ _ (by decide)
  · rfl

theorem withBody_body (resp : Response) (enc : Bytes) : (withBody resp enc).Body = enc := by
  unfold withBody
  split <;> rfl

theorem transformResponseBody_plain (Z : BodyLib) (resp : Response) (f : Bytes → Outcome Bytes)
    (body : Bytes) (hread : resp.BodyErr = none)
    (hce : lastContentEncoding Z resp = "" ∨ lastContentEncoding Z resp = "identity")
    (hf : f resp.Body = .ok body) :
    transformResponseBody Z resp f = .ok (withBody resp body, none) := by
  by_cases hlen : 0 ≤ resp.ContentLength
  · rcases hce with hce | hce <;>
      simp [transformResponseBody, withBody, hread, hce, hf, hlen]
  · rcases hce with hce | hce <;>
      simp [transformResponseBody, withBody, hread, hce, hf, hlen]

theorem transformResponseBody_gzip (Z : BodyLib) (resp : Response) (f : Bytes → Outcome Bytes)
    (old body : Bytes) (hread : resp.BodyErr = none)
    (hce : Z.toLower (lastContentEncoding Z resp) = "gzip")
    (hne : lastContentEncoding Z resp ≠ "" ∧ lastContentEncoding Z resp ≠ "identity")
    (hdec : Z.gzipReader resp.Body = (old, none)) (hf : f old = .ok body)
    (henc : (Z.gzipWriter body).2 = none) :
    transformResponseBody Z resp f = .ok (withBody resp (Z.gzipWriter body).1, none) := by
  have hc : stringContains "gzip" "gzip" = true := by decide
  by_cases hlen : 0 ≤ resp.ContentLength <;>
    simp [transformResponseBody, withBody, hread, hne.1, hne.2, decompressBody, CompressBody,
      hce, hdec, hf, hc, henc, hlen]

theorem transformResponseBody_deflate (Z : BodyLib) (resp : Response) (f : Bytes → Outcome Bytes)
    (old body : Bytes) (hread : resp.BodyErr = none)
    (hce : Z.toLower (lastContentEncoding Z resp) = "deflate")
    (hne : lastContentEncoding Z resp ≠ "" ∧ lastContentEncoding Z resp ≠ "identity")
    (hdec : Z.flateReader resp.Body = (old, none)) (hf : f old = .ok body)
    (henc : (Z.flateWriter body).2 = none) :
    transformResponseBody Z resp f = .ok (withBody resp (Z.flateWriter body).1, none) := by
  have hc : stringContains "deflate" "gzip" = false := by decide
  have hc2 : stringContains "deflate" "deflate" = true := by decide
  have hne2 : ("deflate" : String) ≠ "gzip" := by decide
  by_cases hlen : 0 ≤ resp.ContentLength <;>
    simp [transformResponseBody, withBody, hread, hne.1, hne.2, decompressBody, CompressBody,
      hce, hdec, hf, hc, hc2, henc, hlen]

theorem withBody_bodyErr (resp : Response) (enc : Bytes) :
    (withBody resp enc).BodyErr = resp.BodyErr := by
  unfold withBody
  split <;> rfl

theorem withBody_length (resp : Response) (enc : Bytes) (h : 0 ≤ resp.ContentLength) :
    (withBody resp enc).ContentLength = enc.length ∧
    GoMap.get (withBody resp enc).Header "Content-Length" = some [Nat.repr enc.length] := by
  unfold withBody
  rw [if_pos h]
  exact ⟨rfl, GoMap.get_set_self _ _ _⟩

theorem withBody_unknown_length (resp : Response) (enc : Bytes) (h : resp.ContentLength < 0) :
    (withBody resp enc).ContentLength = resp.ContentLength ∧
    (withBody resp enc).Header = resp.Header := by
  unfold withBody
  rw [if_neg (not_le.mpr h)]
  exact ⟨rfl, rfl⟩

theorem decodedBody_withBody (Z : BodyLib) (resp : Response) (enc : Bytes) :
    decodedBody Z (withBody resp enc) = decodedBody Z { resp with Body := enc } := by
  have h1 : lastContentEncoding Z (withBody resp enc) = lastContentEncoding Z resp :=
    lastContentEncoding_congr Z _ _ (withBody_encoding resp enc)
  have h2 : lastContentEncoding Z { resp with Body := enc } = lastContentEncoding Z resp :=
    lastContentEncoding_congr Z _ _ rfl
  unfold decodedBody
  rw [h1, h2, withBody_body]

/-- C17: for a response whose body can be read and decodes to `old` under its last
`Content-Encoding` (gzip, deflate, or none, empty and `identity` for a plain body),
`transformResponseBody(resp, f)` returns no error and leaves a response whose body decodes to
`f old` under the same encoding: the `Content-Encoding` header is unchanged, and a plain body
is `f` of the old body itself. `ContentLength` and the `Content-Length` header become the
length of the new body when `ContentLength` was at least 0; a negative `ContentLength` and
the header are left as they were. The compression library is assumed lossless: a writer
does not fail and its reader gives the written octets back. -/
theorem transformResponseBody_recodes (Z : BodyLib) (resp : Response) (f : Bytes → Bytes)
    (old : Bytes)
    (hgzip : Z.toLower "gzip" = "gzip") (hdeflate : Z.toLower "deflate" = "deflate")
    (hgz : ∀ b, (Z.gzipWriter b).2 = none ∧ Z.gzipReader (Z.gzipWriter b).1 = (b, none))
    (hfl : ∀ b, (Z.flateWriter b).2 = none ∧ Z.flateReader (Z.flateWriter b).1 = (b, none))
    (hread : resp.BodyErr = none) (hdecodes : decodedBody Z resp = (old, none)) :
    ∃ out, transformResponseBody Z resp (fun b => .ok (f b)) = .ok (out, none) ∧
      decodedBody Z out = (f old, none) ∧ out.BodyErr = none ∧
      GoMap.get out.Header "Content-Encoding" = GoMap.get resp.Header "Content-Encoding" ∧
      (lastContentEncoding Z resp = "" ∨ lastContentEncoding Z resp = "identity" →
        out.Body = f resp.Body) ∧
      (0 ≤ resp.ContentLength → out.ContentLength = out.Body.length ∧
        GoMap.get out.Header "Content-Length" = some [Nat.repr out.Body.length]) ∧
      (resp.ContentLength < 0 →
        out.ContentLength = resp.ContentLength ∧ out.Header = resp.Header) := by
  have hfinish : ∀ enc, transformResponseBody Z resp (fun b => .ok (f b)) =
      .ok (withBody resp enc, none) → decodedBody Z { resp with Body := enc } = (f old, none) →
      (lastContentEncoding Z resp = "" ∨ lastContentEncoding Z resp = "identity" →
        enc = f resp.Body) →
      ∃ out, transformResponseBody Z resp (fun b => .ok (f b)) = .ok (out, none) ∧
      decodedBody Z out = (f old, none) ∧ out.BodyErr = none ∧
      GoMap.get out.Header "Content-Encoding" = GoMap.get resp.Header "Content-Encoding" ∧
      (lastContentEncoding Z resp = "" ∨ lastContentEncoding Z resp = "identity" →
        out.Body = f resp.Body) ∧
      (0 ≤ resp.ContentLength → out.ContentLength = out.Body.length ∧
        GoMap.get out.Header "Content-Length" = some [Nat.repr out.Body.length]) ∧
      (resp.ContentLength < 0 →
        out.ContentLength = resp.ContentLength ∧ out.Header = resp.Header) := by
    intro enc hrun hdec hplain
    refine ⟨withBody resp enc, hrun, ?_, ?_, withBody_encoding resp enc, ?_, ?_, ?_⟩
    · rw [decodedBody_withBody]; exact hdec
    · rw [withBody_bodyErr]; exact hread
    · intro h; rw [withBody_body]; exact hplain h
    · intro h; rw [withBody_body]; exact withBody_length resp enc h
    · intro h; exact withBody_unknown_length resp enc h
  have hlast : ∀ enc, lastContentEncoding Z { resp with Body := enc } =
      lastContentEncoding Z resp := fun enc => lastContentEncoding_congr Z _ _ rfl
  by_cases h1 : lastContentEncoding Z resp = "gzip"
  · have hold : Z.gzipReader resp.Body = (old, none) := by
      rw [← hdecodes]; simp [decodedBody, h1]
    refine hfinish (Z.gzipWriter (f old)).1 ?_ ?_ ?_
    · exact transformResponseBody_gzip Z resp _ old (f old) hread (by rw [h1, hgzip])
        ⟨by rw [h1]; decide, by rw [h1]; decide⟩ hold rfl (hgz (f old)).1
    · simp [decodedBody, hlast, h1, (hgz (f old)).2]
    · intro h
      rw [h1] at h
      exact absurd h (by decide)
  · by_cases h2 : lastContentEncoding Z resp = "deflate"
    · have hold : Z.flateReader resp.Body = (old, none) := by
        rw [← hdecodes]; simp [decodedBody, h2]
      refine hfinish (Z.flateWriter (f old)).1 ?_ ?_ ?_
      · exact transformResponseBody_deflate Z resp _ old (f old) hread (by rw [h2, hdeflate])
          ⟨by rw [h2]; decide, by rw [h2]; decide⟩ hold rfl (hfl (f old)).1
      · simp [decodedBody, hlast, h2, (hfl (f old)).2]
      · intro h
        rw [h2] at h
        exact absurd h (by decide)
    · by_cases h3 : lastContentEncoding Z resp = "" ∨ lastContentEncoding Z resp = "identity"
      · have hold : resp.Body = old := by
          have := hdecodes
          simp [decodedBody, h1, h2, h3] at this
          exact this
        refine hfinish (f old) ?_ ?_ ?_
        · exact transformResponseBody_plain Z resp _ (f old) hread h3 (by rw [hold])
        · simp [decodedBody, hlast, h1, h2, h3]
        · intro _; rw [hold]
      · exfalso
        have := hdecodes
        simp [decodedBody, h1, h2, h3] at this

/-! ## Replay -/

theorem toLower_idem (c : Char) : c.toLower.toLower = c.toLower := by
  by_cases h : c.toNat ≥ 65 ∧ c.toNat ≤ 90
  · have hc : c = Char.ofNat c.toNat := (Char.ofNat_toNat c).symm
    obtain ⟨h1, h2⟩ := h
    generalize c.toNat = n at hc h1 h2
    subst hc
    interval_cases n <;> decide
  · have : c.toLower = c := by
      unfold Char.toLower
      rw [if_neg]
      simpa using h
    rw [this, this]

theorem asciiLower_idem (s : String) : asciiLower (asciiLower s) = asciiLower s := by
  simp [asciiLower, List.map_map, Function.comp_def, toLower_idem]

/-- C18: when the archive has an exchange for the request and the lower-cased stored
`Content-Encoding` is not a substring of the lower-cased `Accept-Encoding` of the client, the
replay proxy answers 404 without header or body in each of these cases: the stored encoding
is neither `gzip` nor `deflate`; the stored body does not decode; the `Accept-Encoding`
contains neither `gzip` nor `deflate`. Lower-casing a lower-cased string is assumed to
change nothing. -/
theorem replay_untranslatable_404 (T : TimeLib) (L : HttpLib) (ord : RangeOrder) (Z : BodyLib)
    (proxy : replayingProxy) (req : Request) (now : Int) (found : Request × Response)
    (hlow : ∀ s, Z.toLower (Z.toLower s) = Z.toLower s)
    (hgen : req.URL.Path ≠ "/web-page-replay-generate-200")
    (hexit : req.URL.Path ≠ "/web-page-replay-command-exit")
    (hfind : FindRequest L ord proxy.a (fixupRequestURL req proxy.scheme) proxy.scheme =
      .ok found)
    (hnot : stringContains (Z.toLower (Header.Get req.Header "Accept-Encoding"))
      (Z.toLower (Header.Get found.2.Header "Content-Encoding")) = false)
    (hcase :
      (Z.toLower (Header.Get found.2.Header "Content-Encoding") ≠ "gzip" ∧
        Z.toLower (Header.Get found.2.Header "Content-Encoding") ≠ "deflate") ∨
      (decompressBody Z (Z.toLower (Header.Get found.2.Header "Content-Encoding"))
        found.2.Body).2 ≠ none ∨
      (stringContains (Z.toLower (Header.Get req.Header "Accept-Encoding")) "gzip" = false ∧
        stringContains (Z.toLower (Header.Get req.Header "Accept-Encoding")) "deflate" =
          false)) :
    replayingProxy.ServeHTTP T L ord Z proxy req now = .response 404 [] [] := by
  have hheader : (fixupRequestURL req proxy.scheme).Header = req.Header := rfl
  have htrans : translateEncoding Z (fixupRequestURL req proxy.scheme) found.2 = none := by
    unfold translateEncoding
    rw [hheader]
    simp only [hnot, Bool.false_eq_true, not_false_eq_true, if_true]
    cases hread : found.2.BodyErr with
    | some e => rfl
    | none =>
      simp only
      cases hdec : (decompressBody Z (Z.toLower (Header.Get found.2.Header "Content-Encoding"))
          found.2.Body).2 with
      | some e => rfl
      | none =>
        simp only
        rcases hcase with ⟨h1, h2⟩ | h | ⟨h1, h2⟩
        · exfalso
          simp [decompressBody, hlow, h1, h2] at hdec
        · exact absurd hdec h
        · simp [CompressBody, hlow, h1, h2]
  unfold replayingProxy.ServeHTTP
  rw [if_neg hgen, if_neg hexit]
  simp only [hfind, htrans]

/-! ## Dates -/

theorem Header.Get_congr (a b : Header) (k : String) (h : GoMap.get a k = GoMap.get b k) :
    Header.Get a k = Header.Get b k := by
  unfold Header.Get
  rw [h]

theorem updateDate_get_other (T : TimeLib) (h : Header) (name k : String) (now oldNow : Int)
    (hk : k ≠ name) : GoMap.get (updateDate T h name now oldNow) k = GoMap.get h k := by
  unfold updateDate
  simp only
  split
  · rfl
  · split
    · rfl
    · exact GoMap.get_set_other _ _ _ _ hk

theorem updateDate_get_self (T : TimeLib) (h : Header) (name : String) (now oldNow t : Int)
    (hval : Header.Get h name ≠ "") (ht : T.parseTime (Header.Get h name) = some t) :
    GoMap.get (updateDate T h name now oldNow) name =
      some [T.format (timeAdd now (timeSub t oldNow))] := by
  unfold updateDate
  simp only [hval, if_false, ht]
  exact GoMap.get_set_self _ _ _

theorem updateDate_get_unchanged (T : TimeLib) (h : Header) (name : String) (now oldNow : Int)
    (hval : Header.Get h name = "" ∨ T.parseTime (Header.Get h name) = none) :
    updateDate T h name now oldNow = h := by
  unfold updateDate
  simp only
  rcases hval with hval | hval
  · rw [if_pos hval]
  · split
    · rfl
    · rw [hval]

theorem timeSub_exact (t u : Int) (h1 : minDuration ≤ t - u) (h2 : t - u ≤ maxDuration) :
    timeSub t u = t - u := by
  unfold timeSub
  rw [if_neg (not_lt.mpr h2), if_neg (not_lt.mpr h1)]

/-- C19 (amended): `updateDates(h, now)` sets `Date` to `now` in the HTTP-date format. When
the stored `Date` parses as `D`, each of `Last-Modified` and `Expires` whose value parses as
a time `t` that is within the range of a duration from `D` is replaced by `now + (t - D)`.
A missing or unparsable `Last-Modified` or `Expires`, both of them when the stored `Date` is
missing or unparsable, and every other header are left unchanged. -/
theorem updateDates_shifts (T : TimeLib) (h : Header) (now : Int) :
    GoMap.get (updateDates T h now) "Date" = some [T.format now] ∧
    (∀ name, name = "Last-Modified" ∨ name = "Expires" →
      (∀ D t, T.parseTime (Header.Get h "Date") = some D → Header.Get h name ≠ "" →
        T.parseTime (Header.Get h name) = some t →
        minDuration ≤ t - D → t - D ≤ maxDuration →
        GoMap.get (updateDates T h now) name = some [T.format (now + (t - D))]) ∧
      (T.parseTime (Header.Get h "Date") = none ∨ Header.Get h name = "" ∨
          T.parseTime (Header.Get h name) = none →
        GoMap.get (updateDates T h now) name = GoMap.get h name)) ∧
    (∀ k, k ≠ "Date" → k ≠ "Last-Modified" → k ≠ "Expires" →
      GoMap.get (updateDates T h now) k = GoMap.get h k) := by
  have hdate : ∀ k, k ≠ "Date" →
      GoMap.get (Header.Set h "Date" (T.format now)) k = GoMap.get h k :=
    fun k hk => GoMap.get_set_other _ _ _ _ hk
  have hlm : ∀ _ : Int, Header.Get (Header.Set h "Date" (T.format now)) "Last-Modified" =
      Header.Get h "Last-Modified" :=
    fun _ => Header.Get_congr _ _ _ (hdate _ (by decide))
  have hexp : ∀ D : Int, Header.Get
      (updateDate T (Header.Set h "Date" (T.format now)) "Last-Modified" now D) "Expires" =
      Header.Get h "Expires" := by
    intro D
    apply Header.Get_congr
    rw [updateDate_get_other T _ _ _ _ _ (by decide)]
    exact hdate _ (by decide)
  refine ⟨?_, ?_, ?_⟩
  · unfold updateDates
    simp only
    cases T.parseTime (Header.Get h "Date") with
    | none => exact GoMap.get_set_self _ _ _
    | some D =>
      simp only
      rw [updateDate_get_other T _ _ _ _ _ (by decide),
        updateDate_get_other T _ _ _ _ _ (by decide)]
      exact GoMap.get_set_self _ _ _
  · intro name hname
    refine ⟨?_, ?_⟩
    · intro D t hD hval ht h1 h2
      unfold updateDates
      simp only [hD]
      rcases hname with hname | hname
      · subst hname
        rw [updateDate_get_other T _ _ _ _ _ (by decide),
          updateDate_get_self T _ _ now D t (by rw [hlm D]; exact hval)
            (by rw [hlm D]; exact ht),
          timeSub_exact t D h1 h2]
        rfl
      · subst hname
        rw [updateDate_get_self T _ _ now D t (by rw [hexp D]; exact hval)
            (by rw [hexp D]; exact ht),
          timeSub_exact t D h1 h2]
        rfl
    · intro hcase
      unfold updateDates
      simp only
      cases hD : T.parseTime (Header.Get h "Date") with
      | none =>
        simp only
        rcases hname with hname | hname <;> subst hname <;> exact hdate _ (by decide)
      | some D =>
        simp only
        have hcase2 : Header.Get h name = "" ∨ T.parseTime (Header.Get h name) = none := by
          rcases hcase with hc | hc | hc
          · rw [hD] at hc; exact absurd hc (by simp)
          · exact Or.inl hc
          · exact Or.inr hc
        rcases hname with hname | hname
        · subst hname
          rw [updateDate_get_other T _ _ _ _ _ (by decide),
            updateDate_get_unchanged T _ _ now D (by rw [hlm D]; exact hcase2)]
          exact hdate _ (by decide)
        · subst hname
          rw [updateDate_get_unchanged T _ _ now D (by rw [hexp D]; exact hcase2),
            updateDate_get_other T _ _ _ _ _ (by decide)]
          exact hdate _ (by decide)
  · intro k h1 h2 h3
    unfold updateDates
    simp only
    cases T.parseTime (Header.Get h "Date") with
    | none => exact hdate k h1
    | some D =>
      simp only
      rw [updateDate_get_other T _ _ _ _ _ h3, updateDate_get_other T _ _ _ _ _ h2]
      exact hdate k h1

/-! ## Script injection -/

theorem GoMap.set_set_same {V : Type} (m : GoMap V) (k : String) (v : V) :
    GoMap.set (GoMap.set m k v) k v = GoMap.set m k v := by
  induction m with
  | nil => simp [GoMap.set]
  | cons e rest ih =>
    obtain ⟨k', v'⟩ := e
    by_cases h : k' = k
    · simp [GoMap.set, h]
    · simp [GoMap.set, h, ih]

theorem listContains_self_append (s b : Bytes) : listContains (s ++ b) s = true := by
  have hp : s.isPrefixOf (s ++ b) = true := List.isPrefixOf_iff_prefix.mpr (List.prefix_append s b)
  cases hsb : s ++ b with
  | nil =>
    have : s = [] := (List.append_eq_nil.mp hsb).1
    simp [listContains, this]
  | cons x xs =>
    rw [hsb] at hp
    simp [listContains, hp]

theorem listContains_append_left (a l s : Bytes) (h : listContains l s = true) :
    listContains (a ++ l) s = true := by
  induction a with
  | nil => exact h
  | cons x xs ih => simp [listContains, ih]

theorem bytesContains_injected (body script : Bytes) (n : Nat) :
    bytesContains (body.take n ++ script ++ body.drop n) script = true := by
  unfold bytesContains
  rw [List.append_assoc]
  exact listContains_append_left _ _ _ (listContains_self_append _ _)

theorem inject_again (R : RegexpLib) (si : scriptInjector) (resp resp' : Response)
    (body body' : Bytes) (hreq : resp'.Request = resp.Request)
    (h : scriptInjector.inject R si resp body = .ok body') :
    scriptInjector.inject R si resp' body' = .ok body' := by
  unfold scriptInjector.inject at h
  by_cases hc : bytesContains body si.script = true
  · rw [if_pos hc] at h
    cases h
    unfold scriptInjector.inject
    rw [if_pos hc]
  · rw [if_neg hc] at h
    simp only at h
    generalize hidx : (match R.headRE body with
      | some idx => some idx
      | none =>
        match R.htmlRE body with
        | some idx => some idx
        | none => R.doctypeRE body) = idx at h
    cases idx with
    | none =>
      simp only at h
      cases hr : resp.Request with
      | none => rw [hr] at h; cases h
      | some r =>
        rw [hr] at h
        cases h
        unfold scriptInjector.inject
        rw [if_neg hc]
        simp only [hidx, hreq, hr]
    | some i =>
      simp only at h
      cases h
      unfold scriptInjector.inject
      rw [if_pos (bytesContains_injected body si.script i.2)]

theorem failEarly_again (Z : BodyLib) (resp : Response) (b : Bytes) (err : String)
    (g : Bytes → Outcome Bytes) :
    transformResponseBody Z (failEarly resp b err).1 g = .ok (failEarly resp b err) := by
  simp [transformResponseBody, failEarly]

theorem failEarly_self (resp : Response) (err : String) (h : resp.BodyErr = some err) :
    failEarly resp resp.Body err = (resp, some err) := by
  obtain ⟨a, b, c, d, e, f, g, h', i, j⟩ := resp
  simp only at h
  subst h
  rfl

theorem withBody_again (resp : Response) (enc : Bytes) :
    withBody (withBody resp enc) enc = withBody resp enc := by
  by_cases h : 0 ≤ resp.ContentLength
  · have h' : (0 : Int) ≤ (enc.length : Int) := Int.ofNat_nonneg _
    simp [withBody, h, h', Header.Set, GoMap.set_set_same]
  · simp [withBody, h]

theorem transformResponseBody_result (Z : BodyLib) (resp : Response) (g : Bytes → Outcome Bytes)
    (out : Response × Option String) (h1 : transformResponseBody Z resp g = .ok out) :
    (∃ b err, out = failEarly resp b err) ∨
    (resp.BodyErr = none ∧ ∃ body,
      ((lastContentEncoding Z resp = "" ∨ lastContentEncoding Z resp = "identity") ∧
        g resp.Body = .ok body ∧ out = (withBody resp body, none)) ∨
      ((lastContentEncoding Z resp ≠ "" ∧ lastContentEncoding Z resp ≠ "identity") ∧
        Z.toLower (lastContentEncoding Z resp) = "gzip" ∧
        (Z.gzipReader resp.Body).2 = none ∧ g (Z.gzipReader resp.Body).1 = .ok body ∧
        (Z.gzipWriter body).2 = none ∧ out = (withBody resp (Z.gzipWriter body).1, none)) ∨
      ((lastContentEncoding Z resp ≠ "" ∧ lastContentEncoding Z resp ≠ "identity") ∧
        Z.toLower (lastContentEncoding Z resp) = "deflate" ∧
        (Z.flateReader resp.Body).2 = none ∧ g (Z.flateReader resp.Body).1 = .ok body ∧
        (Z.flateWriter body).2 = none ∧ out = (withBody resp (Z.flateWriter body).1, none))) := by
  have hc : stringContains "gzip" "gzip" = true := by decide
  have hc1 : stringContains "deflate" "gzip" = false := by decide
  have hc2 : stringContains "deflate" "deflate" = true := by decide
  have hdg : ("deflate" : String) ≠ "gzip" := by decide
  cases hread : resp.BodyErr with
  | some err =>
    left
    simp only [transformResponseBody, hread] at h1
    exact ⟨_, _, (Outcome.ok.inj h1).symm⟩
  | none =>
    by_cases hplain : lastContentEncoding Z resp = "" ∨ lastContentEncoding Z resp = "identity"
    · cases hg : g resp.Body with
      | ok body =>
        right
        rw [transformResponseBody_plain Z resp g body hread hplain hg] at h1
        exact ⟨rfl, body, Or.inl ⟨hplain, rfl, (Outcome.ok.inj h1).symm⟩⟩
      | err e =>
        exfalso
        rcases hplain with hp | hp <;> simp [transformResponseBody, hread, hp, hg] at h1
      | crash msg =>
        exfalso
        rcases hplain with hp | hp <;> simp [transformResponseBody, hread, hp, hg] at h1
    · have hne : lastContentEncoding Z resp ≠ "" ∧ lastContentEncoding Z resp ≠ "identity" :=
        not_or.mp hplain
      by_cases hgz : Z.toLower (lastContentEncoding Z resp) = "gzip"
      · cases hd : (Z.gzipReader resp.Body).2 with
        | some err =>
          left
          simp only [transformResponseBody, hread, hne.1, hne.2, decompressBody, hgz, hd,
            ne_eq, not_false_eq_true, decide_True, Bool.and_self, if_true] at h1
          exact ⟨_, _, (Outcome.ok.inj h1).symm⟩
        | none =>
          cases hg : g (Z.gzipReader resp.Body).1 with
          | ok body =>
            cases henc : (Z.gzipWriter body).2 with
            | none =>
              right
              rw [transformResponseBody_gzip Z resp g (Z.gzipReader resp.Body).1 body hread hgz
                hne (Prod.ext rfl hd) hg henc] at h1
              exact ⟨rfl, body, Or.inr (Or.inl ⟨hne, hgz, rfl, rfl, henc,
                (Outcome.ok.inj h1).symm⟩)⟩
            | some err =>
              left
              simp only [transformResponseBody, hread, hne.1, hne.2, decompressBody, hgz, hd,
                hg, CompressBody, hc, henc,
                ne_eq, not_false_eq_true, decide_True, Bool.and_self, if_true] at h1
              exact ⟨_, _, (Outcome.ok.inj h1).symm⟩
          | err e =>
            exfalso
            simp [transformResponseBody, hread, hne.1, hne.2, decompressBody, hgz, hd, hg] at h1
          | crash msg =>
            exfalso
            simp [transformResponseBody, hread, hne.1, hne.2, decompressBody, hgz, hd, hg] at h1
      · by_cases hfl : Z.toLower (lastContentEncoding Z resp) = "deflate"
        · cases hd : (Z.flateReader resp.Body).2 with
          | some err =>
            left
            simp only [transformResponseBody, hread, hne.1, hne.2, decompressBody, hgz, hfl, hdg, hd,
              ne_eq, not_false_eq_true, decide_True, Bool.and_self, if_true, if_false] at h1
            exact ⟨_, _, (Outcome.ok.inj h1).symm⟩
          | none =>
            cases hg : g (Z.flateReader resp.Body).1 with
            | ok body =>
              cases henc : (Z.flateWriter body).2 with
              | none =>
                right
                rw [transformResponseBody_deflate Z resp g (Z.flateReader resp.Body).1 body
                  hread hfl hne (Prod.ext rfl hd) hg henc] at h1
                exact ⟨rfl, body, Or.inr (Or.inr ⟨hne, hfl, rfl, rfl, henc,
                  (Outcome.ok.inj h1).symm⟩)⟩
              | some err =>
                left
                simp only [transformResponseBody, hread, hne.1, hne.2, decompressBody, hgz, hfl, hdg,
                  hd, hg, CompressBody, hc1, hc2, henc, Bool.false_eq_true,
                  ne_eq, not_false_eq_true, decide_True, Bool.and_self, if_true, if_false]
                  at h1
                exact ⟨_, _, (Outcome.ok.inj h1).symm⟩
            | err e =>
              exfalso
              simp [transformResponseBody, hread, hne.1, hne.2, decompressBody, hgz, hfl, hdg, hd,
                hg] at h1
            | crash msg =>
              exfalso
              simp [transformResponseBody, hread, hne.1, hne.2, decompressBody, hgz, hfl, hdg, hd,
                hg] at h1
        · left
          simp only [transformResponseBody, hread, hne.1, hne.2, decompressBody, hgz, hfl, hdg,
            ne_eq, not_false_eq_true, decide_True, Bool.and_self, if_true, if_false] at h1
          exact ⟨_, _, (Outcome.ok.inj h1).symm⟩

theorem transformResponseBody_keeps (Z : BodyLib) (resp : Response) (g : Bytes → Outcome Bytes)
    (out : Response × Option String) (h1 : transformResponseBody Z resp g = .ok out) :
    out.1.StatusCode = resp.StatusCode ∧ out.1.Request = resp.Request ∧
    Header.Get out.1.Header "Content-Type" = Header.Get resp.Header "Content-Type" := by
  have hwith : ∀ enc, (withBody resp enc).StatusCode = resp.StatusCode ∧
      (withBody resp enc).Request = resp.Request ∧
      Header.Get (withBody resp enc).Header "Content-Type" =
        Header.Get resp.Header "Content-Type" := by
    intro enc
    unfold withBody
    split
    · exact ⟨rfl, rfl, Header.Get_congr _ _ _ (GoMap.get_set_other _ _ _ _ (by decide))⟩
    · exact ⟨rfl, rfl, rfl⟩
  rcases transformResponseBody_result Z resp g out h1 with ⟨b, err, hout⟩ |
    ⟨_, body, ⟨_, _, hout⟩ | ⟨_, _, _, _, _, hout⟩ | ⟨_, _, _, _, _, hout⟩⟩
  · subst hout
    exact ⟨rfl, rfl, rfl⟩
  · subst hout
    exact hwith _
  · subst hout
    exact hwith _
  · subst hout
    exact hwith _

theorem transformResponseBody_again (Z : BodyLib) (resp : Response)
    (g g' : Bytes → Outcome Bytes) (out : Response × Option String)
    (hgz : ∀ b, (Z.gzipWriter b).2 = none → Z.gzipReader (Z.gzipWriter b).1 = (b, none))
    (hfl : ∀ b, (Z.flateWriter b).2 = none → Z.flateReader (Z.flateWriter b).1 = (b, none))
    (h1 : transformResponseBody Z resp g = .ok out)
    (hg : ∀ b b', g b = .ok b' → g' b' = .ok b') :
    transformResponseBody Z out.1 g' = .ok out := by
  have hlast : ∀ enc, lastContentEncoding Z (withBody resp enc) = lastContentEncoding Z resp :=
    fun enc => lastContentEncoding_congr Z _ _ (withBody_encoding resp enc)
  rcases transformResponseBody_result Z resp g out h1 with ⟨b, err, hout⟩ |
    ⟨hread, body, ⟨hce, hgb, hout⟩ | ⟨hne, hce, _, hgb, henc, hout⟩ |
      ⟨hne, hce, _, hgb, henc, hout⟩⟩
  · subst hout
    exact failEarly_again Z resp b err g'
  · subst hout
    rw [transformResponseBody_plain Z (withBody resp body) g' body
      (by rw [withBody_bodyErr]; exact hread) (by rw [hlast]; exact hce)
      (by rw [withBody_body]; exact hg _ _ hgb), withBody_again]
  · subst hout
    rw [transformResponseBody_gzip Z (withBody resp (Z.gzipWriter body).1) g' body body
      (by rw [withBody_bodyErr]; exact hread) (by rw [hlast]; exact hce)
      (by rw [hlast]; exact hne) (by rw [withBody_body]; exact hgz body henc)
      (hg _ _ hgb) henc, withBody_again]
  · subst hout
    rw [transformResponseBody_deflate Z (withBody resp (Z.flateWriter body).1) g' body body
      (by rw [withBody_bodyErr]; exact hread) (by rw [hlast]; exact hce)
      (by rw [hlast]; exact hne) (by rw [withBody_body]; exact hfl body henc)
      (hg _ _ hgb) henc, withBody_again]

theorem transformResponseBody_total (Z : BodyLib) (resp : Response) (g : Bytes → Outcome Bytes)
    (hg : ∀ b, ∃ b', g b = .ok b') : ∃ out, transformResponseBody Z resp g = .ok out := by
  unfold transformResponseBody
  split
  · exact ⟨_, rfl⟩
  · simp only
    split
    · exact ⟨_, rfl⟩
    · obtain ⟨b', hb⟩ := hg (if (decide (lastContentEncoding Z resp ≠ "") &&
          decide (lastContentEncoding Z resp ≠ "identity")) = true then
          decompressBody Z (lastContentEncoding Z resp) resp.Body else (resp.Body, none)).1
      rw [hb]
      simp only
      split
      · exact ⟨_, rfl⟩
      · split <;> exact ⟨_, rfl⟩

theorem inject_total (R : RegexpLib) (si : scriptInjector) (resp : Response)
    (hreq : resp.Request ≠ none) (body : Bytes) :
    ∃ b', scriptInjector.inject R si resp body = .ok b' := by
  unfold scriptInjector.inject
  split
  · exact ⟨_, rfl⟩
  · simp only
    split
    · cases hr : resp.Request with
      | none => exact absurd hr hreq
      | some r => exact ⟨_, rfl⟩
    · exact ⟨_, rfl⟩

/-- C20: the script injector is idempotent. For every script and every response, with any
body, a second call of `Transform` on the response that a first call leaves gives that
response again, so the body, encoded or decoded, is the same after two calls as after one;
the first call returns whenever the response refers to its request. The compression
library is assumed lossless: a reader gives back the octets that a writer wrote without
error. -/
theorem scriptInjector_idempotent (Z : BodyLib) (R : RegexpLib) (si : scriptInjector)
    (resp : Response)
    (hgz : ∀ b, (Z.gzipWriter b).2 = none → Z.gzipReader (Z.gzipWriter b).1 = (b, none))
    (hfl : ∀ b, (Z.flateWriter b).2 = none → Z.flateReader (Z.flateWriter b).1 = (b, none)) :
    scriptInjector.TransformTwice Z R si resp = scriptInjector.Transform Z R si resp ∧
    (∀ once, scriptInjector.Transform Z R si resp = .ok once →
      scriptInjector.Transform Z R si once = .ok once) ∧
    (resp.Request ≠ none → ∃ once, scriptInjector.Transform Z R si resp = .ok once) := by
  have hagain : ∀ once, scriptInjector.Transform Z R si resp = .ok once →
      scriptInjector.Transform Z R si once = .ok once := by
    intro once h
    unfold scriptInjector.Transform at h
    by_cases hhtml :
        ¬ stringStartsWith (Z.toLower (Header.Get resp.Header "Content-Type")) "text/html"
    · rw [if_pos hhtml] at h
      cases h
      unfold scriptInjector.Transform
      rw [if_pos hhtml]
    · rw [if_neg hhtml] at h
      by_cases hstatus : resp.StatusCode ≠ 200
      · rw [if_pos hstatus] at h
        cases h
        unfold scriptInjector.Transform
        rw [if_neg hhtml, if_pos hstatus]
      · rw [if_neg hstatus] at h
        cases ht : transformResponseBody Z resp (scriptInjector.inject R si resp) with
        | ok out =>
          rw [ht] at h
          simp only at h
          cases h
          obtain ⟨hs, hr, hct⟩ := transformResponseBody_keeps Z resp _ out ht
          unfold scriptInjector.Transform
          rw [hct, hs, if_neg hhtml, if_neg hstatus,
            transformResponseBody_again Z resp _ (scriptInjector.inject R si out.1) out hgz hfl
              ht (fun b b' hb => inject_again R si resp out.1 b b' hr hb)]
        | err e => rw [ht] at h; cases h
        | crash msg => rw [ht] at h; cases h
  refine ⟨?_, hagain, ?_⟩
  · unfold scriptInjector.TransformTwice
    cases h : scriptInjector.Transform Z R si resp with
    | ok once => exact hagain once h
    | err e => rfl
    | crash msg => rfl
  · intro hreq
    unfold scriptInjector.Transform
    split
    · exact ⟨_, rfl⟩
    · split
      · exact ⟨_, rfl⟩
      · obtain ⟨out, hout⟩ := transformResponseBody_total Z resp
          (scriptInjector.inject R si resp) (inject_total R si resp hreq)
        rw [hout]
        exact ⟨_, rfl⟩

/-! ## Keys of the archive -/

theorem GoMap.mem_set {V : Type} (m : GoMap V) (k : String) (v : V) (e : String × V)
    (h : e ∈ GoMap.set m k v) : e ∈ m ∨ e = (k, v) := by
  induction m with
  | nil =>
    simp only [GoMap.set, List.mem_singleton] at h
    exact Or.inr h
  | cons e0 rest ih =>
    obtain ⟨k0, v0⟩ := e0
    by_cases h0 : k0 = k
    · simp only [GoMap.set, h0, if_true, List.mem_cons] at h
      rcases h with h | h
      · exact Or.inr h
      · exact Or.inl (List.mem_cons_of_mem _ h)
    · simp only [GoMap.set, h0, if_false, List.mem_cons] at h
      rcases h with h | h
      · exact Or.inl (by rw [h]; exact List.mem_cons_self _ _)
      · rcases ih h with h' | h'
        · exact Or.inl (List.mem_cons_of_mem _ h')
        · exact Or.inr h'

theorem GoMap.get_mem {V : Type} (m : GoMap V) (k : String) (v : V)
    (h : GoMap.get m k = some v) : (k, v) ∈ m := by
  induction m with
  | nil => simp [GoMap.get] at h
  | cons e0 rest ih =>
    obtain ⟨k0, v0⟩ := e0
    by_cases h0 : k0 = k
    · simp only [GoMap.get, h0, if_true, Option.some.injEq] at h
      rw [h0, h]
      exact List.mem_cons_self _ _
    · simp only [GoMap.get, h0, if_false] at h
      exact List.mem_cons_of_mem _ (ih h)

theorem GoMap.mem_getMap {V : Type} (m : GoMap (GoMap V)) (k : String) (e : String × V)
    (h : e ∈ GoMap.getMap m k) : ∃ he ∈ m, e ∈ he.2 := by
  unfold GoMap.getMap at h
  cases hg : GoMap.get m k with
  | none => rw [hg] at h; simp at h
  | some hm =>
    rw [hg] at h
    exact ⟨(k, hm), GoMap.get_mem m k hm hg, h⟩

theorem fileEntry_keys (L : HttpLib) (a : Archive) (e : String × String × ArchivedRequest)
    (ha : KeysAbsolute L a) (he : IsAbsoluteKey L e.2.1) : KeysAbsolute L (fileEntry a e) := by
  intro hostEntry hmem urlEntry humem
  rcases GoMap.mem_set _ _ _ _ hmem with h | h
  · exact ha hostEntry h urlEntry humem
  · subst h
    rcases GoMap.mem_set _ _ _ _ humem with h' | h'
    · obtain ⟨he', hhe', hue'⟩ := GoMap.mem_getMap _ _ _ h'
      exact ha he' hhe' urlEntry hue'
    · rw [h']
      exact he

theorem absoluteURL_absolute (req : Request) (scheme : String) :
    ((absoluteURL req scheme).Scheme ≠ "" ∧ (absoluteURL req scheme).Host ≠ "") ↔
      ((req.URL.Host = "" ∧ req.Host ≠ "" ∧ scheme ≠ "") ∨
        (req.URL.Host ≠ "" ∧ req.URL.Scheme ≠ "")) := by
  unfold absoluteURL
  by_cases h : req.URL.Host = ""
  · simp [h]
    exact And.comm
  · simp [h]

theorem absoluteFiling_key (L : HttpLib) (req : Request) (scheme : String)
    (h : AbsoluteFiling L req scheme) :
    IsAbsoluteKey L (L.urlString (absoluteURL req scheme)) := by
  obtain ⟨hcond, u, hp, hs, hh⟩ := h
  have := (absoluteURL_absolute req scheme).mpr hcond
  exact ⟨u, hp, by rw [hs]; exact this.1, by rw [hh]; exact this.2⟩

theorem addArchivedRequest_fileEntry (L : HttpLib) (a a' : Archive) (scheme : String)
    (req : Request) (resp : Response)
    (h : Archive.addArchivedRequest L a scheme req resp = .ok a') :
    ∃ ar, serializeRequest L req resp = some ar ∧
      a' = fileEntry a (req.Host, L.urlString (absoluteURL req scheme), ar) := by
  unfold Archive.addArchivedRequest at h
  cases hser : serializeRequest L req resp with
  | none => rw [hser] at h; cases h
  | some ar =>
    rw [hser] at h
    simp only at h
    cases h
    exact ⟨ar, rfl, rfl⟩

theorem addArchivedRequest_keys (L : HttpLib) (a a' : Archive) (scheme : String)
    (req : Request) (resp : Response) (ha : KeysAbsolute L a)
    (habs : AbsoluteFiling L req scheme)
    (h : Archive.addArchivedRequest L a scheme req resp = .ok a') : KeysAbsolute L a' := by
  obtain ⟨ar, _, ha'⟩ := addArchivedRequest_fileEntry L a a' scheme req resp h
  rw [ha']
  exact fileEntry_keys L a _ ha (absoluteFiling_key L req scheme habs)

theorem editExchange_keys (L : HttpLib) (f : EditFn) (ustr : String) (clone clone' : Archive)
    (k : Nat) (ar : ArchivedRequest) (hc : KeysAbsolute L clone)
    (habs : EditAbsolute L f ustr ar)
    (h : editExchange L f ustr (L.urlParse ustr) clone k ar = .ok clone') :
    KeysAbsolute L clone' := by
  unfold editExchange at h
  cases hdec : ArchivedRequest.unmarshal L ar with
  | none => rw [hdec] at h; cases h
  | some pair =>
    obtain ⟨oldReq, oldResp⟩ := pair
    rw [hdec] at h
    simp only at h
    rcases hf : f oldReq oldResp with ⟨newReq, newResp, err⟩
    rw [hf] at h
    cases err with
    | some e => simp at h
    | none =>
      cases newReq with
      | none =>
        cases newResp with
        | none => simp only at h; cases h; exact hc
        | some s => simp at h
      | some q =>
        cases newResp with
        | none => simp at h
        | some s =>
          simp only at h
          cases hp : L.urlParse ustr with
          | none => rw [hp] at h; simp at h
          | some u =>
            rw [hp] at h
            simp only at h
            exact addArchivedRequest_keys L clone clone' u.Scheme q s hc
              (habs oldReq oldResp q s u hdec hf hp) h

theorem editList_keys (L : HttpLib) (f : EditFn) (ustr : String) (rs : List ArchivedRequest)
    (habs : ∀ ar ∈ rs, EditAbsolute L f ustr ar) :
    ∀ (k : Nat) (clone clone' : Archive), KeysAbsolute L clone →
      editList L f ustr (L.urlParse ustr) k rs clone = .ok clone' → KeysAbsolute L clone' := by
  induction rs with
  | nil =>
    intro k clone clone' hc h
    simp only [editList] at h
    cases h
    exact hc
  | cons ar rest ih =>
    intro k clone clone' hc h
    simp only [editList] at h
    cases hstep : editExchange L f ustr (L.urlParse ustr) clone k ar with
    | ok c1 =>
      rw [hstep] at h
      exact ih (fun ar' har' => habs ar' (List.mem_cons_of_mem _ har')) (k + 1) c1 clone'
        (editExchange_keys L f ustr clone c1 k ar hc (habs ar (List.mem_cons_self _ _)) hstep) h
    | err e => rw [hstep] at h; cases h
    | crash msg => rw [hstep] at h; cases h

theorem editURLs_keys (L : HttpLib) (f : EditFn) (urls : List (String × List ArchivedRequest))
    (habs : ∀ ue ∈ urls, ∀ ar ∈ ue.2, EditAbsolute L f ue.1 ar) :
    ∀ (clone clone' : Archive), KeysAbsolute L clone →
      editURLs L f urls clone = .ok clone' → KeysAbsolute L clone' := by
  induction urls with
  | nil =>
    intro clone clone' hc h
    simp only [editURLs] at h
    cases h
    exact hc
  | cons ue rest ih =>
    obtain ⟨ustr, requests⟩ := ue
    intro clone clone' hc h
    simp only [editURLs] at h
    cases hstep : editList L f ustr (L.urlParse ustr) 0 requests clone with
    | ok c1 =>
      rw [hstep] at h
      exact ih (fun ue' hue' => habs ue' (List.mem_cons_of_mem _ hue')) c1 clone'
        (editList_keys L f ustr requests (habs (ustr, requests) (List.mem_cons_self _ _)) 0
          clone c1 hc hstep) h
    | err e => rw [hstep] at h; cases h
    | crash msg => rw [hstep] at h; cases h

theorem editHosts_keys (L : HttpLib) (ord : RangeOrder) (f : EditFn)
    (hosts : List (String × GoMap (List ArchivedRequest)))
    (habs : ∀ he ∈ hosts, ∀ ue ∈ he.2, ∀ ar ∈ ue.2, EditAbsolute L f ue.1 ar) :
    ∀ (clone clone' : Archive), KeysAbsolute L clone →
      editHosts L ord f hosts clone = .ok clone' → KeysAbsolute L clone' := by
  induction hosts with
  | nil =>
    intro clone clone' hc h
    simp only [editHosts] at h
    cases h
    exact hc
  | cons he rest ih =>
    obtain ⟨host, urlmap⟩ := he
    intro clone clone' hc h
    simp only [editHosts] at h
    cases hstep : editURLs L f (ord.range urlmap) clone with
    | ok c1 =>
      rw [hstep] at h
      exact ih (fun he' hhe' => habs he' (List.mem_cons_of_mem _ hhe')) c1 clone'
        (editURLs_keys L f (ord.range urlmap)
          (fun ue hue => habs (host, urlmap) (List.mem_cons_self _ _) ue
            ((ord.perm urlmap).mem_iff.1 hue)) clone c1 hc hstep) h
    | err e => rw [hstep] at h; cases h
    | crash msg => rw [hstep] at h; cases h

/-- C11 (amended): the URL under whose string `addArchivedRequest` files an exchange has a
non-empty scheme and a non-empty host exactly when the URL of the request has no host and
the request has a host and the scheme argument is not empty, or the URL of the request has a
host and a scheme. When moreover that string parses back to a URL with the same scheme and
host, the exchange is filed under a key that is an absolute URL; hence all keys of the
second-level map are absolute URLs in the empty archive, after `addArchivedRequest` or
`RecordRequest` with such a request on an archive with absolute keys, and in the archive
that `Edit` returns when every pair of the callback is such a request. -/
theorem keys_absolute (L : HttpLib) (ord : RangeOrder) :
    (∀ (req : Request) (scheme : String),
      ((absoluteURL req scheme).Scheme ≠ "" ∧ (absoluteURL req scheme).Host ≠ "") ↔
        ((req.URL.Host = "" ∧ req.Host ≠ "" ∧ scheme ≠ "") ∨
          (req.URL.Host ≠ "" ∧ req.URL.Scheme ≠ ""))) ∧
    KeysAbsolute L newArchive ∧
    (∀ (a a' : Archive) (scheme : String) (req : Request) (resp : Response),
      AbsoluteFiling L req scheme →
      Archive.addArchivedRequest L a scheme req resp = .ok a' →
      IsAbsoluteKey L (L.urlString (absoluteURL req scheme)) ∧
      GoMap.get (GoMap.getMap a'.Requests req.Host) (L.urlString (absoluteURL req scheme)) ≠
        none ∧
      (KeysAbsolute L a → KeysAbsolute L a')) ∧
    (∀ (w w' : WritableArchive) (scheme : String) (req : Request) (resp : Response),
      AbsoluteFiling L req scheme → KeysAbsolute L w.Archive →
      WritableArchive.RecordRequest L w scheme req resp = .ok w' →
      KeysAbsolute L w'.Archive) ∧
    (∀ (a b : Archive) (f : EditFn),
      (∀ he ∈ a.Requests, ∀ ue ∈ he.2, ∀ ar ∈ ue.2, EditAbsolute L f ue.1 ar) →
      Archive.Edit L ord a f = .ok b → KeysAbsolute L b) := by
  have hnew : KeysAbsolute L newArchive := by
    intro he hhe
    simp [newArchive] at hhe
  refine ⟨absoluteURL_absolute, hnew, ?_, ?_, ?_⟩
  · intro a a' scheme req resp habs hadd
    refine ⟨absoluteFiling_key L req scheme habs, ?_,
      fun ha => addArchivedRequest_keys L a a' scheme req resp ha habs hadd⟩
    obtain ⟨ar, _, ha'⟩ := addArchivedRequest_fileEntry L a a' scheme req resp hadd
    rw [ha']
    simp [fileEntry, GoMap.getMap, GoMap.get_set_self]
  · intro w w' scheme req resp habs hw hrec
    unfold WritableArchive.RecordRequest at hrec
    cases hadd : Archive.addArchivedRequest L w.Archive scheme req resp with
    | ok a' =>
      rw [hadd] at hrec
      cases hrec
      exact addArchivedRequest_keys L w.Archive a' scheme req resp hw habs hadd
    | err e => rw [hadd] at hrec; cases hrec
    | crash msg => rw [hadd] at hrec; cases hrec
  · intro a b f habs hedit
    unfold Archive.Edit at hedit
    exact editHosts_keys L ord f (ord.range a.Requests)
      (fun he hhe => habs he ((ord.perm a.Requests).mem_iff.1 hhe)) newArchive b hnew hedit

/-! ## Script injection: responses that are skipped -/

/-- C22: the script injector leaves a response as it is, with its status, headers,
content length and body, whenever the status code is not 200 or the lower-cased
`Content-Type` does not start with `text/html`. -/
theorem scriptInjector_skips_other_responses (Z : BodyLib) (R : RegexpLib)
    (si : scriptInjector) (resp : Response)
    (h : resp.StatusCode ≠ 200 ∨
      stringStartsWith (Z.toLower (Header.Get resp.Header "Content-Type")) "text/html" =
        false) :
    scriptInjector.Transform Z R si resp = .ok resp := by
  unfold scriptInjector.Transform
  by_cases hhtml :
      ¬ stringStartsWith (Z.toLower (Header.Get resp.Header "Content-Type")) "text/html"
  · rw [if_pos hhtml]
  · rw [if_neg hhtml]
    rcases h with h | h
    · rw [if_pos h]
    · exact absurd (by rw [h]; simp) hhtml

/-! ## FindRequest: the fuzzy pass after the exact pass -/

/-- C28 (amended): the fuzzy-path pass of `FindRequest` takes over the `bestRatio` of the
exact-URL pass, but it only runs when the exact-URL pass kept no exchange, and then
`bestRatio` is still zero. Whenever an exchange that decodes and has the live method is
stored under the exact URL of the request, `FindRequest` returns the decoding of an exchange
stored under that URL, whatever the query similarity of the other URLs is. -/
theorem findRequest_fuzzy_never_overrides (L : HttpLib) (ord : RangeOrder) (a : Archive)
    (req : Request) (scheme : String) :
    (∀ ar ∈ exactList L a req scheme, ∀ c, ArchivedRequest.unmarshal L ar = some c →
      c.1.Method = req.Method →
      ∃ ar' ∈ exactList L a req scheme, ∃ found,
        ArchivedRequest.unmarshal L ar' = some found ∧
        FindRequest L ord a req scheme = .ok found) ∧
    ((exactPass L ord req (exactList L a req scheme)).1 = none →
      (exactPass L ord req (exactList L a req scheme)).2 = Ratio.zero) ∧
    (∀ found, (exactPass L ord req (exactList L a req scheme)).1 = some found →
      (GoMap.getMap a.Requests req.Host).length ≠ 0 →
      FindRequest L ord a req scheme = .ok found) := by
  refine ⟨?_, ?_, ?_⟩
  · intro ar hmem c hdec hmethod
    obtain ⟨found, hex, hfind⟩ := findRequest_exact L ord a req scheme ar c hmem ⟨hdec, hmethod⟩
    rcases exactPass_inv L ord req (exactList L a req scheme) with
      ⟨h1, _⟩ | ⟨i, b, h1, ⟨ar', har', hb⟩, _⟩
    · rw [hex] at h1; cases h1
    · rw [hex] at h1
      cases h1
      exact ⟨ar', List.getElem?_mem har', found, hb.1, hfind⟩
  · intro h
    exact (exactPass_none L ord req _ h).1
  · intro found hex hlen
    rw [findRequest_eq, if_neg hlen, hex]

/-! ## The record proxy and Brotli -/

theorem Header.Get_Set (h : Header) (k v : String) : Header.Get (Header.Set h k v) k = v := by
  simp [Header.Get, Header.Set, GoMap.get_set_self]

theorem trimSuffix_append (x suffix : String) : trimSuffix (x ++ suffix) suffix = x := by
  unfold trimSuffix
  have hs : suffix.data.isSuffixOf (x ++ suffix).data = true := by
    rw [String.data_append]
    exact List.isSuffixOf_iff_suffix.mpr (List.suffix_append _ _)
  rw [if_pos hs]
  simp [String.data_append]

theorem serializeRequest_request (L : HttpLib) (req : Request) (resp : Response)
    (ar : ArchivedRequest) (h : serializeRequest L req resp = some ar) :
    L.writeRequest req = some ar.SerializedRequest := by
  unfold serializeRequest at h
  cases hq : L.writeRequest req with
  | none => simp [hq] at h
  | some qb =>
    cases hs : L.writeResponse resp with
    | none => simp [hq, hs] at h
    | some sb =>
      simp only [hq, hs, Option.some.injEq] at h
      rw [← h]

/-- C29: what the record proxy does with `Accept-Encoding`, which is not what the claim and
the comment in the code say. The header that the proxy forwards to the origin and stores in
the archive has exactly one value, also when the client sent none or several: the first
value of the client without the suffix `, br`. A value `x, br` becomes `x`, and a value that
does not end in `, br` is forwarded as it is, so that a value which names `br` anywhere but
in a trailing `, br` still names it. The origin is asked with the request that carries this
header, and the exchange appended to the archive holds the wire form of that request. -/
theorem recordingProxy_trims_trailing_br (L : HttpLib) (C : DocCodec) (proxy : recordingProxy)
    (a : WritableArchive) (disk : GoMap Bytes) (req : Request) :
    GoMap.get (recordingProxy.prepare proxy req).Header "Accept-Encoding" =
      some [trimSuffix (Header.Get req.Header "Accept-Encoding") ", br"] ∧
    Header.Get (recordingProxy.prepare proxy req).Header "Accept-Encoding" =
      trimSuffix (Header.Get req.Header "Accept-Encoding") ", br" ∧
    (∀ x, Header.Get req.Header "Accept-Encoding" = x ++ ", br" →
      Header.Get (recordingProxy.prepare proxy req).Header "Accept-Encoding" = x) ∧
    ((", br" : String).data.isSuffixOf (Header.Get req.Header "Accept-Encoding").data = false →
      Header.Get (recordingProxy.prepare proxy req).Header "Accept-Encoding" =
        Header.Get req.Header "Accept-Encoding") ∧
    (stringContains (Header.Get req.Header "Accept-Encoding") "br" = true →
      (", br" : String).data.isSuffixOf (Header.Get req.Header "Accept-Encoding").data = false →
      stringContains (Header.Get (recordingProxy.prepare proxy req).Header "Accept-Encoding")
        "br" = true) ∧
    (req.URL.Path ≠ "/web-page-replay-generate-200" →
      req.URL.Path ≠ "/web-page-replay-command-exit" →
      ∀ resp ar, proxy.tr (recordingProxy.prepare proxy req) = some resp →
        serializeRequest L (recordingProxy.prepare proxy req) (buffered resp) = some ar →
        L.writeRequest (recordingProxy.prepare proxy req) = some ar.SerializedRequest ∧
        GoMap.getList
          (GoMap.getMap (recordingProxy.ServeHTTP L C proxy a disk req).1.Archive.Requests
            (recordingProxy.prepare proxy req).Host)
          (L.urlString (absoluteURL (recordingProxy.prepare proxy req) proxy.scheme)) =
        GoMap.getList
          (GoMap.getMap a.Archive.Requests (recordingProxy.prepare proxy req).Host)
          (L.urlString (absoluteURL (recordingProxy.prepare proxy req) proxy.scheme)) ++
          [ar]) := by
  have hget : Header.Get (recordingProxy.prepare proxy req).Header "Accept-Encoding" =
      trimSuffix (Header.Get req.Header "Accept-Encoding") ", br" := by
    unfold recordingProxy.prepare
    simp only
    rw [Header.Get_Set]
    have hh : ∀ r : Request, (if r.ContentLength = 0 then { r with Body := none } else r).Header =
        r.Header := by
      intro r
      split <;> rfl
    rw [hh]
    rfl
  have hsame : (", br" : String).data.isSuffixOf
      (Header.Get req.Header "Accept-Encoding").data = false →
      Header.Get (recordingProxy.prepare proxy req).Header "Accept-Encoding" =
        Header.Get req.Header "Accept-Encoding" := by
    intro hno
    rw [hget]
    unfold trimSuffix
    rw [hno]
    simp
  have hmap : GoMap.get (recordingProxy.prepare proxy req).Header "Accept-Encoding" =
      some [trimSuffix (Header.Get req.Header "Accept-Encoding") ", br"] := by
    unfold recordingProxy.prepare
    simp only [Header.Set, GoMap.get_set_self]
    have hh : ∀ r : Request, (if r.ContentLength = 0 then { r with Body := none } else r).Header =
        r.Header := by
      intro r
      split <;> rfl
    rw [hh]
    rfl
  refine ⟨hmap, hget, ?_, hsame, ?_, ?_⟩
  · intro x hx
    rw [hget, hx, trimSuffix_append]
  · intro hbr hno
    rw [hsame hno]
    exact hbr
  · intro h1 h2 resp ar hresp har
    refine ⟨serializeRequest_request L _ (buffered resp) ar har, ?_⟩
    have hok := addArchivedRequest_ok L a.Archive proxy.scheme
      (recordingProxy.prepare proxy req) (buffered resp) ar har
    have hlist := addArchivedRequest_list L a.Archive _ proxy.scheme
      (recordingProxy.prepare proxy req) (buffered resp) ar har hok
    simp only [recordingProxy.ServeHTTP, h1, h2, if_false, hresp,
      WritableArchive.RecordRequest, hok]
    exact hlist

/-! ## Dummy certificates -/

/-- C30: `MintDummyCertificate(s, rootCert, key)` writes into the root certificate itself.
When the serial number `buf` could be drawn, the root certificate after the call has the
serial number `buf` and its own subject as issuer, it names `s` alone as DNS name, or the
address of `s` alone as IP address when `s` is an IP literal, and it keeps the names of the
other kind; the certificate is created from this root certificate. So after a mint for a
DNS name `s`, the certificate minted for an IP literal `s2` is created from a template that
names both, and the replay proxy keeps the root certificate as the mint left it. -/
theorem mintDummyCertificate_mutates_root (K : CryptoLib) (s : String)
    (rootCert : X509Certificate) (key buf : Bytes) :
    (MintDummyCertificate K s rootCert key (some buf)).1.SerialNumber = buf ∧
    (MintDummyCertificate K s rootCert key (some buf)).1.Issuer = rootCert.Subject ∧
    (MintDummyCertificate K s rootCert key (some buf)).1.Subject = rootCert.Subject ∧
    (∀ ip, K.parseIP s = some ip →
      (MintDummyCertificate K s rootCert key (some buf)).1.IPAddresses = [ip] ∧
      (MintDummyCertificate K s rootCert key (some buf)).1.DNSNames = rootCert.DNSNames) ∧
    (K.parseIP s = none →
      (MintDummyCertificate K s rootCert key (some buf)).1.DNSNames = [s] ∧
      (MintDummyCertificate K s rootCert key (some buf)).1.IPAddresses =
        rootCert.IPAddresses) ∧
    (∀ der, (MintDummyCertificate K s rootCert key (some buf)).2 = .ok (der, "") ↔
      K.createCertificate (MintDummyCertificate K s rootCert key (some buf)).1
        (MintDummyCertificate K s rootCert key (some buf)).1
        (MintDummyCertificate K s rootCert key (some buf)).1.PublicKey key = some der) ∧
    (∀ s2 ip buf2, K.parseIP s = none → K.parseIP s2 = some ip →
      (MintDummyCertificate K s2 (MintDummyCertificate K s rootCert key (some buf)).1 key
        (some buf2)).1.DNSNames = [s] ∧
      (MintDummyCertificate K s2 (MintDummyCertificate K s rootCert key (some buf)).1 key
        (some buf2)).1.IPAddresses = [ip]) ∧
    (∀ (tp : tlsProxy), s ≠ "" → GoMap.get tp.archive.Certs s = none →
      GoMap.get tp.dummy_certs_map s = none →
      (tlsProxy.getReplayConfigForClient K tp s (some buf)).1.root_cert =
        (MintDummyCertificate K s tp.root_cert tp.root.PrivateKey (some buf)).1) := by
  refine ⟨?_, ?_, ?_, ?_, ?_, ?_, ?_, ?_⟩
  · unfold MintDummyCertificate
    cases K.parseIP s <;> simp only <;> split <;> rfl
  · unfold MintDummyCertificate
    cases K.parseIP s <;> simp only <;> split <;> rfl
  · unfold MintDummyCertificate
    cases K.parseIP s <;> simp only <;> split <;> rfl
  · intro ip hip
    unfold MintDummyCertificate
    rw [hip]
    simp only
    split <;> exact ⟨rfl, rfl⟩
  · intro hip
    unfold MintDummyCertificate
    rw [hip]
    simp only
    split <;> exact ⟨rfl, rfl⟩
  · intro der
    unfold MintDummyCertificate
    cases K.parseIP s <;> simp only <;> split <;> simp_all
  · intro s2 ip buf2 hs hs2
    unfold MintDummyCertificate
    rw [hs, hs2]
    simp only
    split <;> split <;> exact ⟨rfl, rfl⟩
  · intro tp hne hcert hdummy
    unfold tlsProxy.getReplayConfigForClient
    simp only [hne, if_false, Archive.FindHostTlsConfig, hcert, hdummy, Bool.true_or, if_true]
    split <;> rfl

/-! ## Variable-length integers -/

theorem first_byte_bits : ∀ f, f < 4 → ∀ x, x < 64 →
    first2Bits (((f <<< 6) % 256) ||| x) = f ∧ last6Bits (((f <<< 6) % 256) ||| x) = x := by
  decide

theorem readBytes_append (b rest : Bytes) (n : Nat) (h : b.length = n) :
    readBytes (b ++ rest) n = (b, false, rest) := by
  subst h
  simp [readBytes]

theorem readVaruint_cons (b0 : Nat) (r : Bytes) :
    ReadVaruint (b0 :: r) =
      if first2Bits b0 = 0 then (last6Bits b0, false, r)
      else if first2Bits b0 = 1 then
        ((beUint (last6Bits b0 :: (readBytes r 1).1)) % 2 ^ 16, (readBytes r 1).2.1,
          (readBytes r 1).2.2)
      else if first2Bits b0 = 2 then
        ((beUint (last6Bits b0 :: (readBytes r 3).1)) % 2 ^ 32, (readBytes r 3).2.1,
          (readBytes r 3).2.2)
      else if first2Bits b0 = 3 then
        ((beUint (last6Bits b0 :: (readBytes r 7).1)) % 2 ^ 64, (readBytes r 7).2.1,
          (readBytes r 7).2.2)
      else (0, false, r) := by
  have h : readBytes (b0 :: r) 1 = ([b0], false, r) := by simp [readBytes]
  simp only [ReadVaruint, h, List.headD_cons, Bool.false_eq_true, if_false]

/-- Reading what was written with the tag `f` in front of the bytes `x :: tail`. -/
theorem readVaruint_tagged (f x : Nat) (tail rest : Bytes) (hf : f < 4) (hx : x < 64)
    (htail : tail.length = 2 ^ f - 1) :
    ReadVaruint (setFirst2Bits f (x :: tail) ++ rest) =
      (if f = 0 then x else beUint (x :: tail) % 2 ^ (8 * 2 ^ f), false, rest) := by
  obtain ⟨h1, h2⟩ := first_byte_bits f hf x hx
  simp only [setFirst2Bits, List.cons_append]
  rw [readVaruint_cons, h1, h2]
  interval_cases f
  · simp at htail
    simp [htail]
  · rw [readBytes_append tail rest 1 (by simpa using htail)]
    simp
  · rw [readBytes_append tail rest 3 (by simpa using htail)]
    simp
  · rw [readBytes_append tail rest 7 (by simpa using htail)]
    simp

theorem bePut_length (n v : Nat) : (bePut n v).length = n := by
  induction n generalizing v with
  | zero => rfl
  | succ n ih => simp [bePut, ih]

theorem beUint_bePut_two (v : Nat) (h : v < 2 ^ 16) : beUint (bePut 2 v) = v := by
  simp only [bePut, beUint, List.nil_append, List.cons_append, List.foldl_cons, List.foldl_nil]
  omega

theorem beUint_bePut_four (v : Nat) (h : v < 2 ^ 32) : beUint (bePut 4 v) = v := by
  simp only [bePut, beUint, List.nil_append, List.cons_append, List.foldl_cons, List.foldl_nil]
  omega

theorem beUint_bePut_eight (v : Nat) (h : v < 2 ^ 64) : beUint (bePut 8 v) = v := by
  simp only [bePut, beUint, List.nil_append, List.cons_append, List.foldl_cons, List.foldl_nil]
  omega

theorem top_byte_bits : ∀ x, x < 128 → 64 ≤ x →
    first2Bits (((3 <<< 6) % 256) ||| x) = 3 ∧ last6Bits (((3 <<< 6) % 256) ||| x) = x - 64 := by
  decide

theorem varuint_round_trip (v : Nat) (rest : Bytes) (h : v < 2 ^ 62) :
    (WriteVaruint v []).2 = false ∧
    ReadVaruint ((WriteVaruint v []).1 ++ rest) = (v, false, rest) := by
  unfold WriteVaruint
  by_cases h6 : v ≤ maxInt6
  · rw [if_pos h6]
    have hv : v < 64 := by unfold maxInt6 at h6; omega
    have hmod : v % 256 = v := Nat.mod_eq_of_lt (by omega)
    refine ⟨rfl, ?_⟩
    rw [hmod, List.nil_append, readVaruint_tagged 0 v [] rest (by decide) hv rfl]
    simp
  · rw [if_neg h6]
    by_cases h14 : v ≤ maxInt14
    · rw [if_pos h14]
      have hv : v < 2 ^ 13 := by unfold maxInt14 at h14; omega
      have hmod : v % 2 ^ 16 = v := Nat.mod_eq_of_lt (by omega)
      refine ⟨rfl, ?_⟩
      have hb : bePut 2 v = (v / 256 % 256) :: [v % 256] := by
        simp [bePut]
      have hm : v % 2 ^ (8 * 2 ^ 1) = v := Nat.mod_eq_of_lt (by norm_num; omega)
      rw [hmod, List.nil_append, hb,
        readVaruint_tagged 1 (v / 256 % 256) [v % 256] rest (by decide) (by omega) rfl, ← hb,
        beUint_bePut_two v (by omega), hm]
      simp
    · rw [if_neg h14]
      by_cases h30 : v ≤ maxInt30
      · rw [if_pos h30]
        have hv : v < 2 ^ 29 := by unfold maxInt30 at h30; omega
        have hmod : v % 2 ^ 32 = v := Nat.mod_eq_of_lt (by omega)
        refine ⟨rfl, ?_⟩
        have hb : bePut 4 v =
            (v / 256 / 256 / 256 % 256) :: [v / 256 / 256 % 256, v / 256 % 256, v % 256] := by
          simp [bePut]
        have hm : v % 2 ^ (8 * 2 ^ 2) = v := Nat.mod_eq_of_lt (by norm_num; omega)
        rw [hmod, List.nil_append, hb,
          readVaruint_tagged 2 (v / 256 / 256 / 256 % 256)
            [v / 256 / 256 % 256, v / 256 % 256, v % 256] rest (by decide) (by omega) rfl, ← hb,
          beUint_bePut_four v (by omega), hm]
        simp
      · rw [if_neg h30]
        have h62 : v ≤ maxInt62 := by unfold maxInt62; omega
        rw [if_pos h62]
        refine ⟨rfl, ?_⟩
        have hb : bePut 8 v =
            (v / 256 / 256 / 256 / 256 / 256 / 256 / 256 % 256) ::
              [v / 256 / 256 / 256 / 256 / 256 / 256 % 256,
               v / 256 / 256 / 256 / 256 / 256 % 256, v / 256 / 256 / 256 / 256 % 256,
               v / 256 / 256 / 256 % 256, v / 256 / 256 % 256, v / 256 % 256, v % 256] := by
          simp [bePut]
        have hm : v % 2 ^ (8 * 2 ^ 3) = v := Nat.mod_eq_of_lt (by norm_num; omega)
        rw [List.nil_append, hb,
          readVaruint_tagged 3 (v / 256 / 256 / 256 / 256 / 256 / 256 / 256 % 256)
            [v / 256 / 256 / 256 / 256 / 256 / 256 % 256,
             v / 256 / 256 / 256 / 256 / 256 % 256, v / 256 / 256 / 256 / 256 % 256,
             v / 256 / 256 / 256 % 256, v / 256 / 256 % 256, v / 256 % 256, v % 256] rest
            (by decide) (by omega) rfl, ← hb,
          beUint_bePut_eight v (by omega), hm]
        simp

theorem varuint_high_values (v : Nat) (rest : Bytes) (h1 : 2 ^ 62 ≤ v) (h2 : v ≤ maxInt62) :
    (WriteVaruint v []).2 = false ∧
    ReadVaruint ((WriteVaruint v []).1 ++ rest) = (v - 2 ^ 62, false, rest) := by
  have hv : v < 2 ^ 63 := by unfold maxInt62 at h2; omega
  unfold WriteVaruint
  rw [if_neg (by unfold maxInt6; omega), if_neg (by unfold maxInt14; omega),
    if_neg (by unfold maxInt30; omega), if_pos h2]
  refine ⟨rfl, ?_⟩
  have hb : bePut 8 v =
      (v / 256 / 256 / 256 / 256 / 256 / 256 / 256 % 256) ::
        [v / 256 / 256 / 256 / 256 / 256 / 256 % 256,
         v / 256 / 256 / 256 / 256 / 256 % 256, v / 256 / 256 / 256 / 256 % 256,
         v / 256 / 256 / 256 % 256, v / 256 / 256 % 256, v / 256 % 256, v % 256] := by
    simp [bePut]
  obtain ⟨hf, hl⟩ := top_byte_bits (v / 256 / 256 / 256 / 256 / 256 / 256 / 256 % 256)
    (by omega) (by omega)
  have hr : readBytes
      (v / 256 / 256 / 256 / 256 / 256 / 256 % 256 ::
        v / 256 / 256 / 256 / 256 / 256 % 256 :: v / 256 / 256 / 256 / 256 % 256 ::
        v / 256 / 256 / 256 % 256 :: v / 256 / 256 % 256 :: v / 256 % 256 :: v % 256 :: rest) 7 =
      ([v / 256 / 256 / 256 / 256 / 256 / 256 % 256,
        v / 256 / 256 / 256 / 256 / 256 % 256, v / 256 / 256 / 256 / 256 % 256,
        v / 256 / 256 / 256 % 256, v / 256 / 256 % 256, v / 256 % 256, v % 256], false, rest) :=
    readBytes_append [v / 256 / 256 / 256 / 256 / 256 / 256 % 256,
        v / 256 / 256 / 256 / 256 / 256 % 256, v / 256 / 256 / 256 / 256 % 256,
        v / 256 / 256 / 256 % 256, v / 256 / 256 % 256, v / 256 % 256, v % 256] rest 7 rfl
  rw [List.nil_append, hb]
  simp only [setFirst2Bits, List.cons_append, List.nil_append]
  rw [readVaruint_cons, hf, hl, if_neg (by decide), if_neg (by decide), if_neg (by decide),
    if_pos rfl, hr]
  simp only [beUint, List.foldl_cons, List.foldl_nil]
  refine Prod.ext ?_ rfl
  show _ = v - 2 ^ 62
  omega

/-- C26: `WriteVaruint` writes every value up to `maxInt62 = 2 ^ 63 - 1` without error, but
`ReadVaruint` returns the value that was written, and leaves what follows the written bytes
in the reader, only for the values below `2 ^ 62`. For a value `v` from `2 ^ 62` on the
two highest bits of the first byte are taken for the length, and `ReadVaruint` returns
`v - 2 ^ 62`: for `2 ^ 62` it returns `0`. Greater values than `maxInt62` are refused. -/
theorem varuint_round_trip_below_2_62 :
    (∀ v rest, v < 2 ^ 62 →
      (WriteVaruint v []).2 = false ∧
      ReadVaruint ((WriteVaruint v []).1 ++ rest) = (v, false, rest)) ∧
    (∀ v rest, 2 ^ 62 ≤ v → v ≤ maxInt62 →
      (WriteVaruint v []).2 = false ∧
      ReadVaruint ((WriteVaruint v []).1 ++ rest) = (v - 2 ^ 62, false, rest)) ∧
    (∀ v w, maxInt62 < v → WriteVaruint v w = (w, true)) ∧
    WriteVaruint (2 ^ 62) [] = ([192, 0, 0, 0, 0, 0, 0, 0], false) ∧
    ReadVaruint [192, 0, 0, 0, 0, 0, 0, 0] = (0, false, []) := by
  refine ⟨varuint_round_trip, varuint_high_values, ?_, by decide, by decide⟩
  intro v w h
  unfold WriteVaruint
  rw [if_neg (by unfold maxInt6; unfold maxInt62 at h; omega),
    if_neg (by unfold maxInt14; unfold maxInt62 at h; omega),
    if_neg (by unfold maxInt30; unfold maxInt62 at h; omega), if_neg (by omega)]

/-! ## Rules of the rule-based transformer -/

theorem checkPushes_none_iff (L : HttpLib) (ps : List PushPromiseRule) :
    checkPushes L ps = none ↔
      ∀ p ∈ ps, p.URL ≠ "" ∧
        ∃ u, L.urlParse p.URL = some u ∧ u.Scheme ≠ "" ∧
          (u.Scheme = "http" ∨ u.Scheme = "https") := by
  induction ps with
  | nil => simp [checkPushes]
  | cons p rest ih =>
    unfold checkPushes
    by_cases hu : p.URL = ""
    · simp [hu]
    · rw [if_neg hu]
      cases hp : L.urlParse p.URL with
      | none => simp [hu, hp]
      | some u =>
        simp only
        by_cases hs : u.Scheme = "" ∨ (u.Scheme ≠ "http" ∧ u.Scheme ≠ "https")
        · rw [if_pos hs]
          constructor
          · intro h; cases h
          · intro h
            exfalso
            obtain ⟨_, u', hp', h1, h2⟩ := h p (List.mem_cons_self _ _)
            rw [hp] at hp'
            cases hp'
            rcases hs with hs | ⟨hs1, hs2⟩
            · exact h1 hs
            · rcases h2 with h2 | h2
              · exact hs1 h2
              · exact hs2 h2
        · rw [if_neg hs, ih]
          have h1 : u.Scheme ≠ "" := fun h => hs (Or.inl h)
          have h2 : u.Scheme = "http" ∨ u.Scheme = "https" := by
            by_contra hc
            exact hs (Or.inr (not_or.mp hc))
          constructor
          · intro h q hq
            rcases List.mem_cons.mp hq with hq | hq
            · subst hq
              exact ⟨hu, u, hp, h1, h2⟩
            · exact h q hq
          · intro h q hq
            exact h q (List.mem_cons_of_mem _ hq)

theorem compile_url (L : HttpLib) (K : RuleLib) (r : TransformerRule) (h1 : r.URL ≠ "")
    (h2 : r.URLPattern = "") :
    TransformerRule.compile L K r =
      if r.ExtraHeaders.length = 0 ∧ r.Push.length = 0 then .error .noEffect
      else
        match checkPushes L r.Push with
        | some e => .error e
        | none => .ok r := by
  unfold TransformerRule.compile
  rw [if_neg (fun h => h1 h.1), if_neg (fun h => h.2 h2)]
  simp only [h2, ne_eq, not_true_eq_false, if_false]

theorem compile_pattern (L : HttpLib) (K : RuleLib) (r : TransformerRule) (h1 : r.URL = "")
    (h2 : r.URLPattern ≠ "") :
    TransformerRule.compile L K r =
      match K.regexpCompile r.URLPattern with
      | none => .error .badPattern
      | some re =>
        if r.ExtraHeaders.length = 0 ∧ r.Push.length = 0 then .error .noEffect
        else
          match checkPushes L r.Push with
          | some e => .error e
          | none => .ok { r with urlRE := some re } := by
  unfold TransformerRule.compile
  rw [if_neg (fun h => h2 h.2), if_neg (fun h => h.1 h1)]
  simp only [h2, ne_eq, not_false_eq_true, if_true]
  cases K.regexpCompile r.URLPattern <;> rfl

theorem compile_ok_iff (L : HttpLib) (K : RuleLib) (r : TransformerRule) :
    (∃ r', TransformerRule.compile L K r = .ok r') ↔ ValidRule L K r := by
  unfold ValidRule
  rw [← checkPushes_none_iff]
  by_cases h1 : r.URL = ""
  · by_cases h2 : r.URLPattern = ""
    · have : TransformerRule.compile L K r = .error .missingURL := by
        unfold TransformerRule.compile
        rw [if_pos ⟨h1, h2⟩]
      rw [this]
      simp [h1, h2]
    · rw [compile_pattern L K r h1 h2]
      cases hre : K.regexpCompile r.URLPattern with
      | none => simp [h1]
      | some re =>
        by_cases h3 : r.ExtraHeaders.length = 0 ∧ r.Push.length = 0
        · simp [h1, h2, h3]
        · have h3' : r.ExtraHeaders.length ≠ 0 ∨ r.Push.length ≠ 0 := by
            by_contra hc
            exact h3 ⟨not_not.mp (not_or.mp hc).1, not_not.mp (not_or.mp hc).2⟩
          simp only [if_neg h3]
          cases hpush : checkPushes L r.Push with
          | none =>
            simp only
            exact ⟨fun _ => ⟨Or.inr ⟨h1, h2, by simp⟩, h3', trivial⟩, fun _ => ⟨_, rfl⟩⟩
          | some e =>
            simp only
            constructor
            · rintro ⟨r', hr'⟩
              cases hr'
            · rintro ⟨_, _, hc⟩
              cases hc
  · by_cases h2 : r.URLPattern = ""
    · rw [compile_url L K r h1 h2]
      by_cases h3 : r.ExtraHeaders.length = 0 ∧ r.Push.length = 0
      · simp [h1, h2, h3]
      · have h3' : r.ExtraHeaders.length ≠ 0 ∨ r.Push.length ≠ 0 := by
          by_contra hc
          exact h3 ⟨not_not.mp (not_or.mp hc).1, not_not.mp (not_or.mp hc).2⟩
        simp only [if_neg h3]
        cases hpush : checkPushes L r.Push with
        | none =>
          simp only
          exact ⟨fun _ => ⟨Or.inl ⟨h1, h2⟩, h3', trivial⟩, fun _ => ⟨_, rfl⟩⟩
        | some e =>
          simp only
          constructor
          · rintro ⟨r', hr'⟩
            cases hr'
          · rintro ⟨_, _, hc⟩
            cases hc
    · have : TransformerRule.compile L K r = .error .bothURL := by
        unfold TransformerRule.compile
        rw [if_neg (fun h => h1 h.1), if_pos ⟨h1, h2⟩]
      rw [this]
      simp [h1, h2]

/-- What `compile` leaves of an accepted rule: the rule with its pattern compiled. -/
theorem compile_ok_rule (L : HttpLib) (K : RuleLib) (r r' : TransformerRule)
    (h : TransformerRule.compile L K r = .ok r') :
    r'.URL = r.URL ∧ r'.URLPattern = r.URLPattern ∧ r'.ExtraHeaders = r.ExtraHeaders ∧
    r'.Push = r.Push ∧ (r.URLPattern ≠ "" → r'.urlRE = K.regexpCompile r.URLPattern) ∧
    (r'.URL ≠ "" ∨ r'.urlRE.isSome = true) := by
  by_cases h1 : r.URL = ""
  · by_cases h2 : r.URLPattern = ""
    · unfold TransformerRule.compile at h
      rw [if_pos ⟨h1, h2⟩] at h
      cases h
    · rw [compile_pattern L K r h1 h2] at h
      cases hre : K.regexpCompile r.URLPattern with
      | none => rw [hre] at h; cases h
      | some re =>
        rw [hre] at h
        simp only at h
        split at h
        · cases h
        · split at h
          · cases h
          · cases h
            exact ⟨rfl, rfl, rfl, rfl, fun _ => rfl, Or.inr rfl⟩
  · by_cases h2 : r.URLPattern = ""
    · rw [compile_url L K r h1 h2] at h
      split at h
      · cases h
      · split at h
        · cases h
        · cases h
          exact ⟨rfl, rfl, rfl, rfl, fun hp => absurd h2 hp, Or.inl h1⟩
    · unfold TransformerRule.compile at h
      rw [if_neg (fun h => h1 h.1), if_pos ⟨h1, h2⟩] at h
      cases h

/-- The rules of a transformer that `NewRuleBasedTransformer` returns have a URL or a
compiled pattern. -/
theorem compileRules_compiled (L : HttpLib) (K : RuleLib) (rules : List (Option TransformerRule)) :
    ∀ rs, compileRules L K rules = .ok rs →
      ∀ r ∈ rs, r.URL ≠ "" ∨ r.urlRE.isSome = true := by
  induction rules with
  | nil =>
    intro rs h r hr
    simp only [compileRules] at h
    cases h
    simp at hr
  | cons entry rest ih =>
    intro rs h r hr
    cases entry with
    | none => simp only [compileRules] at h; cases h
    | some r0 =>
      simp only [compileRules] at h
      cases hc : TransformerRule.compile L K r0 with
      | error e => rw [hc] at h; cases h
      | ok r' =>
        rw [hc] at h
        simp only at h
        cases hrest : compileRules L K rest with
        | ok rs' =>
          rw [hrest] at h
          cases h
          rcases List.mem_cons.mp hr with hr | hr
          · subst hr
            exact (compile_ok_rule L K r0 r hc).2.2.2.2.2
          · exact ih rs' hrest r hr
        | error e => rw [hrest] at h; cases h
        | crash msg => rw [hrest] at h; cases h

theorem compileRules_ok_iff (L : HttpLib) (K : RuleLib) (rules : List (Option TransformerRule)) :
    (∃ rs, compileRules L K rules = .ok rs) ↔
      ∀ entry ∈ rules, ∃ r, entry = some r ∧ ValidRule L K r := by
  induction rules with
  | nil => simp [compileRules]
  | cons entry rest ih =>
    cases entry with
    | none =>
      simp only [compileRules, List.mem_cons, forall_eq_or_imp, reduceCtorEq, false_and,
        exists_false, false_and, iff_false]
    | some r =>
      simp only [compileRules, List.mem_cons, forall_eq_or_imp, Option.some.injEq,
        exists_eq_left']
      rw [← ih, ← compile_ok_iff]
      cases hc : TransformerRule.compile L K r with
      | error e =>
        simp only
        constructor
        · rintro ⟨rs, h⟩
          cases h
        · rintro ⟨⟨r', h⟩, _⟩
          cases h
      | ok r' =>
        simp only
        cases hrest : compileRules L K rest with
        | ok rs => exact ⟨fun _ => ⟨⟨r', rfl⟩, rs, rfl⟩, fun _ => ⟨_, rfl⟩⟩
        | error e =>
          simp only
          constructor
          · rintro ⟨rs, h⟩
            cases h
          · rintro ⟨_, rs, h⟩
            cases h
        | crash msg =>
          simp only
          constructor
          · rintro ⟨rs, h⟩
            cases h
          · rintro ⟨_, rs, h⟩
            cases h

/-- C24: `compile` accepts a rule if and only if exactly one of `URL` and `URLPattern` is
not empty, a given `URLPattern` compiles as a regular expression, the rule has an extra
header or a push, and every push URL is not empty and parses as a URL that has a scheme,
which is `http` or `https`; every other rule is rejected with an error. Loading a rules
file that reads and decodes returns a transformer if and only if every entry is a rule that
is accepted, so it fails when one of the rules is rejected. -/
theorem rule_validation (L : HttpLib) (K : RuleLib) :
    (∀ r, (∃ r', TransformerRule.compile L K r = .ok r') ↔ ValidRule L K r) ∧
    (∀ r, ¬ ValidRule L K r → ∃ e, TransformerRule.compile L K r = .error e) ∧
    (∀ (disk : GoMap Bytes) (filename : String) (raw : Bytes)
        (rules : List (Option TransformerRule)),
      GoMap.get disk filename = some raw → K.jsonRules raw = some rules →
      ((∃ rs, NewRuleBasedTransformer L K disk filename = .ok rs) ↔
        ∀ entry ∈ rules, ∃ r, entry = some r ∧ ValidRule L K r) ∧
      (∀ r, some r ∈ rules → ¬ ValidRule L K r →
        ∀ rs, NewRuleBasedTransformer L K disk filename ≠ .ok rs)) := by
  refine ⟨compile_ok_iff L K, ?_, ?_⟩
  · intro r hr
    cases hc : TransformerRule.compile L K r with
    | error e => exact ⟨e, rfl⟩
    | ok r' => exact absurd ((compile_ok_iff L K r).1 ⟨r', hc⟩) hr
  · intro disk filename raw rules hread hjson
    have hload : NewRuleBasedTransformer L K disk filename = compileRules L K rules := by
      simp [NewRuleBasedTransformer, hread, hjson]
    rw [hload]
    refine ⟨compileRules_ok_iff L K rules, ?_⟩
    intro r hmem hbad rs hrs
    obtain ⟨r0, h0, hvalid⟩ := (compileRules_ok_iff L K rules).1 ⟨rs, hrs⟩ (some r) hmem
    cases h0
    exact hbad hvalid

/-! ## The rule-based transformer -/

theorem appendHeader_fold (es : List (String × List String)) (hnd : NodupKeys es) (k : String) :
    ∀ h : Header, GoMap.getList (es.foldl appendHeader h) k =
        GoMap.getList h k ++ GoMap.getList es k ∧
      (GoMap.get es k = none → GoMap.get (es.foldl appendHeader h) k = GoMap.get h k) := by
  induction es with
  | nil =>
    intro h
    simp [GoMap.getList, GoMap.get]
  | cons e rest ih =>
    obtain ⟨k0, v0⟩ := e
    have hnd' := hnd
    simp only [NodupKeys, List.map_cons, List.nodup_cons] at hnd'
    intro h
    obtain ⟨ih1, ih2⟩ := ih hnd'.2 (appendHeader h (k0, v0))
    rw [List.foldl_cons]
    by_cases hk : k0 = k
    · subst hk
      have hrest : GoMap.get rest k0 = none := GoMap.get_eq_none rest k0 hnd'.1
      refine ⟨?_, ?_⟩
      · rw [ih1]
        simp [GoMap.getList, appendHeader, GoMap.get_set_self, hrest, GoMap.get]
      · intro hnone
        simp [GoMap.get] at hnone
    · have hset : GoMap.get (appendHeader h (k0, v0)) k = GoMap.get h k :=
        GoMap.get_set_other _ _ _ _ (fun x => hk x.symm)
      refine ⟨?_, ?_⟩
      · rw [ih1]
        simp [GoMap.getList, hset, GoMap.get, hk]
      · intro hnone
        rw [ih2 (by simpa [GoMap.get, hk] using hnone), hset]

theorem appendHeader_range (ord : RangeOrder) (m : Header) (hnd : NodupKeys m) (k : String)
    (h : Header) :
    GoMap.getList ((ord.range m).foldl appendHeader h) k =
        GoMap.getList h k ++ GoMap.getList m k ∧
      (GoMap.get m k = none →
        GoMap.get ((ord.range m).foldl appendHeader h) k = GoMap.get h k) := by
  have hnd' : NodupKeys (ord.range m) := ((ord.perm m).map Prod.fst).nodup_iff.2 hnd
  have hget : GoMap.get (ord.range m) k = GoMap.get m k := GoMap.get_perm m _ (ord.perm m) hnd k
  obtain ⟨h1, h2⟩ := appendHeader_fold (ord.range m) hnd' k h
  refine ⟨?_, ?_⟩
  · rw [h1]
    simp [GoMap.getList, hget]
  · intro hnone
    exact h2 (by rw [hget]; exact hnone)

theorem listedValues_cons (L : HttpLib) (r : TransformerRule) (rest : List TransformerRule)
    (req : Request) (k : String) :
    listedValues L (r :: rest) req k =
      (if RuleMatches L r req then GoMap.getList r.ExtraHeaders k else []) ++
        listedValues L rest req k := by
  unfold listedValues
  by_cases h : RuleMatches L r req
  · simp [List.filter_cons, h]
  · simp [List.filter_cons, h]

/-- C25 (amended): the rule-based transformer only appends to a response whose header is a
map. For rules as `compile` leaves them, with well-formed header maps, and a response
whose header is not the nil map (or for which no matching rule lists a header),
`Transform` returns, and under every name the value list of the response header is the
previous value list followed by the values that the matching rules list for that name, in
the order of the rules; a header that no matching rule names is as it was, and so are the
status, the body and the other fields of the response. -/
theorem ruleBasedTransformer_appends (L : HttpLib) (ord : RangeOrder) (nilHeader : Bool)
    (rules : List TransformerRule) (req : Request) (resp : Response)
    (hcompiled : ∀ r ∈ rules, r.URL ≠ "" ∨ r.urlRE.isSome = true)
    (hmaps : ∀ r ∈ rules, NodupKeys r.ExtraHeaders)
    (hheader : nilHeader = true → ∀ r ∈ rules, RuleMatches L r req → r.ExtraHeaders = []) :
    ∃ out, ruleBasedTransformer.Transform L ord nilHeader rules req resp = .ok out ∧
      out = { resp with Header := out.Header } ∧
      (∀ k, GoMap.getList out.Header k =
        GoMap.getList resp.Header k ++ listedValues L rules req k) ∧
      (∀ k, (∀ r ∈ rules, RuleMatches L r req → GoMap.get r.ExtraHeaders k = none) →
        GoMap.get out.Header k = GoMap.get resp.Header k) := by
  induction rules generalizing resp with
  | nil =>
    refine ⟨resp, rfl, rfl, ?_, fun _ _ => rfl⟩
    intro k
    simp [listedValues]
  | cons r rest ih =>
    have hc := hcompiled r (List.mem_cons_self _ _)
    have hm := hmaps r (List.mem_cons_self _ _)
    have ih' := fun resp' => ih resp' (fun r' hr' => hcompiled r' (List.mem_cons_of_mem _ hr'))
      (fun r' hr' => hmaps r' (List.mem_cons_of_mem _ hr'))
      (fun hn r' hr' => hheader hn r' (List.mem_cons_of_mem _ hr'))
    have hsome : ∃ b, TransformerRule.matchesRequest L r req = some b := by
      unfold TransformerRule.matchesRequest
      by_cases hu : r.URL ≠ ""
      · rw [if_pos hu]; exact ⟨_, rfl⟩
      · rw [if_neg hu]
        rcases hc with hc | hc
        · exact absurd hc hu
        · cases hre : r.urlRE with
          | none => rw [hre] at hc; cases hc
          | some re => exact ⟨_, rfl⟩
    obtain ⟨b, hb⟩ := hsome
    cases b with
    | false =>
      have hnot : ¬ RuleMatches L r req := by
        unfold RuleMatches
        rw [hb]
        simp
      obtain ⟨out, h1, h2, h3, h4⟩ := ih' resp
      refine ⟨out, ?_, h2, ?_, ?_⟩
      · simp only [ruleBasedTransformer.Transform, hb]
        exact h1
      · intro k
        rw [h3 k, listedValues_cons, if_neg hnot, List.nil_append]
      · intro k hk
        exact h4 k (fun r' hr' hmatch => hk r' (List.mem_cons_of_mem _ hr') hmatch)
    | true =>
      have hyes : RuleMatches L r req := hb
      obtain ⟨out, h1, h2, h3, h4⟩ := ih'
        { resp with Header := (ord.range r.ExtraHeaders).foldl appendHeader resp.Header }
      have hgo : ¬ (nilHeader = true ∧ r.ExtraHeaders ≠ []) :=
        fun hx => hx.2 (hheader hx.1 r (List.mem_cons_self _ _) hyes)
      refine ⟨out, ?_, ?_, ?_, ?_⟩
      · simp only [ruleBasedTransformer.Transform, hb, if_neg hgo]
        exact h1
      · rw [h2]
      · intro k
        rw [h3 k, listedValues_cons, if_pos hyes, ← List.append_assoc]
        congr 1
        exact (appendHeader_range ord r.ExtraHeaders hm k resp.Header).1
      · intro k hk
        rw [h4 k (fun r' hr' hmatch => hk r' (List.mem_cons_of_mem _ hr') hmatch)]
        exact (appendHeader_range ord r.ExtraHeaders hm k resp.Header).2
          (hk r (List.mem_cons_self _ _) hyes)

/-! ## The test server -/

theorem setHeader_fold (es : List (String × List String)) (hnd : NodupKeys es) (k : String) :
    ∀ h : Header, GoMap.get (es.foldl (fun h e => GoMap.set h e.1 e.2) h) k =
      match GoMap.get es k with
      | some v => some v
      | none => GoMap.get h k := by
  induction es with
  | nil =>
    intro h
    simp [GoMap.get]
  | cons e rest ih =>
    obtain ⟨k0, v0⟩ := e
    have hnd' := hnd
    simp only [NodupKeys, List.map_cons, List.nodup_cons] at hnd'
    intro h
    rw [List.foldl_cons, ih hnd'.2]
    by_cases hk : k0 = k
    · subst hk
      have hrest : GoMap.get rest k0 = none := GoMap.get_eq_none rest k0 hnd'.1
      simp [hrest, GoMap.get, GoMap.get_set_self]
    · have hset : GoMap.get (GoMap.set h k0 v0) k = GoMap.get h k :=
        GoMap.get_set_other _ _ _ _ (fun x => hk x.symm)
      simp [GoMap.get, hk, hset]

theorem setHeader_range (ord : RangeOrder) (m : Header) (hnd : NodupKeys m) (k : String)
    (h : Header) :
    GoMap.get ((ord.range m).foldl (fun h e => GoMap.set h e.1 e.2) h) k =
      match GoMap.get m k with
      | some v => some v
      | none => GoMap.get h k := by
  have hnd' : NodupKeys (ord.range m) := ((ord.perm m).map Prod.fst).nodup_iff.2 hnd
  rw [setHeader_fold (ord.range m) hnd' k h, GoMap.get_perm m _ (ord.perm m) hnd k]

/-- C27 (amended): the default handler of the test server, on a writer to which nothing was
written. When the override query decodes and its `respStatus`, if positive, is a code that
`WriteHeader` accepts, the response has the status of `respStatus` when that is positive and
`200` otherwise, it carries under every header name of `respHeader` the value list given
there and under every other name what the writer had, and its body is the decoded
`respBody` when one is given and `ok` otherwise. When the override query does not decode,
the handler answers `400` with the text of the error and leaves the headers as they
were. -/
theorem defaultResponse_override (L : HttpLib) (K : OverrideLib) (ord : RangeOrder)
    (w : ResponseWriter) (r : Request) (hwrote : w.wrote = none) (hbody : w.body = [])
    (h400 : K.acceptsCode 400 = true) :
    (∀ o, parseOverrideQuery L K r = .ok o → NodupKeys o.header →
      (0 < o.status → K.acceptsCode o.status = true) →
      ∃ w', defaultResponse L K ord w r = some w' ∧
        ResponseWriter.Code w' = (if 0 < o.status then o.status else 200) ∧
        (∀ k v, GoMap.get o.header k = some v →
          GoMap.get (ResponseWriter.HeaderMap w') k = some v) ∧
        (∀ k, GoMap.get o.header k = none →
          GoMap.get (ResponseWriter.HeaderMap w') k = GoMap.get w.header k) ∧
        w'.body = (match o.body with
          | some body => body
          | none => [111, 107])) ∧
    (∀ e, parseOverrideQuery L K r = .error e →
      ∃ w', defaultResponse L K ord w r = some w' ∧ ResponseWriter.Code w' = 400 ∧
        ResponseWriter.HeaderMap w' = w.header ∧ w'.body = K.textBytes e) := by
  refine ⟨?_, ?_⟩
  · intro o hparse hnd hcode
    have hk1 : ∀ k v, GoMap.get o.header k = some v →
        GoMap.get ((ord.range o.header).foldl (fun h e => GoMap.set h e.1 e.2) w.header) k =
          some v := by
      intro k v hv
      rw [setHeader_range ord o.header hnd k, hv]
    have hk2 : ∀ k, GoMap.get o.header k = none →
        GoMap.get ((ord.range o.header).foldl (fun h e => GoMap.set h e.1 e.2) w.header) k =
          GoMap.get w.header k := by
      intro k hv
      rw [setHeader_range ord o.header hnd k, hv]
    obtain ⟨wh, wwrote, wbody⟩ := w
    simp only at hwrote hbody hk1 hk2
    subst hwrote hbody
    by_cases hpos : 0 < o.status
    · have hacc := hcode hpos
      cases hb : o.body with
      | none =>
        refine ⟨{ header := (ord.range o.header).foldl (fun h e => GoMap.set h e.1 e.2) wh,
                  wrote := some (o.status,
                    (ord.range o.header).foldl (fun h e => GoMap.set h e.1 e.2) wh),
                  body := [111, 107] }, ?_, ?_, hk1, hk2, rfl⟩
        · simp [defaultResponse, applyOverride, hparse, hpos, ResponseWriter.WriteHeader, hacc,
            hb, ResponseWriter.Write]
        · simp [ResponseWriter.Code, hpos]
      | some body =>
        refine ⟨{ header := (ord.range o.header).foldl (fun h e => GoMap.set h e.1 e.2) wh,
                  wrote := some (o.status,
                    (ord.range o.header).foldl (fun h e => GoMap.set h e.1 e.2) wh),
                  body := body }, ?_, ?_, hk1, hk2, rfl⟩
        · by_cases hempty : body = []
          · simp [defaultResponse, applyOverride, hparse, hpos, ResponseWriter.WriteHeader,
              hacc, hb, ResponseWriter.Copy, hempty]
          · simp [defaultResponse, applyOverride, hparse, hpos, ResponseWriter.WriteHeader,
              hacc, hb, ResponseWriter.Copy, ResponseWriter.Write, hempty]
        · simp [ResponseWriter.Code, hpos]
    · cases hb : o.body with
      | none =>
        refine ⟨{ header := (ord.range o.header).foldl (fun h e => GoMap.set h e.1 e.2) wh,
                  wrote := some (200,
                    (ord.range o.header).foldl (fun h e => GoMap.set h e.1 e.2) wh),
                  body := [111, 107] }, ?_, ?_, hk1, hk2, rfl⟩
        · simp [defaultResponse, applyOverride, hparse, hpos, hb, ResponseWriter.Write]
        · simp [ResponseWriter.Code, hpos]
      | some body =>
        by_cases hempty : body = []
        · refine ⟨{ header := (ord.range o.header).foldl (fun h e => GoMap.set h e.1 e.2) wh,
                    wrote := none, body := [] }, ?_, ?_, hk1, hk2, ?_⟩
          · simp [defaultResponse, applyOverride, hparse, hpos, hb, ResponseWriter.Copy, hempty]
          · simp [ResponseWriter.Code, hpos]
          · simp [hempty]
        · refine ⟨{ header := (ord.range o.header).foldl (fun h e => GoMap.set h e.1 e.2) wh,
                    wrote := some (200,
                      (ord.range o.header).foldl (fun h e => GoMap.set h e.1 e.2) wh),
                    body := body }, ?_, ?_, hk1, hk2, rfl⟩
          · simp [defaultResponse, applyOverride, hparse, hpos, hb, ResponseWriter.Copy,
              ResponseWriter.Write, hempty]
          · simp [ResponseWriter.Code, hpos]
  · intro e hparse
    obtain ⟨wh, wwrote, wbody⟩ := w
    simp only at hwrote hbody
    subst hwrote hbody
    refine ⟨{ header := wh, wrote := some (400, wh), body := K.textBytes e }, ?_, rfl, rfl, rfl⟩
    simp [defaultResponse, applyOverride, hparse, ResponseWriter.WriteHeader, h400,
      ResponseWriter.Write]

/-! ## The patterns of the script injector -/

theorem lazyAny_suffix {α : Type} (k : Bytes → Option α) (s : Bytes) (v : α)
    (h : lazyAny k s = some v) : ∃ t, t <:+ s ∧ k t = some v := by
  induction s with
  | nil => exact ⟨[], List.suffix_refl _, h⟩
  | cons x xs ih =>
    unfold lazyAny at h
    cases hk : k (x :: xs) with
    | some w =>
      rw [hk] at h
      exact ⟨x :: xs, List.suffix_refl _, by rw [hk, ← h]⟩
    | none =>
      rw [hk] at h
      obtain ⟨t, ht, hv⟩ := ih h
      exact ⟨t, ht.trans (List.suffix_cons x xs), hv⟩

theorem greedyAny_suffix {α : Type} (k : Bytes → Option α) (s : Bytes) (v : α)
    (h : greedyAny k s = some v) : ∃ t, t <:+ s ∧ k t = some v := by
  induction s with
  | nil => exact ⟨[], List.suffix_refl _, h⟩
  | cons x xs ih =>
    unfold greedyAny at h
    cases hg : greedyAny k xs with
    | some w =>
      rw [hg] at h
      cases h
      obtain ⟨t, ht, hv⟩ := ih hg
      exact ⟨t, ht.trans (List.suffix_cons x xs), hv⟩
    | none =>
      rw [hg] at h
      exact ⟨x :: xs, List.suffix_refl _, h⟩

theorem greedyLine_suffix {α : Type} (k : Bytes → Option α) (s : Bytes) (v : α)
    (h : greedyLine k s = some v) : ∃ t, t <:+ s ∧ k t = some v := by
  induction s with
  | nil => exact ⟨[], List.suffix_refl _, h⟩
  | cons x xs ih =>
    unfold greedyLine at h
    by_cases hx : x = 10
    · rw [if_pos hx] at h
      exact ⟨x :: xs, List.suffix_refl _, h⟩
    · rw [if_neg hx] at h
      cases hg : greedyLine k xs with
      | some w =>
        rw [hg] at h
        cases h
        obtain ⟨t, ht, hv⟩ := ih hg
        exact ⟨t, ht.trans (List.suffix_cons x xs), hv⟩
      | none =>
        rw [hg] at h
        exact ⟨x :: xs, List.suffix_refl _, h⟩

/-- A search that succeeds is a success of the rest of the search on the bytes that follow
the match. -/
theorem Re.run_suffix {α : Type} (r : Re) :
    ∀ (s : Bytes) (k : Bytes → Option α) (v : α), r.run s k = some v →
      ∃ t, t <:+ s ∧ k t = some v := by
  induction r with
  | eps =>
    intro s k v h
    exact ⟨s, List.suffix_refl _, h⟩
  | char c =>
    intro s k v h
    cases s with
    | nil => simp [Re.run] at h
    | cons x xs =>
      simp only [Re.run] at h
      by_cases hx : foldEq c x = true
      · rw [if_pos hx] at h
        exact ⟨xs, List.suffix_cons x xs, h⟩
      · rw [if_neg hx] at h
        cases h
  | anyLazy =>
    intro s k v h
    exact lazyAny_suffix k s v h
  | anyGreedy =>
    intro s k v h
    exact greedyAny_suffix k s v h
  | lineGreedy =>
    intro s k v h
    exact greedyLine_suffix k s v h
  | seq a b iha ihb =>
    intro s k v h
    simp only [Re.run] at h
    obtain ⟨t1, ht1, h1⟩ := iha s _ v h
    obtain ⟨t, ht, hv⟩ := ihb t1 k v h1
    exact ⟨t, ht.trans ht1, hv⟩
  | opt a ih =>
    intro s k v h
    simp only [Re.run] at h
    cases ha : a.run s k with
    | some w =>
      rw [ha] at h
      obtain ⟨t, ht, hv⟩ := ih s k w ha
      exact ⟨t, ht, by rw [hv, ← h]⟩
    | none =>
      rw [ha] at h
      exact ⟨s, List.suffix_refl _, h⟩

theorem lazyAny_eq_none_iff {α : Type} (k : Bytes → Option α) (s : Bytes) :
    lazyAny k s = none ↔ ∀ t, t <:+ s → k t = none := by
  induction s with
  | nil =>
    constructor
    · intro h t ht
      rw [List.suffix_nil.mp ht]
      exact h
    · intro h
      exact h [] (List.suffix_refl _)
  | cons x xs ih =>
    unfold lazyAny
    cases hk : k (x :: xs) with
    | some w =>
      simp only [reduceCtorEq, false_iff, not_forall]
      exact ⟨x :: xs, List.suffix_refl _, by rw [hk]; simp⟩
    | none =>
      simp only
      rw [ih]
      constructor
      · intro h t ht
        rcases List.suffix_cons_iff.mp ht with ht | ht
        · rw [ht]; exact hk
        · exact h t ht
      · intro h t ht
        exact h t (ht.trans (List.suffix_cons x xs))

theorem lazyAny_of_head {α : Type} (k : Bytes → Option α) (s : Bytes) (v : α)
    (h : k s = some v) : lazyAny k s = some v := by
  cases s with
  | nil => exact h
  | cons x xs =>
    unfold lazyAny
    rw [h]

theorem Re.cat_cons_run {α : Type} (a : Re) (rest : List Re) (s : Bytes)
    (k : Bytes → Option α) :
    (Re.cat (a :: rest)).run s k = a.run s fun t => (Re.cat rest).run t k := rfl

theorem Re.cat_nil_run {α : Type} (s : Bytes) (k : Bytes → Option α) :
    (Re.cat []).run s k = k s := rfl

theorem Re.text_run {α : Type} (cs : List Char) :
    ∀ (s : Bytes) (k : Bytes → Option α),
      (Re.text cs).run s k =
        if startsWithFold (cs.map Char.toNat) s then k (s.drop cs.length) else none := by
  induction cs with
  | nil =>
    intro s k
    simp [Re.text, Re.run, startsWithFold]
  | cons c cs ih =>
    intro s k
    cases s with
    | nil => simp [Re.text, Re.run, startsWithFold]
    | cons x xs =>
      simp only [Re.text, Re.run, List.map_cons, startsWithFold, List.length_cons,
        List.drop_succ_cons]
      by_cases hx : foldEq c.toNat x = true
      · rw [if_pos hx, ih, hx]
        simp
      · rw [if_neg hx]
        simp [hx]

theorem commentGroup_run {α : Type} (s : Bytes) (k : Bytes → Option α)
    (h : startsWithFold ("<!--".data.map Char.toNat) s = false) :
    commentGroup.run s k = k s := by
  have h1 : (Re.cat [Re.text "<!--".data, .anyGreedy, Re.text "-->".data]).run s k = none := by
    rw [Re.cat_cons_run, Re.text_run, h]
    simp
  show (match (Re.cat [Re.text "<!--".data, .anyGreedy, Re.text "-->".data]).run s k with
    | some v => some v
    | none => k s) = k s
  rw [h1]

/-- A pattern `^.*?(<!--.*-->)?.*?tail` on a body that does not begin with a comment: the
search for the first match of `tail`. -/
theorem prefixed_search (tail : Re) (body : Bytes)
    (h : startsWithFold ("<!--".data.map Char.toNat) body = false) :
    (Re.seq .anyLazy (Re.seq commentGroup (Re.seq .anyLazy tail))).run body some =
      lazyAny (fun s => tail.run s some) body := by
  have hrun : (Re.seq .anyLazy (Re.seq commentGroup (Re.seq .anyLazy tail))).run body some =
      lazyAny (fun s1 => commentGroup.run s1 fun s2 => lazyAny (fun s => tail.run s some) s2)
        body := rfl
  rw [hrun]
  cases hF : lazyAny (fun s => tail.run s some) body with
  | some v =>
    apply lazyAny_of_head
    rw [commentGroup_run body _ h]
    exact hF
  | none =>
    rw [lazyAny_eq_none_iff] at hF ⊢
    intro t ht
    cases hc : commentGroup.run t (fun s2 => lazyAny (fun s => tail.run s some) s2) with
    | none => rfl
    | some v =>
      exfalso
      obtain ⟨t2, ht2, h2⟩ := Re.run_suffix commentGroup t _ v hc
      obtain ⟨t3, ht3, h3⟩ := lazyAny_suffix _ t2 v h2
      have := hF t3 ((ht3.trans ht2).trans ht)
      rw [h3] at this
      cases this

theorem afterFirst_eq_none_suffix (c : Nat) (s t : Bytes) (ht : t <:+ s)
    (h : afterFirst c s = none) : afterFirst c t = none := by
  induction s with
  | nil =>
    rw [List.suffix_nil.mp ht]
    rfl
  | cons x xs ih =>
    unfold afterFirst at h
    by_cases hx : x = c
    · rw [if_pos hx] at h
      cases h
    · rw [if_neg hx] at h
      rcases List.suffix_cons_iff.mp ht with ht | ht
      · rw [ht]
        unfold afterFirst
        rw [if_neg hx]
        exact h
      · exact ih ht h

theorem lazyAny_afterFirst (s : Bytes) :
    lazyAny (fun t => (Re.cat [Re.text ">".data]).run t some) s = afterFirst 62 s := by
  have hk : ∀ t : Bytes, (Re.cat [Re.text ">".data]).run t some =
      match t with
      | [] => none
      | x :: xs => if x = 62 then some xs else none := by
    intro t
    have hd : ">".data.map Char.toNat = [62] := rfl
    rw [Re.cat_cons_run, Re.text_run, hd]
    cases t with
    | nil => rfl
    | cons x xs =>
      by_cases hx : x = 62
      · subst hx
        rfl
      · have : startsWithFold [62] (x :: xs) = false := by
          simp [startsWithFold, foldEq, hx]
        rw [this]
        simp [hx]
  induction s with
  | nil =>
    unfold lazyAny afterFirst
    rw [hk]
  | cons x xs ih =>
    unfold lazyAny afterFirst
    rw [hk]
    by_cases hx : x = 62
    · simp [hx]
    · simp only [hx, if_false]
      exact ih

theorem drop_suffix_of_suffix (n : Nat) (s t : Bytes) (ht : t <:+ s) :
    t.drop n <:+ s.drop n := by
  obtain ⟨pre, hpre⟩ := ht
  subst hpre
  by_cases hn : n ≤ pre.length
  · rw [List.drop_append_of_le_length hn]
    exact (List.drop_suffix n t).trans (List.suffix_append _ _)
  · have hn' : pre.length ≤ n := by omega
    have : (pre ++ t).drop n = t.drop (n - pre.length) := by
      rw [List.drop_append_eq_append_drop, List.drop_of_length_le hn', List.nil_append]
    rw [this]
    have hsplit : t.drop n = (t.drop (n - pre.length)).drop pre.length := by
      rw [List.drop_drop]
      congr 1
      omega
    rw [hsplit]
    exact List.drop_suffix _ _

/-- The search for the first match of `name.*?>` finds the first tag. -/
theorem lazyAny_afterTag (name : List Char) (body : Bytes) :
    lazyAny (fun s => (Re.cat [Re.text name, .anyLazy, Re.text ">".data]).run s some) body =
      afterTag (name.map Char.toNat) body := by
  have hk : ∀ s : Bytes, (Re.cat [Re.text name, .anyLazy, Re.text ">".data]).run s some =
      if startsWithFold (name.map Char.toNat) s then afterFirst 62 (s.drop name.length)
      else none := by
    intro s
    have h1 : (Re.cat [Re.text name, .anyLazy, Re.text ">".data]).run s some =
        (Re.text name).run s fun t =>
          lazyAny (fun u => (Re.cat [Re.text ">".data]).run u some) t := rfl
    rw [h1, Re.text_run]
    by_cases hs : startsWithFold (name.map Char.toNat) s = true
    · rw [if_pos hs, if_pos hs, lazyAny_afterFirst]
    · rw [if_neg hs, if_neg hs]
  induction body with
  | nil =>
    unfold lazyAny afterTag
    rw [hk]
    by_cases hs : startsWithFold (name.map Char.toNat) [] = true
    · rw [if_pos hs]
      simp [afterFirst]
    · rw [if_neg hs]
  | cons x xs ih =>
    unfold lazyAny afterTag
    rw [hk]
    by_cases hs : startsWithFold (name.map Char.toNat) (x :: xs) = true
    · rw [if_pos hs, if_pos hs, List.length_map]
      cases ha : afterFirst 62 ((x :: xs).drop name.length) with
      | some v => rfl
      | none =>
        simp only
        rw [lazyAny_eq_none_iff]
        intro t ht
        rw [hk]
        by_cases hst : startsWithFold (name.map Char.toNat) t = true
        · rw [if_pos hst]
          exact afterFirst_eq_none_suffix 62 _ _
            (drop_suffix_of_suffix name.length (x :: xs) t
              (ht.trans (List.suffix_cons x xs))) ha
        · rw [if_neg hst]
    · rw [if_neg hs, if_neg hs]
      exact ih

/-- The search for the first match of a text finds its first occurrence. -/
theorem lazyAny_afterText (name : List Char) (body : Bytes) :
    lazyAny (fun s => (Re.cat [Re.text name]).run s some) body =
      afterText (name.map Char.toNat) body := by
  have hk : ∀ s : Bytes, (Re.cat [Re.text name]).run s some =
      if startsWithFold (name.map Char.toNat) s then some (s.drop name.length) else none := by
    intro s
    have h1 : (Re.cat [Re.text name]).run s some = (Re.text name).run s some := rfl
    rw [h1, Re.text_run]
  induction body with
  | nil =>
    unfold lazyAny afterText
    rw [hk]
    simp
  | cons x xs ih =>
    unfold lazyAny afterText
    rw [hk]
    by_cases hs : startsWithFold (name.map Char.toNat) (x :: xs) = true
    · rw [if_pos hs, if_pos hs, List.length_map]
    · rw [if_neg hs, if_neg hs]
      exact ih

theorem afterFirst_suffix (c : Nat) (s rest : Bytes) (h : afterFirst c s = some rest) :
    rest <:+ s := by
  induction s with
  | nil => cases h
  | cons x xs ih =>
    unfold afterFirst at h
    by_cases hx : x = c
    · rw [if_pos hx] at h
      rw [← Option.some.inj h]
      exact List.suffix_cons x xs
    · rw [if_neg hx] at h
      exact (ih h).trans (List.suffix_cons x xs)

theorem afterTag_suffix (name s rest : Bytes) (h : afterTag name s = some rest) :
    rest <:+ s := by
  induction s with
  | nil => cases h
  | cons x xs ih =>
    unfold afterTag at h
    by_cases hs : startsWithFold name (x :: xs) = true
    · rw [if_pos hs] at h
      exact (afterFirst_suffix 62 _ rest h).trans (List.drop_suffix _ _)
    · rw [if_neg hs] at h
      exact (ih h).trans (List.suffix_cons x xs)

theorem afterText_suffix (name s rest : Bytes) (h : afterText name s = some rest) :
    rest <:+ s := by
  induction s with
  | nil =>
    unfold afterText at h
    split at h
    · rw [← Option.some.inj h]
    · cases h
  | cons x xs ih =>
    unfold afterText at h
    by_cases hs : startsWithFold name (x :: xs) = true
    · rw [if_pos hs] at h
      rw [← Option.some.inj h]
      exact List.drop_suffix _ _
    · rw [if_neg hs] at h
      exact (ih h).trans (List.suffix_cons x xs)

theorem afterStartTag_suffix (body rest : Bytes) (h : afterStartTag body = some rest) :
    rest <:+ body := by
  unfold afterStartTag at h
  cases h1 : afterTag ("<head".data.map Char.toNat) body with
  | some r =>
    rw [h1] at h
    rw [← Option.some.inj h]
    exact afterTag_suffix _ _ _ h1
  | none =>
    rw [h1] at h
    cases h2 : afterTag ("<html".data.map Char.toNat) body with
    | some r =>
      rw [h2] at h
      rw [← Option.some.inj h]
      exact afterTag_suffix _ _ _ h2
    | none =>
      rw [h2] at h
      exact afterText_suffix _ _ _ h

theorem headRE_run (body : Bytes)
    (h : startsWithFold ("<!--".data.map Char.toNat) body = false) :
    headRE.run body some = afterTag ("<head".data.map Char.toNat) body := by
  show (Re.seq .anyLazy (Re.seq commentGroup (Re.seq .anyLazy
    (Re.cat [Re.text "<head".data, .anyLazy, Re.text ">".data])))).run body some = _
  rw [prefixed_search _ body h, lazyAny_afterTag]

theorem htmlRE_run (body : Bytes)
    (h : startsWithFold ("<!--".data.map Char.toNat) body = false) :
    htmlRE.run body some = afterTag ("<html".data.map Char.toNat) body := by
  show (Re.seq .anyLazy (Re.seq commentGroup (Re.seq .anyLazy
    (Re.cat [Re.text "<html".data, .anyLazy, Re.text ">".data])))).run body some = _
  rw [prefixed_search _ body h, lazyAny_afterTag]

theorem doctypeRE_run (body : Bytes)
    (h : startsWithFold ("<!--".data.map Char.toNat) body = false) :
    doctypeRE.run body some = afterText ("<!doctype html>".data.map Char.toNat) body := by
  show (Re.seq .anyLazy (Re.seq commentGroup (Re.seq .anyLazy
    (Re.cat [Re.text "<!doctype html>".data])))).run body some = _
  rw [prefixed_search _ body h, lazyAny_afterText]

/-- The index that the injector takes from the three patterns, on a body that does not
begin with a comment. -/
theorem goRegexp_index (body : Bytes)
    (h : startsWithFold ("<!--".data.map Char.toNat) body = false) :
    (match goRegexp.headRE body with
      | some idx => some idx
      | none =>
        match goRegexp.htmlRE body with
        | some idx => some idx
        | none => goRegexp.doctypeRE body) =
      (afterStartTag body).map fun rest => (0, body.length - rest.length) := by
  simp only [goRegexp, Re.FindIndex, headRE_run body h, htmlRE_run body h, doctypeRE_run body h,
    afterStartTag]
  cases afterTag ("<head".data.map Char.toNat) body with
  | some r => rfl
  | none =>
    cases afterTag ("<html".data.map Char.toNat) body with
    | some r => rfl
    | none => rfl

/-- C21 (amended): for a body that does not begin with a comment and does not contain the
tagged script, the injector returns the body with the tagged script spliced in at one
position, every byte of the body kept in order: right after the first `<head...>` tag (the
first `>` that follows the first occurrence of `<head`, compared without regard to case)
when the body has one, otherwise right after the first `<html...>` tag, otherwise right
after the first `<!doctype html>`. A body with none of the three is returned as it is when
the response refers to its request. For a response of type `text/html` with the status 200
and a plain body that can be read, `Transform` leaves this body in the response. -/
theorem inject_after_first_start_tag (si : scriptInjector) (resp : Response) (body : Bytes)
    (hcomment : startsWithFold ("<!--".data.map Char.toNat) body = false)
    (hnew : bytesContains body si.script = false) :
    (∀ rest, afterStartTag body = some rest →
      ∃ pre, body = pre ++ rest ∧
        scriptInjector.inject goRegexp si resp body = .ok (pre ++ si.script ++ rest)) ∧
    (afterStartTag body = none → resp.Request ≠ none →
      scriptInjector.inject goRegexp si resp body = .ok body) ∧
    (∀ (Z : BodyLib) (out : Bytes), resp.Body = body → resp.BodyErr = none →
      resp.StatusCode = 200 →
      stringStartsWith (Z.toLower (Header.Get resp.Header "Content-Type")) "text/html" = true →
      lastContentEncoding Z resp = "" ∨ lastContentEncoding Z resp = "identity" →
      scriptInjector.inject goRegexp si resp body = .ok out →
      scriptInjector.Transform Z goRegexp si resp = .ok (withBody resp out)) := by
  have hidx := goRegexp_index body hcomment
  refine ⟨?_, ?_, ?_⟩
  · intro rest hrest
    obtain ⟨pre, hpre⟩ := afterStartTag_suffix body rest hrest
    refine ⟨pre, hpre.symm, ?_⟩
    unfold scriptInjector.inject
    rw [hnew]
    simp only [Bool.false_eq_true, if_false, hidx, hrest, Option.map_some']
    have hlen : body.length - rest.length = pre.length := by
      rw [← hpre, List.length_append]
      omega
    rw [hlen, ← hpre, List.take_left, List.drop_left]
  · intro hnone hreq
    unfold scriptInjector.inject
    rw [hnew]
    simp only [Bool.false_eq_true, if_false, hidx, hnone, Option.map_none']
    cases hr : resp.Request with
    | none => exact absurd hr hreq
    | some r => rfl
  · intro Z out hbody hread hstatus hhtml hplain hinj
    unfold scriptInjector.Transform
    rw [hhtml, if_neg (by simp), if_neg (by simp [hstatus]),
      transformResponseBody_plain Z resp _ out hread hplain (by rw [hbody]; exact hinj)]


/-! ## The constructor of the script injector -/

theorem jsMultilineCommentRE_run (x : Nat) (xs : Bytes) :
    jsMultilineCommentRE.run (x :: xs) some =
      if x = 47 ∧ xs.head? = some 42 then afterText [42, 47] (xs.drop 1) else none := by
  have h1 : jsMultilineCommentRE.run (x :: xs) some =
      (Re.text "/*".data).run (x :: xs) fun t =>
        lazyAny (fun s => (Re.cat [Re.text "*/".data]).run s some) t := rfl
  rw [h1, Re.text_run]
  have h2 : ("*/".data.map Char.toNat) = [42, 47] := by decide
  have h3 : ("/*".data.map Char.toNat) = [47, 42] := by decide
  have h4 : "/*".data.length = 2 := by decide
  simp only [lazyAny_afterText, h2, h3, h4]
  cases xs with
  | nil => simp [startsWithFold]
  | cons y ys =>
    by_cases hx : x = 47
    · by_cases hy : y = 42
      · subst hx
        subst hy
        simp [startsWithFold, foldEq]
      · simp [startsWithFold, foldEq, hx, hy]
    · simp [startsWithFold, foldEq, hx]

theorem replaceFrom_block_comments (s : Bytes) :
    ∀ skip, Re.replaceFrom jsMultilineCommentRE [] skip s = withoutBlockCommentsFrom skip s := by
  induction s with
  | nil =>
    intro skip
    cases skip <;> rfl
  | cons x xs ih =>
    intro skip
    cases skip with
    | succ k =>
      show Re.replaceFrom jsMultilineCommentRE [] k xs = withoutBlockCommentsFrom k xs
      exact ih k
    | zero =>
      unfold Re.replaceFrom withoutBlockCommentsFrom
      rw [jsMultilineCommentRE_run]
      cases (if x = 47 ∧ xs.head? = some 42 then afterText [42, 47] (xs.drop 1) else none) with
      | none => simp only [ih 0]
      | some rest => simp only [List.nil_append, ih]

theorem greedyLine_some (s : Bytes) :
    greedyLine some s = some (s.dropWhile fun b => decide (b ≠ 10)) := by
  induction s with
  | nil => rfl
  | cons x xs ih =>
    unfold greedyLine
    by_cases hx : x = 10
    · simp [hx]
    · simp [hx, ih, List.dropWhile_cons]

theorem jsSinglelineCommentRE_run (x : Nat) (xs : Bytes) :
    jsSinglelineCommentRE.run (x :: xs) some =
      if x = 47 ∧ xs.head? = some 47 then
        some ((xs.drop 1).dropWhile fun b => decide (b ≠ 10))
      else none := by
  have h1 : jsSinglelineCommentRE.run (x :: xs) some =
      (Re.text "//".data).run (x :: xs) fun t => greedyLine some t := rfl
  rw [h1, Re.text_run]
  have h3 : ("//".data.map Char.toNat) = [47, 47] := by decide
  have h4 : "//".data.length = 2 := by decide
  simp only [greedyLine_some, h3, h4]
  cases xs with
  | nil => simp [startsWithFold]
  | cons y ys =>
    by_cases hx : x = 47
    · by_cases hy : y = 47
      · subst hx
        subst hy
        simp [startsWithFold, foldEq]
      · simp [startsWithFold, foldEq, hx, hy]
    · simp [startsWithFold, foldEq, hx]

theorem dropWhile_length_le (s : Bytes) (p : Nat → Bool) : (s.dropWhile p).length ≤ s.length :=
  (List.dropWhile_suffix p).length_le

theorem replaceFrom_line_comments (s : Bytes) :
    Re.replaceFrom jsSinglelineCommentRE [] 0 s = withoutLineCommentsFrom false s ∧
    Re.replaceFrom jsSinglelineCommentRE []
        (s.length - (s.dropWhile fun b => decide (b ≠ 10)).length) s =
      withoutLineCommentsFrom true s := by
  induction s with
  | nil => exact ⟨rfl, rfl⟩
  | cons x xs ih =>
    have hfalse : Re.replaceFrom jsSinglelineCommentRE [] 0 (x :: xs) =
        withoutLineCommentsFrom false (x :: xs) := by
      unfold Re.replaceFrom withoutLineCommentsFrom
      rw [jsSinglelineCommentRE_run]
      by_cases hm : x = 47 ∧ xs.head? = some 47
      · rw [if_pos hm, if_pos hm]
        cases xs with
        | nil => simp at hm
        | cons y ys =>
          have hy : y = 47 := by simpa using hm.2
          have hd : ((y :: ys).dropWhile fun b => decide (b ≠ 10)) =
              ((y :: ys).drop 1).dropWhile fun b => decide (b ≠ 10) := by
            rw [List.dropWhile_cons]
            simp [hy]
          simp only [List.nil_append]
          rw [← hd]
          exact ih.2
      · rw [if_neg hm, if_neg hm, ih.1]
    refine ⟨hfalse, ?_⟩
    by_cases hx : x = 10
    · have hd : ((x :: xs).dropWhile fun b => decide (b ≠ 10)) = x :: xs := by
        rw [List.dropWhile_cons]
        simp [hx]
      rw [hd, Nat.sub_self, hfalse]
      unfold withoutLineCommentsFrom
      have hn : ¬ (x = 47 ∧ xs.head? = some 47) := by
        rw [hx]
        simp
      rw [if_neg hn, if_pos hx]
    · have hd : ((x :: xs).dropWhile fun b => decide (b ≠ 10)) =
          xs.dropWhile fun b => decide (b ≠ 10) := by
        rw [List.dropWhile_cons]
        simp [hx]
      have hle := dropWhile_length_le xs fun b => decide (b ≠ 10)
      have hk : (x :: xs).length - (xs.dropWhile fun b => decide (b ≠ 10)).length =
          (xs.length - (xs.dropWhile fun b => decide (b ≠ 10)).length) + 1 := by
        rw [List.length_cons]
        omega
      rw [hd, hk]
      show Re.replaceFrom jsSinglelineCommentRE [] _ xs = withoutLineCommentsFrom true (x :: xs)
      rw [ih.2]
      conv_rhs => unfold withoutLineCommentsFrom
      rw [if_neg hx]

theorem replaceFrom_crlf (s : Bytes) : replaceFrom [13, 10] [] 0 s = withoutCRLF s := by
  induction s using withoutCRLF.induct with
  | case1 => rfl
  | case2 x => simp [replaceFrom, withoutCRLF, List.isPrefixOf]
  | case3 x y rest h ih =>
    obtain ⟨hx, hy⟩ := h
    subst hx
    subst hy
    simp [replaceFrom, withoutCRLF, List.isPrefixOf, ih]
  | case4 x y rest h ih =>
    have hp : List.isPrefixOf [13, 10] (x :: y :: rest) = false := by
      simp only [List.isPrefixOf, Bool.and_true]
      by_cases hx : x = 13
      · have hy : y ≠ 10 := fun hy => h ⟨hx, hy⟩
        simp [hx, Ne.symm hy]
      · simp [Ne.symm hx]
    unfold replaceFrom withoutCRLF
    rw [hp, if_neg h, ← ih]
    simp

/-- What `NewScriptInjector` makes of a script and a map with one entry. -/
theorem newScriptInjector_script (B : BytesLib) (script old new : Bytes) :
    (NewScriptInjector B script [(old, new)]).script =
      "<script>".data.map Char.toNat ++
        withoutCRLF (bytesReplace B (withoutLineComments (withoutBlockComments script)) old new) ++
        "</script>".data.map Char.toNat := by
  simp only [NewScriptInjector, Re.ReplaceAllLiteral, replaceFrom_block_comments,
    (replaceFrom_line_comments _).1, List.foldl_cons, List.foldl_nil, withoutLineComments,
    withoutBlockComments]
  have h : bytesReplace B (bytesReplace B
      (withoutLineCommentsFrom false (withoutBlockCommentsFrom 0 script)) old new) [13, 10] [] =
      withoutCRLF (bytesReplace B
        (withoutLineCommentsFrom false (withoutBlockCommentsFrom 0 script)) old new) := by
    rw [← replaceFrom_crlf]
    unfold bytesReplace
    rw [if_neg (by simp)]
  rw [h]

theorem withoutBlockComments_plain (s : Bytes) (h : bytesContains s [47, 42] = false) :
    withoutBlockComments s = s := by
  unfold withoutBlockComments
  unfold bytesContains at h
  induction s with
  | nil => rfl
  | cons x xs ih =>
    unfold listContains at h
    rw [Bool.or_eq_false_iff] at h
    have hn : ¬ (x = 47 ∧ xs.head? = some 42) := by
      rintro ⟨hx, hy⟩
      cases xs with
      | nil => simp at hy
      | cons y ys =>
        have hy' : y = 42 := by simpa using hy
        rw [hx, hy'] at h
        simp [List.isPrefixOf] at h
    unfold withoutBlockCommentsFrom
    rw [if_neg hn]
    show x :: withoutBlockCommentsFrom 0 xs = x :: xs
    rw [ih h.2]

theorem withoutLineComments_plain (s : Bytes) (h : bytesContains s [47, 47] = false) :
    withoutLineComments s = s := by
  unfold withoutLineComments
  unfold bytesContains at h
  induction s with
  | nil => rfl
  | cons x xs ih =>
    unfold listContains at h
    rw [Bool.or_eq_false_iff] at h
    have hn : ¬ (x = 47 ∧ xs.head? = some 47) := by
      rintro ⟨hx, hy⟩
      cases xs with
      | nil => simp at hy
      | cons y ys =>
        have hy' : y = 47 := by simpa using hy
        rw [hx, hy'] at h
        simp [List.isPrefixOf] at h
    unfold withoutLineCommentsFrom
    rw [if_neg hn, ih h.2]

theorem withoutCRLF_plain (s : Bytes)
    (h : List.Chain' (fun x y : Nat => ¬ (x = 13 ∧ y = 10)) s) : withoutCRLF s = s := by
  induction s using withoutCRLF.induct with
  | case1 => rfl
  | case2 x => rfl
  | case3 x y rest hxy ih =>
    rw [List.chain'_cons] at h
    exact absurd hxy h.1
  | case4 x y rest hxy ih =>
    rw [List.chain'_cons] at h
    unfold withoutCRLF
    rw [if_neg hxy, ih h.2]

theorem chain_of_no_crlf (s : Bytes) (h : bytesContains s [13, 10] = false) :
    List.Chain' (fun x y : Nat => ¬ (x = 13 ∧ y = 10)) s := by
  unfold bytesContains at h
  induction s with
  | nil => exact List.chain'_nil
  | cons x xs ih =>
    unfold listContains at h
    rw [Bool.or_eq_false_iff] at h
    cases xs with
    | nil => exact List.chain'_singleton x
    | cons y ys =>
      rw [List.chain'_cons]
      refine ⟨?_, ih h.2⟩
      rintro ⟨hx, hy⟩
      rw [hx, hy] at h
      simp [List.isPrefixOf] at h

theorem chain_of_no_cr (l : Bytes) (h : ∀ b ∈ l, b ≠ 13) :
    List.Chain' (fun x y : Nat => ¬ (x = 13 ∧ y = 10)) l := by
  induction l with
  | nil => exact List.chain'_nil
  | cons x xs ih =>
    cases xs with
    | nil => exact List.chain'_singleton x
    | cons y ys =>
      rw [List.chain'_cons]
      refine ⟨fun hxy => h x (List.mem_cons_self _ _) hxy.1, ?_⟩
      exact ih fun b hb => h b (List.mem_cons_of_mem _ hb)

theorem chain_append_sep (p new rest : Bytes) (hne : new ≠ [])
    (hnew : ∀ b ∈ new, b ≠ 10 ∧ b ≠ 13)
    (hp : List.Chain' (fun x y : Nat => ¬ (x = 13 ∧ y = 10)) p)
    (hrest : List.Chain' (fun x y : Nat => ¬ (x = 13 ∧ y = 10)) rest) :
    List.Chain' (fun x y : Nat => ¬ (x = 13 ∧ y = 10)) (p ++ new ++ rest) := by
  rw [List.chain'_append]
  refine ⟨?_, hrest, ?_⟩
  · rw [List.chain'_append]
    refine ⟨hp, chain_of_no_cr new fun b hb => (hnew b hb).2, ?_⟩
    intro x _ y hy hxy
    exact (hnew y (List.mem_of_mem_head? hy)).1 hxy.2
  · intro x hx y _ hxy
    have hx' : x ∈ new := by
      rw [List.getLast?_append_of_ne_nil _ hne] at hx
      exact List.mem_of_mem_getLast? hx
    exact (hnew x hx').2 hxy.1

theorem chain_joinWith (old new : Bytes) (hne : new ≠ [])
    (hnew : ∀ b ∈ new, b ≠ 10 ∧ b ≠ 13) (pieces : List Bytes)
    (h : List.Chain' (fun x y : Nat => ¬ (x = 13 ∧ y = 10)) (joinWith old pieces)) :
    List.Chain' (fun x y : Nat => ¬ (x = 13 ∧ y = 10)) (joinWith new pieces) := by
  induction pieces with
  | nil => exact List.chain'_nil
  | cons p ps ih =>
    cases ps with
    | nil => exact h
    | cons q qs =>
      have h' : List.Chain' (fun x y : Nat => ¬ (x = 13 ∧ y = 10))
          (p ++ old ++ joinWith old (q :: qs)) := h
      rw [List.chain'_append] at h'
      have hp := (List.chain'_append.mp h'.1).1
      exact chain_append_sep p new _ hne hnew hp (ih h'.2.1)

theorem replaceFrom_cons (old new : Bytes) (x : Nat) (xs : Bytes) :
    replaceFrom old new 0 (x :: xs) =
      if old.isPrefixOf (x :: xs) then new ++ replaceFrom old new (old.length - 1) xs
      else x :: replaceFrom old new 0 xs := by
  conv_lhs => unfold replaceFrom

theorem replaceFrom_skip (old new a rest : Bytes) :
    replaceFrom old new a.length (a ++ rest) = replaceFrom old new 0 rest := by
  induction a with
  | nil => rfl
  | cons x xs ih => exact ih

theorem not_prefix_of_free (old p tail : Bytes) (x : Nat)
    (h : bytesContains (x :: p ++ old.dropLast) old = false)
    (hlen : old.length ≤ (x :: p ++ old.dropLast).length)
    (htail : ∃ t, x :: p ++ old.dropLast ++ t = tail) :
    old.isPrefixOf tail = false := by
  cases hp : old.isPrefixOf tail with
  | false => rfl
  | true =>
    exfalso
    obtain ⟨t, ht⟩ := htail
    have h1 : old <+: tail := List.isPrefixOf_iff_prefix.mp hp
    have h2 : (x :: p ++ old.dropLast) <+: tail := ⟨t, ht⟩
    have h3 := List.prefix_of_prefix_length_le h1 h2 hlen
    have h4 : old.isPrefixOf (x :: p ++ old.dropLast) = true := List.isPrefixOf_iff_prefix.mpr h3
    unfold bytesContains at h
    have h5 : listContains (x :: (p ++ old.dropLast)) old = false := h
    unfold listContains at h5
    rw [Bool.or_eq_false_iff] at h5
    have h6 : old.isPrefixOf (x :: (p ++ old.dropLast)) = true := h4
    rw [h6] at h5
    exact Bool.noConfusion h5.1

theorem replaceFrom_piece (old new : Bytes) (hold : old ≠ []) (p : Bytes)
    (h : bytesContains (p ++ old.dropLast) old = false) :
    replaceFrom old new 0 p = p ∧
    ∀ rest, replaceFrom old new 0 (p ++ old ++ rest) = p ++ new ++ replaceFrom old new 0 rest := by
  have hdl : old.dropLast ++ [old.getLast hold] = old := List.dropLast_append_getLast hold
  have hlen : old.length = old.dropLast.length + 1 := by
    conv_lhs => rw [← hdl]
    simp
  induction p with
  | nil =>
    refine ⟨rfl, ?_⟩
    intro rest
    cases hold' : old with
    | nil => exact absurd hold' hold
    | cons o os =>
      show replaceFrom (o :: os) new 0 (o :: (os ++ rest)) = new ++ _
      have hp : (o :: os).isPrefixOf (o :: (os ++ rest)) = true :=
        List.isPrefixOf_iff_prefix.mpr ⟨rest, rfl⟩
      have hl : (o :: os).length - 1 = os.length := by simp
      rw [replaceFrom_cons, if_pos hp, hl, replaceFrom_skip]
  | cons x xs ih =>
    have hxs : bytesContains (xs ++ old.dropLast) old = false := by
      have h5 : listContains (x :: (xs ++ old.dropLast)) old = false := h
      unfold listContains at h5
      rw [Bool.or_eq_false_iff] at h5
      exact h5.2
    have hle : old.length ≤ (x :: xs ++ old.dropLast).length := by
      simp only [List.cons_append, List.length_cons, List.length_append]
      omega
    obtain ⟨ih1, ih2⟩ := ih hxs
    constructor
    · have hnp : old.isPrefixOf (x :: xs) = false := by
        cases hp : old.isPrefixOf (x :: xs) with
        | false => rfl
        | true =>
          exfalso
          have h1 : old <+: x :: xs := List.isPrefixOf_iff_prefix.mp hp
          have h2 : old <+: x :: xs ++ old.dropLast := h1.trans (List.prefix_append _ _)
          have h4 : old.isPrefixOf (x :: (xs ++ old.dropLast)) = true :=
            List.isPrefixOf_iff_prefix.mpr h2
          have h5 : listContains (x :: (xs ++ old.dropLast)) old = false := h
          unfold listContains at h5
          rw [Bool.or_eq_false_iff, h4] at h5
          exact Bool.noConfusion h5.1
      rw [replaceFrom_cons, hnp]
      simp only [Bool.false_eq_true, if_false]
      rw [ih1]
    · intro rest
      have hnp : old.isPrefixOf (x :: (xs ++ old ++ rest)) = false := by
        apply not_prefix_of_free old xs _ x h hle
        refine ⟨old.getLast hold :: rest, ?_⟩
        conv_rhs => rw [← hdl]
        simp
      show replaceFrom old new 0 (x :: (xs ++ old ++ rest)) = x :: (xs ++ new ++ _)
      rw [replaceFrom_cons, hnp]
      simp only [Bool.false_eq_true, if_false]
      rw [ih2 rest]

theorem replaceFrom_joinWith (old new : Bytes) (hold : old ≠ []) (pieces : List Bytes)
    (h : ∀ p ∈ pieces, bytesContains (p ++ old.dropLast) old = false) :
    replaceFrom old new 0 (joinWith old pieces) = joinWith new pieces := by
  induction pieces with
  | nil => rfl
  | cons p ps ih =>
    cases ps with
    | nil => exact (replaceFrom_piece old new hold p (h p (List.mem_singleton_self p))).1
    | cons q qs =>
      show replaceFrom old new 0 (p ++ old ++ joinWith old (q :: qs)) =
        p ++ new ++ joinWith new (q :: qs)
      rw [(replaceFrom_piece old new hold p (h p (List.mem_cons_self _ _))).2,
        ih fun r hr => h r (List.mem_cons_of_mem _ hr)]

theorem decimalFrom_mem (fuel : Nat) :
    ∀ (n : Nat) (acc : Bytes) (b : Nat), b ∈ decimalFrom fuel n acc →
      b ∈ acc ∨ (48 ≤ b ∧ b ≤ 57) := by
  induction fuel with
  | zero =>
    intro n acc b hb
    exact Or.inl hb
  | succ fuel ih =>
    intro n acc b hb
    unfold decimalFrom at hb
    have hd : 48 ≤ 48 + n % 10 ∧ 48 + n % 10 ≤ 57 := by omega
    by_cases hn : n / 10 = 0
    · rw [if_pos hn] at hb
      rcases List.mem_cons.mp hb with hb | hb
      · exact Or.inr (hb ▸ hd)
      · exact Or.inl hb
    · rw [if_neg hn] at hb
      rcases ih _ _ _ hb with hb | hb
      · rcases List.mem_cons.mp hb with hb | hb
        · exact Or.inr (hb ▸ hd)
        · exact Or.inl hb
      · exact Or.inr hb

theorem decimalFrom_ne_nil (fuel : Nat) :
    ∀ (n : Nat) (acc : Bytes), acc ≠ [] → decimalFrom fuel n acc ≠ [] := by
  induction fuel with
  | zero =>
    intro n acc h
    exact h
  | succ fuel ih =>
    intro n acc _
    unfold decimalFrom
    by_cases hn : n / 10 = 0
    · rw [if_pos hn]
      exact List.cons_ne_nil _ _
    · rw [if_neg hn]
      exact ih _ _ (List.cons_ne_nil _ _)

theorem formatInt_ne_nil (v : Int) : FormatInt v ≠ [] := by
  unfold FormatInt
  have h : decimalFrom (v.natAbs + 1) v.natAbs [] ≠ [] := by
    unfold decimalFrom
    by_cases hn : v.natAbs / 10 = 0
    · rw [if_pos hn]
      exact List.cons_ne_nil _ _
    · rw [if_neg hn]
      exact decimalFrom_ne_nil _ _ _ (List.cons_ne_nil _ _)
  intro hnil
  exact h (List.append_eq_nil.mp hnil).2

theorem formatInt_bytes (v : Int) : ∀ b ∈ FormatInt v, b ≠ 10 ∧ b ≠ 13 := by
  intro b hb
  unfold FormatInt at hb
  rcases List.mem_append.mp hb with hb | hb
  · by_cases hv : v < 0
    · rw [if_pos hv] at hb
      have : b = 45 := by simpa using hb
      omega
    · rw [if_neg hv] at hb
      cases hb
  · rcases decimalFrom_mem _ _ _ _ hb with hb | hb
    · cases hb
    · omega

/-- C23: for every script and every map with the one entry `old -> new`, the text that
`NewScriptInjector` injects is `<script>`, then the script without its `/* */` comments and
then without its `//` comments, with every occurrence of `old` replaced by `new` and then
every CRLF removed, then `</script>`. So for a script that has no `/*`, no `//` and no CRLF
and that is a list of pieces with the token between them (no occurrence of the token begins
in a piece), the text is `<script>`, the pieces with the decimal time seed between them,
and `</script>`. -/
theorem newScriptInjector_replaces_token (B : BytesLib) (script old new : Bytes) :
    (NewScriptInjector B script [(old, new)]).script =
      "<script>".data.map Char.toNat ++
        withoutCRLF (bytesReplace B (withoutLineComments (withoutBlockComments script)) old new) ++
        "</script>".data.map Char.toNat ∧
    ∀ (pieces : List Bytes) (seed : Int), old ≠ [] →
      script = joinWith old pieces →
      (∀ p ∈ pieces, bytesContains (p ++ old.dropLast) old = false) →
      bytesContains script [47, 42] = false →
      bytesContains script [47, 47] = false →
      bytesContains script [13, 10] = false →
      (NewScriptInjector B script [(old, FormatInt seed)]).script =
        "<script>".data.map Char.toNat ++ joinWith (FormatInt seed) pieces ++
          "</script>".data.map Char.toNat := by
  refine ⟨newScriptInjector_script B script old new, ?_⟩
  intro pieces seed hold hscript hfree hblock hline hcrlf
  rw [newScriptInjector_script, withoutBlockComments_plain script hblock,
    withoutLineComments_plain script hline]
  have hrep : bytesReplace B script old (FormatInt seed) = joinWith (FormatInt seed) pieces := by
    unfold bytesReplace
    rw [if_neg hold, hscript, replaceFrom_joinWith old _ hold pieces hfree]
  rw [hrep, withoutCRLF_plain]
  apply chain_joinWith old (FormatInt seed) (formatInt_ne_nil seed) (formatInt_bytes seed)
  rw [← hscript]
  exact chain_of_no_crlf script hcrlf

/-! ## Witnesses and counterexamples -/

theorem noCandidate_sound (L : HttpLib) (req : Request) (rs : List ArchivedRequest)
    (h : noCandidate L req rs = true) :
    ∀ ar ∈ rs, ∀ c, ArchivedRequest.unmarshal L ar = some c → c.1.Method ≠ req.Method := by
  intro ar har c hc
  have := (List.all_eq_true.1 h) ar har
  rw [hc] at this
  simpa using this

theorem editCheck_sound (L : HttpLib) (f : EditFn) (ustr : String) (ar : ArchivedRequest)
    (h : editCheck L f ustr ar = true) : EditOK L f ustr ar := by
  unfold editCheck at h
  cases hdec : ArchivedRequest.unmarshal L ar with
  | none => simp [hdec] at h
  | some c =>
    obtain ⟨q, s⟩ := c
    refine ⟨q, s, hdec, ?_⟩
    rw [hdec] at h
    simp only at h
    rcases hf : f q s with ⟨_ | q', _ | s', _ | e⟩ <;> rw [hf] at h <;> simp at h
    · exact Or.inl rfl
    · obtain ⟨hp, hs⟩ := h
      obtain ⟨u, hu⟩ := Option.isSome_iff_exists.1 hp
      obtain ⟨ar', har'⟩ := Option.isSome_iff_exists.1 hs
      exact Or.inr ⟨q', s', u, ar', rfl, hu, har'⟩

theorem roundTripCheck_sound (L : HttpLib) (host ustr : String) (ar : ArchivedRequest)
    (h : roundTripCheck L host ustr ar = true) :
    ∃ req resp u, ArchivedRequest.unmarshal L ar = some (req, resp) ∧
      serializeRequest L req resp = some ar ∧ L.urlParse ustr = some u ∧
      req.Host = host ∧ L.urlString (absoluteURL req u.Scheme) = ustr := by
  unfold roundTripCheck at h
  cases hdec : ArchivedRequest.unmarshal L ar with
  | none => simp [hdec] at h
  | some c =>
    obtain ⟨q, s⟩ := c
    cases hp : L.urlParse ustr with
    | none => simp [hdec, hp] at h
    | some u =>
      simp only [hdec, hp, Bool.and_eq_true, decide_eq_true_eq] at h
      exact ⟨q, s, u, rfl, h.1.1, rfl, h.1.2, h.2⟩

/-- Witness of C1 on the archive of `TestMatchHeaders`: the third exchange of the exact list
decodes and is a `GET`, the first one does not decode. -/
theorem findRequest_exact_url_hit_witness :
    ∃ ar' ∈ exactList testLib mailArchive
        (liveRequest "GET" "/mail/" "" [("Cookie", ["FOO=BAR"])]) "https",
      ∃ found, ArchivedRequest.unmarshal testLib ar' = some found ∧ found.1.Method = "GET" ∧
        FindRequest testLib RangeOrder.listed mailArchive
          (liveRequest "GET" "/mail/" "" [("Cookie", ["FOO=BAR"])]) "https" = .ok found :=
  findRequest_exact_url_hit testLib RangeOrder.listed mailArchive
    (liveRequest "GET" "/mail/" "" [("Cookie", ["FOO=BAR"])]) "https"
    (exchange "GET" "/mail/" "Accept: text/html\r\nCookie: FOO=BAR\r\n")
    (storedPair "GET" "/mail/" "" [("Accept", ["text/html"]), ("Cookie", ["FOO=BAR"])])
    (by decide) (by decide) (by decide)

/-- Witness of C2 on the archive of `TestFindClosest`: the keys with `a=f` and `a=g` tie
and the smaller string is chosen. -/
theorem findRequest_fuzzy_best_url_witness :
    FindRequest testLib RangeOrder.listed closestArchive
        (liveRequest "GET" "/index.html" "c=e" []) "https" =
      findExactMatch testLib (GoMap.getList (GoMap.getMap closestArchive.Requests "example.com")
        "https://example.com/index.html?a=f&c=e") "GET" := by
  obtain ⟨u, hu, _, _, _, _, hfind⟩ :=
    findRequest_fuzzy_best_url testLib RangeOrder.listed closestArchive
      (liveRequest "GET" "/index.html" "c=e" []) "https"
      (noCandidate_sound testLib _ _ (by decide))
      ⟨"https://example.com/index.html?a=f&c=e", by decide,
        exampleURL "/index.html" "a=f&c=e", by decide, by decide⟩
  have hu' : u = "https://example.com/index.html?a=f&c=e" := hu.trans (by decide)
  rw [hu'] at hfind
  rw [hfind]
  decide

/-- Witness of C4 on the archive of `TestMatchHeaders`: the exchange whose cookie is the
live cookie is returned. -/
theorem findRequest_exact_first_best_witness :
    ∃ (i : Nat) (best : ArchivedRequest) (found : Request × Response),
      (exactList testLib mailArchive
        (liveRequest "GET" "/mail/" "" [("Cookie", ["FOO=BAR"])]) "https")[i]? = some best ∧
      FindRequest testLib RangeOrder.listed mailArchive
        (liveRequest "GET" "/mail/" "" [("Cookie", ["FOO=BAR"])]) "https" = .ok found := by
  obtain ⟨i, best, found, h1, _, _, h4, _, _⟩ :=
    findRequest_exact_first_best testLib RangeOrder.listed mailArchive
      (liveRequest "GET" "/mail/" "" [("Cookie", ["FOO=BAR"])]) "https"
      (exchange "GET" "/mail/" "Accept: text/html\r\nCookie: FOO=FOO\r\n")
      (storedPair "GET" "/mail/" "" [("Accept", ["text/html"]), ("Cookie", ["FOO=FOO"])])
      (by decide) (by decide) (by decide)
  exact ⟨i, best, found, h1, h4⟩

/-- Witness of C5: the best fuzzy URL holds a `HEAD` exchange only, so a live `GET` is not
found although the other URL with the same path holds a `GET` exchange. -/
theorem findRequest_fuzzy_first_method_witness :
    findExactMatch testLib (GoMap.getList (GoMap.getMap headArchive.Requests "example.com")
        "https://example.com/index.html?a=g&c=e") "GET" =
      .ok (storedPair "GET" "/index.html" "a=g&c=e" []) ∧
    FindRequest testLib RangeOrder.listed headArchive
      (liveRequest "GET" "/index.html" "c=e" []) "https" = .err .ErrNotFound := by
  refine ⟨by decide, ?_⟩
  have hbest := fuzzyPass_best testLib RangeOrder.listed
    (liveRequest "GET" "/index.html" "c=e" []) (GoMap.getMap headArchive.Requests "example.com")
  have hsel : (fuzzyPass testLib RangeOrder.listed (liveRequest "GET" "/index.html" "c=e" [])
      (GoMap.getMap headArchive.Requests "example.com") Ratio.zero).1 =
      "https://example.com/index.html?a=f&c=e" := by decide
  rw [hsel] at hbest
  exact ((findRequest_fuzzy_first_method testLib RangeOrder.listed headArchive
    (liveRequest "GET" "/index.html" "c=e" []) "https"
    (noCandidate_sound testLib _ _ (by decide))).2.2.2
      "https://example.com/index.html?a=f&c=e" hbest (by decide)).2
    (noCandidate_sound testLib (liveRequest "GET" "/index.html" "c=e" []) _ (by decide))

/-- Witness of C6: recording a `GET` into the empty archive and finding it again. -/
theorem record_then_find_witness :
    ∃ w', WritableArchive.RecordRequest testLib { Archive := newArchive, f := some "a.wprgo" }
        "https" (liveRequest "GET" "/index.html" "a=f&c=e" []) okResponse = .ok w' ∧
      FindRequest testLib RangeOrder.listed w'.Archive
        (liveRequest "GET" "/index.html" "a=f&c=e" []) "https" =
        .ok (storedPair "GET" "/index.html" "a=f&c=e" []) := by
  obtain ⟨w', h1, _, _, _, h5⟩ :=
    record_then_find testLib RangeOrder.listed { Archive := newArchive, f := some "a.wprgo" }
      "https" (liveRequest "GET" "/index.html" "a=f&c=e" []) okResponse
      (exchange "GET" "/index.html?a=f&c=e" "")
      (storedPair "GET" "/index.html" "a=f&c=e" [])
      (by decide) (by decide) (by decide)
  exact ⟨w', h1, h5 rfl⟩

/-- Witness of C7: the origin's HTML page is archived as the origin sent it while the client
is served the page with the injected script. -/
theorem recordingProxy_persists_before_transform_witness :
    exactList testLib
        (recordingProxy.ServeHTTP testLib testCodec testRecorder
          { Archive := newArchive, f := some "a.wprgo" } [] clientRequest).1.Archive
        (recordingProxy.prepare testRecorder clientRequest) "https" =
      [{ SerializedRequest := requestWire "GET" "/mail/" "Accept-Encoding: gzip, deflate\r\n",
         SerializedResponse := htmlWire }] ∧
    (recordingProxy.ServeHTTP testLib testCodec testRecorder
        { Archive := newArchive, f := some "a.wprgo" } [] clientRequest).2.2 =
      .response 200 [("Content-Length", ["13"]), ("Content-Type", ["text/html"])]
        (octets "<html><script>var foo = 1;</script></html>") := by
  have h := (recordingProxy_persists_before_transform testLib testCodec testRecorder []
    { Archive := newArchive, f := some "a.wprgo" } [] clientRequest).2.2
    (by decide) (by decide) htmlResponse (by decide)
  refine ⟨?_, ?_⟩
  · have h1 := (h.1
      (ArchivedRequest.mk (requestWire "GET" "/mail/" "Accept-Encoding: gzip, deflate\r\n")
        htmlWire) (by decide)).2
    exact h1.trans (by decide)
  · exact h.2.trans (by decide)

set_option maxRecDepth 8000 in
/-- Witness of C8: writing `twoHostArchive` to a file and opening the file; the encoder
writes the hosts in ascending order, and so the opened archive lists them. -/
theorem open_after_serialize_witness :
    archiveDoc testJson RangeOrder.reversed twoHostArchive = twoHostDocument ∧
    OpenArchive (goCodec testJson RangeOrder.reversed)
        (WritableArchive.Close (goCodec testJson RangeOrder.reversed)
          { Archive := twoHostArchive, f := some "a.wprgo" } []).2.1 "a.wprgo" =
      .ok { twoHostArchive with
            Certs := [("example.com", some [48, 130, 1, 10]), ("example.org", some [48, 1])]
            NegotiatedProtocol := [("example.com", "h2"), ("example.org", "http/1.1")] } ∧
    ∃ content a', Archive.Serialize (goCodec testJson RangeOrder.reversed) twoHostArchive =
        .ok content ∧
      OpenArchive (goCodec testJson RangeOrder.reversed) (GoMap.set [] "a.wprgo" content)
        "a.wprgo" = .ok a' ∧
      SameArchive twoHostArchive a' ∧
      (∀ (L : HttpLib) (ord' : RangeOrder),
        (Archive.ForEach L ord' a').Perm (Archive.ForEach L ord' twoHostArchive)) ∧
      (WritableArchive.Close (goCodec testJson RangeOrder.reversed)
        { Archive := twoHostArchive, f := some "a.wprgo" } []).2.2 = none ∧
      OpenArchive (goCodec testJson RangeOrder.reversed)
        (WritableArchive.Close (goCodec testJson RangeOrder.reversed)
          { Archive := twoHostArchive, f := some "a.wprgo" } []).2.1 "a.wprgo" = .ok a' :=
  ⟨by decide, by decide,
    open_after_serialize testJson RangeOrder.reversed twoHostArchive [] "a.wprgo"
      (by decide) (by decide) (by decide) (by decide) (by decide) (by decide) (by decide)
      (by decide)⟩

/-- Counterexample to C9 as stated: all exchanges of the archives decode and the callbacks
return no error, yet `Edit` returns no archive. It crashes when the callback returns a
request without a response, returns an error when the pair the callback returns does not
serialize, and crashes when the URL key of an edited exchange does not parse. -/
theorem edit_returns_archive_counterexample :
    (∀ he ∈ tlsArchive.Requests, ∀ ue ∈ he.2, ∀ ar ∈ ue.2,
      (ArchivedRequest.unmarshal testLib ar).isSome = true) ∧
    (∀ he ∈ colonArchive.Requests, ∀ ue ∈ he.2, ∀ ar ∈ ue.2,
      (ArchivedRequest.unmarshal testLib ar).isSome = true) ∧
    (∀ req resp, (dropResponse req resp).2.2 = none) ∧
    (∀ req resp, (lengthWithoutBody req resp).2.2 = none) ∧
    (∀ req resp, (identityEdit req resp).2.2 = none) ∧
    Archive.Edit testLib RangeOrder.listed tlsArchive dropResponse =
      .crash "programming error: newReq/newResp must both be nil or non-nil" ∧
    Archive.Edit testLib RangeOrder.listed tlsArchive lengthWithoutBody =
      .err .serializeFailed ∧
    Archive.Edit testLib RangeOrder.listed colonArchive identityEdit =
      .crash "nil pointer dereference" :=
  ⟨by decide, by decide, fun _ _ => rfl, fun _ _ => rfl, fun _ _ => rfl, by decide, by decide,
    by decide⟩

theorem halfNilCheck_sound (L : HttpLib) (f : EditFn) (ar : ArchivedRequest)
    (h : halfNilCheck L f ar = true) : HalfNilPair L f ar := by
  unfold halfNilCheck at h
  cases hdec : ArchivedRequest.unmarshal L ar with
  | none => simp [hdec] at h
  | some c =>
    obtain ⟨q, s⟩ := c
    refine ⟨q, s, hdec, ?_⟩
    rw [hdec] at h
    simp only at h
    rcases hf : f q s with ⟨_ | q', _ | s', _ | e⟩ <;> rw [hf] at h <;> simp at h
    · exact Or.inr ⟨s', rfl⟩
    · exact Or.inl ⟨q', rfl⟩

/-- Witness of C9 (amended): deleting the exchanges of one URL of the archive of
`TestFindClosest` and keeping the others; and a callback that returns a request without a
response, for which `Edit` panics. -/
theorem edit_files_edited_exchanges_witness :
    (∃ clone, Archive.Edit testLib RangeOrder.listed closestArchive deleteOne = .ok clone ∧
      GoMap.getList (GoMap.getMap clone.Requests "example.com")
        "https://example.com/index.html?a=f&c=e" = [exchange "GET" "/index.html?a=f&c=e" ""] ∧
      GoMap.getList (GoMap.getMap clone.Requests "example.com")
        "https://example.com/index.html?a=b&c=d" = []) ∧
    Archive.Edit testLib RangeOrder.listed tlsArchive dropResponse =
      .crash "programming error: newReq/newResp must both be nil or non-nil" := by
  have hhalf : ∀ he ∈ tlsArchive.Requests, ∀ ue ∈ he.2, ∀ ar ∈ ue.2,
      HalfNilPair testLib dropResponse ar :=
    fun he hhe ue hue ar har => halfNilCheck_sound testLib dropResponse ar
      ((by decide : ∀ he ∈ tlsArchive.Requests, ∀ ue ∈ he.2, ∀ ar ∈ ue.2,
        halfNilCheck testLib dropResponse ar = true) he hhe ue hue ar har)
  refine ⟨?_, ?_⟩
  · obtain ⟨clone, h1, h2⟩ :=
      (edit_files_edited_exchanges testLib RangeOrder.listed closestArchive deleteOne).1
        (fun he hhe ue hue ar har => editCheck_sound testLib deleteOne ue.1 ar
          ((by decide : ∀ he ∈ closestArchive.Requests, ∀ ue ∈ he.2, ∀ ar ∈ ue.2,
            editCheck testLib deleteOne ue.1 ar = true) he hhe ue hue ar har))
    exact ⟨clone, h1, (h2 _ _).trans (by decide), (h2 _ _).trans (by decide)⟩
  · exact (edit_files_edited_exchanges testLib RangeOrder.listed tlsArchive dropResponse).2.2.1
      (fun he hhe ue hue ar har => Or.inr (hhalf he hhe ue hue ar har))
      ⟨_, List.mem_cons_self _ _, _, List.mem_cons_self _ _, _, List.mem_cons_self _ _,
        hhalf _ (List.mem_cons_self _ _) _ (List.mem_cons_self _ _) _ (List.mem_cons_self _ _)⟩

/-- The failing input of C10: editing with the identity function returns an archive without
the certificate, the protocol and the time seed of the original; moreover an exchange that
was written without a `User-Agent` line is stored with one. -/
theorem edit_identity_counterexample :
    (∀ he ∈ tlsArchive.Requests, ∀ ue ∈ he.2, ∀ ar ∈ ue.2,
      (ArchivedRequest.unmarshal testLib ar).isSome = true) ∧
    (∀ he ∈ bareArchive.Requests, ∀ ue ∈ he.2, ∀ ar ∈ ue.2,
      (ArchivedRequest.unmarshal testLib ar).isSome = true) ∧
    (∃ clone, Archive.Edit testLib RangeOrder.listed tlsArchive identityEdit = .ok clone ∧
      clone.Requests = tlsArchive.Requests ∧ clone.Certs ≠ tlsArchive.Certs ∧
      clone.NegotiatedProtocol ≠ tlsArchive.NegotiatedProtocol ∧
      clone.DeterministicTimeSeedMs ≠ tlsArchive.DeterministicTimeSeedMs) ∧
    (∃ clone, Archive.Edit testLib RangeOrder.listed bareArchive identityEdit = .ok clone ∧
      clone.Requests ≠ bareArchive.Requests) :=
  ⟨by decide, by decide,
    ⟨{ Requests := tlsArchive.Requests }, by decide, rfl, by decide, by decide, by decide⟩,
    ⟨{ Requests := [("example.com", [("https://example.com/mail/", [exchange "GET" "/mail/" ""])])] },
      by decide, by decide⟩⟩

/-- Witness of C10: the archive with the TLS material of its host, edited with the identity
function, keeps its exchange and loses the certificate, the protocol and the time seed. -/
theorem edit_identity_keeps_requests_witness :
    ∃ clone, Archive.Edit testLib RangeOrder.reversed tlsArchive identityEdit = .ok clone ∧
      GoMap.getList (GoMap.getMap clone.Requests "example.com") "https://example.com/mail/" =
        [exchange "GET" "/mail/" ""] ∧
      clone.Certs = [] ∧ clone.NegotiatedProtocol = [] ∧ clone.DeterministicTimeSeedMs = 0 ∧
      clone ≠ tlsArchive := by
  obtain ⟨clone, h1, h2, h3, h4, h5, h6⟩ :=
    (edit_identity_keeps_requests testLib RangeOrder.reversed tlsArchive (by decide)
      (by decide)
      (fun he hhe ue hue ar har => roundTripCheck_sound testLib he.1 ue.1 ar
        ((by decide : ∀ he ∈ tlsArchive.Requests, ∀ ue ∈ he.2, ∀ ar ∈ ue.2,
          roundTripCheck testLib he.1 ue.1 ar = true) he hhe ue hue ar har))).1
  exact ⟨clone, h1, (h2 _ _).trans (by decide), h3, h4, h5, h6 (Or.inl (by decide))⟩

/-- Witness of C12: two recordings for `example.com` on an archive without TLS entries. -/
theorem recordTlsConfig_first_cert_last_protocol_witness :
    GoMap.get emptyWritable.Archive.Certs "example.com" = none ∧
    Archive.FindHostTlsConfig
      (WritableArchive.RecordTlsConfig
        (WritableArchive.RecordTlsConfig emptyWritable "example.com" (some [48, 1]) "h2")
        "example.com" (some [48, 2]) "http/1.1").Archive "example.com" =
      .ok (some [48, 1], "http/1.1") :=
  ⟨by decide,
    (recordTlsConfig_first_cert_last_protocol emptyWritable "example.com" (some [48, 1])
      (some [48, 2]) "h2" "http/1.1" (by decide)).1⟩

/-- Witness of C13: the recorded certificate of `example.com`, negotiated with `h2`, and an
empty certificate, which is presented as it is. -/
theorem replayConfig_for_recorded_host_witness :
    tlsProxy.getReplayConfigForClient testCrypto testTlsProxy "example.com" none =
      (testTlsProxy,
        .ok { Certificates := [{ Certificate := [[48, 130, 1, 10]], PrivateKey := [1, 2, 3] }]
              NextProtos := buildNextProtos
                (Archive.findHostNegotiatedProtocol testTlsProxy.archive "example.com") }) ∧
    buildNextProtos (Archive.findHostNegotiatedProtocol testTlsProxy.archive "example.com") =
      ["h2", "http/1.1"] ∧
    tlsProxy.getReplayConfigForClient testCrypto emptyCertProxy "example.org" none =
      (emptyCertProxy,
        .ok { Certificates := [{ Certificate := [[]], PrivateKey := [1, 2, 3] }]
              NextProtos := buildNextProtos
                (Archive.findHostNegotiatedProtocol emptyCertProxy.archive "example.org") }) :=
  ⟨(replayConfig_for_recorded_host testCrypto testTlsProxy "example.com" [48, 130, 1, 10] none
      (by decide) (by decide)).1,
    (replayConfig_for_recorded_host testCrypto testTlsProxy "example.com" [48, 130, 1, 10] none
      (by decide) (by decide)).2.1.2 (by decide),
    (replayConfig_for_recorded_host testCrypto emptyCertProxy "example.org" [] none
      (by decide) (by decide)).1⟩

/-- Witness of C14: the third call of `Close` on an archive opened on `a.wprgo`. -/
theorem close_at_most_once_witness :
    WritableArchive.Close testCodec (closeTimes testCodec 2 emptyWritable []).1
        (closeTimes testCodec 2 emptyWritable []).2 =
      ((WritableArchive.Close testCodec emptyWritable []).1,
        (WritableArchive.Close testCodec emptyWritable []).2.1, some .alreadyClosed) :=
  (close_at_most_once testCodec emptyWritable []).2 1

/-- Counterexample to C15 as stated: for the empty encoding and for `identity` the body comes
back unchanged, but with an error. -/
theorem decompressBody_identity_counterexample :
    decompressBody testBody "" [60, 97, 62] = ([60, 97, 62], some "unknown compression: ") ∧
    decompressBody testBody "identity" [60, 97, 62] =
      ([60, 97, 62], some "unknown compression: identity") := by
  decide

/-- Witness of C15 (amended): a gzip stream under the name `GZip`. -/
theorem decompressBody_cases_witness :
    testBody.toLower "GZip" = "gzip" ∧
    decompressBody testBody "GZip" [31, 139, 60, 97, 62] = ([60, 97, 62], none) :=
  ⟨by decide, (decompressBody_cases testBody "GZip" [31, 139, 60, 97, 62]).1 (by decide)⟩

/-- Witness of C16: gzip is chosen although `deflate` comes first. -/
theorem compressBody_prefers_gzip_witness :
    stringContains (testBody.toLower "deflate, GZIP") "gzip" = true ∧
    CompressBody testBody "deflate, GZIP" [60, 97, 62] =
      ((testBody.gzipWriter [60, 97, 62]).1, "gzip", (testBody.gzipWriter [60, 97, 62]).2) :=
  ⟨by decide, (compressBody_prefers_gzip testBody "deflate, GZIP" [60, 97, 62]).1 (by decide)⟩

/-- Witness of C17: an octet is appended to a gzip body of known length. -/
theorem transformResponseBody_recodes_witness :
    decodedBody testBody gzipResponse = ([60, 97, 62], none) ∧
    ∃ out, transformResponseBody testBody gzipResponse (fun b => .ok (b ++ [33])) =
        .ok (out, none) ∧
      decodedBody testBody out = ([60, 97, 62, 33], none) ∧ out.BodyErr = none ∧
      GoMap.get out.Header "Content-Encoding" =
        GoMap.get gzipResponse.Header "Content-Encoding" ∧
      (lastContentEncoding testBody gzipResponse = "" ∨
        lastContentEncoding testBody gzipResponse = "identity" →
        out.Body = gzipResponse.Body ++ [33]) ∧
      (0 ≤ gzipResponse.ContentLength → out.ContentLength = out.Body.length ∧
        GoMap.get out.Header "Content-Length" = some [Nat.repr out.Body.length]) ∧
      (gzipResponse.ContentLength < 0 →
        out.ContentLength = gzipResponse.ContentLength ∧ out.Header = gzipResponse.Header) :=
  ⟨by decide,
    transformResponseBody_recodes testBody gzipResponse (fun b => b ++ [33]) [60, 97, 62]
      (by decide) (by decide) (fun _ => ⟨rfl, rfl⟩) (fun _ => ⟨rfl, rfl⟩) (by decide)
      (by decide)⟩

/-- Witness of C18: a stored Brotli body and a client that accepts gzip and deflate. -/
theorem replay_untranslatable_404_witness :
    FindRequest testLib RangeOrder.listed testReplay.a
        (fixupRequestURL replayRequest testReplay.scheme) testReplay.scheme =
      .ok (storedRequest "GET" "/mail/" "" [("Accept-Encoding", ["gzip, deflate"])],
        { brResponse with
          Request := some (storedRequest "GET" "/mail/" ""
            [("Accept-Encoding", ["gzip, deflate"])]) }) ∧
    replayingProxy.ServeHTTP stoppedClock testLib RangeOrder.listed testBody testReplay
      replayRequest 0 = .response 404 [] [] :=
  ⟨by decide,
    replay_untranslatable_404 stoppedClock testLib RangeOrder.listed testBody testReplay
      replayRequest 0
      (storedRequest "GET" "/mail/" "" [("Accept-Encoding", ["gzip, deflate"])],
        { brResponse with
          Request := some (storedRequest "GET" "/mail/" ""
            [("Accept-Encoding", ["gzip, deflate"])]) })
      asciiLower_idem (by decide) (by decide) (by decide) (by decide)
      (Or.inl ⟨by decide, by decide⟩)⟩

/-- Counterexample to C19 as stated: with a stored `Date` in 2017 and a stored `Expires` at
the end of the year 9999 the difference is out of the range of a duration, and the new
`Expires` is in the year 2310, not `now + (t - D)`. -/
theorem updateDates_far_expires_counterexample :
    testTime.parseTime (Header.Get foreverHeader "Date") = some (1502971200 * 1000000000) ∧
    testTime.parseTime (Header.Get foreverHeader "Expires") =
      some (253402300799 * 1000000000) ∧
    updateDates testTime foreverHeader replayTime =
      [("Date", ["Fri, 17 Aug 2018 12:00:00 GMT"]),
       ("Expires", ["Sun, 27 Nov 2310 11:47:16 GMT"])] ∧
    testTime.parseTime (Header.Get (updateDates testTime foreverHeader replayTime) "Expires") ≠
      some (replayTime + (253402300799 * 1000000000 - 1502971200 * 1000000000)) := by
  decide

/-- Witness of C19 (amended): the header of `TestUpdateDates`, replayed one year later. -/
theorem updateDates_shifts_witness :
    testTime.parseTime (Header.Get datedHeader "Date") = some (1502971200 * 1000000000) ∧
    testTime.parseTime (Header.Get datedHeader "Expires") =
      some (1502989200 * 1000000000) ∧
    GoMap.get (updateDates testTime datedHeader replayTime) "Expires" =
      some [testTime.format
        (replayTime + (1502989200 * 1000000000 - 1502971200 * 1000000000))] ∧
    testTime.format (replayTime + (1502989200 * 1000000000 - 1502971200 * 1000000000)) =
      "Fri, 17 Aug 2018 17:00:00 GMT" :=
  ⟨by decide, by decide,
    ((updateDates_shifts testTime datedHeader replayTime).2.1 "Expires" (Or.inr rfl)).1
      (1502971200 * 1000000000) (1502989200 * 1000000000) (by decide) (by decide) (by decide)
      (by decide) (by decide),
    by decide⟩

/-- Witness of C20: the page of the test `TestInjectScript`, transformed twice. -/
theorem scriptInjector_idempotent_witness :
    scriptInjector.Transform testBody testRegexp fooInjector htmlPage =
      .ok { htmlPage with
            Body := octets "<html><script>var foo = 1;</script></html>"
            ContentLength := 42
            Header := [("Content-Length", ["42"]), ("Content-Type", ["text/html"])] } ∧
    scriptInjector.TransformTwice testBody testRegexp fooInjector htmlPage =
      scriptInjector.Transform testBody testRegexp fooInjector htmlPage :=
  ⟨by decide,
    (scriptInjector_idempotent testBody testRegexp fooInjector htmlPage (fun _ _ => rfl)
      (fun _ _ => rfl)).1⟩

/-- Counterexample to C11 as stated: with an empty scheme argument the exchange of a request
with a relative URL is filed under a key without scheme, and for a request without host the
key has no host. -/
theorem addArchivedRequest_relative_key_counterexample :
    Archive.addArchivedRequest testLib newArchive "" bareRequest okResponse =
      .ok { Requests :=
        [("example.com", [("//example.com/mail/", [exchange "GET" "/mail/" ""])])] } ∧
    ¬ IsAbsoluteKey testLib "//example.com/mail/" ∧
    testLib.urlString (absoluteURL hostlessRequest "https") = "https:///mail/" ∧
    ¬ IsAbsoluteKey testLib "https:///mail/" := by
  refine ⟨by decide, ?_, by decide, ?_⟩
  · rintro ⟨u, hp, hs, _⟩
    have hu : testLib.urlParse "//example.com/mail/" =
        some { Host := "example.com", Path := "/mail/" } := by decide
    rw [hu] at hp
    cases hp
    exact hs rfl
  · rintro ⟨u, hp, _, hh⟩
    have hu : testLib.urlParse "https:///mail/" =
        some { Scheme := "https", Path := "/mail/" } := by decide
    rw [hu] at hp
    cases hp
    exact hh rfl

/-- Witness of C11 (amended): a request for `/mail/` on `example.com`, recorded with the
scheme `https` in the empty archive. -/
theorem keys_absolute_witness :
    AbsoluteFiling testLib bareRequest "https" ∧
    Archive.addArchivedRequest testLib newArchive "https" bareRequest okResponse =
      .ok mailOnlyArchive ∧
    KeysAbsolute testLib mailOnlyArchive :=
  have habs : AbsoluteFiling testLib bareRequest "https" :=
    ⟨Or.inl ⟨by decide, by decide, by decide⟩, exampleURL "/mail/" "", by decide, by decide,
      by decide⟩
  ⟨habs, by decide,
    ((keys_absolute testLib RangeOrder.listed).2.2.1 newArchive mailOnlyArchive "https"
      bareRequest okResponse habs (by decide)).2.2 (keys_absolute testLib RangeOrder.listed).2.1⟩

/-- Witness of C22: an HTML page with the status `404`. -/
theorem scriptInjector_skips_other_responses_witness :
    notFoundPage.StatusCode ≠ 200 ∧
    scriptInjector.Transform testBody testRegexp fooInjector notFoundPage = .ok notFoundPage :=
  ⟨by decide,
    scriptInjector_skips_other_responses testBody testRegexp fooInjector notFoundPage
      (Or.inl (by decide))⟩

/-- Counterexample to C28 as stated: an exchange with the live method is stored under the
exact URL of the request, another URL of the same path has a query similarity above the
header similarity of that exchange, and `FindRequest` still returns the exchange of the
exact URL. -/
theorem findRequest_fuzzy_override_counterexample :
    exactList testLib closestArchive busyRequest "https" =
      [exchange "GET" "/index.html?a=f&c=e" ""] ∧
    ArchivedRequest.unmarshal testLib (exchange "GET" "/index.html?a=f&c=e" "") =
      some (storedPair "GET" "/index.html" "a=f&c=e" []) ∧
    Ratio.gt
      (similarity RangeOrder.listed (testLib.urlQuery busyRequest.URL)
        (testLib.urlQuery (exampleURL "/index.html" "a=g&c=e")))
      (similarity RangeOrder.listed (storedRequest "GET" "/index.html" "a=f&c=e" []).Header
        busyRequest.Header) = true ∧
    FindRequest testLib RangeOrder.listed closestArchive busyRequest "https" =
      .ok (storedPair "GET" "/index.html" "a=f&c=e" []) := by
  decide

/-- Witness of C28 (amended): the request with three more headers against `closestArchive`. -/
theorem findRequest_fuzzy_never_overrides_witness :
    ∃ ar' ∈ exactList testLib closestArchive busyRequest "https", ∃ found,
      ArchivedRequest.unmarshal testLib ar' = some found ∧
      FindRequest testLib RangeOrder.listed closestArchive busyRequest "https" = .ok found :=
  (findRequest_fuzzy_never_overrides testLib RangeOrder.listed closestArchive busyRequest
    "https").1 (exchange "GET" "/index.html?a=f&c=e" "") (by decide)
    (storedPair "GET" "/index.html" "a=f&c=e" []) (by decide) (by decide)

/-- The failing input of C29: the client names Brotli first, and the header that is
forwarded and stored still names it. -/
theorem recordingProxy_keeps_leading_br_counterexample :
    Header.Get (recordingProxy.prepare testRecorder brFirstRequest).Header "Accept-Encoding" =
      "br, gzip" ∧
    stringContains "br, gzip" "br" = true ∧
    exactList testLib
        (recordingProxy.ServeHTTP testLib testCodec testRecorder
          { Archive := newArchive, f := some "a.wprgo" } [] brFirstRequest).1.Archive
        (recordingProxy.prepare testRecorder brFirstRequest) "https" =
      [{ SerializedRequest := requestWire "GET" "/mail/" "Accept-Encoding: br, gzip\r\n",
         SerializedResponse := htmlWire }] := by
  decide

/-- Witness of C29: a client that names Brotli last is forwarded without it, and for a
client that names Brotli first the forwarded header still names it. -/
theorem recordingProxy_trims_trailing_br_witness :
    Header.Get clientRequest.Header "Accept-Encoding" = "gzip, deflate" ++ ", br" ∧
    Header.Get (recordingProxy.prepare testRecorder clientRequest).Header "Accept-Encoding" =
      "gzip, deflate" ∧
    Header.Get brFirstRequest.Header "Accept-Encoding" = "br, gzip" ∧
    stringContains
      (Header.Get (recordingProxy.prepare testRecorder brFirstRequest).Header "Accept-Encoding")
      "br" = true :=
  ⟨by decide,
    (recordingProxy_trims_trailing_br testLib testCodec testRecorder
      { Archive := newArchive, f := some "a.wprgo" } [] clientRequest).2.2.1 "gzip, deflate"
      (by decide),
    by decide,
    (recordingProxy_trims_trailing_br testLib testCodec testRecorder
      { Archive := newArchive, f := some "a.wprgo" } [] brFirstRequest).2.2.2.2.1
      (by decide) (by decide)⟩

/-- Witness of C30: a mint for `example.org` followed by a mint for `127.0.0.1`. -/
theorem mintDummyCertificate_mutates_root_witness :
    (MintDummyCertificate signingCrypto "127.0.0.1"
      (MintDummyCertificate signingCrypto "example.org" testTlsProxy.root_cert [1, 2, 3]
        (some [7])).1 [1, 2, 3] (some [8])).1.DNSNames = ["example.org"] ∧
    (MintDummyCertificate signingCrypto "127.0.0.1"
      (MintDummyCertificate signingCrypto "example.org" testTlsProxy.root_cert [1, 2, 3]
        (some [7])).1 [1, 2, 3] (some [8])).1.IPAddresses = [[127, 0, 0, 1]] :=
  (mintDummyCertificate_mutates_root signingCrypto "example.org" testTlsProxy.root_cert
    [1, 2, 3] [7]).2.2.2.2.2.2.1 "127.0.0.1" [127, 0, 0, 1] [8] (by decide) (by decide)

/-- Witness of C24: a rule with a URL and two extra headers is accepted. -/
theorem rule_validation_witness :
    ValidRule testLib testRules mailRule ∧
    ∃ r', TransformerRule.compile testLib testRules mailRule = .ok r' :=
  have hvalid : ValidRule testLib testRules mailRule :=
    ⟨Or.inl ⟨by decide, rfl⟩, Or.inl (by decide), fun p hp => by simp [mailRule] at hp⟩
  ⟨hvalid, ((rule_validation testLib testRules).1 mailRule).2 hvalid⟩

/-- Counterexample to C25 as stated: the response that the record proxy makes up when the
round trip fails has the nil map as its header, and `Transform` panics when a rule that
lists a header matches its request. -/
theorem ruleBasedTransformer_nil_header_counterexample :
    RuleMatches testLib mailRule (liveRequest "GET" "/mail/" "" []) ∧
    (errResponse (liveRequest "GET" "/mail/" "" [])).Header = [] ∧
    ruleBasedTransformer.Transform testLib RangeOrder.listed true [mailRule]
        (liveRequest "GET" "/mail/" "" []) (errResponse (liveRequest "GET" "/mail/" "" [])) =
      .crash "assignment to entry in nil map" := by
  decide

/-- Witness of C25 (amended): two of three rules match and add a cookie each after the one
of the response. -/
theorem ruleBasedTransformer_appends_witness :
    ∃ out, ruleBasedTransformer.Transform testLib RangeOrder.listed false
        [mailRule, otherRule, hostRule] (liveRequest "GET" "/mail/" "" []) cookieResponse =
        .ok out ∧
      GoMap.getList out.Header "Set-Cookie" = ["x=y", "a=b", "c=d"] ∧
      GoMap.get out.Header "X-Other" = none := by
  obtain ⟨out, h1, _, h3, h4⟩ := ruleBasedTransformer_appends testLib RangeOrder.listed false
    [mailRule, otherRule, hostRule] (liveRequest "GET" "/mail/" "" []) cookieResponse
    (by decide) (by decide) (fun h => Bool.noConfusion h)
  refine ⟨out, h1, (h3 "Set-Cookie").trans (by decide), ?_⟩
  exact (h4 "X-Other" (by decide)).trans (by decide)

/-- Counterexample to C27 as stated: the override query of `/default?respStatus=42` decodes
and gives the positive status 42, which `WriteHeader` does not accept (net/http panics on a
code outside 100..999), so the handler ends without a response of status 42. -/
theorem defaultResponse_low_status_counterexample :
    parseOverrideQuery testLib testOverride lowStatusRequest = .ok { status := 42 } ∧
    testOverride.acceptsCode 42 = false ∧
    defaultResponse testLib testOverride RangeOrder.listed {} lowStatusRequest = none :=
  ⟨rfl, by decide, by decide⟩

/-- Witness of C27 (amended): the example in the package comment of the test server. -/
theorem defaultResponse_override_witness :
    parseOverrideQuery testLib testOverride overrideRequest =
      .ok { status := 204, header := [("Via", ["Via1", "Via2"])],
            body := some (octets "new body") } ∧
    ∃ w', defaultResponse testLib testOverride RangeOrder.listed {} overrideRequest = some w' ∧
      ResponseWriter.Code w' = 204 ∧
      GoMap.get (ResponseWriter.HeaderMap w') "Via" = some ["Via1", "Via2"] ∧
      w'.body = octets "new body" := by
  refine ⟨rfl, ?_⟩
  obtain ⟨w', h1, h2, h3, _, h5⟩ :=
    (defaultResponse_override testLib testOverride RangeOrder.listed {} overrideRequest rfl rfl
      (by decide)).1
      { status := 204, header := [("Via", ["Via1", "Via2"])], body := some (octets "new body") }
      rfl (by decide) (fun _ => by decide)
  exact ⟨w', h1, h2, h3 "Via" ["Via1", "Via2"] (by decide), h5⟩


/-- Witness of C21 (amended): in a page whose inline script writes a second `<head>` tag the
script goes right after the first one. -/
theorem inject_after_first_start_tag_witness :
    startsWithFold ("<!--".data.map Char.toNat) scriptedPage = false ∧
    bytesContains scriptedPage fooInjector.script = false ∧
    ∃ pre, scriptedPage =
        pre ++ octets "<script>document.write('<head></head>');</script></head></html>" ∧
      scriptInjector.inject goRegexp fooInjector htmlPage scriptedPage =
        .ok (pre ++ fooInjector.script ++
          octets "<script>document.write('<head></head>');</script></head></html>") :=
  ⟨by decide, by decide,
    (inject_after_first_start_tag fooInjector htmlPage scriptedPage (by decide) (by decide)).1
      _ (by decide)⟩

/-- Counterexample to C21 as stated: in a page that begins with a comment the first
occurrence of `<head` is in the comment, and the script does not go after the `>` that
follows it but after the `<head>` tag that comes after the comment. -/
theorem inject_commented_page_counterexample :
    bytesContains commentedPage fooInjector.script = false ∧
    afterStartTag commentedPage = some (octets " --><html><head></head></html>") ∧
    scriptInjector.inject goRegexp fooInjector htmlPage commentedPage =
      .ok (octets
        "<!-- <head> --><html><head><script>var foo = 1;</script></head></html>") ∧
    scriptInjector.inject goRegexp fooInjector htmlPage commentedPage ≠
      .ok (octets
        "<!-- <head><script>var foo = 1;</script> --><html><head></head></html>") := by
  decide


/-- Witness of C23: the script of the test `TestReplaceTimeStamp` with the time seed of
2017-06-01 23:00:00 UTC, and the page that the injector makes of `<html></html>`. -/
theorem newScriptInjector_replaces_token_witness :
    timeSeedScript = joinWith timeSeedToken [octets "var time_seed = ", octets ";"] ∧
    (NewScriptInjector testBytes timeSeedScript
        [(timeSeedToken, FormatInt 1496358000000)]).script =
      "<script>".data.map Char.toNat ++
        joinWith (FormatInt 1496358000000) [octets "var time_seed = ", octets ";"] ++
        "</script>".data.map Char.toNat ∧
    (NewScriptInjector testBytes timeSeedScript
        [(timeSeedToken, FormatInt 1496358000000)]).script =
      octets "<script>var time_seed = 1496358000000;</script>" ∧
    scriptInjector.inject goRegexp
        (NewScriptInjector testBytes timeSeedScript [(timeSeedToken, FormatInt 1496358000000)])
        htmlPage (octets "<html></html>") =
      .ok (octets "<html><script>var time_seed = 1496358000000;</script></html>") :=
  ⟨by decide,
    (newScriptInjector_replaces_token testBytes timeSeedScript timeSeedToken
      (FormatInt 1496358000000)).2 [octets "var time_seed = ", octets ";"] 1496358000000
      (by decide) (by decide) (by decide) (by decide) (by decide) (by decide),
    by decide, by decide⟩

end WebPageReplay
